import Mathlib

set_option linter.all false

/-!
A segregated free-list allocator (`src/mm.c`): a shallow embedding and the
properties of its public interface.

* Memory is a total map from byte addresses to bytes; a word access reads or
  writes four bytes, little-endian, as `unsigned int` accesses do.
* `size_t` arithmetic is carried out modulo `2 ^ 64`, `unsigned int` stores
  modulo `2 ^ 32`.
* The heap-growth primitive `mem_sbrk` belongs to `memlib.c`, which is not part
  of the sources; it is modelled from the specification.
* The chain walk of `find_fit` is the only unbounded loop; it takes fuel.
-/

namespace MM

/-! ## Definitions: the model of the code, the invariant, concrete heaps -/

/-- The value `(void *)-1`, the failure value of `mem_sbrk`. -/
def NEG1 : Nat := 2 ^ 64 - 1

/-- The address at which the heap region starts (the constant of
`word_to_ptr` / `ptr_to_word`). -/
def HEAP_BASE : Nat := 0x800000000

def ALIGNMENT : Nat := 8

def WSIZE : Nat := 4

def DSIZE : Nat := 8

def CHUNKSIZE : Nat := 160

def LIST_NUM : Nat := 16

/-- The mask `~0x7` as a `size_t`. -/
def MASK64 : Nat := 0xFFFFFFFFFFFFFFF8

/-- The mask `~0x7` as an `unsigned int`. -/
def MASK32 : Nat := 0xFFFFFFF8

/-- Macro `#define ALIGN(p) (((size_t)(p) + (ALIGNMENT-1)) & ~0x7)` -/
def ALIGN (p : Nat) : Nat := ((p + (ALIGNMENT - 1)) % 2 ^ 64) &&& MASK64

/-- Macro `#define MAX(x, y) ((x) > (y)? (x) : (y))` -/
def MAX (x y : Nat) : Nat := if x > y then x else y

/-- Macro `#define PACK(size, alloc)  ((size) | (alloc))` -/
def PACK (size alloc : Nat) : Nat := size ||| alloc

/-- Byte-addressed memory. -/
abbrev Mem := Nat → Nat

/-- Macro `#define GET(p) (*(unsigned int *)(p))`: a little-endian 4-byte load. -/
def GET (m : Mem) (p : Nat) : Nat :=
  m p % 256 + 256 * (m (p + 1) % 256) + 65536 * (m (p + 2) % 256)
    + 16777216 * (m (p + 3) % 256)

/-- Macro `#define PUT(p, val) (*(unsigned int *)(p) = (val))`: a little-endian
4-byte store of `val` truncated to 32 bits. -/
def PUT (m : Mem) (p val : Nat) : Mem := fun a =>
  if a = p then val % 256
  else if a = p + 1 then val / 256 % 256
  else if a = p + 2 then val / 65536 % 256
  else if a = p + 3 then val / 16777216 % 256
  else m a

/-- Load of a `void *` (8 bytes). -/
def GETP (m : Mem) (p : Nat) : Nat := GET m p + 2 ^ 32 * GET m (p + 4)

/-- Store of a `void *` (8 bytes). -/
def PUTP (m : Mem) (p val : Nat) : Mem :=
  PUT (PUT m p (val % 2 ^ 32)) (p + 4) (val / 2 ^ 32)

/-- Library call `memcpy(dst, src, n)` for regions that do not overlap. -/
def memcpy (m : Mem) (dst src n : Nat) : Mem := fun a =>
  if dst ≤ a ∧ a < dst + n then m (src + (a - dst)) else m a

/-- Library call `memset(dst, c, n)`. -/
def memset (m : Mem) (dst c n : Nat) : Mem := fun a =>
  if dst ≤ a ∧ a < dst + n then c % 256 else m a

/-- Macro `#define GET_SIZE(p)  (GET(p) & ~0x7)` -/
def GET_SIZE (m : Mem) (p : Nat) : Nat := GET m p &&& MASK32

/-- Macro `#define GET_ALLOC(p) (GET(p) & 0x1)` -/
def GET_ALLOC (m : Mem) (p : Nat) : Nat := GET m p &&& 1

/-- Macro `#define HDRP(bp) ((char *)(bp) - WSIZE)` -/
def HDRP (bp : Nat) : Nat := bp - WSIZE

/-- Macro `#define FTRP(bp) ((char *)(bp) + GET_SIZE(HDRP(bp)) - DSIZE)` -/
def FTRP (m : Mem) (bp : Nat) : Nat := bp + GET_SIZE m (HDRP bp) - DSIZE

/-- Macro `#define NEXT_BLKP(bp) ((char *)(bp) + GET_SIZE(((char *)(bp) - WSIZE)))` -/
def NEXT_BLKP (m : Mem) (bp : Nat) : Nat := bp + GET_SIZE m (bp - WSIZE)

/-- Macro `#define PREV_BLKP(bp) ((char *)(bp) - GET_SIZE(((char *)(bp) - DSIZE)))` -/
def PREV_BLKP (m : Mem) (bp : Nat) : Nat := bp - GET_SIZE m (bp - DSIZE)

/-- Macro `#define NEXT_LINK(bp) (* (unsigned int *)(bp))` -/
def NEXT_LINK (m : Mem) (bp : Nat) : Nat := GET m bp

/-- Macro `#define PREV_LINK(bp) (* (unsigned int *)(bp + WSIZE))` -/
def PREV_LINK (m : Mem) (bp : Nat) : Nat := GET m (bp + WSIZE)

/-- Convert 4-byte address to 8-byte address. -/
def word_to_ptr (w : Nat) : Nat :=
  if w = 0 then 0 else (w % 2 ^ 32 + HEAP_BASE) % 2 ^ 64

/-- Convert 8-byte address to 4-byte address. -/
def ptr_to_word (p : Nat) : Nat :=
  if p = 0 then 0 else ((p + 2 ^ 64 - HEAP_BASE) % 2 ^ 64) % 2 ^ 32

/-- The globals of `mm.c`, the memory, and the state of the heap-growth
primitive (`brk`: bytes obtained so far; `sbrk_calls`: how many times the
primitive has been called). -/
structure State where
  mem : Mem
  brk : Nat
  sbrk_calls : Nat
  heap_listp : Nat
  list_addr : Nat

/-- Result of a call: it returns, it never returns (fuel exhausted), or it
stores through the null pointer. -/
inductive Outcome (α : Type) where
  | ret (a : α)
  | hang
  | crash

/-- Whether the call returned. -/
def Outcome.isRet {α : Type} : Outcome α → Bool
  | .ret _ => true
  | _ => false

/-- The value returned, `d` when the call did not return. -/
def Outcome.getD {α : Type} (o : Outcome α) (d : α) : α :=
  match o with
  | .ret a => a
  | _ => d

/-- Modelled from the spec: `growHeap(bytes) -> newRegionStart or failure`, the
heap-growth primitive `mem_sbrk` of `memlib.c`, which is missing from the
sources.  It extends the single heap region monotonically and returns the old
break, or fails with `(void *)-1`; `lim` is the largest heap size the
environment grants during this call. -/
def mem_sbrk (lim incr : Nat) (st : State) : Nat × State :=
  if st.brk + incr ≤ lim then
    (HEAP_BASE + st.brk,
      { st with brk := st.brk + incr, sbrk_calls := st.sbrk_calls + 1 })
  else
    (NEG1, { st with sbrk_calls := st.sbrk_calls + 1 })

/-- State after `PUT(p, val)`. -/
def State.put (st : State) (p val : Nat) : State :=
  { st with mem := PUT st.mem p val }

/-- State after storing the pointer `val` at `p`. -/
def State.putp (st : State) (p val : Nat) : State :=
  { st with mem := PUTP st.mem p val }

/-- The loop of `getNumber`: `k` iterations are left, `number` is the loop
variable. -/
def getNumber_loop (size : Nat) : Nat → Nat → Nat
  | 0, number => number
  | k + 1, number =>
    if (1 <<< (number + 4)) % 2 ^ 32 ≥ size then number
    else getNumber_loop size k (number + 1)

/-- Get the number of list where the block is. -/
def getNumber (size : Nat) : Nat := getNumber_loop size (LIST_NUM - 1) 0

/-- Add a block into a suitable list. -/
def add_block (bp : Nat) (st : State) : State :=
  let size := GET_SIZE st.mem (HDRP bp)
  let number := getNumber size
  if GETP st.mem (st.list_addr + 8 * number) = 0 then
    let st := st.putp (st.list_addr + 8 * number) bp
    let st := st.put (bp + WSIZE) 0
    st.put bp 0
  else
    let addr := GETP st.mem (st.list_addr + 8 * number)
    let st := st.putp (st.list_addr + 8 * number) bp
    let st := st.put (bp + WSIZE) 0
    let st := st.put bp (ptr_to_word addr)
    st.put (addr + WSIZE) (ptr_to_word bp)

/-- Delete a block which is free from its list. -/
def del_block (bp : Nat) (st : State) : State :=
  let size := GET_SIZE st.mem (HDRP bp)
  let number := getNumber size
  let prev := PREV_LINK st.mem bp
  let next := NEXT_LINK st.mem bp
  if prev = 0 ∧ next = 0 then
    st.putp (st.list_addr + 8 * number) 0
  else if prev = 0 ∧ next ≠ 0 then
    let st := st.putp (st.list_addr + 8 * number) (word_to_ptr (NEXT_LINK st.mem bp))
    st.put (word_to_ptr (NEXT_LINK st.mem bp) + WSIZE) 0
  else if prev ≠ 0 ∧ next = 0 then
    let st := st.put (word_to_ptr (PREV_LINK st.mem bp)) 0
    st.put (bp + WSIZE) 0
  else
    let st := st.put (word_to_ptr (NEXT_LINK st.mem bp) + WSIZE) (PREV_LINK st.mem bp)
    st.put (word_to_ptr (PREV_LINK st.mem bp)) (NEXT_LINK st.mem bp)

/-- The inner loop of `find_fit`: walk one chain from `addr`. -/
def find_in_chain (m : Mem) (asize : Nat) : Nat → Nat → Outcome Nat
  | 0, _ => .hang
  | fuel + 1, addr =>
    if addr = 0 then .ret 0
    else if GET_SIZE m (HDRP addr) ≥ asize then .ret addr
    else find_in_chain m asize fuel (word_to_ptr (NEXT_LINK m addr))

/-- The outer loop of `find_fit`: `k = LIST_NUM - number` buckets are left. -/
def find_fit_loop (fuel asize : Nat) (st : State) : Nat → Nat → Outcome Nat
  | 0, _ => .ret 0
  | k + 1, number =>
    match find_in_chain st.mem asize fuel (GETP st.mem (st.list_addr + 8 * number)) with
    | .ret 0 => find_fit_loop fuel asize st k (number + 1)
    | o => o

/-- Find a fit for a block with `asize` bytes (`0` is `NULL`). -/
def find_fit (fuel asize : Nat) (st : State) : Outcome Nat :=
  find_fit_loop fuel asize st (LIST_NUM - getNumber asize) (getNumber asize)

/-- Boundary tag coalescing. Return ptr to coalesced block. -/
def coalesce (bp : Nat) (st : State) : Nat × State :=
  let prev_alloc := GET_ALLOC st.mem (FTRP st.mem (PREV_BLKP st.mem bp))
  let next_alloc := GET_ALLOC st.mem (HDRP (NEXT_BLKP st.mem bp))
  let size := GET_SIZE st.mem (HDRP bp)
  let r : Nat × State :=
    if prev_alloc ≠ 0 ∧ next_alloc ≠ 0 then (bp, st)
    else if prev_alloc ≠ 0 ∧ next_alloc = 0 then
      let st := del_block (NEXT_BLKP st.mem bp) st
      let size := (size + GET_SIZE st.mem (HDRP (NEXT_BLKP st.mem bp))) % 2 ^ 64
      let st := st.put (HDRP bp) (PACK size 0)
      let st := st.put (FTRP st.mem bp) (PACK size 0)
      (bp, st)
    else if prev_alloc = 0 ∧ next_alloc ≠ 0 then
      let st := del_block (PREV_BLKP st.mem bp) st
      let size := (size + GET_SIZE st.mem (HDRP (PREV_BLKP st.mem bp))) % 2 ^ 64
      let st := st.put (FTRP st.mem bp) (PACK size 0)
      let st := st.put (HDRP (PREV_BLKP st.mem bp)) (PACK size 0)
      (PREV_BLKP st.mem bp, st)
    else
      let size := (size + (GET_SIZE st.mem (HDRP (PREV_BLKP st.mem bp))
        + GET_SIZE st.mem (FTRP st.mem (NEXT_BLKP st.mem bp)))) % 2 ^ 64
      let st := del_block (NEXT_BLKP st.mem bp) st
      let st := del_block (PREV_BLKP st.mem bp) st
      let st := st.put (HDRP (PREV_BLKP st.mem bp)) (PACK size 0)
      let st := st.put (FTRP st.mem (NEXT_BLKP st.mem bp)) (PACK size 0)
      (PREV_BLKP st.mem bp, st)
  let bp := r.1
  let st := r.2
  let st := st.put (bp + WSIZE) 0
  let st := st.put bp 0
  (bp, add_block bp st)

/-- Extend heap with free block and return its block pointer (`0` is
`NULL`). -/
def extend_heap (lim words : Nat) (st : State) : Nat × State :=
  let size := if words % 2 ≠ 0 then ((words + 1) * WSIZE) % 2 ^ 64 else (words * WSIZE) % 2 ^ 64
  let r := mem_sbrk lim size st
  let bp := r.1
  let st := r.2
  if bp = NEG1 then (0, st)
  else
    let st := st.put (HDRP bp) (PACK size 0)
    let st := st.put (FTRP st.mem bp) (PACK size 0)
    let st := st.put (HDRP (NEXT_BLKP st.mem bp)) (PACK 0 1)
    let st := st.put (bp + WSIZE) 0
    let st := st.put bp 0
    coalesce bp st

/-- Place block of `asize` bytes at start of free block `bp` and split if
remainder would be at least minimum block size. -/
def place (bp asize : Nat) (st : State) : State :=
  let csize := GET_SIZE st.mem (HDRP bp)
  let st := del_block bp st
  if (csize + 2 ^ 64 - asize) % 2 ^ 64 ≥ 2 * DSIZE then
    let st := st.put (HDRP bp) (PACK asize 1)
    let st := st.put (FTRP st.mem bp) (PACK asize 1)
    let bp := NEXT_BLKP st.mem bp
    let st := st.put (HDRP bp) (PACK ((csize + 2 ^ 64 - asize) % 2 ^ 64) 0)
    let st := st.put (FTRP st.mem bp) (PACK ((csize + 2 ^ 64 - asize) % 2 ^ 64) 0)
    let st := st.put (bp + WSIZE) 0
    let st := st.put bp 0
    add_block bp st
  else
    let st := st.put (HDRP bp) (PACK csize 1)
    st.put (FTRP st.mem bp) (PACK csize 1)

/-- The first loop of `mm_init`: `list_addr[i] = NULL` for `i < k`. -/
def init_lists (st : State) : Nat → State
  | 0 => st
  | k + 1 => (init_lists st k).putp (st.list_addr + 8 * k) 0

/-- The second loop of `mm_init`, whose body is the statement that follows it:
`PUT(heap_listp, 0)`, `k` times. -/
def init_pad (st : State) : Nat → State
  | 0 => st
  | k + 1 => (init_pad st k).put st.heap_listp 0

/-- The part of `mm_init` between its two requests for memory: it clears the
bucket heads and writes the padding word, the prologue and the epilogue. -/
def init_heap (st : State) : State :=
  let st := { st with heap_listp := st.list_addr + 8 * LIST_NUM }
  let st := init_lists st LIST_NUM
  let st := init_pad st LIST_NUM
  let st := st.put (st.heap_listp + WSIZE) (PACK DSIZE 1)
  let st := st.put (st.heap_listp + 2 * WSIZE) (PACK DSIZE 1)
  let st := st.put (st.heap_listp + 3 * WSIZE) (PACK 0 1)
  { st with heap_listp := st.heap_listp + 2 * WSIZE }

/-- Initialize: return -1 on error, 0 on success. -/
def mm_init (lim : Nat) (st : State) : Int × State :=
  let r := mem_sbrk lim (ALIGN (WSIZE * 4 + LIST_NUM * 8)) st
  let st := { r.2 with list_addr := r.1 }
  if st.list_addr = NEG1 then (-1, st)
  else
    let r := extend_heap lim (CHUNKSIZE / WSIZE) (init_heap st)
    if r.1 = 0 then (-1, r.2) else (0, r.2)

/-- The adjusted block size computed by `malloc` for a request of `size`
bytes (`size_t` arithmetic). -/
def adjust (size : Nat) : Nat :=
  if size ≤ DSIZE then 2 * DSIZE
  else (DSIZE * (((size + DSIZE + (DSIZE - 1)) % 2 ^ 64) / DSIZE)) % 2 ^ 64

/-- The function `malloc`; the pointer returned is `0` for `NULL`. -/
def malloc (fuel lim size : Nat) (st : State) : Outcome (Nat × State) :=
  let st := if st.heap_listp = 0 then (mm_init lim st).2 else st
  if size = 0 then .ret (0, st)
  else
    let asize := adjust size
    match find_fit fuel asize st with
    | .hang => .hang
    | .crash => .crash
    | .ret bp =>
      if bp ≠ 0 then .ret (bp, place bp asize st)
      else
        let extendsize := MAX asize CHUNKSIZE
        let r := extend_heap lim (extendsize / WSIZE) st
        if r.1 = 0 then .ret (0, r.2)
        else .ret (r.1, place r.1 asize r.2)

/-- The function `free`. -/
def free (lim bp : Nat) (st : State) : State :=
  if bp = 0 then st
  else
    let size := GET_SIZE st.mem (HDRP bp)
    let st := if st.heap_listp = 0 then (mm_init lim st).2 else st
    let st := st.put (HDRP bp) (PACK size 0)
    let st := st.put (FTRP st.mem bp) (PACK size 0)
    (coalesce bp st).2

/-- The function `realloc`. -/
def realloc (fuel lim ptr size : Nat) (st : State) : Outcome (Nat × State) :=
  if size = 0 then .ret (0, free lim ptr st)
  else if ptr = 0 then malloc fuel lim size st
  else
    match malloc fuel lim size st with
    | .hang => .hang
    | .crash => .crash
    | .ret (newptr, st) =>
      if newptr = 0 then .ret (0, st)
      else
        let oldsize := GET_SIZE st.mem (HDRP ptr)
        let oldsize := if size < oldsize then size else oldsize
        let st := { st with mem := memcpy st.mem newptr ptr oldsize }
        .ret (newptr, free lim ptr st)

/-- The function `calloc`.  `memset(NULL, 0, bytes)` with `bytes > 0` is a
store through the null pointer. -/
def calloc (fuel lim nmemb size : Nat) (st : State) : Outcome (Nat × State) :=
  let bytes := (nmemb * size) % 2 ^ 64
  match malloc fuel lim bytes st with
  | .hang => .hang
  | .crash => .crash
  | .ret (newptr, st) =>
    if newptr = 0 ∧ bytes ≠ 0 then .crash
    else .ret (newptr, { st with mem := memset st.mem newptr 0 bytes })

/-- The tag word of a block of `s` bytes. -/
def tagv (s : Nat) (a : Bool) : Nat := s + (if a then 1 else 0)

/-- Block pointer of the first block after the prologue. -/
def FIRST : Nat := HEAP_BASE + 144

/-- Sum of the block sizes. -/
def total : List (Nat × Bool) → Nat
  | [] => 0
  | b :: t => b.1 + total t

/-- Predicate `BlockAt start bs p s a`: the sequence `bs`, laid out from block pointer
`start`, has a block of size `s` and allocation flag `a` at block pointer `p`. -/
def BlockAt : Nat → List (Nat × Bool) → Nat → Nat → Bool → Prop
  | _, [], _, _, _ => False
  | start, b :: t, p, s, a => (p = start ∧ s = b.1 ∧ a = b.2) ∨ BlockAt (start + b.1) t p s a

/-- Every block has a legal size. -/
def SizesOK (bs : List (Nat × Bool)) : Prop := ∀ b ∈ bs, 16 ≤ b.1 ∧ b.1 % 8 = 0

/-- Header and footer of every block of the sequence hold its tag. -/
def TagsOK (m : Mem) (start : Nat) (bs : List (Nat × Bool)) : Prop :=
  ∀ p s a, BlockAt start bs p s a →
    GET m (p - 4) = tagv s a ∧ GET m (p + s - 8) = tagv s a

/-- No two neighbours are both free. -/
def NoAdj (bs : List (Nat × Bool)) : Prop :=
  List.Chain' (fun x y => x.2 = true ∨ y.2 = true) bs

/-- Compressed address of the first node of `l`, `nw` when `l` is empty. -/
def headW : List Nat → Nat → Nat
  | [], nw => nw
  | q :: _, _ => ptr_to_word q

/-- Compressed address of the last node of `l`, `pw` when `l` is empty. -/
def lastW : List Nat → Nat → Nat
  | [], pw => pw
  | q :: t, _ => lastW t (ptr_to_word q)

/-- Pointer to the first node of `l`, `NULL` when `l` is empty. -/
def headP : List Nat → Nat
  | [] => 0
  | q :: _ => q

/-- Predicate `Seg m pw l nw`: the nodes of `l` are linked in this order; the previous
link of the first is `pw`, the next link of the last is `nw`. -/
def Seg (m : Mem) : Nat → List Nat → Nat → Prop
  | _, [], _ => True
  | pw, p :: t, nw => GET m (p + 4) = pw ∧ GET m p = headW t nw ∧ Seg m (ptr_to_word p) t nw

/-- Predicate `HeapOK st bs ch X`: the memory of `st` holds the bucket heads, the
prologue, the blocks `bs` and the epilogue; `ch i` is the chain of bucket `i`;
the free blocks are those of the chains and those of `X` (blocks that are free
but in no chain at the moment). -/
structure HeapOK (st : State) (bs : List (Nat × Bool)) (ch : Nat → List Nat)
    (X : List Nat) : Prop where
  la : st.list_addr = HEAP_BASE
  hl : st.heap_listp = HEAP_BASE + 136
  brk : st.brk = 144 + total bs
  lim : st.brk ≤ 2 ^ 32
  pro1 : GET st.mem (HEAP_BASE + 132) = 9
  pro2 : GET st.mem (HEAP_BASE + 136) = 9
  epi : GET st.mem (FIRST + total bs - 4) = 1
  sz : SizesOK bs
  tags : TagsOK st.mem FIRST bs
  heads : ∀ i, i < 16 → GETP st.mem (HEAP_BASE + 8 * i) = headP (ch i)
  links : ∀ i, i < 16 → Seg st.mem 0 (ch i) 0
  sound : ∀ i, i < 16 → ∀ p ∈ ch i, p ∉ X ∧ ∃ s, BlockAt FIRST bs p s false ∧ getNumber s = i
  complete : ∀ p s, BlockAt FIRST bs p s false → p ∈ ch (getNumber s) ∨ p ∈ X
  nodup : ∀ i, i < 16 → (ch i).Nodup

/-- Bytes the store may rewrite when it relinks chains: the bucket heads and
the two link words of the free blocks. -/
def FreeArea (bs : List (Nat × Bool)) (a : Nat) : Prop :=
  a < HEAP_BASE + 128 ∨ ∃ p s, BlockAt FIRST bs p s false ∧ p ≤ a ∧ a < p + 8

/-- Allocation flag of the last block, `true` for the prologue. -/
def lastAlloc (pre : List (Nat × Bool)) : Bool :=
  match pre.getLast? with
  | none => true
  | some b => b.2

/-- Allocation flag of the first block, `true` for the epilogue. -/
def headAlloc (post : List (Nat × Bool)) : Bool :=
  match post.head? with
  | none => true
  | some b => b.2

/-- The part of `coalesce` that follows the four cases. -/
def coalesce_tail (r : Nat × State) : Nat × State :=
  (r.1, add_block r.1 ((r.2.put (r.1 + WSIZE) 0).put r.1 0))

/-- Bytes of the allocated blocks, their tags included. -/
def AllocArea (bs : List (Nat × Bool)) (a : Nat) : Prop :=
  ∃ q sq, BlockAt FIRST bs q sq true ∧ q - 4 ≤ a ∧ a < q + sq - 4

/-- The blocks after `place`. -/
def placed (c asize : Nat) : List (Nat × Bool) :=
  if asize + 16 ≤ c then [(asize, true), (c - asize, false)] else [(c, true)]

/-- The number of bytes `extend_heap` asks for. -/
def ext_size (words : Nat) : Nat :=
  if words % 2 ≠ 0 then ((words + 1) * WSIZE) % 2 ^ 64 else (words * WSIZE) % 2 ^ 64

/-- First node of a chain whose block is large enough, `0` when there is
none. -/
def firstFit (m : Mem) (asize : Nat) : List Nat → Nat
  | [] => 0
  | p :: t => if GET_SIZE m (HDRP p) ≥ asize then p else firstFit m asize t

/-- First fit over `k` buckets starting at bucket `number`. -/
def firstFitFrom (m : Mem) (asize : Nat) (ch : Nat → List Nat) : Nat → Nat → Nat
  | 0, _ => 0
  | k + 1, number =>
    if firstFit m asize (ch number) ≠ 0 then firstFit m asize (ch number)
    else firstFitFrom m asize ch k (number + 1)

/-- Every live allocation `(p, n)` is an allocated block with room for `n`
bytes between its tags. -/
def LiveOK (bs : List (Nat × Bool)) (live : List (Nat × Nat)) : Prop :=
  ∀ x ∈ live, ∃ s, BlockAt FIRST bs x.1 s true ∧ x.2 + 8 ≤ s

/-- The invariant of the allocator, with its witnesses: the block sequence
`bs`, the chains `ch` and the live allocations. -/
structure Good (st : State) (bs : List (Nat × Bool)) (ch : Nat → List Nat)
    (live : List (Nat × Nat)) : Prop where
  heap : HeapOK st bs ch []
  noadj : NoAdj bs
  lv : LiveOK bs live
  nd : (live.map Prod.fst).Nodup

/-- The invariant of the allocator. -/
def Inv (st : State) (live : List (Nat × Nat)) : Prop :=
  ∃ bs ch, Good st bs ch live

/-- The first fit of the store for a request of `size` bytes. -/
def fitOf (st : State) (ch : Nat → List Nat) (size : Nat) : Nat :=
  firstFitFrom st.mem (adjust size) ch (LIST_NUM - getNumber (adjust size))
    (getNumber (adjust size))

/-- The state `mm_init` hands to `extend_heap`. -/
def init_state (st : State) : State :=
  init_heap { st with brk := st.brk + 144, sbrk_calls := st.sbrk_calls + 1,
                      list_addr := HEAP_BASE + st.brk }

/-- The live allocations after an allocation of `n` bytes returned `p`. -/
def live_add (live : List (Nat × Nat)) (p n : Nat) : List (Nat × Nat) :=
  if p = 0 then live else (p, n) :: live

/-- The live allocations after `p` was released. -/
def live_del (live : List (Nat × Nat)) (p : Nat) : List (Nat × Nat) :=
  live.filter (fun x => x.1 ≠ p)

/-- The live allocations after `realloc(p, m)` returned `q`. -/
def live_realloc (live : List (Nat × Nat)) (p m q : Nat) : List (Nat × Nat) :=
  if m = 0 then live_del live p
  else if p = 0 then live_add live q m
  else if q = 0 then live
  else (q, m) :: live_del live p

/-- The states the allocator reaches from a successful `mm_init` on an empty
heap, with the live allocations of each: calls of `malloc`, `free`, `realloc`
and `calloc` that return (`free` and `realloc` on live pointers, request sizes
that the size computation of `malloc` does not wrap, `n + 15 < 2 ^ 64`), and
stores of the client into live allocations.  `lim` is the largest heap the
environment grants; it is at most `2 ^ 32` bytes, the range of the 4-byte size
field of a block. -/
inductive Reach (lim : Nat) : State → List (Nat × Nat) → Prop
  | init (st0 : State) (hlim : lim ≤ 2 ^ 32) (h0 : st0.brk = 0)
      (h : (mm_init lim st0).1 = 0) : Reach lim (mm_init lim st0).2 []
  | malloc {st : State} {live : List (Nat × Nat)} (fuel n p : Nat) (st' : State)
      (hr : Reach lim st live) (hn : n + 15 < 2 ^ 64)
      (h : MM.malloc fuel lim n st = .ret (p, st')) : Reach lim st' (live_add live p n)
  | free {st : State} {live : List (Nat × Nat)} (p n : Nat)
      (hr : Reach lim st live) (hp : (p, n) ∈ live) :
      Reach lim (MM.free lim p st) (live_del live p)
  | realloc {st : State} {live : List (Nat × Nat)} (fuel p m q : Nat) (st' : State)
      (hr : Reach lim st live) (hp : p = 0 ∨ ∃ n, (p, n) ∈ live) (hm : m + 15 < 2 ^ 64)
      (h : MM.realloc fuel lim p m st = .ret (q, st')) :
      Reach lim st' (live_realloc live p m q)
  | calloc {st : State} {live : List (Nat × Nat)} (fuel k m q : Nat) (st' : State)
      (hr : Reach lim st live) (hm : (k * m) % 2 ^ 64 + 15 < 2 ^ 64)
      (h : MM.calloc fuel lim k m st = .ret (q, st')) :
      Reach lim st' (live_add live q ((k * m) % 2 ^ 64))
  | write {st : State} {live : List (Nat × Nat)} (p n a v : Nat)
      (hr : Reach lim st live) (hp : (p, n) ∈ live) (h1 : p ≤ a) (h2 : a < p + n) :
      Reach lim { st with mem := fun x => if x = a then v else st.mem x } live

/-- The block pointers that the loop of `mm_checkheap` visits from `bp` on:
`for (bp = heap_listp; GET_SIZE(HDRP(bp)) > 0; bp = NEXT_BLKP(bp))`. -/
def heap_blocks (m : Mem) : Nat → Nat → List Nat
  | 0, _ => []
  | fuel + 1, bp =>
    if GET_SIZE m (HDRP bp) > 0 then bp :: heap_blocks m fuel (NEXT_BLKP m bp) else []

/-- The adjusted size that the specification asks for: the larger of the
minimum block size and `size + 2 * tag width` rounded up to the alignment. -/
def adjust_spec (n : Nat) : Nat := max 16 (8 * ((n + 8 + 7) / 8))

/-- An empty heap: nothing was requested from the system yet. -/
def heap0 : State :=
  { mem := fun _ => 0, brk := 0, sbrk_calls := 0, heap_listp := 0, list_addr := 0 }

/-- The heap after `mm_init`, the system granting up to 100000 bytes. -/
def heap1 : State := (mm_init 100000 heap0).2

/-- The first `malloc(16)`: pointer and heap. -/
def alloc1 : Nat × State := (malloc 400 100000 16 heap1).getD (0, heap1)

/-- A second `malloc(16)`. -/
def alloc2 : Nat × State := (malloc 400 100000 16 alloc1.2).getD (0, heap1)

/-- A request of 200 bytes on the fresh heap, which has to grow. -/
def grow200 : Nat × State := (malloc 400 100000 200 heap1).getD (0, heap1)

/-- A request of `2 ^ 64 - 1` bytes on the fresh heap. -/
def big1 : Nat × State := (malloc 400 100000 (2 ^ 64 - 1) heap1).getD (0, heap1)

/-- After `free` of the block of `big1`, a request of 200 bytes. -/
def big2 : Nat × State :=
  (malloc 400 100000 200 (free 100000 big1.1 big1.2)).getD (0, heap1)

/-- The block of `alloc1` resized to 32 bytes. -/
def move1 : Nat × State := (realloc 400 100000 alloc1.1 32 alloc1.2).getD (0, heap1)

/-- The block of `alloc1` resized to `2 ^ 64 - 1` bytes. -/
def move2 : Nat × State :=
  (realloc 400 100000 alloc1.1 (2 ^ 64 - 1) alloc1.2).getD (0, heap1)

/-- The heap after `mm_init` when the system grants 304 bytes and no more. -/
def full1 : State := (mm_init 304 heap0).2

/-- Three allocations of 8, 16 and 16 bytes on the fresh heap. -/
def tri1 : Nat × State := (malloc 400 100000 8 heap1).getD (0, heap1)

def tri2 : Nat × State := (malloc 400 100000 16 tri1.2).getD (0, heap1)

def tri3 : Nat × State := (malloc 400 100000 16 tri2.2).getD (0, heap1)

/-- The client stores the byte `v` at the address `a`. -/
def poke (st : State) (a v : Nat) : State :=
  { st with mem := fun x => if x = a then v else st.mem x }

/-- The client stores the byte 7 at the start of the second allocation and the
byte 25 at offset 12 of the third (the word that the copy of `tri6` will put
on the header of the second allocation, whose value, 25, it so keeps). -/
def tri4 : State := poke (poke tri3.2 tri2.1 7) (tri3.1 + 12) 25

/-- The first allocation is released. -/
def tri5 : State := free 100000 tri1.1 tri4

/-- The third allocation is resized to `2 ^ 64 - 1` bytes: `malloc` hands out
the free block of 16 bytes at `HEAP_BASE + 144`, the copy of 24 bytes runs
over the header and the first 8 bytes of the second allocation, and the old
block is released and merged with the free block after it.  Every store is
inside the heap. -/
def tri6 : Nat × State := (realloc 400 100000 tri3.1 (2 ^ 64 - 1) tri5).getD (0, heap1)

/-- After `malloc(2 ^ 64 - 1)` on the fresh heap (`big1`), a `malloc(16)`. -/
def wrapB : Nat × State := (malloc 400 100000 16 big1.2).getD (0, heap1)

/-- A second `malloc(16)` after `wrapB`. -/
def wrapC : Nat × State := (malloc 400 100000 16 wrapB.2).getD (0, heap1)

/-- The block of `big1` released, the block of `wrapB` still live. -/
def wrapF : State := free 100000 big1.1 wrapB.2

/-- The blocks of `big1`, `wrapB` and `wrapC` released, in this order. -/
def wrapG : State :=
  free 100000 wrapC.1 (free 100000 wrapB.1 (free 100000 big1.1 wrapC.2))

/-- A request of `2 ^ 64 - 15` bytes on the fresh heap. -/
def skew1 : Nat × State := (malloc 400 100000 (2 ^ 64 - 15) heap1).getD (0, heap1)

/-- The client stores the bytes 153 and `0xF8` at offsets 0 and 5 of the block
of `skew1`. -/
def skew2 : State := poke (poke skew1.2 skew1.1 153) (skew1.1 + 5) 0xF8

/-- A request of 200 bytes after `skew2`. -/
def skew3 : Nat × State := (malloc 400 100000 200 skew2).getD (0, heap1)

/-- The client stores the byte 144 at offset 0 of the block of `skew1`. -/
def skew4 : State := poke skew1.2 skew1.1 144

/-- After `wrapB` the client stores the byte 200 at offset 4 of the block of
`wrapB`, and the block of `big1` is released. -/
def clob1 : State := free 100000 big1.1 (poke wrapB.2 (wrapB.1 + 4) 200)

/-- A `malloc(16)` after `clob1`. -/
def clob2 : Nat × State := (malloc 400 100000 16 clob1).getD (0, heap1)

/-- The block of `clob2` released. -/
def clob3 : State := free 100000 clob2.1 clob2.2

/-- After `wrapC` the client stores the byte 55 at offset 0 of the block of
`wrapC` and the byte 200 at offset 4 of the block of `wrapB`, and the block of
`big1` is released. -/
def lose1 : State :=
  free 100000 big1.1 (poke (poke wrapC.2 wrapC.1 55) (wrapB.1 + 4) 200)

/-- The block of `wrapC` resized to 32 bytes after `lose1`. -/
def lose2 : Nat × State := (realloc 400 100000 wrapC.1 32 lose1).getD (0, heap1)

/-- After `wrapC`: two more `malloc(16)` and a `malloc(48)`. -/
def hide1 : Nat × State := (malloc 400 100000 16 wrapC.2).getD (0, heap1)

def hide2 : Nat × State := (malloc 400 100000 16 hide1.2).getD (0, heap1)

def hide3 : Nat × State := (malloc 400 100000 48 hide2.2).getD (0, heap1)

/-- The blocks of `wrapB` and `hide1` released, and the byte 0 stored by the
client at the start of the block of `hide1`. -/
def hide4 : State :=
  poke (free 100000 hide1.1 (free 100000 wrapB.1 hide3.2)) hide1.1 0

/-- Two requests of 16 bytes after `hide4`. -/
def hide5 : Nat × State := (malloc 400 100000 16 hide4).getD (0, heap1)

def hide6 : Nat × State := (malloc 400 100000 16 hide5.2).getD (0, heap1)

/-- Whether the call stored through the null pointer. -/
def Outcome.isCrash {α : Type} : Outcome α → Bool
  | .crash => true
  | _ => false

/-- The nodes of the chain that starts at `addr`, in the order in which the
inner loop of `find_fit` visits them by `addr = word_to_ptr(NEXT_LINK(addr))`
until `addr == NULL`. -/
def chain_nodes (m : Mem) : Nat → Nat → List Nat
  | 0, _ => []
  | fuel + 1, addr =>
    if addr = 0 then [] else addr :: chain_nodes m fuel (word_to_ptr (NEXT_LINK m addr))

/-- The chain of bucket `i`, from `list_addr[i]`. -/
def bucket_chain (st : State) (fuel i : Nat) : List Nat :=
  chain_nodes st.mem fuel (GETP st.mem (st.list_addr + 8 * i))

/-- The block pointer at which the loop of `mm_checkheap` stops: the first one
whose header has size 0. -/
def heap_end (m : Mem) : Nat → Nat → Outcome Nat
  | 0, _ => .hang
  | fuel + 1, bp =>
    if GET_SIZE m (HDRP bp) > 0 then heap_end m fuel (NEXT_BLKP m bp) else .ret bp

/-- The part of `free` that precedes its call of `coalesce`: header and footer
of `bp` are marked free. -/
def free_mark (lim bp : Nat) (st : State) : State :=
  let size := GET_SIZE st.mem (HDRP bp)
  let st := if st.heap_listp = 0 then (mm_init lim st).2 else st
  let st := st.put (HDRP bp) (PACK size 0)
  st.put (FTRP st.mem bp) (PACK size 0)

/-- The part of `extend_heap` between a successful request for `size` bytes,
which returned `bp`, and the call of `coalesce`: the tags of the new free
block, the new epilogue header and the cleared links. -/
def extend_mark (size bp : Nat) (st : State) : State :=
  let st := st.put (HDRP bp) (PACK size 0)
  let st := st.put (FTRP st.mem bp) (PACK size 0)
  let st := st.put (HDRP (NEXT_BLKP st.mem bp)) (PACK 0 1)
  let st := st.put (bp + WSIZE) 0
  st.put bp 0

/-- What a merged free block `r` looks like in the heap: it is a block of the
heap walk; its header word equals its footer word; the block after it and the
block before it are allocated; and no chain has a node inside it other than
the block itself. -/
def Merged (st : State) (fuel r : Nat) : Prop :=
  r ∈ heap_blocks st.mem fuel st.heap_listp
    ∧ GET st.mem (HDRP r) = GET st.mem (FTRP st.mem r)
    ∧ GET_ALLOC st.mem (HDRP (NEXT_BLKP st.mem r)) = 1
    ∧ (∀ q ∈ heap_blocks st.mem fuel st.heap_listp, NEXT_BLKP st.mem q = r →
        GET_ALLOC st.mem (HDRP q) = 1)
    ∧ (∀ i, i < LIST_NUM → ∀ q ∈ bucket_chain st fuel i, q ≤ r ∨ NEXT_BLKP st.mem r ≤ q)

/-- A line that `mm_checkheap` prints. -/
inductive Report where
  /-- The line `Heap (%p):` of a verbose run. -/
  | heap (p : Nat)
  /-- The line `%p: header: [%d:%c] footer: [%d:%c]` of `printblock`. -/
  | block (bp hsize halloc fsize falloc : Nat)
  /-- The line `%p: EOL` of `printblock`. -/
  | eol (bp : Nat)
  /-- The line `Bad prologue header`. -/
  | bad_prologue
  /-- The line `Bad epilogue header`. -/
  | bad_epilogue
  /-- The line `Error: %p is not doubleword aligned` of `checkblock`. -/
  | not_aligned (bp : Nat)
  /-- The line `Error: header does not match footer` of `checkblock`. -/
  | tag_mismatch

/-- Whether a line reports a violation. -/
def Report.isError : Report → Bool
  | .heap _ => false
  | .block _ _ _ _ _ => false
  | .eol _ => false
  | .bad_prologue => true
  | .bad_epilogue => true
  | .not_aligned _ => true
  | .tag_mismatch => true

/-- Print information of each block. -/
def printblock (m : Mem) (bp : Nat) : List Report :=
  let hsize := GET_SIZE m (HDRP bp)
  let halloc := GET_ALLOC m (HDRP bp)
  let fsize := GET_SIZE m (FTRP m bp)
  let falloc := GET_ALLOC m (FTRP m bp)
  if hsize = 0 then [.eol bp]
  else [.block bp hsize halloc fsize falloc]

/-- The function `checkblock`: alignment of the block pointer and equality of
header and footer. -/
def checkblock (m : Mem) (bp : Nat) : List Report :=
  (if bp % 8 ≠ 0 then [.not_aligned bp] else [])
    ++ (if GET m (HDRP bp) ≠ GET m (FTRP m bp) then [.tag_mismatch] else [])

/-- The loop of `mm_checkheap`, from `bp`: the lines printed and the block
pointer at which the loop stops. -/
def checkheap_loop (m : Mem) (verbose : Nat) : Nat → Nat → Outcome (List Report × Nat)
  | 0, _ => .hang
  | fuel + 1, bp =>
    if GET_SIZE m (HDRP bp) > 0 then
      match checkheap_loop m verbose fuel (NEXT_BLKP m bp) with
      | .ret r => .ret ((if verbose ≠ 0 then printblock m bp else []) ++ checkblock m bp ++ r.1, r.2)
      | o => o
    else .ret ([], bp)

/-- The function `mm_checkheap`: the lines it prints, and the state, which it
only reads. -/
def mm_checkheap (fuel verbose : Nat) (st : State) : Outcome (List Report × State) :=
  let out1 : List Report := if verbose ≠ 0 then [.heap st.heap_listp] else []
  let out2 : List Report :=
    if GET_SIZE st.mem (HDRP st.heap_listp) ≠ DSIZE ∨ GET_ALLOC st.mem (HDRP st.heap_listp) = 0
    then [.bad_prologue] else []
  let out3 := checkblock st.mem st.heap_listp
  match checkheap_loop st.mem verbose fuel st.heap_listp with
  | .hang => .hang
  | .crash => .crash
  | .ret r =>
    let out5 : List Report := if verbose ≠ 0 then printblock st.mem r.2 else []
    let out6 : List Report :=
      if GET_SIZE st.mem (HDRP r.2) ≠ 0 ∨ GET_ALLOC st.mem (HDRP r.2) = 0
      then [.bad_epilogue] else []
    .ret (out1 ++ out2 ++ out3 ++ r.1 ++ out5 ++ out6, st)

/-- The byte range from `lo` to `hi` lies inside one free block of the
sequence. -/
def Covered (bs : List (Nat × Bool)) (lo hi : Nat) : Prop :=
  ∃ q s, BlockAt FIRST bs q s false ∧ q ≤ lo ∧ hi ≤ q + s

/-- A third `malloc(16)`. -/
def alloc3 : Nat × State := (malloc 400 100000 16 alloc2.2).getD (0, heap1)

/-- The three allocations released: the second, the first, the third. -/
def freed3 : State :=
  free 100000 alloc3.1 (free 100000 alloc1.1 (free 100000 alloc2.1 alloc3.2))

/-- The first of two allocations released. -/
def hole1 : State := free 100000 alloc1.1 alloc2.2

/-- What `mm_checkheap` prints on `wrapF`, and the state it leaves. -/
def wrapK : List Report × State := (mm_checkheap 400 0 wrapF).getD ([], wrapF)

/-! ## Theorems -/

theorem mask32_eq (x : Nat) (h : x < 2 ^ 32) : x &&& MASK32 = x / 8 * 8 := by
  apply Nat.eq_of_testBit_eq
  intro i
  have hm : MASK32 = (2 ^ 29 - 1) <<< 3 := by decide
  rw [Nat.testBit_and, hm, Nat.testBit_shiftLeft, Nat.testBit_two_pow_sub_one]
  have h2 : x / 8 * 8 = (x >>> 3) <<< 3 := by
    rw [Nat.shiftLeft_eq, Nat.shiftRight_eq_div_pow]
  rw [h2, Nat.testBit_shiftLeft, Nat.testBit_shiftRight]
  by_cases h3 : 3 ≤ i
  · have : 3 + (i - 3) = i := by omega
    simp only [h3, this, decide_True, Bool.true_and, ge_iff_le]
    by_cases h4 : i - 3 < 29
    · simp [h4]
    · simp only [h4, decide_False, Bool.and_false]
      have : x < 2 ^ i := lt_of_lt_of_le h (Nat.pow_le_pow_right (by norm_num) (by omega))
      exact (Nat.testBit_lt_two_pow this).symm
  · simp [h3]

theorem mask64_eq (x : Nat) (h : x < 2 ^ 64) : x &&& MASK64 = x / 8 * 8 := by
  apply Nat.eq_of_testBit_eq
  intro i
  have hm : MASK64 = (2 ^ 61 - 1) <<< 3 := by decide
  rw [Nat.testBit_and, hm, Nat.testBit_shiftLeft, Nat.testBit_two_pow_sub_one]
  have h2 : x / 8 * 8 = (x >>> 3) <<< 3 := by
    rw [Nat.shiftLeft_eq, Nat.shiftRight_eq_div_pow]
  rw [h2, Nat.testBit_shiftLeft, Nat.testBit_shiftRight]
  by_cases h3 : 3 ≤ i
  · have : 3 + (i - 3) = i := by omega
    simp only [h3, this, decide_True, Bool.true_and, ge_iff_le]
    by_cases h4 : i - 3 < 61
    · simp [h4]
    · simp only [h4, decide_False, Bool.and_false]
      have : x < 2 ^ i := lt_of_lt_of_le h (Nat.pow_le_pow_right (by norm_num) (by omega))
      exact (Nat.testBit_lt_two_pow this).symm
  · simp [h3]

theorem PACK_zero (s : Nat) : PACK s 0 = s := by simp [PACK]

theorem PACK_one (s : Nat) (h : s % 8 = 0) : PACK s 1 = s + 1 := by
  unfold PACK
  have h1 : s = 2 ^ 3 * (s / 8) := by omega
  rw [h1, ← Nat.mul_add_lt_is_or (by norm_num : 1 < 2 ^ 3)]

theorem GET_lt (m : Mem) (p : Nat) : GET m p < 2 ^ 32 := by
  unfold GET; omega

theorem GET_PUT_same (m : Mem) (p v : Nat) : GET (PUT m p v) p = v % 2 ^ 32 := by
  simp only [GET, PUT]
  simp
  omega

theorem PUT_other (m : Mem) (p v a : Nat) (h : a < p ∨ p + 4 ≤ a) : PUT m p v a = m a := by
  unfold PUT
  have h1 : a ≠ p := by omega
  have h2 : a ≠ p + 1 := by omega
  have h3 : a ≠ p + 2 := by omega
  have h4 : a ≠ p + 3 := by omega
  simp [h1, h2, h3, h4]

theorem GET_congr (m m' : Mem) (p : Nat) (h : ∀ a, p ≤ a → a < p + 4 → m' a = m a) :
    GET m' p = GET m p := by
  unfold GET
  rw [h p (by omega) (by omega), h (p + 1) (by omega) (by omega),
    h (p + 2) (by omega) (by omega), h (p + 3) (by omega) (by omega)]

theorem GET_PUT_other (m : Mem) (p v q : Nat) (h : q + 4 ≤ p ∨ p + 4 ≤ q) :
    GET (PUT m p v) q = GET m q := by
  apply GET_congr
  intro a h1 h2
  apply PUT_other
  omega

theorem GET_PUT (m : Mem) (p v q : Nat) (h : q = p ∨ q + 4 ≤ p ∨ p + 4 ≤ q) :
    GET (PUT m p v) q = if q = p then v % 2 ^ 32 else GET m q := by
  by_cases hq : q = p
  · subst hq; simp [GET_PUT_same]
  · simp only [hq, if_false]; exact GET_PUT_other m p v q (by omega)

theorem GETP_lt (m : Mem) (p : Nat) : GETP m p < 2 ^ 64 := by
  have h1 := GET_lt m p
  have h2 := GET_lt m (p + 4)
  unfold GETP; omega

theorem PUTP_other (m : Mem) (p v a : Nat) (h : a < p ∨ p + 8 ≤ a) : PUTP m p v a = m a := by
  unfold PUTP
  rw [PUT_other _ _ _ _ (by omega), PUT_other _ _ _ _ (by omega)]

theorem GETP_congr (m m' : Mem) (p : Nat) (h : ∀ a, p ≤ a → a < p + 8 → m' a = m a) :
    GETP m' p = GETP m p := by
  unfold GETP
  rw [GET_congr m m' p (fun a h1 h2 => h a h1 (by omega)),
    GET_congr m m' (p + 4) (fun a h1 h2 => h a (by omega) (by omega))]

theorem GETP_PUTP_same (m : Mem) (p v : Nat) (hv : v < 2 ^ 64) : GETP (PUTP m p v) p = v := by
  unfold GETP PUTP
  rw [GET_PUT_same, GET_PUT_other _ _ _ _ (by omega), GET_PUT_same]
  omega

theorem GETP_PUTP_other (m : Mem) (p v q : Nat) (h : q + 8 ≤ p ∨ p + 8 ≤ q) :
    GETP (PUTP m p v) q = GETP m q := by
  apply GETP_congr
  intro a h1 h2
  exact PUTP_other m p v a (by omega)

theorem GETP_PUT_other (m : Mem) (p v q : Nat) (h : q + 8 ≤ p ∨ p + 4 ≤ q) :
    GETP (PUT m p v) q = GETP m q := by
  apply GETP_congr
  intro a h1 h2
  exact PUT_other m p v a (by omega)

theorem GET_PUTP_other (m : Mem) (p v q : Nat) (h : q + 4 ≤ p ∨ p + 8 ≤ q) :
    GET (PUTP m p v) q = GET m q := by
  apply GET_congr
  intro a h1 h2
  exact PUTP_other m p v a (by omega)

@[simp] theorem put_mem (st : State) (p v : Nat) : (st.put p v).mem = PUT st.mem p v := rfl

@[simp] theorem put_brk (st : State) (p v : Nat) : (st.put p v).brk = st.brk := rfl

@[simp] theorem put_calls (st : State) (p v : Nat) : (st.put p v).sbrk_calls = st.sbrk_calls := rfl

@[simp] theorem put_hl (st : State) (p v : Nat) : (st.put p v).heap_listp = st.heap_listp := rfl

@[simp] theorem put_la (st : State) (p v : Nat) : (st.put p v).list_addr = st.list_addr := rfl

@[simp] theorem putp_mem (st : State) (p v : Nat) : (st.putp p v).mem = PUTP st.mem p v := rfl

@[simp] theorem putp_brk (st : State) (p v : Nat) : (st.putp p v).brk = st.brk := rfl

@[simp] theorem putp_calls (st : State) (p v : Nat) : (st.putp p v).sbrk_calls = st.sbrk_calls := rfl

@[simp] theorem putp_hl (st : State) (p v : Nat) : (st.putp p v).heap_listp = st.heap_listp := rfl

@[simp] theorem putp_la (st : State) (p v : Nat) : (st.putp p v).list_addr = st.list_addr := rfl

theorem PACK_tag (s : Nat) (h : s % 8 = 0) (a : Bool) :
    PACK s (if a then 1 else 0) = tagv s a := by
  cases a
  · simp [PACK_zero, tagv]
  · simp [PACK_one s h, tagv]

theorem GET_SIZE_tag (m : Mem) (p s : Nat) (a : Bool) (h : GET m p = tagv s a)
    (hs : s % 8 = 0) : GET_SIZE m p = s := by
  have hl := GET_lt m p
  unfold GET_SIZE
  rw [mask32_eq _ hl, h]
  unfold tagv
  cases a <;> simp <;> omega

theorem GET_ALLOC_tag (m : Mem) (p s : Nat) (a : Bool) (h : GET m p = tagv s a)
    (hs : s % 8 = 0) : GET_ALLOC m p = if a then 1 else 0 := by
  unfold GET_ALLOC
  rw [Nat.and_one_is_mod, h]
  unfold tagv
  cases a <;> simp <;> omega

theorem tagv_lt (m : Mem) (p s : Nat) (a : Bool) (h : GET m p = tagv s a) : s < 2 ^ 32 := by
  have hl := GET_lt m p
  rw [h] at hl
  unfold tagv at hl
  omega

theorem getNumber_loop_ge (size : Nat) : ∀ k n, n ≤ getNumber_loop size k n
  | 0, n => by simp [getNumber_loop]
  | k + 1, n => by
    unfold getNumber_loop
    split
    · exact le_refl n
    · exact le_trans (Nat.le_succ n) (getNumber_loop_ge size k (n + 1))

theorem getNumber_loop_le (size : Nat) : ∀ k n, getNumber_loop size k n ≤ n + k
  | 0, n => by simp [getNumber_loop]
  | k + 1, n => by
    unfold getNumber_loop
    split
    · omega
    · have := getNumber_loop_le size k (n + 1); omega

theorem getNumber_loop_mono (s s' : Nat) (h : s ≤ s') :
    ∀ k n, getNumber_loop s k n ≤ getNumber_loop s' k n
  | 0, n => by simp [getNumber_loop]
  | k + 1, n => by
    unfold getNumber_loop
    by_cases h1 : (1 <<< (n + 4)) % 2 ^ 32 ≥ s'
    · have h2 : (1 <<< (n + 4)) % 2 ^ 32 ≥ s := le_trans h h1
      rw [if_pos h1, if_pos h2]
    · by_cases h2 : (1 <<< (n + 4)) % 2 ^ 32 ≥ s
      · rw [if_neg h1, if_pos h2]
        exact le_trans (Nat.le_succ n) (getNumber_loop_ge s' k (n + 1))
      · rw [if_neg h1, if_neg h2]
        exact getNumber_loop_mono s s' h k (n + 1)

theorem getNumber_lt (size : Nat) : getNumber size < 16 := by
  have := getNumber_loop_le size (LIST_NUM - 1) 0
  unfold getNumber
  simp [LIST_NUM] at *
  omega

theorem getNumber_mono (s s' : Nat) (h : s ≤ s') : getNumber s ≤ getNumber s' :=
  getNumber_loop_mono s s' h _ _

theorem ptr_to_word_eq (p : Nat) (h1 : HEAP_BASE < p) (h2 : p < HEAP_BASE + 2 ^ 32) :
    ptr_to_word p = p - HEAP_BASE := by
  unfold ptr_to_word HEAP_BASE at *
  have : p ≠ 0 := by omega
  simp only [this, if_false]
  omega

theorem word_to_ptr_eq (w : Nat) (h1 : w ≠ 0) (h2 : w < 2 ^ 32) :
    word_to_ptr w = w + HEAP_BASE := by
  unfold word_to_ptr HEAP_BASE
  simp only [h1, if_false]
  omega

theorem word_to_ptr_zero : word_to_ptr 0 = 0 := rfl

theorem word_to_ptr_sub (p : Nat) (h1 : HEAP_BASE < p) (h2 : p < HEAP_BASE + 2 ^ 32) :
    word_to_ptr (p - HEAP_BASE) = p := by
  rw [word_to_ptr_eq _ (by omega) (by omega)]
  omega

theorem ALIGN_eq (p : Nat) : ALIGN p = (p + 7) % 2 ^ 64 / 8 * 8 := by
  unfold ALIGN ALIGNMENT
  exact mask64_eq _ (Nat.mod_lt _ (by norm_num))

theorem adjust_eq (n : Nat) (h : n + 15 < 2 ^ 64) :
    adjust n = if n ≤ 8 then 16 else (n + 15) / 8 * 8 := by
  unfold adjust DSIZE
  split
  · rfl
  · have h1 : (n + 8 + (8 - 1)) % 2 ^ 64 = n + 15 := by omega
    rw [h1]
    omega

theorem adjust_lt (n : Nat) : adjust n < 2 ^ 64 := by
  unfold adjust DSIZE
  split
  · norm_num
  · exact Nat.mod_lt _ (by norm_num)

theorem adjust_mod8 (n : Nat) : adjust n % 8 = 0 := by
  unfold adjust DSIZE
  split
  · rfl
  · have : 8 * ((n + 8 + (8 - 1)) % 2 ^ 64 / 8) < 2 ^ 64 := by omega
    rw [Nat.mod_eq_of_lt this]
    omega

@[simp] theorem total_nil : total [] = 0 := rfl

@[simp] theorem total_cons (b : Nat × Bool) (t : List (Nat × Bool)) :
    total (b :: t) = b.1 + total t := rfl

@[simp] theorem total_append (xs ys : List (Nat × Bool)) :
    total (xs ++ ys) = total xs + total ys := by
  induction xs with
  | nil => simp
  | cons b t ih => simp [ih]; omega

theorem BlockAt_append (xs ys : List (Nat × Bool)) (p s : Nat) (a : Bool) :
    ∀ start, BlockAt start (xs ++ ys) p s a ↔
      BlockAt start xs p s a ∨ BlockAt (start + total xs) ys p s a := by
  induction xs with
  | nil => intro start; simp [BlockAt]
  | cons b t ih =>
    intro start
    rw [List.cons_append]
    simp only [BlockAt, ih, total_cons, Nat.add_assoc, or_assoc]

theorem BlockAt_split (bs : List (Nat × Bool)) (p s : Nat) (a : Bool) :
    ∀ start, BlockAt start bs p s a ↔
      ∃ pre post, bs = pre ++ (s, a) :: post ∧ p = start + total pre := by
  induction bs with
  | nil => intro start; simp [BlockAt]
  | cons b t ih =>
    intro start
    simp only [BlockAt, ih]
    constructor
    · rintro (⟨h1, h2, h3⟩ | ⟨pre, post, h1, h2⟩)
      · exact ⟨[], t, by simp [h2, h3], by simp [h1]⟩
      · exact ⟨b :: pre, post, by simp [h1], by simp [h2]; omega⟩
    · rintro ⟨pre, post, h1, h2⟩
      cases pre with
      | nil =>
        simp at h1 h2
        left; exact ⟨h2, by rw [h1.1], by rw [h1.1]⟩
      | cons c pre =>
        simp at h1 h2
        right; exact ⟨pre, post, h1.2, by rw [h1.1]; omega⟩

theorem BlockAt_mem (bs : List (Nat × Bool)) (p s : Nat) (a : Bool) (start : Nat)
    (h : BlockAt start bs p s a) : (s, a) ∈ bs := by
  obtain ⟨pre, post, h1, _⟩ := (BlockAt_split bs p s a start).1 h
  simp [h1]

theorem BlockAt_range (bs : List (Nat × Bool)) (p s : Nat) (a : Bool) :
    ∀ start, BlockAt start bs p s a → start ≤ p ∧ p + s ≤ start + total bs := by
  induction bs with
  | nil => intro start h; exact h.elim
  | cons b t ih =>
    intro start h
    rcases h with ⟨h1, h2, _⟩ | h
    · simp [h1, h2]
    · have := ih _ h
      simp only [total_cons]
      omega

theorem BlockAt_disj (bs : List (Nat × Bool)) (hpos : ∀ b ∈ bs, 0 < b.1)
    (p s : Nat) (a : Bool) (p' s' : Nat) (a' : Bool) :
    ∀ start, BlockAt start bs p s a → BlockAt start bs p' s' a' →
      (p = p' ∧ s = s' ∧ a = a') ∨ p + s ≤ p' ∨ p' + s' ≤ p := by
  induction bs with
  | nil => intro start h; exact h.elim
  | cons b t ih =>
    intro start h h'
    have ht : ∀ b ∈ t, 0 < b.1 := fun x hx => hpos x (List.mem_cons_of_mem _ hx)
    rcases h with ⟨h1, h2, h3⟩ | h <;> rcases h' with ⟨h1', h2', h3'⟩ | h'
    · left; exact ⟨by rw [h1, h1'], by rw [h2, h2'], by rw [h3, h3']⟩
    · have := BlockAt_range t p' s' a' _ h'
      right; left; omega
    · have := BlockAt_range t p s a _ h
      right; right; omega
    · exact ih ht _ h h'

theorem BlockAt_mod8 (bs : List (Nat × Bool)) (hsz : ∀ b ∈ bs, b.1 % 8 = 0)
    (p s : Nat) (a : Bool) :
    ∀ start, start % 8 = 0 → BlockAt start bs p s a → p % 8 = 0 := by
  induction bs with
  | nil => intro start _ h; exact h.elim
  | cons b t ih =>
    intro start hst h
    rcases h with ⟨h1, _, _⟩ | h
    · rw [h1]; exact hst
    · have hb := hsz b (List.mem_cons_self _ _)
      exact ih (fun x hx => hsz x (List.mem_cons_of_mem _ hx)) _ (by omega) h

theorem SizesOK_append (xs ys : List (Nat × Bool)) :
    SizesOK (xs ++ ys) ↔ SizesOK xs ∧ SizesOK ys := by
  unfold SizesOK
  constructor
  · intro h
    exact ⟨fun b hb => h b (List.mem_append_left _ hb), fun b hb => h b (List.mem_append_right _ hb)⟩
  · rintro ⟨h1, h2⟩ b hb
    rcases List.mem_append.1 hb with hb | hb
    · exact h1 b hb
    · exact h2 b hb

theorem TagsOK_append (m : Mem) (start : Nat) (xs ys : List (Nat × Bool)) :
    TagsOK m start (xs ++ ys) ↔ TagsOK m start xs ∧ TagsOK m (start + total xs) ys := by
  unfold TagsOK
  constructor
  · intro h
    exact ⟨fun p s a hb => h p s a ((BlockAt_append xs ys p s a start).2 (Or.inl hb)),
      fun p s a hb => h p s a ((BlockAt_append xs ys p s a start).2 (Or.inr hb))⟩
  · rintro ⟨h1, h2⟩ p s a hb
    rcases (BlockAt_append xs ys p s a start).1 hb with hb | hb
    · exact h1 p s a hb
    · exact h2 p s a hb

/-- Tags only depend on the bytes of the region the sequence occupies. -/
theorem TagsOK_frame (m m' : Mem) (start : Nat) (bs : List (Nat × Bool))
    (hsz : SizesOK bs) (hst : 4 ≤ start) (h : TagsOK m start bs)
    (hm : ∀ x, start - 4 ≤ x → x < start + total bs - 4 → m' x = m x) :
    TagsOK m' start bs := by
  intro p s a hb
  have hr := BlockAt_range bs p s a start hb
  have hs := hsz _ (BlockAt_mem bs p s a start hb)
  simp only at hs
  obtain ⟨h1, h2⟩ := h p s a hb
  constructor
  · rw [← h1]
    exact GET_congr m m' _ (fun x hx1 hx2 => hm x (by omega) (by omega))
  · rw [← h2]
    exact GET_congr m m' _ (fun x hx1 hx2 => hm x (by omega) (by omega))

theorem headW_append (xs ys : List Nat) (nw : Nat) :
    headW (xs ++ ys) nw = headW xs (headW ys nw) := by
  cases xs <;> rfl

theorem Seg_append (m : Mem) (xs ys : List Nat) (nw : Nat) :
    ∀ pw, Seg m pw (xs ++ ys) nw ↔ Seg m pw xs (headW ys nw) ∧ Seg m (lastW xs pw) ys nw := by
  induction xs with
  | nil => intro pw; simp [Seg, lastW]
  | cons p t ih =>
    intro pw
    rw [List.cons_append]
    simp only [Seg, ih, headW_append, lastW, and_assoc]

theorem Seg_frame (m m' : Mem) (l : List Nat) (nw : Nat)
    (hm : ∀ q ∈ l, GET m' q = GET m q ∧ GET m' (q + 4) = GET m (q + 4)) :
    ∀ pw, Seg m pw l nw → Seg m' pw l nw := by
  induction l with
  | nil => intro pw _; trivial
  | cons p t ih =>
    intro pw h
    obtain ⟨h1, h2, h3⟩ := h
    have hp := hm p (List.mem_cons_self _ _)
    exact ⟨by rw [hp.2, h1], by rw [hp.1, h2],
      ih (fun q hq => hm q (List.mem_cons_of_mem _ hq)) _ h3⟩

/-- Changing the word that follows the segment: only the next link of the last
node is concerned. -/
theorem Seg_set_next (m m' : Mem) (l : List Nat) (nw nw' : Nat) (last : Nat)
    (hm : ∀ q ∈ l ++ [last], GET m' (q + 4) = GET m (q + 4) ∧ (q ≠ last → GET m' q = GET m q))
    (hl : GET m' last = nw') (hnd : (l ++ [last]).Nodup) :
    ∀ pw, Seg m pw (l ++ [last]) nw → Seg m' pw (l ++ [last]) nw' := by
  intro pw h
  rw [Seg_append] at h ⊢
  obtain ⟨h1, h2⟩ := h
  have hnd' := List.nodup_append.1 hnd
  constructor
  · simp only [headW] at h1 ⊢
    apply Seg_frame m m' l _ _ _ h1
    intro q hq
    have hne : q ≠ last := by
      intro he
      exact hnd'.2.2 hq (by simp [he])
    have := hm q (List.mem_append_left _ hq)
    exact ⟨this.2 hne, this.1⟩
  · simp only [Seg] at h2 ⊢
    have := hm last (by simp)
    exact ⟨by rw [this.1]; exact h2.1, by simp [headW, hl], trivial⟩

theorem lastW_append_singleton (l : List Nat) (q pw : Nat) :
    lastW (l ++ [q]) pw = ptr_to_word q := by
  induction l generalizing pw with
  | nil => rfl
  | cons p t ih => rw [List.cons_append]; simp only [lastW, ih]

theorem FIRST_eq : FIRST = HEAP_BASE + 144 := rfl

theorem BASE_mod8 : HEAP_BASE % 8 = 0 := by decide

theorem BASE_pos : 0 < HEAP_BASE := by decide

theorem BASE_lt : HEAP_BASE + 2 ^ 32 < 2 ^ 64 := by decide

theorem ptr_to_word_lt (p : Nat) : ptr_to_word p < 2 ^ 32 := by
  unfold ptr_to_word
  split
  · norm_num
  · exact Nat.mod_lt _ (by norm_num)

/-- Geometry and tags of a block of a well-formed heap. -/
theorem HeapOK.block {st : State} {bs : List (Nat × Bool)} {ch : Nat → List Nat}
    {X : List Nat} (H : HeapOK st bs ch X) {p s : Nat} {a : Bool}
    (hb : BlockAt FIRST bs p s a) :
    HEAP_BASE + 144 ≤ p ∧ p + s ≤ HEAP_BASE + 144 + total bs ∧ p % 8 = 0 ∧ 16 ≤ s ∧ s % 8 = 0
      ∧ GET st.mem (p - 4) = tagv s a ∧ GET st.mem (p + s - 8) = tagv s a
      ∧ total bs + 144 ≤ 2 ^ 32 := by
  have h1 := BlockAt_range bs p s a FIRST hb
  have h2 := H.sz _ (BlockAt_mem bs p s a FIRST hb)
  have h3 := BlockAt_mod8 bs (fun b hb => (H.sz b hb).2) p s a FIRST (by decide) hb
  have h4 := H.tags p s a hb
  have h5 := H.lim
  have h6 := H.brk
  rw [FIRST_eq] at h1
  simp only at h2
  refine ⟨h1.1, h1.2, h3, h2.1, h2.2, h4.1, h4.2, by omega⟩

theorem HeapOK.pos {st : State} {bs : List (Nat × Bool)} {ch : Nat → List Nat}
    {X : List Nat} (H : HeapOK st bs ch X) : ∀ b ∈ bs, 0 < b.1 := by
  intro b hb
  have := (H.sz b hb).1
  omega

/-- A block pointer determines the block. -/
theorem HeapOK.block_unique {st : State} {bs : List (Nat × Bool)} {ch : Nat → List Nat}
    {X : List Nat} (H : HeapOK st bs ch X) {p s s' : Nat} {a a' : Bool}
    (hb : BlockAt FIRST bs p s a) (hb' : BlockAt FIRST bs p s' a') : s = s' ∧ a = a' := by
  have h1 := H.block hb
  have h2 := H.block hb'
  rcases BlockAt_disj bs H.pos p s a p s' a' FIRST hb hb' with h | h | h
  · exact h.2
  · omega
  · omega

/-- Distinct blocks are at least 16 bytes apart. -/
theorem HeapOK.block_apart {st : State} {bs : List (Nat × Bool)} {ch : Nat → List Nat}
    {X : List Nat} (H : HeapOK st bs ch X) {p s p' s' : Nat} {a a' : Bool}
    (hb : BlockAt FIRST bs p s a) (hb' : BlockAt FIRST bs p' s' a') (hne : p ≠ p') :
    p + s ≤ p' ∨ p' + s' ≤ p := by
  rcases BlockAt_disj bs H.pos p s a p' s' a' FIRST hb hb' with h | h | h
  · exact absurd h.1 hne
  · exact Or.inl h
  · exact Or.inr h

/-- Facts about a chain node. -/
theorem HeapOK.node {st : State} {bs : List (Nat × Bool)} {ch : Nat → List Nat}
    {X : List Nat} (H : HeapOK st bs ch X) {i p : Nat} (hi : i < 16) (hp : p ∈ ch i) :
    HEAP_BASE + 144 ≤ p ∧ p + 16 ≤ HEAP_BASE + 2 ^ 32 ∧ p % 8 = 0 ∧ p ∉ X
      ∧ ptr_to_word p = p - HEAP_BASE ∧ word_to_ptr (p - HEAP_BASE) = p
      ∧ p - HEAP_BASE ≠ 0 := by
  obtain ⟨hx, s, hb, _⟩ := H.sound i hi p hp
  have h1 := H.block hb
  refine ⟨h1.1, by omega, h1.2.2.1, hx, ptr_to_word_eq p (by omega) (by omega),
    word_to_ptr_sub p (by omega) (by omega), by omega⟩

theorem HeapOK.node_ne {st : State} {bs : List (Nat × Bool)} {ch : Nat → List Nat}
    {X : List Nat} (H : HeapOK st bs ch X) {i j p q : Nat} (hi : i < 16) (hj : j < 16)
    (hp : p ∈ ch i) (hq : q ∈ ch j) (hij : i ≠ j) : p ≠ q := by
  intro he
  obtain ⟨_, s, hb, hs⟩ := H.sound i hi p hp
  obtain ⟨_, s', hb', hs'⟩ := H.sound j hj q hq
  rw [← he] at hb'
  have := (H.block_unique hb hb').1
  rw [← this, hs] at hs'
  exact hij hs'

/-- Structural words lie outside the area touched by relinking. -/
theorem HeapOK.tag_not_free {st : State} {bs : List (Nat × Bool)} {ch : Nat → List Nat}
    {X : List Nat} (H : HeapOK st bs ch X) {p s : Nat} {al : Bool}
    (hb : BlockAt FIRST bs p s al) (a : Nat)
    (ha : (p - 4 ≤ a ∧ a < p) ∨ (p + s - 8 ≤ a ∧ a < p + s - 4)
      ∨ (al = true ∧ p ≤ a ∧ a < p + s)) :
    ¬ FreeArea bs a := by
  have h1 := H.block hb
  rintro (h | ⟨p', s', hb', h2, h3⟩)
  · omega
  · have h1' := H.block hb'
    rcases BlockAt_disj bs H.pos p s al p' s' false FIRST hb hb' with h | h | h
    · rcases ha with ha | ha | ha
      · omega
      · omega
      · rw [ha.1] at h; simp at h
    · omega
    · omega

theorem HeapOK.fixed_not_free {st : State} {bs : List (Nat × Bool)} {ch : Nat → List Nat}
    {X : List Nat} (H : HeapOK st bs ch X) (a : Nat)
    (ha : (HEAP_BASE + 128 ≤ a ∧ a < HEAP_BASE + 140) ∨ HEAP_BASE + 140 + total bs ≤ a) :
    ¬ FreeArea bs a := by
  rintro (h | ⟨p', s', hb', h2, h3⟩)
  · omega
  · have h1' := H.block hb'
    omega

/-- Relinking: a memory that differs from the old one only on bucket heads and
link words of free blocks still holds all boundary tags; the chains are what
the caller shows them to be. -/
theorem HeapOK.relink {st : State} {bs : List (Nat × Bool)} {ch : Nat → List Nat}
    {X : List Nat} (H : HeapOK st bs ch X) (st' : State) (ch' : Nat → List Nat)
    (X' : List Nat)
    (hla : st'.list_addr = st.list_addr) (hhl : st'.heap_listp = st.heap_listp)
    (hbrk : st'.brk = st.brk)
    (hfr : ∀ a, ¬ FreeArea bs a → st'.mem a = st.mem a)
    (hheads : ∀ i, i < 16 → GETP st'.mem (HEAP_BASE + 8 * i) = headP (ch' i))
    (hlinks : ∀ i, i < 16 → Seg st'.mem 0 (ch' i) 0)
    (hsound : ∀ i, i < 16 → ∀ p ∈ ch' i,
      p ∉ X' ∧ ∃ s, BlockAt FIRST bs p s false ∧ getNumber s = i)
    (hcomplete : ∀ p s, BlockAt FIRST bs p s false → p ∈ ch' (getNumber s) ∨ p ∈ X')
    (hnodup : ∀ i, i < 16 → (ch' i).Nodup) :
    HeapOK st' bs ch' X' := by
  refine ⟨by rw [hla, H.la], by rw [hhl, H.hl], by rw [hbrk, H.brk], by rw [hbrk]; exact H.lim,
    ?_, ?_, ?_, H.sz, ?_, hheads, hlinks, hsound, hcomplete, hnodup⟩
  · rw [← H.pro1]
    exact GET_congr _ _ _ (fun a h1 h2 => hfr a (H.fixed_not_free a (by omega)))
  · rw [← H.pro2]
    exact GET_congr _ _ _ (fun a h1 h2 => hfr a (H.fixed_not_free a (by omega)))
  · rw [← H.epi]
    refine GET_congr _ _ _ (fun a h1 h2 => hfr a (H.fixed_not_free a ?_))
    rw [FIRST_eq] at h1
    omega
  · intro p s al hb
    have h1 := H.block hb
    constructor
    · rw [← h1.2.2.2.2.2.1]
      exact GET_congr _ _ _ (fun a h1 h2 => hfr a (H.tag_not_free hb a (by omega)))
    · rw [← h1.2.2.2.2.2.2.1]
      exact GET_congr _ _ _ (fun a h1 h2 => hfr a (H.tag_not_free hb a (by omega)))

theorem GET_PUT_same_lt (m : Mem) (p v : Nat) (h : v < 2 ^ 32) : GET (PUT m p v) p = v := by
  rw [GET_PUT_same, Nat.mod_eq_of_lt h]

theorem not_free_heads {bs : List (Nat × Bool)} {a : Nat} (ha : ¬ FreeArea bs a) :
    HEAP_BASE + 128 ≤ a := by
  by_contra h
  exact ha (Or.inl (by omega))

theorem not_free_node {bs : List (Nat × Bool)} {a : Nat} (ha : ¬ FreeArea bs a)
    {p s : Nat} (hb : BlockAt FIRST bs p s false) : a < p ∨ p + 8 ≤ a := by
  by_contra h
  exact ha (Or.inr ⟨p, s, hb, by omega, by omega⟩)

/-- Insertion of a free block that is in no chain at the head of its bucket. -/
theorem add_block_ok {st : State} {bs : List (Nat × Bool)} {ch : Nat → List Nat}
    {X : List Nat} (H : HeapOK st bs ch X) {bp s : Nat}
    (hb : BlockAt FIRST bs bp s false) (hX : bp ∈ X) (X' : List Nat)
    (hX1 : ∀ x ∈ X, x = bp ∨ x ∈ X') (hX2 : ∀ x ∈ X', x ∈ X ∧ x ≠ bp) :
    HeapOK (add_block bp st) bs
        (Function.update ch (getNumber s) (bp :: ch (getNumber s))) X'
      ∧ (∀ a, ¬ FreeArea bs a → (add_block bp st).mem a = st.mem a)
      ∧ (add_block bp st).sbrk_calls = st.sbrk_calls := by
  have hblk := H.block hb
  obtain ⟨hb1, hb2, hb3, hb4, hb5, hb6, hb7, hb8⟩ := hblk
  have hsize : GET_SIZE st.mem (HDRP bp) = s := GET_SIZE_tag _ _ _ _ hb6 hb5
  have hi : getNumber s < 16 := getNumber_lt s
  generalize hidef : getNumber s = i at *
  have hnot : ∀ j, j < 16 → bp ∉ ch j := fun j hj hm => (H.sound j hj bp hm).1 hX
  have hhead := H.heads i hi
  have hlink := H.links i hi
  have hwbp := ptr_to_word_lt bp
  have hB := BASE_lt
  have hB8 := BASE_mod8
  have hsound : ∀ j, j < 16 → ∀ p ∈ Function.update ch i (bp :: ch i) j,
      p ∉ X' ∧ ∃ s, BlockAt FIRST bs p s false ∧ getNumber s = j := by
    intro j hj p hp
    by_cases hji : j = i
    · subst hji
      rw [Function.update_same] at hp
      rcases List.mem_cons.1 hp with hp | hp
      · subst hp
        exact ⟨fun h => (hX2 _ h).2 rfl, s, hb, hidef⟩
      · obtain ⟨h1, h2⟩ := H.sound j hj p hp
        exact ⟨fun h => h1 (hX2 _ h).1, h2⟩
    · rw [Function.update_noteq hji] at hp
      obtain ⟨h1, h2⟩ := H.sound j hj p hp
      exact ⟨fun h => h1 (hX2 _ h).1, h2⟩
  have hcomplete : ∀ p s', BlockAt FIRST bs p s' false →
      p ∈ Function.update ch i (bp :: ch i) (getNumber s') ∨ p ∈ X' := by
    intro p s' hp
    by_cases hpb : p = bp
    · subst hpb
      have := (H.block_unique hb hp).1
      rw [← this, hidef, Function.update_same]
      left; exact List.mem_cons_self _ _
    · rcases H.complete p s' hp with h | h
      · left
        by_cases hji : getNumber s' = i
        · rw [hji, Function.update_same]
          rw [hji] at h
          exact List.mem_cons_of_mem _ h
        · rw [Function.update_noteq hji]; exact h
      · rcases hX1 p h with h | h
        · exact absurd h hpb
        · right; exact h
  have hnodup : ∀ j, j < 16 → (Function.update ch i (bp :: ch i) j).Nodup := by
    intro j hj
    by_cases hji : j = i
    · subst hji
      rw [Function.update_same]
      exact List.nodup_cons.2 ⟨hnot j hj, H.nodup j hj⟩
    · rw [Function.update_noteq hji]; exact H.nodup j hj
  obtain hl | ⟨q, t, hl⟩ : ch i = [] ∨ ∃ q t, ch i = q :: t := by
    cases ch i
    · exact Or.inl rfl
    · exact Or.inr ⟨_, _, rfl⟩
  ·
    have heq : add_block bp st = ((st.putp (HEAP_BASE + 8 * i) bp).put (bp + 4) 0).put bp 0 := by
      unfold add_block
      simp only [hsize, hidef, H.la, hhead, hl, headP, WSIZE, if_true]
    rw [heq]
    have hfr : ∀ a, ¬ FreeArea bs a →
        (((st.putp (HEAP_BASE + 8 * i) bp).put (bp + 4) 0).put bp 0).mem a = st.mem a := by
      intro a ha
      have h1 := not_free_heads ha
      have h2 := not_free_node ha hb
      simp only [put_mem, putp_mem]
      rw [PUT_other _ _ _ _ (by omega), PUT_other _ _ _ _ (by omega),
        PUTP_other _ _ _ _ (by omega)]
    refine ⟨H.relink _ _ _ rfl rfl rfl hfr ?_ ?_ hsound hcomplete hnodup, hfr, rfl⟩
    · intro j hj
      by_cases hji : j = i
      · subst hji
        simp only [put_mem, putp_mem, Function.update_same, headP]
        rw [GETP_PUT_other _ _ _ _ (by omega), GETP_PUT_other _ _ _ _ (by omega),
          GETP_PUTP_same _ _ _ (by omega)]
      · simp only [put_mem, putp_mem, Function.update_noteq hji]
        rw [GETP_PUT_other _ _ _ _ (by omega), GETP_PUT_other _ _ _ _ (by omega),
          GETP_PUTP_other _ _ _ _ (by omega)]
        exact H.heads j hj
    · intro j hj
      by_cases hji : j = i
      · subst hji
        simp only [put_mem, putp_mem, Function.update_same, hl, Seg, headW, and_true]
        rw [GET_PUT_other _ _ _ _ (by omega), GET_PUT_same_lt _ _ _ (by omega),
          GET_PUT_same_lt _ _ _ (by omega)]
        exact ⟨rfl, rfl⟩
      · rw [Function.update_noteq hji]
        apply Seg_frame st.mem _ _ _ _ _ (H.links j hj)
        intro q hq
        have hq1 := H.node hj hq
        have hq2 : q ≠ bp := fun h => hnot j hj (h ▸ hq)
        simp only [put_mem, putp_mem]
        rw [GET_PUT_other _ _ _ _ (by omega), GET_PUT_other _ _ _ _ (by omega),
          GET_PUTP_other _ _ _ _ (by omega), GET_PUT_other _ _ _ _ (by omega),
          GET_PUT_other _ _ _ _ (by omega), GET_PUTP_other _ _ _ _ (by omega)]
        exact ⟨rfl, rfl⟩
  ·
    have hq := H.node hi (hl ▸ List.mem_cons_self q t : q ∈ ch i)
    obtain ⟨_, sq, hbq, _⟩ := H.sound i hi q (hl ▸ List.mem_cons_self q t : q ∈ ch i)
    have hqb : q ≠ bp := fun h => hnot i hi (h ▸ (hl ▸ List.mem_cons_self q t : q ∈ ch i))
    have hq0 : q ≠ 0 := by omega
    have hwq := ptr_to_word_lt q
    have heq : add_block bp st =
        ((((st.putp (HEAP_BASE + 8 * i) bp).put (bp + 4) 0).put bp (ptr_to_word q)).put
          (q + 4) (ptr_to_word bp)) := by
      unfold add_block
      simp only [hsize, hidef, H.la, hhead, hl, headP, WSIZE, hq0, if_false]
    rw [heq]
    have hfr : ∀ a, ¬ FreeArea bs a →
        ((((st.putp (HEAP_BASE + 8 * i) bp).put (bp + 4) 0).put bp (ptr_to_word q)).put
          (q + 4) (ptr_to_word bp)).mem a = st.mem a := by
      intro a ha
      have h1 := not_free_heads ha
      have h2 := not_free_node ha hb
      have h3 := not_free_node ha hbq
      simp only [put_mem, putp_mem]
      rw [PUT_other _ _ _ _ (by omega), PUT_other _ _ _ _ (by omega),
        PUT_other _ _ _ _ (by omega), PUTP_other _ _ _ _ (by omega)]
    refine ⟨H.relink _ _ _ rfl rfl rfl hfr ?_ ?_ hsound hcomplete hnodup, hfr, rfl⟩
    · intro j hj
      by_cases hji : j = i
      · subst hji
        simp only [put_mem, putp_mem, Function.update_same, headP]
        rw [GETP_PUT_other _ _ _ _ (by omega), GETP_PUT_other _ _ _ _ (by omega),
          GETP_PUT_other _ _ _ _ (by omega), GETP_PUTP_same _ _ _ (by omega)]
      · simp only [put_mem, putp_mem, Function.update_noteq hji]
        rw [GETP_PUT_other _ _ _ _ (by omega), GETP_PUT_other _ _ _ _ (by omega),
          GETP_PUT_other _ _ _ _ (by omega), GETP_PUTP_other _ _ _ _ (by omega)]
        exact H.heads j hj
    · intro j hj
      by_cases hji : j = i
      · subst hji
        rw [hl] at hlink
        obtain ⟨hk1, hk2, hk3⟩ := hlink
        simp only [put_mem, putp_mem, Function.update_same, hl, Seg, headW]
        rw [GET_PUT_other _ _ _ _ (by omega), GET_PUT_other _ _ _ _ (by omega),
          GET_PUT_same_lt _ _ _ (by omega), GET_PUT_other _ _ _ _ (by omega),
          GET_PUT_same_lt _ _ _ (by omega), GET_PUT_same_lt _ _ _ (by omega),
          GET_PUT_other _ _ _ _ (by omega), GET_PUT_other _ _ _ _ (by omega),
          GET_PUT_other _ _ _ _ (by omega), GET_PUTP_other _ _ _ _ (by omega)]
        refine ⟨rfl, rfl, rfl, hk2, ?_⟩
        apply Seg_frame st.mem _ _ _ _ _ hk3
        intro r hr
        have hr1 := H.node hj (hl ▸ List.mem_cons_of_mem q hr : r ∈ ch j)
        have hr2 : r ≠ bp := fun h => hnot j hj (h ▸ (hl ▸ List.mem_cons_of_mem q hr : r ∈ ch j))
        have hr3 : r ≠ q := by
          have := H.nodup j hj
          rw [hl] at this
          intro h
          exact (List.nodup_cons.1 this).1 (h ▸ hr)
        rw [GET_PUT_other _ _ _ _ (by omega), GET_PUT_other _ _ _ _ (by omega),
          GET_PUT_other _ _ _ _ (by omega), GET_PUTP_other _ _ _ _ (by omega),
          GET_PUT_other _ _ _ _ (by omega), GET_PUT_other _ _ _ _ (by omega),
          GET_PUT_other _ _ _ _ (by omega), GET_PUTP_other _ _ _ _ (by omega)]
        exact ⟨rfl, rfl⟩
      · rw [Function.update_noteq hji]
        apply Seg_frame st.mem _ _ _ _ _ (H.links j hj)
        intro r hr
        have hr1 := H.node hj hr
        have hr2 : r ≠ bp := fun h => hnot j hj (h ▸ hr)
        have hr3 : r ≠ q := fun h =>
          H.node_ne hj hi hr (hl ▸ List.mem_cons_self q t : q ∈ ch i) hji h
        simp only [put_mem, putp_mem]
        rw [GET_PUT_other _ _ _ _ (by omega), GET_PUT_other _ _ _ _ (by omega),
          GET_PUT_other _ _ _ _ (by omega), GET_PUTP_other _ _ _ _ (by omega),
          GET_PUT_other _ _ _ _ (by omega), GET_PUT_other _ _ _ _ (by omega),
          GET_PUT_other _ _ _ _ (by omega), GET_PUTP_other _ _ _ _ (by omega)]
        exact ⟨rfl, rfl⟩

/-- Heads and links of a bucket whose head slot and nodes are left alone. -/
theorem HeapOK.chain_frame {st : State} {bs : List (Nat × Bool)} {ch : Nat → List Nat}
    {X : List Nat} (H : HeapOK st bs ch X) (m' : Mem) {j : Nat} (hj : j < 16)
    (hm : ∀ a, ((HEAP_BASE + 8 * j ≤ a ∧ a < HEAP_BASE + 8 * j + 8)
      ∨ ∃ x ∈ ch j, x ≤ a ∧ a < x + 8) → m' a = st.mem a) :
    GETP m' (HEAP_BASE + 8 * j) = headP (ch j) ∧ Seg m' 0 (ch j) 0 := by
  constructor
  · rw [← H.heads j hj]
    exact GETP_congr _ _ _ (fun a h1 h2 => hm a (Or.inl ⟨h1, h2⟩))
  · apply Seg_frame st.mem _ _ _ _ _ (H.links j hj)
    intro q hq
    constructor
    · exact GET_congr _ _ _ (fun a h1 h2 => hm a (Or.inr ⟨q, hq, h1, by omega⟩))
    · exact GET_congr _ _ _ (fun a h1 h2 => hm a (Or.inr ⟨q, hq, by omega, by omega⟩))

/-- A store into the link words of a free block that is in no chain. -/
theorem float_write_ok {st : State} {bs : List (Nat × Bool)} {ch : Nat → List Nat}
    {X : List Nat} (H : HeapOK st bs ch X) {bp s : Nat}
    (hb : BlockAt FIRST bs bp s false) (hX : bp ∈ X) (w v : Nat)
    (hw : w = bp ∨ w = bp + 4) :
    HeapOK (st.put w v) bs ch X
      ∧ (∀ a, ¬ FreeArea bs a → (st.put w v).mem a = st.mem a) := by
  have hblk := H.block hb
  have hfr : ∀ a, ¬ FreeArea bs a → (st.put w v).mem a = st.mem a := by
    intro a ha
    have h2 := not_free_node ha hb
    simp only [put_mem]
    rw [PUT_other _ _ _ _ (by omega)]
  have hch : ∀ j, j < 16 →
      GETP (st.put w v).mem (HEAP_BASE + 8 * j) = headP (ch j) ∧ Seg (st.put w v).mem 0 (ch j) 0 := by
    intro j hj
    apply H.chain_frame _ hj
    intro a ha
    simp only [put_mem]
    apply PUT_other
    rcases ha with ha | ⟨x, hx, ha⟩
    · omega
    · have hx1 := H.node hj hx
      have : x ≠ bp := fun h => hx1.2.2.2.1 (h ▸ hX)
      omega
  exact ⟨H.relink _ _ _ rfl rfl rfl hfr (fun j hj => (hch j hj).1) (fun j hj => (hch j hj).2)
    H.sound H.complete H.nodup, hfr⟩

theorem del_block_eq1 (bp : Nat) (st : State) (h1 : GET st.mem (bp + 4) = 0)
    (h2 : GET st.mem bp = 0) :
    del_block bp st = st.putp (st.list_addr + 8 * getNumber (GET_SIZE st.mem (HDRP bp))) 0 := by
  unfold del_block
  simp [PREV_LINK, NEXT_LINK, WSIZE, h1, h2]

theorem del_block_eq2 (bp : Nat) (st : State) (h1 : GET st.mem (bp + 4) = 0)
    (h2 : GET st.mem bp ≠ 0) :
    del_block bp st =
      (st.putp (st.list_addr + 8 * getNumber (GET_SIZE st.mem (HDRP bp)))
        (word_to_ptr (GET st.mem bp))).put
        (word_to_ptr (GET (PUTP st.mem (st.list_addr + 8 * getNumber (GET_SIZE st.mem (HDRP bp)))
          (word_to_ptr (GET st.mem bp))) bp) + 4) 0 := by
  unfold del_block
  simp [PREV_LINK, NEXT_LINK, WSIZE, h1, h2]

theorem del_block_eq3 (bp : Nat) (st : State) (h1 : GET st.mem (bp + 4) ≠ 0)
    (h2 : GET st.mem bp = 0) :
    del_block bp st = (st.put (word_to_ptr (GET st.mem (bp + 4))) 0).put (bp + 4) 0 := by
  unfold del_block
  simp [PREV_LINK, NEXT_LINK, WSIZE, h1, h2]

theorem del_block_eq4 (bp : Nat) (st : State) (h1 : GET st.mem (bp + 4) ≠ 0)
    (h2 : GET st.mem bp ≠ 0) :
    del_block bp st =
      (st.put (word_to_ptr (GET st.mem bp) + 4) (GET st.mem (bp + 4))).put
        (word_to_ptr (GET (PUT st.mem (word_to_ptr (GET st.mem bp) + 4) (GET st.mem (bp + 4)))
          (bp + 4)))
        (GET (PUT st.mem (word_to_ptr (GET st.mem bp) + 4) (GET st.mem (bp + 4))) bp) := by
  unfold del_block
  simp [PREV_LINK, NEXT_LINK, WSIZE, h1, h2]

theorem headP_append (xs ys : List Nat) (h : xs ≠ []) : headP (xs ++ ys) = headP xs := by
  cases xs with
  | nil => exact absurd rfl h
  | cons a t => rfl

theorem headP_concat (xs : List Nat) (r : Nat) (ys : List Nat) :
    headP (xs ++ [r] ++ ys) = headP (xs ++ [r]) :=
  headP_append _ _ (by simp)

/-- Surgery on one chain that only removes nodes from it. -/
theorem HeapOK.relink_chain {st : State} {bs : List (Nat × Bool)} {ch : Nat → List Nat}
    {X : List Nat} (H : HeapOK st bs ch X) (st' : State) {i : Nat} (hi : i < 16)
    (l' : List Nat) (X' : List Nat)
    (hla : st'.list_addr = st.list_addr) (hhl : st'.heap_listp = st.heap_listp)
    (hbrk : st'.brk = st.brk)
    (hm : ∀ a, (a < HEAP_BASE + 8 * i ∨ HEAP_BASE + 8 * i + 8 ≤ a) →
      (∀ x ∈ ch i, a < x ∨ x + 8 ≤ a) → st'.mem a = st.mem a)
    (hhead : GETP st'.mem (HEAP_BASE + 8 * i) = headP l') (hlink : Seg st'.mem 0 l' 0)
    (hsub : ∀ q ∈ l', q ∈ ch i) (hnd : l'.Nodup)
    (hX1 : ∀ q ∈ l', q ∉ X') (hX2 : ∀ x ∈ X', x ∈ X ∨ x ∈ ch i)
    (hcomp : ∀ q ∈ ch i, q ∈ l' ∨ q ∈ X') (hX3 : ∀ x ∈ X, x ∈ X') :
    HeapOK st' bs (Function.update ch i l') X'
      ∧ (∀ a, ¬ FreeArea bs a → st'.mem a = st.mem a) := by
  have hB8 := BASE_mod8
  have hfr : ∀ a, ¬ FreeArea bs a → st'.mem a = st.mem a := by
    intro a ha
    have h1 := not_free_heads ha
    apply hm a (by omega)
    intro x hx
    obtain ⟨_, s, hb, _⟩ := H.sound i hi x hx
    exact not_free_node ha hb
  refine ⟨H.relink st' _ X' hla hhl hbrk hfr ?_ ?_ ?_ ?_ ?_, hfr⟩
  · intro j hj
    by_cases hji : j = i
    · subst hji; rw [Function.update_same]; exact hhead
    · rw [Function.update_noteq hji]
      refine (H.chain_frame st'.mem hj ?_).1
      intro a ha
      rcases ha with ha | ⟨x, hx, ha⟩
      · apply hm a (by omega)
        intro y hy
        have := H.node hi hy
        omega
      · have hx1 := H.node hj hx
        apply hm a (by omega)
        intro y hy
        have hy1 := H.node hi hy
        have := H.node_ne hj hi hx hy hji
        omega
  · intro j hj
    by_cases hji : j = i
    · subst hji; rw [Function.update_same]; exact hlink
    · rw [Function.update_noteq hji]
      refine (H.chain_frame st'.mem hj ?_).2
      intro a ha
      rcases ha with ha | ⟨x, hx, ha⟩
      · apply hm a (by omega)
        intro y hy
        have := H.node hi hy
        omega
      · have hx1 := H.node hj hx
        apply hm a (by omega)
        intro y hy
        have hy1 := H.node hi hy
        have := H.node_ne hj hi hx hy hji
        omega
  · intro j hj q hq
    by_cases hji : j = i
    · subst hji
      rw [Function.update_same] at hq
      exact ⟨hX1 q hq, (H.sound j hj q (hsub q hq)).2⟩
    · rw [Function.update_noteq hji] at hq
      refine ⟨?_, (H.sound j hj q hq).2⟩
      intro hx
      rcases hX2 q hx with h | h
      · exact (H.sound j hj q hq).1 h
      · exact H.node_ne hj hi hq h hji rfl
  · intro q s hb
    rcases H.complete q s hb with h | h
    · by_cases hji : getNumber s = i
      · rw [hji, Function.update_same]
        rw [hji] at h
        exact hcomp q h
      · rw [Function.update_noteq hji]; exact Or.inl h
    · exact Or.inr (hX3 q h)
  · intro j hj
    by_cases hji : j = i
    · subst hji; rw [Function.update_same]; exact hnd
    · rw [Function.update_noteq hji]; exact H.nodup j hj

/-- Removal of a chain node from its bucket. -/
theorem del_block_ok {st : State} {bs : List (Nat × Bool)} {ch : Nat → List Nat}
    {X : List Nat} (H : HeapOK st bs ch X) {i p : Nat} (hi : i < 16) (hp : p ∈ ch i) :
    HeapOK (del_block p st) bs (Function.update ch i ((ch i).erase p)) (p :: X)
      ∧ (∀ a, ¬ FreeArea bs a → (del_block p st).mem a = st.mem a)
      ∧ (del_block p st).sbrk_calls = st.sbrk_calls := by
  have hB := BASE_lt
  have hB8 := BASE_mod8
  obtain ⟨xs, ys, hl⟩ := List.append_of_mem hp
  have hnd := H.nodup i hi
  rw [hl] at hnd
  obtain ⟨hndx, hndy, hdis⟩ := List.nodup_append.1 hnd
  obtain ⟨hpys, hndys⟩ := List.nodup_cons.1 hndy
  have hpxs : p ∉ xs := fun h => hdis h (List.mem_cons_self _ _)
  have hxy : ∀ x ∈ xs, x ∉ ys := fun x hx hy => hdis hx (List.mem_cons_of_mem _ hy)
  have herase : (ch i).erase p = xs ++ ys := by
    rw [hl, List.erase_append_right _ hpxs, List.erase_cons_head]
  rw [herase]
  obtain ⟨hx, s, hb, hs⟩ := H.sound i hi p hp
  obtain ⟨hb1, hb2, hb3, hb4, hb5, hb6, hb7, hb8⟩ := H.block hb
  have hsize : GET_SIZE st.mem (HDRP p) = s := GET_SIZE_tag _ _ _ _ hb6 hb5
  have hla := H.la
  have hmem : ∀ q, q ∈ xs ++ ys → q ∈ ch i := by
    intro q hq
    rw [hl]
    rcases List.mem_append.1 hq with h | h
    · exact List.mem_append_left _ h
    · exact List.mem_append_right _ (List.mem_cons_of_mem _ h)
  have hndxy : (xs ++ ys).Nodup :=
    List.nodup_append.2 ⟨hndx, hndys, fun a h1 h2 => hxy a h1 h2⟩
  have hX1 : ∀ q ∈ xs ++ ys, q ∉ p :: X := by
    intro q hq hqx
    rcases List.mem_cons.1 hqx with h | h
    · subst h
      rcases List.mem_append.1 hq with h | h
      · exact hpxs h
      · exact hpys h
    · exact (H.sound i hi q (hmem q hq)).1 h
  have hX2 : ∀ x ∈ p :: X, x ∈ X ∨ x ∈ ch i := by
    intro x hx
    rcases List.mem_cons.1 hx with h | h
    · right; rw [h]; exact hp
    · left; exact h
  have hcomp : ∀ q ∈ ch i, q ∈ xs ++ ys ∨ q ∈ p :: X := by
    intro q hq
    rw [hl] at hq
    rcases List.mem_append.1 hq with h | h
    · left; exact List.mem_append_left _ h
    · rcases List.mem_cons.1 h with h | h
      · right; rw [h]; exact List.mem_cons_self _ _
      · left; exact List.mem_append_right _ h
  have hX3 : ∀ x ∈ X, x ∈ p :: X := fun x hx => List.mem_cons_of_mem _ hx
  have hseg := H.links i hi
  rw [hl, Seg_append] at hseg
  obtain ⟨hs1, hs2, hs3, hs4⟩ := hseg
  simp only [headW] at hs1
  have hhd := H.heads i hi
  rw [hl] at hhd
  have hnp := H.node hi hp
  rcases List.eq_nil_or_concat xs with hxs | ⟨xs', r, hxs⟩
  · subst hxs
    simp only [lastW] at hs2
    simp only [List.nil_append] at *
    cases ys with
    | nil =>
      simp only [headW] at hs3
      have heq : del_block p st = st.putp (HEAP_BASE + 8 * i) 0 := by
        rw [del_block_eq1 p st hs2 hs3, hsize, hs, hla]
      rw [heq]
      obtain ⟨h1, h2⟩ := H.relink_chain (st.putp (HEAP_BASE + 8 * i) 0) hi [] (p :: X)
        rfl rfl rfl
        (by intro a ha _; simp only [putp_mem]; exact PUTP_other _ _ _ _ (by omega))
        (by simp only [putp_mem, headP]; exact GETP_PUTP_same _ _ _ (by norm_num))
        trivial hmem hndxy hX1 hX2 hcomp hX3
      exact ⟨h1, h2, rfl⟩
    | cons q t =>
      simp only [headW] at hs3
      have hq : q ∈ ch i := hmem q (List.mem_cons_self _ _)
      have hnq := H.node hi hq
      have hqp : q ≠ p := fun h => hpys (h ▸ List.mem_cons_self _ _)
      obtain ⟨hq1, hq2, hq3⟩ := hs4
      have hnext : GET st.mem p ≠ 0 := by rw [hs3, hnq.2.2.2.2.1]; exact hnq.2.2.2.2.2.2
      have hwq : word_to_ptr (GET st.mem p) = q := by rw [hs3, hnq.2.2.2.2.1]; exact hnq.2.2.2.2.2.1
      have heq : del_block p st = (st.putp (HEAP_BASE + 8 * i) q).put (q + 4) 0 := by
        rw [del_block_eq2 p st hs2 hnext, hsize, hs, hla, GET_PUTP_other _ _ _ _ (by omega), hwq]
      rw [heq]
      obtain ⟨h1, h2⟩ := H.relink_chain ((st.putp (HEAP_BASE + 8 * i) q).put (q + 4) 0)
        hi (q :: t) (p :: X) rfl rfl rfl
        (by
          intro a ha hx
          have := hx q hq
          simp only [putp_mem, put_mem]
          rw [PUT_other _ _ _ _ (by omega), PUTP_other _ _ _ _ (by omega)])
        (by
          simp only [putp_mem, put_mem, headP]
          rw [GETP_PUT_other _ _ _ _ (by omega), GETP_PUTP_same _ _ _ (by omega)])
        (by
          simp only [putp_mem, put_mem, Seg]
          refine ⟨GET_PUT_same_lt _ _ _ (by norm_num), ?_, ?_⟩
          · rw [GET_PUT_other _ _ _ _ (by omega), GET_PUTP_other _ _ _ _ (by omega)]
            exact hq2
          · apply Seg_frame st.mem _ _ _ _ _ hq3
            intro r hr
            have hr1 := H.node hi (hmem r (List.mem_cons_of_mem _ hr))
            have hr2 : r ≠ q := fun h => (List.nodup_cons.1 hndys).1 (h ▸ hr)
            rw [GET_PUT_other _ _ _ _ (by omega), GET_PUTP_other _ _ _ _ (by omega),
              GET_PUT_other _ _ _ _ (by omega), GET_PUTP_other _ _ _ _ (by omega)]
            exact ⟨rfl, rfl⟩)
        hmem hndxy hX1 hX2 hcomp hX3
      exact ⟨h1, h2, rfl⟩
  · rw [List.concat_eq_append] at hxs
    subst hxs
    rw [lastW_append_singleton] at hs2
    have hr : r ∈ ch i := hmem r (List.mem_append_left _ (by simp))
    have hnr := H.node hi hr
    have hrp : r ≠ p := fun h => hpxs (h ▸ (by simp))
    have hprev : GET st.mem (p + 4) ≠ 0 := by rw [hs2, hnr.2.2.2.2.1]; exact hnr.2.2.2.2.2.2
    have hwr : word_to_ptr (GET st.mem (p + 4)) = r := by
      rw [hs2, hnr.2.2.2.2.1]; exact hnr.2.2.2.2.2.1
    cases ys with
    | nil =>
      simp only [headW] at hs3
      have heq : del_block p st = (st.put r 0).put (p + 4) 0 := by
        rw [del_block_eq3 p st hprev hs3, hwr]
      rw [heq]
      obtain ⟨h1, h2⟩ := H.relink_chain ((st.put r 0).put (p + 4) 0)
        hi (xs' ++ [r] ++ []) (p :: X) rfl rfl rfl
        (by
          intro a ha hx
          have h3 := hx r hr
          have h4 := hx p hp
          simp only [put_mem]
          rw [PUT_other _ _ _ _ (by omega), PUT_other _ _ _ _ (by omega)])
        (by
          simp only [put_mem]
          rw [GETP_PUT_other _ _ _ _ (by omega), GETP_PUT_other _ _ _ _ (by omega), hhd,
            List.append_nil]
          exact headP_append _ _ (by simp))
        (by
          rw [List.append_nil]
          apply Seg_set_next st.mem _ xs' _ 0 r _ _ hndx 0 hs1
          · intro q hq
            have hq1 := H.node hi (hmem q (List.mem_append_left _ hq))
            have hq2 : q ≠ p := fun h => hpxs (h ▸ hq)
            simp only [put_mem]
            constructor
            · rw [GET_PUT_other _ _ _ _ (by omega)]
              by_cases hqr : q = r
              · subst hqr
                rw [GET_PUT_other _ _ _ _ (by omega)]
              · rw [GET_PUT_other _ _ _ _ (by omega)]
            · intro hqr
              rw [GET_PUT_other _ _ _ _ (by omega), GET_PUT_other _ _ _ _ (by omega)]
          · simp only [put_mem]
            rw [GET_PUT_other _ _ _ _ (by omega), GET_PUT_same_lt _ _ _ (by norm_num)])
        hmem hndxy hX1 hX2 hcomp hX3
      exact ⟨h1, h2, rfl⟩
    | cons q t =>
      simp only [headW] at hs3
      have hq : q ∈ ch i := hmem q (List.mem_append_right _ (List.mem_cons_self _ _))
      have hnq := H.node hi hq
      have hqp : q ≠ p := fun h => hpys (h ▸ List.mem_cons_self _ _)
      have hqr : r ≠ q := fun h => hxy r (by simp) (h ▸ List.mem_cons_self _ _)
      obtain ⟨hq1, hq2, hq3⟩ := hs4
      have hnext : GET st.mem p ≠ 0 := by rw [hs3, hnq.2.2.2.2.1]; exact hnq.2.2.2.2.2.2
      have hwq : word_to_ptr (GET st.mem p) = q := by rw [hs3, hnq.2.2.2.2.1]; exact hnq.2.2.2.2.2.1
      have hwr' := ptr_to_word_lt r
      have hwq' := ptr_to_word_lt q
      have heq : del_block p st =
          (st.put (q + 4) (ptr_to_word r)).put r (ptr_to_word q) := by
        rw [del_block_eq4 p st hprev hnext, hwq, GET_PUT_other _ _ _ _ (by omega),
          GET_PUT_other _ _ _ _ (by omega), hwr, hs2, hs3]
      rw [heq]
      obtain ⟨h1, h2⟩ := H.relink_chain ((st.put (q + 4) (ptr_to_word r)).put r (ptr_to_word q))
        hi (xs' ++ [r] ++ q :: t) (p :: X) rfl rfl rfl
        (by
          intro a ha hx
          have h3 := hx r hr
          have h4 := hx q hq
          simp only [put_mem]
          rw [PUT_other _ _ _ _ (by omega), PUT_other _ _ _ _ (by omega)])
        (by
          simp only [put_mem]
          rw [GETP_PUT_other _ _ _ _ (by omega), GETP_PUT_other _ _ _ _ (by omega), hhd]
          rw [headP_concat, headP_concat])
        (by
          rw [Seg_append]
          constructor
          · simp only [headW]
            apply Seg_set_next st.mem _ xs' _ _ r _ _ hndx 0 hs1
            · intro x hx
              have hx1 := H.node hi (hmem x (List.mem_append_left _ hx))
              have hx2 : x ≠ q := fun h => hxy x hx (h ▸ List.mem_cons_self _ _)
              simp only [put_mem]
              constructor
              · by_cases hxr : x = r
                · subst hxr
                  rw [GET_PUT_other _ _ _ _ (by omega), GET_PUT_other _ _ _ _ (by omega)]
                · rw [GET_PUT_other _ _ _ _ (by omega), GET_PUT_other _ _ _ _ (by omega)]
              · intro hxr
                rw [GET_PUT_other _ _ _ _ (by omega), GET_PUT_other _ _ _ _ (by omega)]
            · simp only [put_mem]
              exact GET_PUT_same_lt _ _ _ hwq'
          · rw [lastW_append_singleton]
            simp only [put_mem, Seg]
            refine ⟨?_, ?_, ?_⟩
            · rw [GET_PUT_other _ _ _ _ (by omega), GET_PUT_same_lt _ _ _ hwr']
            · rw [GET_PUT_other _ _ _ _ (by omega), GET_PUT_other _ _ _ _ (by omega)]
              exact hq2
            · apply Seg_frame st.mem _ _ _ _ _ hq3
              intro x hx
              have hx1 := H.node hi (hmem x (List.mem_append_right _ (List.mem_cons_of_mem _ hx)))
              have hx2 : x ≠ q := fun h => (List.nodup_cons.1 hndys).1 (h ▸ hx)
              have hx3 : x ≠ r := fun h => hxy r (by simp) (h ▸ List.mem_cons_of_mem _ hx)
              rw [GET_PUT_other _ _ _ _ (by omega), GET_PUT_other _ _ _ _ (by omega),
                GET_PUT_other _ _ _ _ (by omega), GET_PUT_other _ _ _ _ (by omega)]
              exact ⟨rfl, rfl⟩)
        hmem hndxy hX1 hX2 hcomp hX3
      exact ⟨h1, h2, rfl⟩

/-- Rewriting the boundary tags of a run `mid` of consecutive blocks, none of
which is in a chain, into those of `mid'`; also covers growth of the heap at
its end (`post = []`). -/
theorem HeapOK.retag {st : State} {pre mid post : List (Nat × Bool)} {ch : Nat → List Nat}
    {X : List Nat} (H : HeapOK st (pre ++ mid ++ post) ch X) (st' : State)
    (mid' : List (Nat × Bool)) (X' : List Nat)
    (hla : st'.list_addr = st.list_addr) (hhl : st'.heap_listp = st.heap_listp)
    (hbrk : st'.brk = 144 + total (pre ++ mid' ++ post)) (hlim : st'.brk ≤ 2 ^ 32)
    (htot : total mid' = total mid ∨ (post = [] ∧ total mid ≤ total mid'))
    (hlo : ∀ a, a < FIRST + total pre - 4 → st'.mem a = st.mem a)
    (hhi : ∀ a, FIRST + total pre + total mid - 4 ≤ a →
      a < FIRST + total (pre ++ mid ++ post) - 4 → st'.mem a = st.mem a)
    (hepi : GET st'.mem (FIRST + total (pre ++ mid' ++ post) - 4) = 1)
    (hsz : SizesOK mid') (htags : TagsOK st'.mem (FIRST + total pre) mid')
    (hfree : ∀ p s, BlockAt (FIRST + total pre) mid p s false → p ∈ X)
    (hX1 : ∀ x ∈ X', x ∈ X ∨ (FIRST + total pre ≤ x ∧ x < FIRST + total pre + total mid'))
    (hX2 : ∀ p s, BlockAt (FIRST + total pre) mid' p s false → p ∈ X')
    (hX3 : ∀ x ∈ X, x ∈ X' ∨ (FIRST + total pre ≤ x ∧ x < FIRST + total pre + total mid)) :
    HeapOK st' (pre ++ mid' ++ post) ch X' := by
  have hF := FIRST_eq
  have hB8 := BASE_mod8
  have hszs := H.sz
  rw [SizesOK_append, SizesOK_append] at hszs
  have htg := H.tags
  rw [TagsOK_append, TagsOK_append] at htg
  -- where a chain node lies
  have hnode : ∀ i, i < 16 → ∀ q ∈ ch i, ∃ s, getNumber s = i ∧ 16 ≤ s ∧
      ((BlockAt FIRST pre q s false ∧ q + s ≤ FIRST + total pre)
        ∨ (BlockAt (FIRST + total pre + total mid) post q s false
          ∧ FIRST + total pre + total mid ≤ q
          ∧ q + s ≤ FIRST + total pre + total mid + total post)) := by
    intro i hi q hq
    obtain ⟨hx, s, hb, hs⟩ := H.sound i hi q hq
    have hblk := H.block hb
    rw [BlockAt_append, BlockAt_append] at hb
    refine ⟨s, hs, hblk.2.2.2.1, ?_⟩
    rcases hb with (hb | hb) | hb
    · have := BlockAt_range _ _ _ _ _ hb
      exact Or.inl ⟨hb, this.2⟩
    · exact absurd (hfree q s hb) hx
    · rw [total_append] at hb
      have := BlockAt_range _ _ _ _ _ hb
      exact Or.inr ⟨by rw [Nat.add_assoc]; exact hb, by omega, by omega⟩
  have hpost : ∀ q s (a : Bool), BlockAt (FIRST + total pre + total mid) post q s a →
      BlockAt (FIRST + total pre + total mid') post q s a := by
    intro q s a hb
    rcases htot with h | h
    · rw [h]; exact hb
    · rw [h.1] at hb; exact hb.elim
  have hpost' : ∀ q s (a : Bool), BlockAt (FIRST + total pre + total mid') post q s a →
      BlockAt (FIRST + total pre + total mid) post q s a := by
    intro q s a hb
    rcases htot with h | h
    · rw [← h]; exact hb
    · rw [h.1] at hb; exact hb.elim
  have hmemframe : ∀ i, i < 16 → ∀ q ∈ ch i, ∀ a, q ≤ a → a < q + 8 → st'.mem a = st.mem a := by
    intro i hi q hq a h1 h2
    obtain ⟨s, _, hs16, h | h⟩ := hnode i hi q hq
    · exact hlo a (by omega)
    · exact hhi a (by omega) (by simp only [total_append]; omega)
  refine ⟨by rw [hla, H.la], by rw [hhl, H.hl], hbrk, hlim, ?_, ?_, hepi, ?_, ?_, ?_, ?_, ?_, ?_,
    H.nodup⟩
  · rw [← H.pro1]
    exact GET_congr _ _ _ (fun a h1 h2 => hlo a (by omega))
  · rw [← H.pro2]
    exact GET_congr _ _ _ (fun a h1 h2 => hlo a (by omega))
  · rw [SizesOK_append, SizesOK_append]
    exact ⟨⟨hszs.1.1, hsz⟩, hszs.2⟩
  · rw [TagsOK_append, TagsOK_append]
    refine ⟨⟨?_, htags⟩, ?_⟩
    · exact TagsOK_frame _ _ _ _ hszs.1.1 (by omega) htg.1.1 (fun x h1 h2 => hlo x (by omega))
    · intro q s a hb
      rw [total_append] at hb
      have hb' := hpost' q s a (by rw [Nat.add_assoc]; exact hb)
      have hr := BlockAt_range _ _ _ _ _ hb'
      have hs := hszs.2 _ (BlockAt_mem _ _ _ _ _ hb')
      simp only at hs
      have := htg.2 q s a (by rw [total_append, ← Nat.add_assoc]; exact hb')
      constructor
      · rw [← this.1]
        exact GET_congr _ _ _ (fun x h1 h2 =>
          hhi x (by omega) (by simp only [total_append]; omega))
      · rw [← this.2]
        exact GET_congr _ _ _ (fun x h1 h2 =>
          hhi x (by omega) (by simp only [total_append]; omega))
  · intro i hi
    rw [← H.heads i hi]
    exact GETP_congr _ _ _ (fun a h1 h2 => hlo a (by omega))
  · intro i hi
    apply Seg_frame st.mem _ _ _ _ _ (H.links i hi)
    intro q hq
    constructor
    · exact GET_congr _ _ _ (fun a h1 h2 => hmemframe i hi q hq a h1 (by omega))
    · exact GET_congr _ _ _ (fun a h1 h2 => hmemframe i hi q hq a (by omega) (by omega))
  · intro i hi q hq
    obtain ⟨s, hs, hs16, h | h⟩ := hnode i hi q hq
    · refine ⟨?_, s, ?_, hs⟩
      · intro hx
        rcases hX1 q hx with hx | hx
        · exact (H.sound i hi q hq).1 hx
        · omega
      · rw [BlockAt_append, BlockAt_append]
        exact Or.inl (Or.inl h.1)
    · refine ⟨?_, s, ?_, hs⟩
      · intro hx
        rcases hX1 q hx with hx | hx
        · exact (H.sound i hi q hq).1 hx
        · rcases htot with ht | ht
          · omega
          · rw [ht.1] at h; exact h.1.elim
      · rw [BlockAt_append, total_append, ← Nat.add_assoc]
        exact Or.inr (hpost q s false h.1)
  · intro q s hb
    rw [BlockAt_append, BlockAt_append] at hb
    rcases hb with (hb | hb) | hb
    · have hr := BlockAt_range _ _ _ _ _ hb
      have hs := hszs.1.1 _ (BlockAt_mem _ _ _ _ _ hb)
      simp only at hs
      rcases H.complete q s (by rw [BlockAt_append, BlockAt_append]; exact Or.inl (Or.inl hb))
        with h | h
      · exact Or.inl h
      · rcases hX3 q h with h | h
        · exact Or.inr h
        · omega
    · exact Or.inr (hX2 q s hb)
    · rw [total_append, ← Nat.add_assoc] at hb
      have hb' := hpost' q s false hb
      have hr := BlockAt_range _ _ _ _ _ hb'
      have hs := hszs.2 _ (BlockAt_mem _ _ _ _ _ hb')
      simp only at hs
      rcases H.complete q s (by
        rw [BlockAt_append, total_append, ← Nat.add_assoc]; exact Or.inr hb') with h | h
      · exact Or.inl h
      · rcases hX3 q h with h | h
        · exact Or.inr h
        · omega

@[simp] theorem lastAlloc_nil : lastAlloc [] = true := rfl

@[simp] theorem lastAlloc_concat (l : List (Nat × Bool)) (b : Nat × Bool) :
    lastAlloc (l ++ [b]) = b.2 := by
  simp [lastAlloc]

@[simp] theorem headAlloc_nil : headAlloc [] = true := rfl

@[simp] theorem headAlloc_cons (l : List (Nat × Bool)) (b : Nat × Bool) :
    headAlloc (b :: l) = b.2 := rfl

theorem lastAlloc_false {pre : List (Nat × Bool)} (h : lastAlloc pre = false) :
    ∃ pre' s1, pre = pre' ++ [(s1, false)] := by
  rcases List.eq_nil_or_concat pre with hp | ⟨pre', b, hp⟩
  · subst hp; simp at h
  · rw [List.concat_eq_append] at hp
    subst hp
    rw [lastAlloc_concat] at h
    exact ⟨pre', b.1, by rw [← h]⟩

theorem headAlloc_false {post : List (Nat × Bool)} (h : headAlloc post = false) :
    ∃ s2 post', post = (s2, false) :: post' := by
  cases post with
  | nil => simp at h
  | cons b t =>
    rw [headAlloc_cons] at h
    exact ⟨b.1, t, by rw [← h]⟩

theorem NoAdj_mid (pre post : List (Nat × Bool)) (s : Nat) :
    NoAdj (pre ++ (s, false) :: post) ↔
      NoAdj pre ∧ NoAdj post ∧ lastAlloc pre = true ∧ headAlloc post = true := by
  unfold NoAdj
  rw [List.chain'_append, List.chain'_cons']
  unfold lastAlloc headAlloc
  constructor
  · rintro ⟨h1, ⟨h2, h3⟩, h4⟩
    refine ⟨h1, h3, ?_, ?_⟩
    · cases hl : pre.getLast? with
      | none => rfl
      | some b =>
        have := h4 b (by rw [hl]; rfl) (s, false) (by simp)
        simpa using this
    · cases hl : post.head? with
      | none => rfl
      | some b =>
        have := h2 b (by rw [hl]; rfl)
        simpa using this
  · rintro ⟨h1, h2, h3, h4⟩
    refine ⟨h1, ⟨?_, h2⟩, ?_⟩
    · intro y hy
      rw [Option.mem_def] at hy
      rw [hy] at h4
      right; exact h4
    · intro x hx y hy
      rw [Option.mem_def] at hx
      rw [hx] at h3
      left; exact h3

theorem NoAdj_mid_true (pre post : List (Nat × Bool)) (s : Nat) :
    NoAdj (pre ++ (s, true) :: post) ↔ NoAdj pre ∧ NoAdj post := by
  unfold NoAdj
  rw [List.chain'_append, List.chain'_cons']
  constructor
  · rintro ⟨h1, ⟨_, h3⟩, _⟩
    exact ⟨h1, h3⟩
  · rintro ⟨h1, h2⟩
    refine ⟨h1, ⟨?_, h2⟩, ?_⟩
    · intro y _; left; rfl
    · intro x _ y hy
      simp at hy
      right; rw [← hy]

theorem GET_SIZE_PUT_same (m : Mem) (p v : Nat) (hv : v % 8 = 0) (hlt : v < 2 ^ 32) :
    GET_SIZE (PUT m p v) p = v := by
  unfold GET_SIZE
  rw [GET_PUT_same_lt _ _ _ hlt, mask32_eq _ hlt]
  omega

theorem GET_SIZE_congr (m m' : Mem) (p : Nat) (h : GET m' p = GET m p) :
    GET_SIZE m' p = GET_SIZE m p := by
  unfold GET_SIZE; rw [h]

theorem GET_ALLOC_congr (m m' : Mem) (p : Nat) (h : GET m' p = GET m p) :
    GET_ALLOC m' p = GET_ALLOC m p := by
  unfold GET_ALLOC; rw [h]

/-- What `coalesce` reads about the block before `bp`. -/
theorem HeapOK.read_prev {st : State} {pre post : List (Nat × Bool)} {s : Nat} {al : Bool}
    {ch : Nat → List Nat} {X : List Nat} (H : HeapOK st (pre ++ (s, al) :: post) ch X) :
    GET_ALLOC st.mem (FTRP st.mem (PREV_BLKP st.mem (FIRST + total pre)))
      = if lastAlloc pre then 1 else 0 := by
  have hF := FIRST_eq
  rcases List.eq_nil_or_concat pre with hp | ⟨pre', b, hp⟩
  · subst hp
    have h1 : GET st.mem (FIRST + total [] - DSIZE) = tagv 8 true := by
      simp only [total_nil, DSIZE, hF]; exact H.pro2
    have h2 : PREV_BLKP st.mem (FIRST + total []) = HEAP_BASE + 136 := by
      unfold PREV_BLKP
      rw [GET_SIZE_tag _ _ _ _ h1 (by norm_num)]
      simp only [total_nil, hF]; omega
    have h3 : GET st.mem (HDRP (HEAP_BASE + 136)) = tagv 8 true := by
      simp only [HDRP, WSIZE]; exact H.pro1
    have h4 : FTRP st.mem (HEAP_BASE + 136) = HEAP_BASE + 136 := by
      unfold FTRP
      rw [GET_SIZE_tag _ _ _ _ h3 (by norm_num)]
      simp only [DSIZE]; omega
    rw [h2, h4, GET_ALLOC_tag _ _ 8 true H.pro2 (by norm_num)]
    rfl
  · rw [List.concat_eq_append] at hp
    subst hp
    obtain ⟨s1, a1⟩ := b
    have hb : BlockAt FIRST (pre' ++ [(s1, a1)] ++ (s, al) :: post) (FIRST + total pre') s1 a1 := by
      rw [BlockAt_split]
      exact ⟨pre', (s, al) :: post, by simp, rfl⟩
    obtain ⟨hb1, hb2, hb3, hb4, hb5, hb6, hb7, hb8⟩ := H.block hb
    have e1 : FIRST + total (pre' ++ [(s1, a1)]) - DSIZE = FIRST + total pre' + s1 - 8 := by
      simp only [total_append, total_cons, total_nil, DSIZE]; omega
    have h2 : PREV_BLKP st.mem (FIRST + total (pre' ++ [(s1, a1)])) = FIRST + total pre' := by
      unfold PREV_BLKP
      rw [e1, GET_SIZE_tag _ _ _ _ hb7 hb5]
      simp only [total_append, total_cons, total_nil]; omega
    have h4 : FTRP st.mem (FIRST + total pre') = FIRST + total pre' + s1 - 8 := by
      unfold FTRP HDRP
      simp only [WSIZE, DSIZE]
      rw [GET_SIZE_tag _ _ _ _ hb6 hb5]
    rw [h2, h4, GET_ALLOC_tag _ _ _ _ hb7 hb5, lastAlloc_concat]

/-- What `coalesce` reads about the block after `bp`. -/
theorem HeapOK.read_next {st : State} {pre post : List (Nat × Bool)} {s : Nat} {al : Bool}
    {ch : Nat → List Nat} {X : List Nat} (H : HeapOK st (pre ++ (s, al) :: post) ch X) :
    GET_ALLOC st.mem (HDRP (NEXT_BLKP st.mem (FIRST + total pre)))
      = if headAlloc post then 1 else 0 := by
  have hF := FIRST_eq
  have hb : BlockAt FIRST (pre ++ (s, al) :: post) (FIRST + total pre) s al := by
    rw [BlockAt_split]
    exact ⟨pre, post, rfl, rfl⟩
  obtain ⟨hb1, hb2, hb3, hb4, hb5, hb6, hb7, hb8⟩ := H.block hb
  have h1 : NEXT_BLKP st.mem (FIRST + total pre) = FIRST + total pre + s := by
    unfold NEXT_BLKP
    simp only [WSIZE]
    rw [GET_SIZE_tag _ _ _ _ hb6 hb5]
  rw [h1]
  cases post with
  | nil =>
    have h2 : GET st.mem (HDRP (FIRST + total pre + s)) = tagv 0 true := by
      have := H.epi
      simp only [total_append, total_cons, total_nil] at this
      simp only [HDRP, WSIZE]
      have e : FIRST + total pre + s - 4 = FIRST + (total pre + (s + 0)) - 4 := by omega
      rw [e, this]
      rfl
    rw [GET_ALLOC_tag _ _ _ _ h2 (by norm_num)]
    rfl
  | cons b t =>
    obtain ⟨s2, a2⟩ := b
    have hb' : BlockAt FIRST (pre ++ (s, al) :: (s2, a2) :: t) (FIRST + total pre + s) s2 a2 := by
      rw [BlockAt_split]
      exact ⟨pre ++ [(s, al)], t, by simp, by simp; omega⟩
    obtain ⟨hc1, hc2, hc3, hc4, hc5, hc6, hc7, hc8⟩ := H.block hb'
    have h2 : GET st.mem (HDRP (FIRST + total pre + s)) = tagv s2 a2 := by
      simp only [HDRP, WSIZE]; exact hc6
    rw [GET_ALLOC_tag _ _ _ _ h2 hc5, headAlloc_cons]

theorem HeapOK.read_size {st : State} {bs : List (Nat × Bool)} {ch : Nat → List Nat}
    {X : List Nat} (H : HeapOK st bs ch X) {p s : Nat} {a : Bool}
    (hb : BlockAt FIRST bs p s a) : GET_SIZE st.mem (HDRP p) = s := by
  have h := H.block hb
  exact GET_SIZE_tag _ _ _ _ h.2.2.2.2.2.1 h.2.2.2.2.1

theorem HeapOK.read_fsize {st : State} {bs : List (Nat × Bool)} {ch : Nat → List Nat}
    {X : List Nat} (H : HeapOK st bs ch X) {p s : Nat} {a : Bool}
    (hb : BlockAt FIRST bs p s a) : GET_SIZE st.mem (p + s - 8) = s := by
  have h := H.block hb
  exact GET_SIZE_tag _ _ _ _ h.2.2.2.2.2.2.1 h.2.2.2.2.1

theorem coalesce_eq1 (bp : Nat) (st : State)
    (h1 : GET_ALLOC st.mem (FTRP st.mem (PREV_BLKP st.mem bp)) = 1)
    (h2 : GET_ALLOC st.mem (HDRP (NEXT_BLKP st.mem bp)) = 1) :
    coalesce bp st = coalesce_tail (bp, st) := by
  unfold coalesce coalesce_tail
  simp [h1, h2]

theorem coalesce_eq2 (bp : Nat) (st : State)
    (h1 : GET_ALLOC st.mem (FTRP st.mem (PREV_BLKP st.mem bp)) = 1)
    (h2 : GET_ALLOC st.mem (HDRP (NEXT_BLKP st.mem bp)) = 0) :
    coalesce bp st = coalesce_tail
      (let st1 := del_block (NEXT_BLKP st.mem bp) st
       let size := (GET_SIZE st.mem (HDRP bp) + GET_SIZE st1.mem (HDRP (NEXT_BLKP st1.mem bp))) % 2 ^ 64
       let st2 := st1.put (HDRP bp) (PACK size 0)
       (bp, st2.put (FTRP st2.mem bp) (PACK size 0))) := by
  unfold coalesce coalesce_tail
  simp [h1, h2]

theorem coalesce_eq3 (bp : Nat) (st : State)
    (h1 : GET_ALLOC st.mem (FTRP st.mem (PREV_BLKP st.mem bp)) = 0)
    (h2 : GET_ALLOC st.mem (HDRP (NEXT_BLKP st.mem bp)) = 1) :
    coalesce bp st = coalesce_tail
      (let st1 := del_block (PREV_BLKP st.mem bp) st
       let size := (GET_SIZE st.mem (HDRP bp) + GET_SIZE st1.mem (HDRP (PREV_BLKP st1.mem bp))) % 2 ^ 64
       let st2 := st1.put (FTRP st1.mem bp) (PACK size 0)
       let st3 := st2.put (HDRP (PREV_BLKP st2.mem bp)) (PACK size 0)
       (PREV_BLKP st3.mem bp, st3)) := by
  unfold coalesce coalesce_tail
  simp [h1, h2]

theorem coalesce_eq4 (bp : Nat) (st : State)
    (h1 : GET_ALLOC st.mem (FTRP st.mem (PREV_BLKP st.mem bp)) = 0)
    (h2 : GET_ALLOC st.mem (HDRP (NEXT_BLKP st.mem bp)) = 0) :
    coalesce bp st = coalesce_tail
      (let size := (GET_SIZE st.mem (HDRP bp) + (GET_SIZE st.mem (HDRP (PREV_BLKP st.mem bp))
          + GET_SIZE st.mem (FTRP st.mem (NEXT_BLKP st.mem bp)))) % 2 ^ 64
       let st1 := del_block (NEXT_BLKP st.mem bp) st
       let st2 := del_block (PREV_BLKP st1.mem bp) st1
       let st3 := st2.put (HDRP (PREV_BLKP st2.mem bp)) (PACK size 0)
       let st4 := st3.put (FTRP st3.mem (NEXT_BLKP st3.mem bp)) (PACK size 0)
       (PREV_BLKP st4.mem bp, st4)) := by
  unfold coalesce coalesce_tail
  simp [h1, h2]

theorem TagsOK_single (m : Mem) (start S : Nat) (al : Bool)
    (h1 : GET m (start - 4) = tagv S al) (h2 : GET m (start + S - 8) = tagv S al) :
    TagsOK m start [(S, al)] := by
  intro p s a hb
  simp only [BlockAt, or_false] at hb
  obtain ⟨e1, e2, e3⟩ := hb
  subst e1 e2 e3
  exact ⟨h1, h2⟩

theorem TagsOK_pair (m : Mem) (start S1 S2 : Nat) (a1 a2 : Bool)
    (h1 : GET m (start - 4) = tagv S1 a1) (h2 : GET m (start + S1 - 8) = tagv S1 a1)
    (h3 : GET m (start + S1 - 4) = tagv S2 a2) (h4 : GET m (start + S1 + S2 - 8) = tagv S2 a2) :
    TagsOK m start [(S1, a1), (S2, a2)] := by
  intro p s a hb
  simp only [BlockAt, or_false] at hb
  rcases hb with ⟨e1, e2, e3⟩ | ⟨e1, e2, e3⟩
  · subst e1 e2 e3; exact ⟨h1, h2⟩
  · subst e1 e2 e3; exact ⟨h3, h4⟩

theorem AllocArea_not_free {st : State} {bs : List (Nat × Bool)} {ch : Nat → List Nat}
    {X : List Nat} (H : HeapOK st bs ch X) {a : Nat} (ha : AllocArea bs a) :
    ¬ FreeArea bs a := by
  obtain ⟨q, sq, hb, h1, h2⟩ := ha
  have := H.block hb
  apply H.tag_not_free hb a
  by_cases h : a < q
  · left; omega
  · right; right; exact ⟨rfl, by omega, by omega⟩

/-- Retagging that keeps the extent of the run. -/
theorem HeapOK.retag_same {st : State} {pre mid post : List (Nat × Bool)}
    {ch : Nat → List Nat} {X : List Nat} (H : HeapOK st (pre ++ mid ++ post) ch X)
    (m' : Mem) (mid' : List (Nat × Bool)) (X' : List Nat)
    (htot : total mid' = total mid)
    (hm : ∀ a, (a < FIRST + total pre - 4 ∨ FIRST + total pre + total mid - 4 ≤ a) →
      m' a = st.mem a)
    (hsz : SizesOK mid') (htags : TagsOK m' (FIRST + total pre) mid')
    (hfree : ∀ p s, BlockAt (FIRST + total pre) mid p s false → p ∈ X)
    (hX1 : ∀ x ∈ X', x ∈ X ∨ (FIRST + total pre ≤ x ∧ x < FIRST + total pre + total mid'))
    (hX2 : ∀ p s, BlockAt (FIRST + total pre) mid' p s false → p ∈ X')
    (hX3 : ∀ x ∈ X, x ∈ X' ∨ (FIRST + total pre ≤ x ∧ x < FIRST + total pre + total mid)) :
    HeapOK { st with mem := m' } (pre ++ mid' ++ post) ch X' := by
  have e : total (pre ++ mid' ++ post) = total (pre ++ mid ++ post) := by
    simp only [total_append, htot]
  apply H.retag { st with mem := m' } mid' X' rfl rfl
  · show st.brk = _
    rw [e]; exact H.brk
  · exact H.lim
  · exact Or.inl htot
  · intro a ha; exact hm a (Or.inl ha)
  · intro a ha _; exact hm a (Or.inr ha)
  · rw [e]
    show GET m' _ = 1
    rw [← H.epi]
    apply GET_congr
    intro a h1 h2
    apply hm
    right
    simp only [total_append] at h1
    omega
  · exact hsz
  · exact htags
  · exact hfree
  · exact hX1
  · exact hX2
  · exact hX3

/-- Bytes of allocated blocks outside a run are outside its extent. -/
theorem AllocArea_outside {st : State} {pre mid post : List (Nat × Bool)}
    {ch : Nat → List Nat} {X : List Nat} (H : HeapOK st (pre ++ mid ++ post) ch X)
    (hmid : ∀ b ∈ mid, b.2 = false) {a : Nat} (ha : AllocArea (pre ++ mid ++ post) a) :
    a < FIRST + total pre - 4 ∨ FIRST + total pre + total mid - 4 ≤ a := by
  obtain ⟨q, sq, hb, h1, h2⟩ := ha
  have hblk := H.block hb
  rw [BlockAt_append, BlockAt_append] at hb
  rcases hb with (hb | hb) | hb
  · have := BlockAt_range _ _ _ _ _ hb
    left; omega
  · have := hmid _ (BlockAt_mem _ _ _ _ _ hb)
    simp at this
  · rw [total_append] at hb
    have := BlockAt_range _ _ _ _ _ hb
    right; omega

/-- Turning a run of blocks, whose free members are in no chain, into a single
free block. -/
theorem HeapOK.merge {st : State} {pre mid post : List (Nat × Bool)}
    {ch : Nat → List Nat} {X : List Nat} (H : HeapOK st (pre ++ mid ++ post) ch X)
    (m' : Mem) (hne : mid ≠ [])
    (hm : ∀ a, (a < FIRST + total pre - 4 ∨ FIRST + total pre + total mid - 4 ≤ a) →
      m' a = st.mem a)
    (h1 : GET m' (FIRST + total pre - 4) = total mid)
    (h2 : GET m' (FIRST + total pre + total mid - 8) = total mid)
    (hfree : ∀ p s, BlockAt (FIRST + total pre) mid p s false → p ∈ X)
    (hX : ∀ x ∈ X, FIRST + total pre ≤ x ∧ x < FIRST + total pre + total mid) :
    HeapOK { st with mem := m' } (pre ++ [(total mid, false)] ++ post) ch [FIRST + total pre]
      ∧ 16 ≤ total mid := by
  have hszs := H.sz
  rw [SizesOK_append, SizesOK_append] at hszs
  have hmid : 16 ≤ total mid ∧ total mid % 8 = 0 := by
    have : ∀ l : List (Nat × Bool), SizesOK l → l ≠ [] → 16 ≤ total l ∧ total l % 8 = 0 := by
      intro l
      induction l with
      | nil => intro _ h; exact absurd rfl h
      | cons b t ih =>
        intro hs _
        have hb := hs b (List.mem_cons_self _ _)
        by_cases ht : t = []
        · subst ht; simp only [total_cons, total_nil]; omega
        · have := ih (fun x hx => hs x (List.mem_cons_of_mem _ hx)) ht
          simp only [total_cons]; omega
    exact this mid hszs.1.2 hne
  refine ⟨?_, hmid.1⟩
  apply H.retag_same m' [(total mid, false)] [FIRST + total pre]
  · simp
  · exact hm
  · intro b hb
    simp only [List.mem_singleton] at hb
    subst hb
    exact hmid
  · apply TagsOK_single
    · rw [h1]; simp [tagv]
    · rw [h2]; simp [tagv]
  · exact hfree
  · intro x hx
    simp only [List.mem_singleton] at hx
    subst hx
    right
    simp only [total_cons, total_nil]
    omega
  · intro p s hb
    simp only [BlockAt, or_false] at hb
    simp [hb.1]
  · intro x hx
    right; exact hX x hx

/-- The common end of `coalesce`: the links of the merged block are cleared
and the block enters its bucket. -/
theorem coalesce_tail_ok {st : State} {bs : List (Nat × Bool)} {ch : Nat → List Nat}
    (bp s : Nat) (H : HeapOK st bs ch [bp]) (hb : BlockAt FIRST bs bp s false) :
    HeapOK (coalesce_tail (bp, st)).2 bs
        (Function.update ch (getNumber s) (bp :: ch (getNumber s))) []
      ∧ (coalesce_tail (bp, st)).1 = bp
      ∧ (∀ a, ¬ FreeArea bs a → (coalesce_tail (bp, st)).2.mem a = st.mem a)
      ∧ (coalesce_tail (bp, st)).2.sbrk_calls = st.sbrk_calls := by
  unfold coalesce_tail
  simp only [WSIZE]
  obtain ⟨H1, f1⟩ := float_write_ok H hb (List.mem_singleton_self _) (bp + 4) 0 (Or.inr rfl)
  obtain ⟨H2, f2⟩ := float_write_ok H1 hb (List.mem_singleton_self _) bp 0 (Or.inl rfl)
  obtain ⟨H3, f3, c3⟩ := add_block_ok H2 hb (List.mem_singleton_self _) []
    (by intro x hx; left; simpa using hx) (by intro x hx; simp at hx)
  refine ⟨H3, trivial, ?_, ?_⟩
  · intro a ha
    rw [f3 a ha, f2 a ha, f1 a ha]
  · rw [c3]; rfl

theorem HeapOK.read_nextp {st : State} {bs : List (Nat × Bool)} {ch : Nat → List Nat}
    {X : List Nat} (H : HeapOK st bs ch X) {p s : Nat} {a : Bool}
    (hb : BlockAt FIRST bs p s a) : NEXT_BLKP st.mem p = p + s := by
  unfold NEXT_BLKP
  rw [← HDRP, H.read_size hb]

theorem HeapOK.read_ftrp {st : State} {bs : List (Nat × Bool)} {ch : Nat → List Nat}
    {X : List Nat} (H : HeapOK st bs ch X) {p s : Nat} {a : Bool}
    (hb : BlockAt FIRST bs p s a) : FTRP st.mem p = p + s - 8 := by
  unfold FTRP
  rw [H.read_size hb]
  rfl

theorem HeapOK.read_prevp {st : State} {bs : List (Nat × Bool)} {ch : Nat → List Nat}
    {X : List Nat} (H : HeapOK st bs ch X) {p s : Nat} {a : Bool}
    (hb : BlockAt FIRST bs p s a) : PREV_BLKP st.mem (p + s) = p := by
  unfold PREV_BLKP
  have h := H.block hb
  have e : p + s - DSIZE = p + s - 8 := rfl
  rw [e, H.read_fsize hb]
  omega

theorem AllocArea_retag {pre mid mid' post : List (Nat × Bool)}
    (hmid : ∀ b ∈ mid, b.2 = false) (htot : total mid' = total mid) {a : Nat}
    (ha : AllocArea (pre ++ mid ++ post) a) : AllocArea (pre ++ mid' ++ post) a := by
  obtain ⟨q, sq, hb, h1, h2⟩ := ha
  refine ⟨q, sq, ?_, h1, h2⟩
  rw [BlockAt_append, BlockAt_append] at hb ⊢
  rcases hb with (hb | hb) | hb
  · exact Or.inl (Or.inl hb)
  · have := hmid _ (BlockAt_mem _ _ _ _ _ hb)
    simp at this
  · right
    simp only [total_append] at hb ⊢
    rw [htot]; exact hb

theorem put_put_eq (st : State) (a v b w : Nat) :
    (st.put a v).put b w = { st with mem := PUT (PUT st.mem a v) b w } := rfl

theorem BlockAt_here (pre post : List (Nat × Bool)) (s : Nat) (a : Bool) :
    BlockAt FIRST (pre ++ (s, a) :: post) (FIRST + total pre) s a := by
  rw [BlockAt_split]
  exact ⟨pre, post, rfl, rfl⟩

/-- Case 1 of `coalesce`: both neighbours allocated. -/
theorem coalesce_case1 {st : State} {pre post : List (Nat × Bool)} {s : Nat}
    {ch : Nat → List Nat}
    (H : HeapOK st (pre ++ (s, false) :: post) ch [FIRST + total pre])
    (hla : lastAlloc pre = true) (hha : headAlloc post = true) :
    ∃ ch', HeapOK (coalesce (FIRST + total pre) st).2 (pre ++ (s, false) :: post) ch' []
      ∧ (coalesce (FIRST + total pre) st).1 = FIRST + total pre
      ∧ (∀ a, AllocArea (pre ++ (s, false) :: post) a →
          (coalesce (FIRST + total pre) st).2.mem a = st.mem a)
      ∧ (coalesce (FIRST + total pre) st).2.sbrk_calls = st.sbrk_calls := by
  have hp := H.read_prev
  have hn := H.read_next
  rw [hla] at hp
  rw [hha] at hn
  rw [coalesce_eq1 _ _ hp hn]
  obtain ⟨h1, h2, h3, h4⟩ := coalesce_tail_ok _ s H (BlockAt_here pre post s false)
  exact ⟨_, h1, h2, fun a ha => h3 a (AllocArea_not_free H ha), h4⟩

/-- Case 2 of `coalesce`: the next block is free. -/
theorem coalesce_case2 {st : State} {pre post : List (Nat × Bool)} {s s2 : Nat}
    {ch : Nat → List Nat}
    (H : HeapOK st (pre ++ (s, false) :: (s2, false) :: post) ch [FIRST + total pre])
    (hla : lastAlloc pre = true) :
    ∃ ch', HeapOK (coalesce (FIRST + total pre) st).2 (pre ++ (s + s2, false) :: post) ch' []
      ∧ (coalesce (FIRST + total pre) st).1 = FIRST + total pre
      ∧ (∀ a, AllocArea (pre ++ (s, false) :: (s2, false) :: post) a →
          (coalesce (FIRST + total pre) st).2.mem a = st.mem a)
      ∧ (coalesce (FIRST + total pre) st).2.sbrk_calls = st.sbrk_calls := by
  have hp := H.read_prev
  have hn := H.read_next
  rw [hla] at hp
  rw [headAlloc_cons] at hn
  have hbb := BlockAt_here pre ((s2, false) :: post) s false
  have hbn : BlockAt FIRST (pre ++ (s, false) :: (s2, false) :: post)
      (FIRST + total pre + s) s2 false := by
    rw [BlockAt_split]
    exact ⟨pre ++ [(s, false)], post, by simp, by simp; omega⟩
  obtain ⟨b1, b2, b3, b4, b5, b6, b7, b8⟩ := H.block hbb
  obtain ⟨n1, n2, n3, n4, n5, n6, n7, n8⟩ := H.block hbn
  have hin : FIRST + total pre + s ∈ ch (getNumber s2) := by
    rcases H.complete _ _ hbn with h | h
    · exact h
    · simp only [List.mem_singleton] at h; omega
  obtain ⟨H1, f1, c1⟩ := del_block_ok H (getNumber_lt s2) hin
  have r1 := H.read_nextp hbb
  have r2 := H1.read_nextp hbb
  have r3 := H1.read_size hbn
  have r4 := H.read_size hbb
  have hsz : (s + s2) % 2 ^ 64 = s + s2 := Nat.mod_eq_of_lt (by omega)
  rw [coalesce_eq2 _ _ hp hn]
  simp only [r1, r2, r3, r4, hsz, PACK_zero]
  have r5 : FTRP ((del_block (FIRST + total pre + s) st).put (HDRP (FIRST + total pre))
      (s + s2)).mem (FIRST + total pre) = FIRST + total pre + (s + s2) - 8 := by
    unfold FTRP
    rw [put_mem, GET_SIZE_PUT_same _ _ _ (by omega) (by omega)]
    rfl
  rw [r5, put_put_eq]
  simp only [HDRP, WSIZE]
  have hbs : pre ++ (s, false) :: (s2, false) :: post
      = pre ++ [(s, false), (s2, false)] ++ post := by simp
  rw [hbs] at H1
  have hM := H1.merge
    (PUT (PUT (del_block (FIRST + total pre + s) st).mem (FIRST + total pre - 4) (s + s2))
      (FIRST + total pre + (s + s2) - 8) (s + s2)) (by simp)
    (by
      intro a ha
      simp only [total_cons, total_nil] at ha
      rw [PUT_other _ _ _ _ (by omega), PUT_other _ _ _ _ (by omega)])
    (by
      simp only [total_cons, total_nil]
      rw [GET_PUT_other _ _ _ _ (by omega), GET_PUT_same_lt _ _ _ (by omega)]
      omega)
    (by
      simp only [total_cons, total_nil]
      have e : FIRST + total pre + (s + (s2 + 0)) - 8 = FIRST + total pre + (s + s2) - 8 := by
        omega
      rw [e, GET_PUT_same_lt _ _ _ (by omega)]
      omega)
    (by
      intro p q hb
      simp only [BlockAt, or_false] at hb
      rcases hb with ⟨e1, _, _⟩ | ⟨e1, _, _⟩
      · simp [e1]
      · simp [e1])
    (by
      intro x hx
      simp only [total_cons, total_nil]
      simp only [List.mem_cons, List.mem_singleton, List.not_mem_nil, or_false] at hx
      rcases hx with hx | hx <;> omega)
  obtain ⟨hM1, _⟩ := hM
  have e2 : total [(s, false), (s2, false)] = s + s2 := by simp
  rw [e2] at hM1
  have hbm : BlockAt FIRST (pre ++ [(s + s2, false)] ++ post) (FIRST + total pre) (s + s2)
      false := by
    rw [List.append_assoc]; exact BlockAt_here pre post (s + s2) false
  obtain ⟨h1, h2, h3, h4⟩ := coalesce_tail_ok _ (s + s2) hM1 hbm
  rw [List.append_assoc] at h1
  refine ⟨_, h1, h2, ?_, ?_⟩
  · intro a ha
    rw [hbs] at ha
    have hmidf : ∀ b ∈ [((s, false) : Nat × Bool), (s2, false)], b.2 = false := by
      intro b hb
      simp only [List.mem_cons, List.mem_singleton, List.not_mem_nil, or_false] at hb
      rcases hb with hb | hb <;> rw [hb]
    have ha' : AllocArea (pre ++ [(s + s2, false)] ++ post) a :=
      AllocArea_retag hmidf (by simp) ha
    rw [h3 a (AllocArea_not_free hM1 ha')]
    have ho := AllocArea_outside H1 hmidf ha
    simp only [total_cons, total_nil] at ho
    show PUT (PUT _ _ _) _ _ a = _
    rw [PUT_other _ _ _ _ (by omega), PUT_other _ _ _ _ (by omega)]
    exact f1 a (by rw [hbs]; exact AllocArea_not_free H1 ha)
  · rw [h4]; exact c1

theorem NEXT_BLKP_put (m : Mem) (a v p : Nat) (h : a + 4 ≤ p - 4 ∨ p ≤ a) (hp : 4 ≤ p) :
    NEXT_BLKP (PUT m a v) p = NEXT_BLKP m p := by
  unfold NEXT_BLKP
  rw [GET_SIZE_congr _ _ _ (GET_PUT_other m a v (p - WSIZE) (by simp only [WSIZE]; omega))]

theorem PREV_BLKP_put (m : Mem) (a v p : Nat) (h : a + 4 ≤ p - 8 ∨ p - 4 ≤ a) (hp : 8 ≤ p) :
    PREV_BLKP (PUT m a v) p = PREV_BLKP m p := by
  unfold PREV_BLKP
  rw [GET_SIZE_congr _ _ _ (GET_PUT_other m a v (p - DSIZE) (by simp only [DSIZE]; omega))]

theorem FTRP_put (m : Mem) (a v p : Nat) (h : a + 4 ≤ p - 4 ∨ p ≤ a) (hp : 4 ≤ p) :
    FTRP (PUT m a v) p = FTRP m p := by
  unfold FTRP
  rw [GET_SIZE_congr _ _ _ (GET_PUT_other m a v (HDRP p) (by simp only [HDRP, WSIZE]; omega))]

/-- Arithmetic summary of a block. -/
theorem HeapOK.block_arith {st : State} {bs : List (Nat × Bool)} {ch : Nat → List Nat}
    {X : List Nat} (H : HeapOK st bs ch X) {p s : Nat} {a : Bool}
    (hb : BlockAt FIRST bs p s a) :
    FIRST ≤ p ∧ p + s ≤ FIRST + total bs ∧ 16 ≤ s ∧ total bs + 144 ≤ 2 ^ 32 := by
  have h := H.block hb
  rw [← FIRST_eq] at h
  exact ⟨h.1, h.2.1, h.2.2.2.1, h.2.2.2.2.2.2.2⟩

theorem FIRST_ge : 144 ≤ FIRST := by decide

/-- Writing the tags of the merged block and entering it into its bucket. -/
theorem merge_tail {st : State} {pre mid post : List (Nat × Bool)}
    {ch : Nat → List Nat} {X : List Nat} (H : HeapOK st (pre ++ mid ++ post) ch X)
    (m' : Mem) (hne : mid ≠ []) (hmid : ∀ b ∈ mid, b.2 = false)
    (hm : ∀ a, (a < FIRST + total pre - 4 ∨ FIRST + total pre + total mid - 4 ≤ a) →
      m' a = st.mem a)
    (h1 : GET m' (FIRST + total pre - 4) = total mid)
    (h2 : GET m' (FIRST + total pre + total mid - 8) = total mid)
    (hfree : ∀ p s, BlockAt (FIRST + total pre) mid p s false → p ∈ X)
    (hX : ∀ x ∈ X, FIRST + total pre ≤ x ∧ x < FIRST + total pre + total mid) :
    ∃ ch', HeapOK (coalesce_tail (FIRST + total pre, { st with mem := m' })).2
        (pre ++ (total mid, false) :: post) ch' []
      ∧ (coalesce_tail (FIRST + total pre, { st with mem := m' })).1 = FIRST + total pre
      ∧ (∀ a, AllocArea (pre ++ mid ++ post) a →
          (coalesce_tail (FIRST + total pre, { st with mem := m' })).2.mem a = st.mem a)
      ∧ (coalesce_tail (FIRST + total pre, { st with mem := m' })).2.sbrk_calls
          = st.sbrk_calls := by
  obtain ⟨hM1, _⟩ := H.merge m' hne hm h1 h2 hfree hX
  have hbm : BlockAt FIRST (pre ++ [(total mid, false)] ++ post) (FIRST + total pre) (total mid)
      false := by
    rw [List.append_assoc]; exact BlockAt_here pre post (total mid) false
  obtain ⟨k1, k2, k3, k4⟩ := coalesce_tail_ok _ (total mid) hM1 hbm
  rw [List.append_assoc] at k1
  refine ⟨_, k1, k2, ?_, k4⟩
  intro a ha
  have ha' : AllocArea (pre ++ [(total mid, false)] ++ post) a :=
    AllocArea_retag hmid (by simp) ha
  rw [k3 a (AllocArea_not_free hM1 ha')]
  exact hm a (AllocArea_outside H hmid ha)

/-- The state computed by case 3 of `coalesce`. -/
theorem coalesce_case3_eq (st st1 : State) (bp pb s s1 : Nat)
    (hst1 : del_block pb st = st1)
    (hp : GET_ALLOC st.mem (FTRP st.mem (PREV_BLKP st.mem bp)) = 0)
    (hn : GET_ALLOC st.mem (HDRP (NEXT_BLKP st.mem bp)) = 1)
    (r1 : PREV_BLKP st.mem bp = pb) (r2 : PREV_BLKP st1.mem bp = pb)
    (r3 : GET_SIZE st1.mem (HDRP pb) = s1) (r4 : GET_SIZE st.mem (HDRP bp) = s)
    (r5 : FTRP st1.mem bp = bp + s - 8)
    (hbp : bp = pb + s1) (h16 : 16 ≤ s1) (hs16 : 16 ≤ s) (hpb : 8 ≤ pb)
    (hlt : s + s1 < 2 ^ 32) :
    coalesce bp st = coalesce_tail
      (pb, { st1 with mem := PUT (PUT st1.mem (bp + s - 8) (s + s1)) (pb - 4) (s + s1) }) := by
  have hsz : (s + s1) % 2 ^ 64 = s + s1 := Nat.mod_eq_of_lt (by omega)
  rw [coalesce_eq3 _ _ hp hn]
  simp only [r1, hst1, r2, r3, r4, r5, hsz, PACK_zero, put_mem]
  have q1 : PREV_BLKP (PUT st1.mem (bp + s - 8) (s + s1)) bp = pb := by
    rw [PREV_BLKP_put _ _ _ _ (by omega) (by omega), r2]
  simp only [q1]
  have q2 : PREV_BLKP (PUT (PUT st1.mem (bp + s - 8) (s + s1)) (HDRP pb) (s + s1)) bp = pb := by
    rw [PREV_BLKP_put _ _ _ _ (by simp only [HDRP, WSIZE]; omega) (by omega), q1]
  simp only [q2]
  rfl

/-- Case 3 of `coalesce`: the previous block is free. -/
theorem coalesce_case3 {st : State} {pre post : List (Nat × Bool)} {s s1 bp : Nat}
    {ch : Nat → List Nat}
    (H : HeapOK st (pre ++ (s1, false) :: (s, false) :: post) ch [bp])
    (hbp : bp = FIRST + total pre + s1) (hha : headAlloc post = true) :
    ∃ ch', HeapOK (coalesce bp st).2 (pre ++ (s1 + s, false) :: post) ch' []
      ∧ (coalesce bp st).1 = FIRST + total pre
      ∧ (∀ a, AllocArea (pre ++ (s1, false) :: (s, false) :: post) a →
          (coalesce bp st).2.mem a = st.mem a)
      ∧ (coalesce bp st).2.sbrk_calls = st.sbrk_calls := by
  have hF := FIRST_ge
  have e0 : pre ++ (s1, false) :: (s, false) :: post
      = (pre ++ [(s1, false)]) ++ (s, false) :: post := by simp
  have e1 : FIRST + total (pre ++ [(s1, false)]) = bp := by
    simp only [total_append, total_cons, total_nil]; omega
  have H' := H
  rw [e0] at H'
  have hp := H'.read_prev
  have hn := H'.read_next
  rw [lastAlloc_concat, e1] at hp
  rw [hha, e1] at hn
  clear H'
  have hbp' : BlockAt FIRST (pre ++ (s1, false) :: (s, false) :: post)
      (FIRST + total pre) s1 false := BlockAt_here pre _ s1 false
  have hbb : BlockAt FIRST (pre ++ (s1, false) :: (s, false) :: post) bp s false := by
    rw [e0, ← e1]; exact BlockAt_here _ post s false
  obtain ⟨b1, b2, b4, b8⟩ := H.block_arith hbb
  obtain ⟨n1, n2, n4, n8⟩ := H.block_arith hbp'
  have hin : FIRST + total pre ∈ ch (getNumber s1) := by
    rcases H.complete _ _ hbp' with h | h
    · exact h
    · simp only [List.mem_singleton] at h; omega
  obtain ⟨H1, f1, c1⟩ := del_block_ok H (getNumber_lt s1) hin
  have r1 : PREV_BLKP st.mem bp = FIRST + total pre := by
    rw [hbp]; exact H.read_prevp hbp'
  have r2 : PREV_BLKP (del_block (FIRST + total pre) st).mem bp = FIRST + total pre := by
    rw [hbp]; exact H1.read_prevp hbp'
  have r3 := H1.read_size hbp'
  have r4 := H.read_size hbb
  have r5 := H1.read_ftrp hbb
  rw [coalesce_case3_eq st _ bp (FIRST + total pre) s s1 rfl hp hn r1 r2 r3 r4 r5 hbp n4 b4
    (by omega) (by simp only [total_append, total_cons] at b8; omega)]
  clear r1 r2 r3 r4 r5 hp hn
  generalize del_block (FIRST + total pre) st = st1 at *
  have hbs : pre ++ (s1, false) :: (s, false) :: post
      = pre ++ [(s1, false), (s, false)] ++ post := by simp
  have e2 : total [((s1, false) : Nat × Bool), (s, false)] = s1 + s := by simp
  have e3 : s + s1 = s1 + s := Nat.add_comm _ _
  rw [hbs] at H1
  have hT := merge_tail H1
    (PUT (PUT st1.mem (bp + s - 8) (s + s1)) (FIRST + total pre - 4) (s + s1)) (by simp)
    (by
      intro b hb
      simp only [List.mem_cons, List.mem_singleton, List.not_mem_nil, or_false] at hb
      rcases hb with hb | hb <;> rw [hb])
    (by
      intro a ha
      rw [e2] at ha
      have k1 : a < FIRST + total pre - 4 ∨ FIRST + total pre - 4 + 4 ≤ a := by
        clear * - ha hbp n4 b4 hF; omega
      have k2 : a < bp + s - 8 ∨ bp + s - 8 + 4 ≤ a := by
        clear * - ha hbp n4 b4 hF; omega
      rw [PUT_other _ _ _ _ k1, PUT_other _ _ _ _ k2])
    (by
      rw [e2, GET_PUT_same_lt _ _ _ (by clear * - b8 e2 hbs; simp only [hbs, total_append, e2] at b8; omega),
        e3])
    (by
      rw [e2]
      have e : FIRST + total pre + (s1 + s) - 8 = bp + s - 8 := by clear * - hbp; omega
      rw [e, GET_PUT_other _ _ _ _ (by clear * - hbp n4 b4 hF; omega),
        GET_PUT_same_lt _ _ _ (by clear * - b8 e2 hbs; simp only [hbs, total_append, e2] at b8; omega),
        e3])
    (by
      intro p q hb
      simp only [BlockAt, or_false] at hb
      rcases hb with ⟨e1, _, _⟩ | ⟨e1, _, _⟩
      · simp [e1]
      · simp [e1, hbp])
    (by
      intro x hx
      rw [e2]
      simp only [List.mem_cons, List.mem_singleton, List.not_mem_nil, or_false] at hx
      clear * - hx hbp n4 b4
      rcases hx with hx | hx <;> omega)
  rw [e2] at hT
  obtain ⟨ch', h1, h2, h3, h4⟩ := hT
  refine ⟨ch', h1, h2, ?_, ?_⟩
  · intro a ha
    rw [hbs] at ha
    rw [h3 a ha]
    exact f1 a (by rw [hbs]; exact AllocArea_not_free H1 ha)
  · rw [h4]; exact c1

/-- The state computed by case 4 of `coalesce`. -/
theorem coalesce_case4_eq (st st1 st2 : State) (bp pb nb s s1 s2 : Nat)
    (hst1 : del_block nb st = st1) (hst2 : del_block pb st1 = st2)
    (hp : GET_ALLOC st.mem (FTRP st.mem (PREV_BLKP st.mem bp)) = 0)
    (hn : GET_ALLOC st.mem (HDRP (NEXT_BLKP st.mem bp)) = 0)
    (r1 : GET_SIZE st.mem (HDRP bp) = s) (r2 : PREV_BLKP st.mem bp = pb)
    (r3 : GET_SIZE st.mem (HDRP pb) = s1) (r4 : NEXT_BLKP st.mem bp = nb)
    (r5 : FTRP st.mem nb = nb + s2 - 8) (r6 : GET_SIZE st.mem (nb + s2 - 8) = s2)
    (r7 : PREV_BLKP st1.mem bp = pb) (r8 : PREV_BLKP st2.mem bp = pb)
    (r9 : NEXT_BLKP st2.mem bp = nb) (r10 : FTRP st2.mem nb = nb + s2 - 8)
    (hbp : bp = pb + s1) (hnb : nb = bp + s) (h16 : 16 ≤ s1) (hs16 : 16 ≤ s)
    (hs2 : 16 ≤ s2) (hpb : 8 ≤ pb) (hlt : s + (s1 + s2) < 2 ^ 32) :
    coalesce bp st = coalesce_tail
      (pb, { st2 with
        mem := (PUT (PUT st2.mem (pb - 4) (s + (s1 + s2))) (nb + s2 - 8) (s + (s1 + s2))) }) := by
  have hsz : (s + (s1 + s2)) % 2 ^ 64 = s + (s1 + s2) := Nat.mod_eq_of_lt (by omega)
  rw [coalesce_eq4 _ _ hp hn]
  simp only [r1, r2, r3, r4, r5, r6, hst1, r7, hst2, r8, hsz, PACK_zero, put_mem]
  have q1 : NEXT_BLKP (PUT st2.mem (HDRP pb) (s + (s1 + s2))) bp = nb := by
    rw [NEXT_BLKP_put _ _ _ _ (by simp only [HDRP, WSIZE]; omega) (by omega), r9]
  simp only [q1]
  have q2 : FTRP (PUT st2.mem (HDRP pb) (s + (s1 + s2))) nb = nb + s2 - 8 := by
    rw [FTRP_put _ _ _ _ (by simp only [HDRP, WSIZE]; omega) (by omega), r10]
  simp only [q2]
  have q3 : PREV_BLKP (PUT (PUT st2.mem (HDRP pb) (s + (s1 + s2))) (nb + s2 - 8)
      (s + (s1 + s2))) bp = pb := by
    rw [PREV_BLKP_put _ _ _ _ (by omega) (by omega),
      PREV_BLKP_put _ _ _ _ (by simp only [HDRP, WSIZE]; omega) (by omega), r8]
  simp only [q3]
  rfl

/-- Case 4 of `coalesce`: both neighbours are free. -/
theorem coalesce_case4 {st : State} {pre post : List (Nat × Bool)} {s s1 s2 bp : Nat}
    {ch : Nat → List Nat}
    (H : HeapOK st (pre ++ (s1, false) :: (s, false) :: (s2, false) :: post) ch [bp])
    (hbp : bp = FIRST + total pre + s1) :
    ∃ ch', HeapOK (coalesce bp st).2 (pre ++ (s1 + s + s2, false) :: post) ch' []
      ∧ (coalesce bp st).1 = FIRST + total pre
      ∧ (∀ a, AllocArea (pre ++ (s1, false) :: (s, false) :: (s2, false) :: post) a →
          (coalesce bp st).2.mem a = st.mem a)
      ∧ (coalesce bp st).2.sbrk_calls = st.sbrk_calls := by
  have hF := FIRST_ge
  have e0 : pre ++ (s1, false) :: (s, false) :: (s2, false) :: post
      = (pre ++ [(s1, false)]) ++ (s, false) :: (s2, false) :: post := by simp
  have e1 : FIRST + total (pre ++ [(s1, false)]) = bp := by
    simp only [total_append, total_cons, total_nil]; omega
  have H' := H
  rw [e0] at H'
  have hp := H'.read_prev
  have hn := H'.read_next
  rw [lastAlloc_concat, e1] at hp
  rw [headAlloc_cons, e1] at hn
  clear H'
  have hbp' : BlockAt FIRST (pre ++ (s1, false) :: (s, false) :: (s2, false) :: post)
      (FIRST + total pre) s1 false := BlockAt_here pre _ s1 false
  have hbb : BlockAt FIRST (pre ++ (s1, false) :: (s, false) :: (s2, false) :: post) bp s
      false := by
    rw [e0, ← e1]; exact BlockAt_here _ _ s false
  have hbn : BlockAt FIRST (pre ++ (s1, false) :: (s, false) :: (s2, false) :: post) (bp + s) s2
      false := by
    rw [BlockAt_split]
    exact ⟨pre ++ [(s1, false), (s, false)], post, by simp,
      by simp only [total_append, total_cons, total_nil]; omega⟩
  obtain ⟨b1, b2, b4, b8⟩ := H.block_arith hbb
  obtain ⟨n1, n2, n4, n8⟩ := H.block_arith hbp'
  obtain ⟨m1, m2, m4, m8⟩ := H.block_arith hbn
  have hin : bp + s ∈ ch (getNumber s2) := by
    rcases H.complete _ _ hbn with h | h
    · exact h
    · simp only [List.mem_singleton] at h; omega
  obtain ⟨H1, f1, c1⟩ := del_block_ok H (getNumber_lt s2) hin
  have hin2 : FIRST + total pre ∈
      Function.update ch (getNumber s2) ((ch (getNumber s2)).erase (bp + s)) (getNumber s1) := by
    rcases H1.complete _ _ hbp' with h | h
    · exact h
    · simp only [List.mem_cons, List.mem_singleton, List.not_mem_nil, or_false] at h
      clear * - h hbp n4 b4
      omega
  obtain ⟨H2, f2, c2⟩ := del_block_ok H1 (getNumber_lt s1) hin2
  have r1 := H.read_size hbb
  have r2 : PREV_BLKP st.mem bp = FIRST + total pre := by
    have := H.read_prevp hbp'
    rw [← hbp] at this; exact this
  have r3 := H.read_size hbp'
  have r4 := H.read_nextp hbb
  have r5 := H.read_ftrp hbn
  have r6 := H.read_fsize hbn
  have r7 : PREV_BLKP (del_block (bp + s) st).mem bp = FIRST + total pre := by
    have := H1.read_prevp hbp'
    rw [← hbp] at this; exact this
  have r8 : PREV_BLKP (del_block (FIRST + total pre) (del_block (bp + s) st)).mem bp
      = FIRST + total pre := by
    have := H2.read_prevp hbp'
    rw [← hbp] at this; exact this
  have r9 := H2.read_nextp hbb
  have r10 := H2.read_ftrp hbn
  have hlt : s + (s1 + s2) < 2 ^ 32 := by
    clear * - b8
    simp only [total_append, total_cons] at b8; omega
  rw [coalesce_case4_eq st _ _ bp (FIRST + total pre) (bp + s) s s1 s2 rfl rfl hp hn r1 r2 r3 r4
    r5 r6 r7 r8 r9 r10 hbp rfl n4 b4 m4 (by omega) hlt]
  clear r1 r2 r3 r4 r5 r6 r7 r8 r9 r10 hp hn
  have f12 : ∀ a, ¬ FreeArea (pre ++ (s1, false) :: (s, false) :: (s2, false) :: post) a →
      (del_block (FIRST + total pre) (del_block (bp + s) st)).mem a = st.mem a := by
    intro a ha
    rw [f2 a ha, f1 a ha]
  have c12 : (del_block (FIRST + total pre) (del_block (bp + s) st)).sbrk_calls
      = st.sbrk_calls := by rw [c2, c1]
  clear f1 f2 c1 c2 H1 hin2 hin
  generalize del_block (FIRST + total pre) (del_block (bp + s) st) = st2 at *
  generalize Function.update (Function.update ch (getNumber s2)
    ((ch (getNumber s2)).erase (bp + s))) (getNumber s1) _ = ch2 at H2
  have hbs : pre ++ (s1, false) :: (s, false) :: (s2, false) :: post
      = pre ++ [(s1, false), (s, false), (s2, false)] ++ post := by simp
  have e2 : total [((s1, false) : Nat × Bool), (s, false), (s2, false)] = s1 + s + s2 := by
    simp only [total_cons, total_nil]; omega
  have e3 : s + (s1 + s2) = s1 + s + s2 := by omega
  rw [hbs] at H2
  have hT := merge_tail H2
    (PUT (PUT st2.mem (FIRST + total pre - 4) (s + (s1 + s2)))
      (bp + s + s2 - 8) (s + (s1 + s2))) (by simp)
    (by
      intro b hb
      simp only [List.mem_cons, List.mem_singleton, List.not_mem_nil, or_false] at hb
      rcases hb with hb | hb | hb <;> rw [hb])
    (by
      intro a ha
      rw [e2] at ha
      have k1 : a < FIRST + total pre - 4 ∨ FIRST + total pre - 4 + 4 ≤ a := by
        clear * - ha hbp n4 b4 m4 hF; omega
      have k2 : a < bp + s + s2 - 8 ∨ bp + s + s2 - 8 + 4 ≤ a := by
        clear * - ha hbp n4 b4 m4 hF; omega
      rw [PUT_other _ _ _ _ k2, PUT_other _ _ _ _ k1])
    (by
      rw [e2, GET_PUT_other _ _ _ _ (by clear * - hbp n4 b4 m4 hF; omega),
        GET_PUT_same_lt _ _ _ hlt, e3])
    (by
      rw [e2]
      have e : FIRST + total pre + (s1 + s + s2) - 8 = bp + s + s2 - 8 := by
        clear * - hbp; omega
      rw [e, GET_PUT_same_lt _ _ _ hlt, e3])
    (by
      intro p q hb
      simp only [BlockAt, or_false] at hb
      rcases hb with ⟨e1, _, _⟩ | ⟨e1, _, _⟩ | ⟨e1, _, _⟩
      · simp [e1]
      · simp [e1, hbp]
      · simp [e1, hbp])
    (by
      intro x hx
      rw [e2]
      simp only [List.mem_cons, List.mem_singleton, List.not_mem_nil, or_false] at hx
      clear * - hx hbp n4 b4 m4
      rcases hx with hx | hx | hx <;> omega)
  rw [e2] at hT
  obtain ⟨ch', h1, h2, h3, h4⟩ := hT
  refine ⟨ch', h1, h2, ?_, ?_⟩
  · intro a ha
    rw [hbs] at ha
    rw [h3 a ha]
    exact f12 a (by rw [hbs]; exact AllocArea_not_free H2 ha)
  · rw [h4]; exact c12

theorem BlockAt_allfree (l : List (Nat × Bool)) (hl : ∀ b ∈ l, b.2 = false) (start q sq : Nat) :
    ¬ BlockAt start l q sq true := by
  intro h
  have := hl _ (BlockAt_mem _ _ _ _ _ h)
  simp at this

/-- Merging free neighbours does not change the allocated blocks. -/
theorem BlockAt_merge (pre l r post : List (Nat × Bool)) (s : Nat)
    (hl : ∀ b ∈ l, b.2 = false) (hr : ∀ b ∈ r, b.2 = false) (q sq : Nat) :
    BlockAt FIRST (pre ++ (total l + s + total r, false) :: post) q sq true ↔
      BlockAt FIRST ((pre ++ l) ++ (s, false) :: (r ++ post)) q sq true := by
  have h1 := BlockAt_allfree l hl
  have h2 := BlockAt_allfree r hr
  simp only [BlockAt_append, BlockAt, total_append, Bool.true_eq_false, and_false, false_or, h1,
    h2, or_false]
  have e : FIRST + total pre + (total l + s + total r)
      = FIRST + (total pre + total l) + s + total r := by omega
  rw [e]

/-- Boundary-tag coalescing of a free block `bp` that is in no chain: the
free neighbours are merged into it and the result enters its bucket. -/
theorem coalesce_ok {st : State} {pre post : List (Nat × Bool)} {s : Nat}
    {ch : Nat → List Nat}
    (H : HeapOK st (pre ++ (s, false) :: post) ch [FIRST + total pre])
    (hpre : NoAdj pre) (hpost : NoAdj post) :
    ∃ pre' l r post' ch',
      pre = pre' ++ l ∧ post = r ++ post' ∧ (∀ b ∈ l, b.2 = false) ∧ (∀ b ∈ r, b.2 = false)
      ∧ HeapOK (coalesce (FIRST + total pre) st).2
          (pre' ++ (total l + s + total r, false) :: post') ch' []
      ∧ NoAdj (pre' ++ (total l + s + total r, false) :: post')
      ∧ (coalesce (FIRST + total pre) st).1 = FIRST + total pre'
      ∧ (∀ a, AllocArea (pre ++ (s, false) :: post) a →
          (coalesce (FIRST + total pre) st).2.mem a = st.mem a)
      ∧ (coalesce (FIRST + total pre) st).2.sbrk_calls = st.sbrk_calls := by
  cases hla : lastAlloc pre <;> cases hha : headAlloc post
  · -- both free
    obtain ⟨pre1, s1, hp1⟩ := lastAlloc_false hla
    obtain ⟨s2, post2, hp2⟩ := headAlloc_false hha
    subst hp1 hp2
    have e : pre1 ++ [(s1, false)] ++ (s, false) :: (s2, false) :: post2
        = pre1 ++ (s1, false) :: (s, false) :: (s2, false) :: post2 := by simp
    have ebp : FIRST + total (pre1 ++ [(s1, false)]) = FIRST + total pre1 + s1 := by
      simp only [total_append, total_cons, total_nil]; omega
    rw [e, ebp] at H
    obtain ⟨ch', h1, h2, h3, h4⟩ := coalesce_case4 H rfl
    have hn1 := (NoAdj_mid pre1 [] s1).1 hpre
    have hn2 := (NoAdj_mid [] post2 s2).1 hpost
    refine ⟨pre1, [(s1, false)], [(s2, false)], post2, ch', rfl, rfl, by simp, by simp, ?_, ?_,
      ?_, ?_, ?_⟩
    · simp only [total_cons, total_nil, Nat.add_zero]; rw [ebp]; exact h1
    · simp only [total_cons, total_nil, Nat.add_zero]
      exact (NoAdj_mid _ _ _).2 ⟨hn1.1, hn2.2.1, hn1.2.2.1, hn2.2.2.2⟩
    · rw [ebp]; exact h2
    · rw [ebp, e]; exact h3
    · rw [ebp]; exact h4
  · -- previous free, next allocated
    obtain ⟨pre1, s1, hp1⟩ := lastAlloc_false hla
    subst hp1
    have e : pre1 ++ [(s1, false)] ++ (s, false) :: post
        = pre1 ++ (s1, false) :: (s, false) :: post := by simp
    have ebp : FIRST + total (pre1 ++ [(s1, false)]) = FIRST + total pre1 + s1 := by
      simp only [total_append, total_cons, total_nil]; omega
    rw [e, ebp] at H
    obtain ⟨ch', h1, h2, h3, h4⟩ := coalesce_case3 H rfl hha
    have hn1 := (NoAdj_mid pre1 [] s1).1 hpre
    refine ⟨pre1, [(s1, false)], [], post, ch', rfl, rfl, by simp, by simp, ?_, ?_,
      ?_, ?_, ?_⟩
    · simp only [total_cons, total_nil, Nat.add_zero]; rw [ebp]; exact h1
    · simp only [total_cons, total_nil, Nat.add_zero]
      exact (NoAdj_mid _ _ _).2 ⟨hn1.1, hpost, hn1.2.2.1, hha⟩
    · rw [ebp]; exact h2
    · rw [ebp, e]; exact h3
    · rw [ebp]; exact h4
  · -- previous allocated, next free
    obtain ⟨s2, post2, hp2⟩ := headAlloc_false hha
    subst hp2
    obtain ⟨ch', h1, h2, h3, h4⟩ := coalesce_case2 H hla
    have hn2 := (NoAdj_mid [] post2 s2).1 hpost
    refine ⟨pre, [], [(s2, false)], post2, ch', by simp, rfl, by simp, by simp, ?_, ?_,
      ?_, ?_, ?_⟩
    · simp only [total_cons, total_nil, Nat.add_zero, Nat.zero_add]; exact h1
    · simp only [total_cons, total_nil, Nat.add_zero, Nat.zero_add]
      exact (NoAdj_mid _ _ _).2 ⟨hpre, hn2.2.1, hla, hn2.2.2.2⟩
    · exact h2
    · exact h3
    · exact h4
  · -- both allocated
    obtain ⟨ch', h1, h2, h3, h4⟩ := coalesce_case1 H hla hha
    refine ⟨pre, [], [], post, ch', by simp, rfl, by simp, by simp, ?_, ?_, ?_, ?_, ?_⟩
    · simp only [total_nil, Nat.add_zero, Nat.zero_add]; exact h1
    · simp only [total_nil, Nat.add_zero, Nat.zero_add]
      exact (NoAdj_mid _ _ _).2 ⟨hpre, hpost, hla, hha⟩
    · exact h2
    · exact h3
    · exact h4

theorem GET_SIZE_PUT_tag (m : Mem) (p s : Nat) (hs : s % 8 = 0) (hlt : s + 1 < 2 ^ 32) :
    GET_SIZE (PUT m p (s + 1)) p = s := by
  unfold GET_SIZE
  rw [GET_PUT_same_lt _ _ _ hlt, mask32_eq _ hlt]
  omega

theorem sub64 (c asize : Nat) (hle : asize ≤ c) (hc : c < 2 ^ 64) :
    (c + 2 ^ 64 - asize) % 2 ^ 64 = c - asize := by
  omega

/-- The state computed by `place` when it splits. -/
theorem place_eq_split (bp asize c : Nat) (st st1 : State)
    (hst1 : del_block bp st = st1) (r1 : GET_SIZE st.mem (HDRP bp) = c)
    (hge : asize + 16 ≤ c) (ha8 : asize % 8 = 0) (hc8 : c % 8 = 0) (ha16 : 16 ≤ asize)
    (hc : c < 2 ^ 32) (hbp : 8 ≤ bp) :
    place bp asize st = (coalesce_tail (bp + asize, { st1 with
      mem := (PUT (PUT (PUT (PUT st1.mem (bp - 4) (asize + 1)) (bp + asize - 8) (asize + 1))
        (bp + asize - 4) (c - asize)) (bp + c - 8) (c - asize)) })).2 := by
  have hsub := sub64 c asize (by omega) (by omega)
  have hcond : c - asize ≥ 2 * DSIZE := by
    simp only [DSIZE]; omega
  unfold place
  simp only [r1, hst1, hsub, hcond, if_true, PACK_zero, PACK_one asize ha8, put_mem]
  have q1 : FTRP (PUT st1.mem (HDRP bp) (asize + 1)) bp = bp + asize - 8 := by
    unfold FTRP
    rw [GET_SIZE_PUT_tag _ _ _ ha8 (by omega)]
    rfl
  simp only [q1]
  have q2 : NEXT_BLKP (PUT (PUT st1.mem (HDRP bp) (asize + 1)) (bp + asize - 8) (asize + 1)) bp
      = bp + asize := by
    rw [NEXT_BLKP_put _ _ _ _ (by omega) (by omega)]
    unfold NEXT_BLKP
    rw [← HDRP, GET_SIZE_PUT_tag _ _ _ ha8 (by omega)]
  simp only [q2]
  have q3 : FTRP (PUT (PUT (PUT st1.mem (HDRP bp) (asize + 1)) (bp + asize - 8) (asize + 1))
      (HDRP (bp + asize)) (c - asize)) (bp + asize) = bp + c - 8 := by
    unfold FTRP
    rw [GET_SIZE_PUT_same _ _ _ (by omega) (by omega)]
    simp only [DSIZE]
    omega
  simp only [q3]
  rfl

/-- The state computed by `place` when it does not split. -/
theorem place_eq_whole (bp asize c : Nat) (st st1 : State)
    (hst1 : del_block bp st = st1) (r1 : GET_SIZE st.mem (HDRP bp) = c)
    (hle : asize ≤ c) (hlt : c < asize + 16) (hc8 : c % 8 = 0)
    (hc : c + 1 < 2 ^ 32) :
    place bp asize st = { st1 with
      mem := (PUT (PUT st1.mem (bp - 4) (c + 1)) (bp + c - 8) (c + 1)) } := by
  have hsub := sub64 c asize (by omega) (by omega)
  have hcond : ¬ c - asize ≥ 2 * DSIZE := by
    simp only [DSIZE]; omega
  unfold place
  simp only [r1, hst1, hsub, hcond, if_false, PACK_one c hc8, put_mem]
  have q1 : FTRP (PUT st1.mem (HDRP bp) (c + 1)) bp = bp + c - 8 := by
    unfold FTRP
    rw [GET_SIZE_PUT_tag _ _ _ hc8 hc]
    rfl
  simp only [q1]
  rfl

theorem total_placed (c asize : Nat) (hle : asize ≤ c) : total (placed c asize) = c := by
  unfold placed
  split
  · simp only [total_cons, total_nil]; omega
  · simp only [total_cons, total_nil]; omega

/-- The function `place` carves the request out of a free block of the store. -/
theorem place_ok {st : State} {pre post : List (Nat × Bool)} {c : Nat}
    {ch : Nat → List Nat}
    (H : HeapOK st (pre ++ (c, false) :: post) ch [])
    (hna : NoAdj (pre ++ (c, false) :: post))
    (asize : Nat) (ha8 : asize % 8 = 0) (ha16 : 16 ≤ asize) (hle : asize ≤ c) :
    ∃ ch', HeapOK (place (FIRST + total pre) asize st) (pre ++ placed c asize ++ post) ch' []
      ∧ NoAdj (pre ++ placed c asize ++ post)
      ∧ (∀ a, AllocArea (pre ++ (c, false) :: post) a →
          (place (FIRST + total pre) asize st).mem a = st.mem a)
      ∧ (place (FIRST + total pre) asize st).sbrk_calls = st.sbrk_calls := by
  have hF := FIRST_ge
  have hbb := BlockAt_here pre post c false
  obtain ⟨b1, b2, b4, b8⟩ := H.block_arith hbb
  have hc8 : c % 8 = 0 := (H.block hbb).2.2.2.2.1
  have hin : FIRST + total pre ∈ ch (getNumber c) := by
    rcases H.complete _ _ hbb with h | h
    · exact h
    · simp at h
  obtain ⟨H1, f1, c1⟩ := del_block_ok H (getNumber_lt c) hin
  have r1 := H.read_size hbb
  have hclt : c + 1 < 2 ^ 32 := by
    clear * - b8
    simp only [total_append, total_cons] at b8; omega
  obtain ⟨hn1, hn2, hn3, hn4⟩ := (NoAdj_mid pre post c).1 hna
  have hbs : pre ++ (c, false) :: post = pre ++ [(c, false)] ++ post := by simp
  have e2 : total [((c, false) : Nat × Bool)] = c := by simp
  have hmidf : ∀ b ∈ [((c, false) : Nat × Bool)], b.2 = false := by
    intro b hb
    simp only [List.mem_singleton] at hb
    rw [hb]
  by_cases hsp : asize + 16 ≤ c
  · -- split
    have hpl : placed c asize = [(asize, true), (c - asize, false)] := by
      unfold placed; rw [if_pos hsp]
    rw [hpl, place_eq_split _ asize c st _ rfl r1 hsp ha8 hc8 ha16 (by omega) (by omega)]
    clear r1
    generalize del_block (FIRST + total pre) st = st1 at *
    rw [hbs] at H1
    have H2 := H1.retag_same
      (PUT (PUT (PUT (PUT st1.mem (FIRST + total pre - 4) (asize + 1))
        (FIRST + total pre + asize - 8) (asize + 1))
        (FIRST + total pre + asize - 4) (c - asize)) (FIRST + total pre + c - 8) (c - asize))
      [(asize, true), (c - asize, false)] [FIRST + total pre + asize]
      (by simp only [total_cons, total_nil]; omega)
      (by
        intro a ha
        rw [e2] at ha
        rw [PUT_other _ _ _ _ (by clear * - ha hsp ha16 hF; omega),
          PUT_other _ _ _ _ (by clear * - ha hsp ha16 hF; omega),
          PUT_other _ _ _ _ (by clear * - ha hsp ha16 hF; omega),
          PUT_other _ _ _ _ (by clear * - ha hsp ha16 hF; omega)])
      (by
        intro b hb
        simp only [List.mem_cons, List.mem_singleton, List.not_mem_nil, or_false] at hb
        clear * - hb hsp ha16 ha8 hc8
        rcases hb with hb | hb <;> rw [hb] <;> simp only <;> omega)
      (by
        apply TagsOK_pair
        · rw [GET_PUT_other _ _ _ _ (by clear * - hsp ha16 hF; omega),
            GET_PUT_other _ _ _ _ (by clear * - hsp ha16 hF; omega),
            GET_PUT_other _ _ _ _ (by clear * - hsp ha16 hF; omega),
            GET_PUT_same_lt _ _ _ (by clear * - hsp hclt; omega)]
          simp [tagv]
        · rw [GET_PUT_other _ _ _ _ (by clear * - hsp ha16 hF; omega),
            GET_PUT_other _ _ _ _ (by clear * - hsp ha16 hF; omega),
            GET_PUT_same_lt _ _ _ (by clear * - hsp hclt; omega)]
          simp [tagv]
        · rw [GET_PUT_other _ _ _ _ (by clear * - hsp ha16 hF; omega),
            GET_PUT_same_lt _ _ _ (by clear * - hsp hclt; omega)]
          simp [tagv]
        · have e : FIRST + total pre + asize + (c - asize) - 8 = FIRST + total pre + c - 8 := by
            clear * - hsp; omega
          rw [e, GET_PUT_same_lt _ _ _ (by clear * - hsp hclt; omega)]
          simp [tagv])
      (by
        intro p q hb
        simp only [BlockAt, or_false] at hb
        simp [hb.1])
      (by
        intro x hx
        simp only [List.mem_singleton] at hx
        right
        simp only [total_cons, total_nil]
        clear * - hx hsp ha16
        omega)
      (by
        intro p q hb
        simp only [BlockAt, or_false, Bool.false_eq_true, and_false, false_or] at hb
        simp [hb.1])
      (by
        intro x hx
        right
        simp only [List.mem_singleton] at hx
        rw [e2, hx]
        clear * - hsp
        omega)
    have hbm : BlockAt FIRST (pre ++ [(asize, true), (c - asize, false)] ++ post)
        (FIRST + total pre + asize) (c - asize) false := by
      rw [BlockAt_split]
      exact ⟨pre ++ [(asize, true)], post, by simp,
        by simp only [total_append, total_cons, total_nil]; omega⟩
    obtain ⟨k1, k2, k3, k4⟩ := coalesce_tail_ok _ (c - asize) H2 hbm
    refine ⟨_, k1, ?_, ?_, ?_⟩
    · have e : pre ++ [(asize, true), (c - asize, false)] ++ post
          = (pre ++ [(asize, true)]) ++ (c - asize, false) :: post := by simp
      rw [e]
      refine (NoAdj_mid _ _ _).2 ⟨?_, hn2, by simp, hn4⟩
      have e' : pre ++ [(asize, true)] = pre ++ (asize, true) :: [] := rfl
      rw [e']
      exact (NoAdj_mid_true _ _ _).2 ⟨hn1, by simp [NoAdj]⟩
    · intro a ha
      have ha1 : AllocArea (pre ++ [(c, false)] ++ post) a := by rw [← hbs]; exact ha
      have ha2 : AllocArea (pre ++ [(asize, true), (c - asize, false)] ++ post) a :=
        AllocArea_retag hmidf (by simp only [total_cons, total_nil]; omega) ha1
      rw [k3 a (AllocArea_not_free H2 ha2)]
      have ho := AllocArea_outside H1 hmidf ha1
      rw [e2] at ho
      show PUT (PUT (PUT (PUT _ _ _) _ _) _ _) _ _ a = _
      rw [PUT_other _ _ _ _ (by clear * - ho hsp ha16 hF; omega),
        PUT_other _ _ _ _ (by clear * - ho hsp ha16 hF; omega),
        PUT_other _ _ _ _ (by clear * - ho hsp ha16 hF; omega),
        PUT_other _ _ _ _ (by clear * - ho hsp ha16 hF; omega)]
      exact f1 a (AllocArea_not_free H ha)
    · rw [k4]; exact c1
  · -- no split
    have hpl : placed c asize = [(c, true)] := by
      unfold placed; rw [if_neg hsp]
    rw [hpl, place_eq_whole _ asize c st _ rfl r1 hle (by omega) hc8 hclt]
    clear r1
    generalize del_block (FIRST + total pre) st = st1 at *
    rw [hbs] at H1
    have H2 := H1.retag_same
      (PUT (PUT st1.mem (FIRST + total pre - 4) (c + 1)) (FIRST + total pre + c - 8) (c + 1))
      [(c, true)] []
      (by simp only [total_cons, total_nil])
      (by
        intro a ha
        rw [e2] at ha
        rw [PUT_other _ _ _ _ (by clear * - ha b4 hF; omega),
          PUT_other _ _ _ _ (by clear * - ha b4 hF; omega)])
      (by
        intro b hb
        simp only [List.mem_singleton] at hb
        rw [hb]
        exact ⟨b4, hc8⟩)
      (by
        apply TagsOK_single
        · rw [GET_PUT_other _ _ _ _ (by clear * - b4 hF; omega),
            GET_PUT_same_lt _ _ _ hclt]
          simp [tagv]
        · rw [GET_PUT_same_lt _ _ _ hclt]
          simp [tagv])
      (by
        intro p q hb
        simp only [BlockAt, or_false] at hb
        simp [hb.1])
      (by intro x hx; simp at hx)
      (by
        intro p q hb
        simp only [BlockAt, or_false, Bool.false_eq_true, and_false] at hb)
      (by
        intro x hx
        right
        simp only [List.mem_singleton] at hx
        rw [e2, hx]
        clear * - b4
        omega)
    refine ⟨_, H2, ?_, ?_, c1⟩
    · rw [List.append_assoc]
      exact (NoAdj_mid_true _ _ _).2 ⟨hn1, hn2⟩
    · intro a ha
      have ha1 : AllocArea (pre ++ [(c, false)] ++ post) a := by rw [← hbs]; exact ha
      have ho := AllocArea_outside H1 hmidf ha1
      rw [e2] at ho
      show PUT (PUT _ _ _) _ _ a = _
      rw [PUT_other _ _ _ _ (by clear * - ho b4 hF; omega),
        PUT_other _ _ _ _ (by clear * - ho b4 hF; omega)]
      exact f1 a (AllocArea_not_free H ha)

theorem HeapOK.calls {st : State} {bs : List (Nat × Bool)} {ch : Nat → List Nat}
    {X : List Nat} (H : HeapOK st bs ch X) (n : Nat) :
    HeapOK { st with sbrk_calls := n } bs ch X :=
  ⟨H.la, H.hl, H.brk, H.lim, H.pro1, H.pro2, H.epi, H.sz, H.tags, H.heads, H.links, H.sound,
    H.complete, H.nodup⟩

theorem extend_heap_fail (lim words : Nat) (st : State)
    (h : ¬ st.brk + ext_size words ≤ lim) :
    extend_heap lim words st = (0, { st with sbrk_calls := st.sbrk_calls + 1 }) := by
  unfold extend_heap mem_sbrk
  rw [← ext_size]
  simp only [h, if_false, if_true]

theorem extend_heap_eq (lim words : Nat) (st : State)
    (h : st.brk + ext_size words ≤ lim) (hb : st.brk ≤ 2 ^ 32)
    (h16 : 16 ≤ ext_size words) (h8 : ext_size words % 8 = 0) (hlt : ext_size words < 2 ^ 32) :
    extend_heap lim words st = coalesce (HEAP_BASE + st.brk)
      { st with
        brk := st.brk + ext_size words
        sbrk_calls := st.sbrk_calls + 1
        mem := (PUT (PUT (PUT (PUT (PUT st.mem (HEAP_BASE + st.brk - 4) (ext_size words))
          (HEAP_BASE + st.brk + ext_size words - 8) (ext_size words))
          (HEAP_BASE + st.brk + ext_size words - 4) 1) (HEAP_BASE + st.brk + 4) 0)
          (HEAP_BASE + st.brk) 0) } := by
  have hB : HEAP_BASE = 34359738368 := rfl
  have hne : HEAP_BASE + st.brk ≠ NEG1 := by
    unfold NEG1
    omega
  unfold extend_heap mem_sbrk
  rw [← ext_size]
  simp only [h, if_true, hne, if_false, PACK_zero, put_mem]
  have q1 : FTRP (PUT st.mem (HDRP (HEAP_BASE + st.brk)) (ext_size words)) (HEAP_BASE + st.brk)
      = HEAP_BASE + st.brk + ext_size words - 8 := by
    unfold FTRP
    rw [GET_SIZE_PUT_same _ _ _ h8 hlt]
    rfl
  simp only [q1]
  have q2 : NEXT_BLKP (PUT (PUT st.mem (HDRP (HEAP_BASE + st.brk)) (ext_size words))
      (HEAP_BASE + st.brk + ext_size words - 8) (ext_size words)) (HEAP_BASE + st.brk)
      = HEAP_BASE + st.brk + ext_size words := by
    rw [NEXT_BLKP_put _ _ _ _ (by omega) (by omega)]
    unfold NEXT_BLKP
    rw [← HDRP, GET_SIZE_PUT_same _ _ _ h8 hlt]
  simp only [q2]
  rfl

/-- Growth of the heap by a new free block, merged with a free last block. -/
theorem extend_heap_ok {st : State} {bs : List (Nat × Bool)} {ch : Nat → List Nat}
    (H : HeapOK st bs ch []) (hna : NoAdj bs) (lim words : Nat) (hlim : lim ≤ 2 ^ 32)
    (h16 : 16 ≤ ext_size words) (h8 : ext_size words % 8 = 0)
    (h : st.brk + ext_size words ≤ lim) :
    ∃ pre' l ch',
      bs = pre' ++ l ∧ (∀ b ∈ l, b.2 = false)
      ∧ HeapOK (extend_heap lim words st).2 (pre' ++ [(total l + ext_size words, false)]) ch' []
      ∧ NoAdj (pre' ++ [(total l + ext_size words, false)])
      ∧ (extend_heap lim words st).1 = FIRST + total pre'
      ∧ (∀ a, AllocArea bs a → (extend_heap lim words st).2.mem a = st.mem a)
      ∧ (extend_heap lim words st).2.sbrk_calls = st.sbrk_calls + 1 := by
  have hF := FIRST_eq
  have hbrk := H.brk
  have hl := H.lim
  have hlt : ext_size words < 2 ^ 32 := by omega
  rw [extend_heap_eq lim words st h hl h16 h8 hlt]
  have ebp : HEAP_BASE + st.brk = FIRST + total bs := by omega
  rw [ebp]
  generalize ext_size words = size at *
  have H0 : HeapOK st (bs ++ [] ++ []) ch [] := by simpa using H
  have H6 := H0.retag
    { st with
      brk := st.brk + size
      sbrk_calls := st.sbrk_calls + 1
      mem := (PUT (PUT (PUT (PUT (PUT st.mem (FIRST + total bs - 4) size)
        (FIRST + total bs + size - 8) size)
        (FIRST + total bs + size - 4) 1) (FIRST + total bs + 4) 0)
        (FIRST + total bs) 0) }
    [(size, false)] [FIRST + total bs] rfl rfl
    (by
      show st.brk + size = _
      simp only [total_append, total_cons, total_nil]; omega)
    (by show st.brk + size ≤ _; omega)
    (Or.inr ⟨rfl, by simp⟩)
    (by
      intro a ha
      show PUT (PUT (PUT (PUT (PUT _ _ _) _ _) _ _) _ _) _ _ a = _
      rw [PUT_other _ _ _ _ (by clear * - ha hF h16; omega),
        PUT_other _ _ _ _ (by clear * - ha hF h16; omega),
        PUT_other _ _ _ _ (by clear * - ha hF h16; omega),
        PUT_other _ _ _ _ (by clear * - ha hF h16; omega),
        PUT_other _ _ _ _ (by clear * - ha hF h16; omega)])
    (by
      intro a h1 h2
      simp only [total_append, total_nil] at h1 h2
      omega)
    (by
      show GET (PUT (PUT (PUT (PUT (PUT _ _ _) _ _) _ _) _ _) _ _) _ = 1
      have e : FIRST + total (bs ++ [(size, false)] ++ []) - 4 = FIRST + total bs + size - 4 := by
        simp only [total_append, total_cons, total_nil]; omega
      rw [e, GET_PUT_other _ _ _ _ (by clear * - hF h16; omega),
        GET_PUT_other _ _ _ _ (by clear * - hF h16; omega),
        GET_PUT_same_lt _ _ _ (by norm_num)])
    (by
      intro b hb
      simp only [List.mem_singleton] at hb
      rw [hb]
      exact ⟨h16, h8⟩)
    (by
      apply TagsOK_single
      · rw [GET_PUT_other _ _ _ _ (by clear * - hF h16; omega),
          GET_PUT_other _ _ _ _ (by clear * - hF h16; omega),
          GET_PUT_other _ _ _ _ (by clear * - hF h16; omega),
          GET_PUT_other _ _ _ _ (by clear * - hF h16; omega),
          GET_PUT_same_lt _ _ _ hlt]
        simp [tagv]
      · by_cases h24 : size = 16
        · subst h24
          have e : FIRST + total bs + 16 - 8 = FIRST + total bs + 8 := by omega
          rw [e, GET_PUT_other _ _ _ _ (by clear * - hF; omega),
            GET_PUT_other _ _ _ _ (by clear * - hF; omega),
            GET_PUT_other _ _ _ _ (by clear * - hF; omega),
            GET_PUT_same_lt _ _ _ (by norm_num)]
          simp [tagv]
        · rw [GET_PUT_other _ _ _ _ (by clear * - hF h16 h8 h24; omega),
            GET_PUT_other _ _ _ _ (by clear * - hF h16 h8 h24; omega),
            GET_PUT_other _ _ _ _ (by clear * - hF h16 h8 h24; omega),
            GET_PUT_same_lt _ _ _ hlt]
          simp [tagv])
    (by intro p s hb; exact hb.elim)
    (by
      intro x hx
      simp only [List.mem_singleton] at hx
      right
      simp only [total_cons, total_nil]
      omega)
    (by
      intro p s hb
      simp only [BlockAt, or_false] at hb
      simp [hb.1])
    (by intro x hx; simp at hx)
  have e6 : bs ++ [(size, false)] ++ [] = bs ++ (size, false) :: [] := by simp
  rw [e6] at H6
  obtain ⟨pre', l, r, post', ch', k1, k2, k3, k4, k5, k6, k7, k8, k9⟩ :=
    coalesce_ok H6 hna (by simp [NoAdj])
  have hr : r = [] ∧ post' = [] := by
    cases r with
    | nil => exact ⟨rfl, by simpa using k2.symm⟩
    | cons x t => simp at k2
  obtain ⟨hr1, hr2⟩ := hr
  subst hr1 hr2
  simp only [total_nil, Nat.add_zero] at k5 k6
  refine ⟨pre', l, ch', k1, k3, k5, k6, k7, ?_, k9⟩
  intro a ha
  have ha' : AllocArea (bs ++ (size, false) :: []) a := by
    obtain ⟨q, sq, hb, hq1, hq2⟩ := ha
    exact ⟨q, sq, (BlockAt_append _ _ _ _ _ _).2 (Or.inl hb), hq1, hq2⟩
  rw [k8 a ha']
  obtain ⟨q, sq, hb, hq1, hq2⟩ := ha
  have hr := BlockAt_range _ _ _ _ _ hb
  show PUT (PUT (PUT (PUT (PUT _ _ _) _ _) _ _) _ _) _ _ a = _
  rw [PUT_other _ _ _ _ (by clear * - hr hq1 hq2 hF h16; omega),
    PUT_other _ _ _ _ (by clear * - hr hq1 hq2 hF h16; omega),
    PUT_other _ _ _ _ (by clear * - hr hq1 hq2 hF h16; omega),
    PUT_other _ _ _ _ (by clear * - hr hq1 hq2 hF h16; omega),
    PUT_other _ _ _ _ (by clear * - hr hq1 hq2 hF h16; omega)]

theorem firstFit_mem (m : Mem) (asize : Nat) (l : List Nat) (h : firstFit m asize l ≠ 0) :
    firstFit m asize l ∈ l ∧ GET_SIZE m (HDRP (firstFit m asize l)) ≥ asize := by
  induction l with
  | nil => exact absurd rfl h
  | cons p t ih =>
    unfold firstFit at h ⊢
    by_cases hc : GET_SIZE m (HDRP p) ≥ asize
    · rw [if_pos hc]
      exact ⟨List.mem_cons_self _ _, hc⟩
    · rw [if_neg hc] at h ⊢
      exact ⟨List.mem_cons_of_mem _ (ih h).1, (ih h).2⟩

theorem firstFit_none (m : Mem) (asize : Nat) (l : List Nat) (h : firstFit m asize l = 0)
    (hnz : ∀ p ∈ l, p ≠ 0) : ∀ p ∈ l, GET_SIZE m (HDRP p) < asize := by
  induction l with
  | nil => intro p hp; simp at hp
  | cons q t ih =>
    unfold firstFit at h
    by_cases hc : GET_SIZE m (HDRP q) ≥ asize
    · rw [if_pos hc] at h
      exact absurd h (hnz q (List.mem_cons_self _ _))
    · rw [if_neg hc] at h
      intro p hp
      rcases List.mem_cons.1 hp with hp | hp
      · rw [hp]; omega
      · exact ih h (fun x hx => hnz x (List.mem_cons_of_mem _ hx)) p hp

theorem firstFitFrom_mem (m : Mem) (asize : Nat) (ch : Nat → List Nat) :
    ∀ k number, firstFitFrom m asize ch k number ≠ 0 →
      ∃ i, number ≤ i ∧ i < number + k ∧ firstFitFrom m asize ch k number ∈ ch i
        ∧ GET_SIZE m (HDRP (firstFitFrom m asize ch k number)) ≥ asize := by
  intro k
  induction k with
  | zero => intro number h; exact absurd rfl h
  | succ k ih =>
    intro number h
    unfold firstFitFrom at h ⊢
    by_cases hc : firstFit m asize (ch number) ≠ 0
    · rw [if_pos hc]
      have := firstFit_mem m asize _ hc
      exact ⟨number, le_refl _, by omega, this.1, this.2⟩
    · rw [if_neg hc] at h ⊢
      obtain ⟨i, h1, h2, h3, h4⟩ := ih (number + 1) h
      exact ⟨i, by omega, by omega, h3, h4⟩

theorem firstFitFrom_none (m : Mem) (asize : Nat) (ch : Nat → List Nat) (N : Nat)
    (hnz : ∀ i, i < N → ∀ p ∈ ch i, p ≠ 0) :
    ∀ k number, number + k ≤ N → firstFitFrom m asize ch k number = 0 →
      ∀ i, number ≤ i → i < number + k → ∀ p ∈ ch i, GET_SIZE m (HDRP p) < asize := by
  intro k
  induction k with
  | zero => intro number _ _ i h1 h2; omega
  | succ k ih =>
    intro number hN h i h1 h2 p hp
    unfold firstFitFrom at h
    by_cases hc : firstFit m asize (ch number) ≠ 0
    · rw [if_pos hc] at h
      exact absurd h hc
    · rw [if_neg hc] at h
      by_cases hi : i = number
      · subst hi
        exact firstFit_none m asize _ (not_not.1 hc) (hnz i (by omega)) p hp
      · exact ih (number + 1) (by omega) h i (by omega) (by omega) p hp

/-- With enough fuel the walk of a well-formed chain returns its first fit. -/
theorem find_in_chain_spec (m : Mem) (asize : Nat) :
    ∀ (l : List Nat) (pw fuel : Nat), Seg m pw l 0 →
      (∀ p ∈ l, p ≠ 0 ∧ word_to_ptr (ptr_to_word p) = p) → l.length < fuel →
      find_in_chain m asize fuel (headP l) = .ret (firstFit m asize l) := by
  intro l
  induction l with
  | nil =>
    intro pw fuel _ _ hf
    cases fuel with
    | zero => simp at hf
    | succ f => simp [find_in_chain, headP, firstFit]
  | cons p t ih =>
    intro pw fuel hs hn hf
    cases fuel with
    | zero => simp at hf
    | succ f =>
      have hp := hn p (List.mem_cons_self _ _)
      obtain ⟨_, h2, h3⟩ := hs
      unfold find_in_chain firstFit
      simp only [headP, hp.1, if_false]
      by_cases hc : GET_SIZE m (HDRP p) ≥ asize
      · rw [if_pos hc, if_pos hc]
      · rw [if_neg hc, if_neg hc]
        have hnext : word_to_ptr (NEXT_LINK m p) = headP t := by
          unfold NEXT_LINK
          rw [h2]
          cases t with
          | nil => rfl
          | cons q t' =>
            exact (hn q (List.mem_cons_of_mem _ (List.mem_cons_self _ _))).2
        rw [hnext]
        exact ih _ f h3 (fun x hx => hn x (List.mem_cons_of_mem _ hx))
          (by simp only [List.length_cons] at hf; omega)

theorem find_fit_loop_spec (fuel asize : Nat) (st : State) (ch : Nat → List Nat)
    (hh : ∀ i, i < 16 → GETP st.mem (st.list_addr + 8 * i) = headP (ch i))
    (hs : ∀ i, i < 16 → Seg st.mem 0 (ch i) 0)
    (hn : ∀ i, i < 16 → ∀ p ∈ ch i, p ≠ 0 ∧ word_to_ptr (ptr_to_word p) = p)
    (hf : ∀ i, i < 16 → (ch i).length < fuel) :
    ∀ k number, number + k ≤ 16 →
      find_fit_loop fuel asize st k number = .ret (firstFitFrom st.mem asize ch k number) := by
  intro k
  induction k with
  | zero => intro number _; rfl
  | succ k ih =>
    intro number hk
    have hi : number < 16 := by omega
    unfold find_fit_loop firstFitFrom
    rw [hh number hi, find_in_chain_spec st.mem asize _ 0 fuel (hs number hi) (hn number hi)
      (hf number hi)]
    by_cases hc : firstFit st.mem asize (ch number) = 0
    · rw [hc]
      simp only [ne_eq, not_true_eq_false, if_false]
      exact ih (number + 1) (by omega)
    · rw [if_pos hc]
      split
      · rename_i heq
        injection heq with heq
        exact absurd heq hc
      · rfl

theorem HeapOK.chain_len {st : State} {bs : List (Nat × Bool)} {ch : Nat → List Nat}
    {X : List Nat} (H : HeapOK st bs ch X) {i : Nat} (hi : i < 16) :
    (ch i).length ≤ st.brk := by
  have hnd := H.nodup i hi
  have hinj : ((ch i).map (fun p => p - HEAP_BASE)).Nodup := by
    apply List.Nodup.map_on _ hnd
    intro x hx y hy hxy
    have h1 := H.node hi hx
    have h2 := H.node hi hy
    simp only at hxy
    omega
  have hsub : ((ch i).map (fun p => p - HEAP_BASE)).toFinset ⊆ Finset.range st.brk := by
    intro x hx
    simp only [List.mem_toFinset, List.mem_map] at hx
    obtain ⟨p, hp, rfl⟩ := hx
    obtain ⟨_, s, hb, _⟩ := H.sound i hi p hp
    have := H.block hb
    have := H.brk
    simp only [Finset.mem_range]
    omega
  have := Finset.card_le_card hsub
  rw [List.toFinset_card_of_nodup hinj, List.length_map, Finset.card_range] at this
  exact this

/-- On a well-formed heap `find_fit` returns the first fit of the store. -/
theorem find_fit_spec {st : State} {bs : List (Nat × Bool)} {ch : Nat → List Nat}
    {X : List Nat} (H : HeapOK st bs ch X) (fuel asize : Nat) (hf : st.brk < fuel) :
    find_fit fuel asize st = .ret (firstFitFrom st.mem asize ch
      (LIST_NUM - getNumber asize) (getNumber asize)) := by
  unfold find_fit
  apply find_fit_loop_spec fuel asize st ch
  · intro i hi; rw [H.la]; exact H.heads i hi
  · exact H.links
  · intro i hi p hp
    have h := H.node hi hp
    have hB := BASE_pos
    refine ⟨by omega, ?_⟩
    rw [h.2.2.2.2.1]; exact h.2.2.2.2.2.1
  · intro i hi
    have := H.chain_len hi
    omega
  · have := getNumber_lt asize
    simp only [LIST_NUM]
    omega

/-- No free block is large enough when `find_fit` finds nothing. -/
theorem HeapOK.no_fit {st : State} {bs : List (Nat × Bool)} {ch : Nat → List Nat}
    (H : HeapOK st bs ch []) (asize : Nat)
    (h : firstFitFrom st.mem asize ch (LIST_NUM - getNumber asize) (getNumber asize) = 0) :
    ∀ q c, BlockAt FIRST bs q c false → c < asize := by
  intro q c hb
  by_contra hc
  have hc' : asize ≤ c := by omega
  have hq : q ∈ ch (getNumber c) := by
    rcases H.complete q c hb with h' | h'
    · exact h'
    · simp at h'
  have h1 := getNumber_mono asize c hc'
  have h2 := getNumber_lt c
  have h3 := getNumber_lt asize
  have hnz : ∀ i, i < 16 → ∀ p ∈ ch i, p ≠ 0 := by
    intro i hi p hp
    have := H.node hi hp
    have := BASE_pos
    omega
  have := firstFitFrom_none st.mem asize ch 16 hnz _ _ (by simp only [LIST_NUM]; omega) h
    (getNumber c) h1 (by simp only [LIST_NUM]; omega) q hq
  rw [H.read_size hb] at this
  omega

/-- A block that `find_fit` returns is a free block of the store that fits. -/
theorem HeapOK.fit_block {st : State} {bs : List (Nat × Bool)} {ch : Nat → List Nat}
    (H : HeapOK st bs ch []) (asize : Nat)
    (h : firstFitFrom st.mem asize ch (LIST_NUM - getNumber asize) (getNumber asize) ≠ 0) :
    ∃ c, BlockAt FIRST bs
      (firstFitFrom st.mem asize ch (LIST_NUM - getNumber asize) (getNumber asize)) c false
      ∧ asize ≤ c := by
  obtain ⟨i, h1, h2, h3, h4⟩ := firstFitFrom_mem st.mem asize ch _ _ h
  have hi : i < 16 := by
    have := getNumber_lt asize
    simp only [LIST_NUM] at h2
    omega
  obtain ⟨_, c, hb, _⟩ := H.sound i hi _ h3
  rw [H.read_size hb] at h4
  exact ⟨c, hb, h4⟩

/-- Stores into the payload of an allocated block keep the heap well-formed. -/
theorem payload_write_ok {st : State} {bs : List (Nat × Bool)} {ch : Nat → List Nat}
    (H : HeapOK st bs ch []) {p s : Nat} (hb : BlockAt FIRST bs p s true) (m' : Mem)
    (hm : ∀ a, (a < p ∨ p + s - 8 ≤ a) → m' a = st.mem a) :
    HeapOK { st with mem := m' } bs ch [] := by
  obtain ⟨pre, post, hbs, hp⟩ := (BlockAt_split _ _ _ _ _).1 hb
  obtain ⟨b1, b2, b3, b4, b5, b6, b7, b8⟩ := H.block hb
  have hF := FIRST_ge
  have e : pre ++ (s, true) :: post = pre ++ [(s, true)] ++ post := by simp
  subst hbs
  rw [e] at H ⊢
  have e2 : total [((s, true) : Nat × Bool)] = s := by simp
  apply H.retag_same m' [(s, true)] [] rfl
  · intro a ha
    rw [e2] at ha
    apply hm
    clear * - ha hp b4
    omega
  · intro b hb'
    simp only [List.mem_singleton] at hb'
    rw [hb']
    exact ⟨b4, b5⟩
  · apply TagsOK_single
    · rw [← hp, ← b6]
      apply GET_congr
      intro a h1 h2
      apply hm
      clear * - h1 h2 b4 b1
      omega
    · rw [← hp, ← b7]
      apply GET_congr
      intro a h1 h2
      apply hm
      clear * - h1 h2 b4
      omega
  · intro q sq hq
    simp only [BlockAt, or_false] at hq
    simp at hq
  · intro x hx; simp at hx
  · intro q sq hq
    simp only [BlockAt, or_false] at hq
    simp at hq
  · intro x hx; simp at hx

theorem LiveOK_mono {bs bs' : List (Nat × Bool)} {live : List (Nat × Nat)}
    (h : LiveOK bs live) (hsub : ∀ q sq, BlockAt FIRST bs q sq true → BlockAt FIRST bs' q sq true) :
    LiveOK bs' live := by
  intro x hx
  obtain ⟨s, hb, hs⟩ := h x hx
  exact ⟨s, hsub _ _ hb, hs⟩

theorem adjust_props (n : Nat) (h : n + 15 < 2 ^ 64) :
    16 ≤ adjust n ∧ adjust n % 8 = 0 ∧ n + 8 ≤ adjust n := by
  rw [adjust_eq n h]
  split <;> omega

theorem ext_size_max (asize : Nat) (h8 : asize % 8 = 0) (hlt : asize < 2 ^ 64) :
    ext_size (MAX asize CHUNKSIZE / WSIZE) = MAX asize CHUNKSIZE
      ∧ 160 ≤ MAX asize CHUNKSIZE ∧ asize ≤ MAX asize CHUNKSIZE
      ∧ MAX asize CHUNKSIZE % 8 = 0 := by
  have key : ∀ E, E % 8 = 0 → E < 2 ^ 64 → ext_size (E / WSIZE) = E := by
    intro E h1 h2
    unfold ext_size WSIZE
    rw [if_neg (by omega)]
    omega
  unfold MAX CHUNKSIZE
  split
  · exact ⟨key _ h8 hlt, by omega, by omega, h8⟩
  · exact ⟨key _ (by norm_num) (by norm_num), by omega, by omega, by norm_num⟩

theorem add_block_calls (bp : Nat) (st : State) :
    (add_block bp st).sbrk_calls = st.sbrk_calls := by
  unfold add_block
  simp only
  split <;> rfl

theorem del_block_calls (bp : Nat) (st : State) :
    (del_block bp st).sbrk_calls = st.sbrk_calls := by
  unfold del_block
  simp only
  split
  · rfl
  · split
    · rfl
    · split <;> rfl

theorem place_calls (bp asize : Nat) (st : State) :
    (place bp asize st).sbrk_calls = st.sbrk_calls := by
  unfold place
  simp only
  split
  · rw [add_block_calls]
    simp only [put_calls, del_block_calls]
  · simp only [put_calls, del_block_calls]

theorem HeapOK.hl_ne {st : State} {bs : List (Nat × Bool)} {ch : Nat → List Nat}
    {X : List Nat} (H : HeapOK st bs ch X) : st.heap_listp ≠ 0 := by
  rw [H.hl]; omega

theorem malloc_eq_zero {st : State} {bs : List (Nat × Bool)} {ch : Nat → List Nat}
    (H : HeapOK st bs ch []) (fuel lim : Nat) :
    malloc fuel lim 0 st = .ret (0, st) := by
  unfold malloc
  simp only [H.hl_ne, if_false, if_true]

theorem malloc_eq_fit {st : State} {bs : List (Nat × Bool)} {ch : Nat → List Nat}
    (H : HeapOK st bs ch []) (fuel lim size : Nat) (hf : st.brk < fuel) (hs : size ≠ 0)
    (hfit : fitOf st ch size ≠ 0) :
    malloc fuel lim size st
      = .ret (fitOf st ch size, place (fitOf st ch size) (adjust size) st) := by
  unfold malloc
  simp only [H.hl_ne, if_false, hs, find_fit_spec H fuel (adjust size) hf]
  rw [← fitOf]
  simp only [ne_eq, hfit, not_false_eq_true, if_true]

theorem malloc_eq_grow {st : State} {bs : List (Nat × Bool)} {ch : Nat → List Nat}
    (H : HeapOK st bs ch []) (fuel lim size : Nat) (hf : st.brk < fuel) (hs : size ≠ 0)
    (hfit : fitOf st ch size = 0)
    (hne : (extend_heap lim (MAX (adjust size) CHUNKSIZE / WSIZE) st).1 ≠ 0) :
    malloc fuel lim size st
      = .ret ((extend_heap lim (MAX (adjust size) CHUNKSIZE / WSIZE) st).1,
          place (extend_heap lim (MAX (adjust size) CHUNKSIZE / WSIZE) st).1 (adjust size)
            (extend_heap lim (MAX (adjust size) CHUNKSIZE / WSIZE) st).2) := by
  unfold malloc
  simp only [H.hl_ne, if_false, hs, find_fit_spec H fuel (adjust size) hf]
  rw [← fitOf]
  simp only [ne_eq, hfit, not_true_eq_false, if_false, hne]

theorem malloc_eq_fail {st : State} {bs : List (Nat × Bool)} {ch : Nat → List Nat}
    (H : HeapOK st bs ch []) (fuel lim size : Nat) (hf : st.brk < fuel) (hs : size ≠ 0)
    (hfit : fitOf st ch size = 0)
    (hno : ¬ st.brk + MAX (adjust size) CHUNKSIZE ≤ lim) :
    malloc fuel lim size st = .ret (0, { st with sbrk_calls := st.sbrk_calls + 1 }) := by
  have hE := ext_size_max (adjust size) (adjust_mod8 size) (adjust_lt size)
  have hx := extend_heap_fail lim (MAX (adjust size) CHUNKSIZE / WSIZE) st (by rw [hE.1]; exact hno)
  unfold malloc
  simp only [H.hl_ne, if_false, hs, find_fit_spec H fuel (adjust size) hf]
  rw [← fitOf]
  simp only [ne_eq, hfit, not_true_eq_false, if_false, hx, if_true]

theorem BlockAt_replace_true {pre mid mid' post : List (Nat × Bool)}
    (hmid : ∀ b ∈ mid, b.2 = false) (htot : total mid' = total mid) {q sq : Nat}
    (hb : BlockAt FIRST (pre ++ mid ++ post) q sq true) :
    BlockAt FIRST (pre ++ mid' ++ post) q sq true := by
  rw [BlockAt_append, BlockAt_append] at hb ⊢
  rcases hb with (hb | hb) | hb
  · exact Or.inl (Or.inl hb)
  · exact absurd hb (BlockAt_allfree _ hmid _ _ _)
  · right
    simp only [total_append] at hb ⊢
    rw [htot]; exact hb

theorem placed_block (pre post : List (Nat × Bool)) (c asize : Nat) (hle : asize ≤ c) :
    ∃ c', BlockAt FIRST (pre ++ placed c asize ++ post) (FIRST + total pre) c' true
      ∧ asize ≤ c' := by
  unfold placed
  split
  · exact ⟨asize, by rw [List.append_assoc]; exact BlockAt_here _ _ _ _, le_refl _⟩
  · exact ⟨c, by rw [List.append_assoc]; exact BlockAt_here _ _ _ _, hle⟩

/-- How `malloc` returns: through a fit, or through growth of the heap. -/
theorem malloc_ret {st : State} {bs : List (Nat × Bool)} {ch : Nat → List Nat}
    (H : HeapOK st bs ch []) (hna : NoAdj bs) (fuel lim size : Nat) (hf : st.brk < fuel)
    (hlim : lim ≤ 2 ^ 32) :
    ∃ p st', malloc fuel lim size st = .ret (p, st')
      ∧ (size = 0 → p = 0 ∧ st' = st)
      ∧ (size ≠ 0 → fitOf st ch size ≠ 0 →
          p = fitOf st ch size ∧ st'.sbrk_calls = st.sbrk_calls)
      ∧ (size ≠ 0 → fitOf st ch size = 0 →
          st'.sbrk_calls = st.sbrk_calls + 1
          ∧ (p = 0 ↔ ¬ st.brk + MAX (adjust size) CHUNKSIZE ≤ lim)) := by
  by_cases hs : size = 0
  · subst hs
    exact ⟨0, st, malloc_eq_zero H fuel lim, fun _ => ⟨rfl, rfl⟩, fun h => absurd rfl h,
      fun h => absurd rfl h⟩
  by_cases hfit : fitOf st ch size = 0
  · have hE := ext_size_max (adjust size) (adjust_mod8 size) (adjust_lt size)
    by_cases hg : st.brk + MAX (adjust size) CHUNKSIZE ≤ lim
    · obtain ⟨pre', l, ch', k1, k2, k3, k4, k5, k6, k7⟩ :=
        extend_heap_ok H hna lim (MAX (adjust size) CHUNKSIZE / WSIZE) hlim
          (by rw [hE.1]; omega) (by rw [hE.1]; exact hE.2.2.2) (by rw [hE.1]; exact hg)
      have hne : (extend_heap lim (MAX (adjust size) CHUNKSIZE / WSIZE) st).1 ≠ 0 := by
        rw [k5]
        have := FIRST_ge
        omega
      refine ⟨_, _, malloc_eq_grow H fuel lim size hf hs hfit hne, fun h => absurd h hs,
        fun _ h => absurd hfit h, fun _ _ => ⟨?_, ?_⟩⟩
      · rw [place_calls, k7]
      · constructor
        · intro h; exact absurd h hne
        · intro h; exact absurd hg h
    · refine ⟨_, _, malloc_eq_fail H fuel lim size hf hs hfit hg, fun h => absurd h hs,
        fun _ h => absurd hfit h, fun _ _ => ⟨rfl, ?_⟩⟩
      constructor
      · intro _; exact hg
      · intro _; rfl
  · refine ⟨_, _, malloc_eq_fit H fuel lim size hf hs hfit, fun h => absurd h hs,
      fun _ _ => ⟨rfl, place_calls _ _ _⟩, fun _ h => absurd h hfit⟩

/-- The function `malloc` keeps the invariant; a block it returns becomes live. -/
theorem malloc_ok {st : State} {bs : List (Nat × Bool)} {ch : Nat → List Nat}
    {live : List (Nat × Nat)} (G : Good st bs ch live) (fuel lim size : Nat)
    (hf : st.brk < fuel) (hlim : lim ≤ 2 ^ 32) (hsz : size + 15 < 2 ^ 64) :
    ∃ p st' bs' ch', malloc fuel lim size st = .ret (p, st')
      ∧ Good st' bs' ch' (if p = 0 then live else (p, size) :: live)
      ∧ (∀ q sq, BlockAt FIRST bs q sq true → BlockAt FIRST bs' q sq true)
      ∧ (∀ a, AllocArea bs a → st'.mem a = st.mem a)
      ∧ (p ≠ 0 → ∃ c, BlockAt FIRST bs' p c true ∧ adjust size ≤ c)
      ∧ (∀ sq, ¬ BlockAt FIRST bs p sq true)
      ∧ (p = 0 → bs' = bs ∧ st'.mem = st.mem) := by
  have H := G.heap
  have hF := FIRST_ge
  have hnz : ∀ sq, ¬ BlockAt FIRST bs 0 sq true := by
    intro sq hb
    have := BlockAt_range _ _ _ _ _ hb
    omega
  obtain ⟨ha16, ha8, han⟩ := adjust_props size hsz
  by_cases hs : size = 0
  · subst hs
    exact ⟨0, st, bs, ch, malloc_eq_zero H fuel lim, by simpa using G, fun _ _ h => h,
      fun _ _ => rfl, fun h => absurd rfl h, hnz, fun _ => ⟨rfl, rfl⟩⟩
  by_cases hfit : fitOf st ch size = 0
  · have hE := ext_size_max (adjust size) (adjust_mod8 size) (adjust_lt size)
    by_cases hg : st.brk + MAX (adjust size) CHUNKSIZE ≤ lim
    · obtain ⟨pre', l, ch1, k1, k2, k3, k4, k5, k6, k7⟩ :=
        extend_heap_ok H G.noadj lim (MAX (adjust size) CHUNKSIZE / WSIZE) hlim
          (by rw [hE.1]; omega) (by rw [hE.1]; exact hE.2.2.2) (by rw [hE.1]; exact hg)
      have hne : (extend_heap lim (MAX (adjust size) CHUNKSIZE / WSIZE) st).1 ≠ 0 := by
        rw [k5]; omega
      have hmal := malloc_eq_grow H fuel lim size hf hs hfit hne
      rw [k5] at hmal hne
      rw [hE.1] at k3 k4
      generalize (extend_heap lim (MAX (adjust size) CHUNKSIZE / WSIZE) st).2 = st1 at *
      have e1 : pre' ++ [(total l + MAX (adjust size) CHUNKSIZE, false)]
          = pre' ++ (total l + MAX (adjust size) CHUNKSIZE, false) :: [] := rfl
      rw [e1] at k3 k4
      obtain ⟨ch', p1, p2, p3, p4⟩ := place_ok k3 k4 (adjust size) ha8 ha16 (by omega)
      obtain ⟨c', hc1, hc2⟩ := placed_block pre' [] (total l + MAX (adjust size) CHUNKSIZE)
        (adjust size) (by omega)
      have hpers : ∀ q sq, BlockAt FIRST bs q sq true →
          BlockAt FIRST (pre' ++ placed (total l + MAX (adjust size) CHUNKSIZE) (adjust size)
            ++ []) q sq true := by
        intro q sq hb
        rw [k1, BlockAt_append] at hb
        rcases hb with hb | hb
        · rw [BlockAt_append, BlockAt_append]
          exact Or.inl (Or.inl hb)
        · exact absurd hb (BlockAt_allfree _ k2 _ _ _)
      have hfresh : ∀ sq, ¬ BlockAt FIRST bs (FIRST + total pre') sq true := by
        intro sq hb
        have h16 := (H.block hb).2.2.2.1
        rw [k1, BlockAt_append] at hb
        rcases hb with hb | hb
        · have := BlockAt_range _ _ _ _ _ hb
          omega
        · exact absurd hb (BlockAt_allfree _ k2 _ _ _)
      refine ⟨_, _, _, ch', hmal, ?_, hpers, ?_, fun _ => ⟨c', hc1, hc2⟩, hfresh,
        fun h => absurd h hne⟩
      · rw [if_neg hne]
        refine ⟨p1, p2, ?_, ?_⟩
        · intro x hx
          rcases List.mem_cons.1 hx with hx | hx
          · subst hx
            exact ⟨c', hc1, by simp only; omega⟩
          · obtain ⟨s, hb, hs'⟩ := G.lv x hx
            exact ⟨s, hpers _ _ hb, hs'⟩
        · simp only [List.map_cons, List.nodup_cons]
          refine ⟨?_, G.nd⟩
          intro hm
          obtain ⟨x, hx, hx1⟩ := List.mem_map.1 hm
          obtain ⟨s, hb, _⟩ := G.lv x hx
          rw [hx1] at hb
          exact hfresh s hb
      · intro a ha
        have ha' : AllocArea (pre' ++ (total l + MAX (adjust size) CHUNKSIZE, false) :: []) a := by
          obtain ⟨q, sq, hb, h1, h2⟩ := ha
          refine ⟨q, sq, ?_, h1, h2⟩
          rw [k1, BlockAt_append] at hb
          rcases hb with hb | hb
          · exact (BlockAt_append _ _ _ _ _ _).2 (Or.inl hb)
          · exact absurd hb (BlockAt_allfree _ k2 _ _ _)
        rw [p3 a ha', k6 a ha]
    · refine ⟨_, _, bs, ch, malloc_eq_fail H fuel lim size hf hs hfit hg, ?_, fun _ _ h => h,
        fun _ _ => rfl, fun h => absurd rfl h, hnz, fun _ => ⟨rfl, rfl⟩⟩
      simp only [if_true]
      exact ⟨H.calls _, G.noadj, G.lv, G.nd⟩
  · obtain ⟨c, hb, hc⟩ := H.fit_block (adjust size) hfit
    have hmal := malloc_eq_fit H fuel lim size hf hs hfit
    rw [← fitOf] at hb
    generalize fitOf st ch size = f at *
    obtain ⟨pre, post, hbs, hp⟩ := (BlockAt_split _ _ _ _ _).1 hb
    subst hbs hp
    obtain ⟨ch', p1, p2, p3, p4⟩ := place_ok H G.noadj (adjust size) ha8 ha16 hc
    obtain ⟨c', hc1, hc2⟩ := placed_block pre post c (adjust size) hc
    have hmidf : ∀ b ∈ [((c, false) : Nat × Bool)], b.2 = false := by
      intro b hb'
      simp only [List.mem_singleton] at hb'
      rw [hb']
    have hpers : ∀ q sq, BlockAt FIRST (pre ++ (c, false) :: post) q sq true →
        BlockAt FIRST (pre ++ placed c (adjust size) ++ post) q sq true := by
      intro q sq hq
      have e : pre ++ (c, false) :: post = pre ++ [(c, false)] ++ post := by simp
      rw [e] at hq
      exact BlockAt_replace_true hmidf (by rw [total_placed c _ hc]; simp) hq
    have hfresh : ∀ sq, ¬ BlockAt FIRST (pre ++ (c, false) :: post) (FIRST + total pre) sq
        true := by
      intro sq hq
      have := (H.block_unique hb hq).2
      simp at this
    refine ⟨_, _, _, ch', hmal, ?_, hpers, p3, fun _ => ⟨c', hc1, hc2⟩, hfresh,
      fun h => absurd h hfit⟩
    rw [if_neg hfit]
    refine ⟨p1, p2, ?_, ?_⟩
    · intro x hx
      rcases List.mem_cons.1 hx with hx | hx
      · subst hx
        exact ⟨c', hc1, by simp only; omega⟩
      · obtain ⟨s, hb', hs'⟩ := G.lv x hx
        exact ⟨s, hpers _ _ hb', hs'⟩
    · simp only [List.map_cons, List.nodup_cons]
      refine ⟨?_, G.nd⟩
      intro hm
      obtain ⟨x, hx, hx1⟩ := List.mem_map.1 hm
      obtain ⟨s, hb', _⟩ := G.lv x hx
      rw [hx1] at hb'
      exact hfresh s hb'

theorem free_eq (lim p s : Nat) (st : State) (hp : p ≠ 0) (hl : st.heap_listp ≠ 0)
    (r1 : GET_SIZE st.mem (HDRP p) = s) (h8 : s % 8 = 0) (hlt : s < 2 ^ 32) :
    free lim p st
      = (coalesce p { st with mem := (PUT (PUT st.mem (p - 4) s) (p + s - 8) s) }).2 := by
  unfold free
  simp only [hp, if_false, hl, r1, PACK_zero, put_mem]
  have q1 : FTRP (PUT st.mem (HDRP p) s) p = p + s - 8 := by
    unfold FTRP
    rw [GET_SIZE_PUT_same _ _ _ h8 hlt]
    rfl
  simp only [q1]
  rfl

/-- A `free` of an allocated block: the block is marked free, merged with its
free neighbours and entered into the store. -/
theorem free_block_ok {st : State} {pre post : List (Nat × Bool)} {s : Nat}
    {ch : Nat → List Nat} (H : HeapOK st (pre ++ (s, true) :: post) ch [])
    (hna : NoAdj (pre ++ (s, true) :: post)) (lim : Nat) :
    ∃ pre' l r post' ch',
      pre = pre' ++ l ∧ post = r ++ post' ∧ (∀ b ∈ l, b.2 = false) ∧ (∀ b ∈ r, b.2 = false)
      ∧ HeapOK (free lim (FIRST + total pre) st)
          (pre' ++ (total l + s + total r, false) :: post') ch' []
      ∧ NoAdj (pre' ++ (total l + s + total r, false) :: post')
      ∧ (∀ a, AllocArea (pre ++ (s, false) :: post) a →
          (free lim (FIRST + total pre) st).mem a = st.mem a)
      ∧ (free lim (FIRST + total pre) st).sbrk_calls = st.sbrk_calls := by
  have hF := FIRST_ge
  have hbb := BlockAt_here pre post s true
  obtain ⟨b1, b2, b4, b8⟩ := H.block_arith hbb
  have h8 : s % 8 = 0 := (H.block hbb).2.2.2.2.1
  have hlt : s < 2 ^ 32 := by
    clear * - b8
    simp only [total_append, total_cons] at b8; omega
  rw [free_eq lim _ s st (by omega) H.hl_ne (H.read_size hbb) h8 hlt]
  have hbs : pre ++ (s, true) :: post = pre ++ [(s, true)] ++ post := by simp
  have e2 : total [((s, true) : Nat × Bool)] = s := by simp
  obtain ⟨hn1, hn2⟩ := (NoAdj_mid_true pre post s).1 hna
  rw [hbs] at H
  obtain ⟨H3, _⟩ := H.merge
    (PUT (PUT st.mem (FIRST + total pre - 4) s) (FIRST + total pre + s - 8) s) (by simp)
    (by
      intro a ha
      rw [e2] at ha
      rw [PUT_other _ _ _ _ (by clear * - ha b4 hF; omega),
        PUT_other _ _ _ _ (by clear * - ha b4 hF; omega)])
    (by
      rw [e2, GET_PUT_other _ _ _ _ (by clear * - b4 hF; omega), GET_PUT_same_lt _ _ _ hlt])
    (by rw [e2, GET_PUT_same_lt _ _ _ hlt])
    (by
      intro q sq hq
      simp only [BlockAt, or_false] at hq
      simp at hq)
    (by intro x hx; simp at hx)
  rw [e2, List.append_assoc] at H3
  obtain ⟨pre', l, r, post', ch', k1, k2, k3, k4, k5, k6, k7, k8, k9⟩ :=
    coalesce_ok H3 hn1 hn2
  refine ⟨pre', l, r, post', ch', k1, k2, k3, k4, k5, k6, ?_, k9⟩
  intro a ha
  rw [k8 a ha]
  obtain ⟨q, sq, hq, h1, h2⟩ := ha
  have hq16 := (H3.block hq).2.2.2.1
  rw [BlockAt_append] at hq
  show PUT (PUT _ _ _) _ _ a = _
  rcases hq with hq | hq
  · have hr := BlockAt_range _ _ _ _ _ hq
    rw [PUT_other _ _ _ _ (by clear * - hr h1 h2 hq16 b4 hF; omega),
      PUT_other _ _ _ _ (by clear * - hr h1 h2 hq16 b4 hF; omega)]
  · simp only [BlockAt, Bool.true_eq_false, and_false, false_or] at hq
    have hr := BlockAt_range _ _ _ _ _ hq
    rw [PUT_other _ _ _ _ (by clear * - hr h1 h2 hq16 b4 hF; omega),
      PUT_other _ _ _ _ (by clear * - hr h1 h2 hq16 b4 hF; omega)]

/-- A `free` of a live pointer keeps the invariant. -/
theorem free_ok {st : State} {bs : List (Nat × Bool)} {ch : Nat → List Nat}
    {live : List (Nat × Nat)} (G : Good st bs ch live) (lim p n : Nat)
    (hp : (p, n) ∈ live) :
    ∃ pre s post pre' l r post' ch',
      bs = pre ++ (s, true) :: post ∧ p = FIRST + total pre ∧ n + 8 ≤ s
      ∧ pre = pre' ++ l ∧ post = r ++ post' ∧ (∀ b ∈ l, b.2 = false) ∧ (∀ b ∈ r, b.2 = false)
      ∧ Good (free lim p st) (pre' ++ (total l + s + total r, false) :: post') ch'
          (live.filter (fun x => x.1 ≠ p))
      ∧ (∀ a, AllocArea (pre ++ (s, false) :: post) a → (free lim p st).mem a = st.mem a)
      ∧ (free lim p st).sbrk_calls = st.sbrk_calls := by
  obtain ⟨s, hb, hs⟩ := G.lv (p, n) hp
  simp only at hb hs
  obtain ⟨pre, post, hbs, hpp⟩ := (BlockAt_split _ _ _ _ _).1 hb
  subst hbs hpp
  obtain ⟨pre', l, r, post', ch', k1, k2, k3, k4, k5, k6, k7, k8⟩ :=
    free_block_ok G.heap G.noadj lim
  refine ⟨pre, s, post, pre', l, r, post', ch', rfl, rfl, hs, k1, k2, k3, k4, ⟨k5, k6, ?_, ?_⟩,
    k7, k8⟩
  · intro x hx
    obtain ⟨hx1, hx2⟩ := List.mem_filter.1 hx
    simp only [ne_eq, decide_not, Bool.not_eq_true', decide_eq_false_iff_not] at hx2
    obtain ⟨sx, hbx, hsx⟩ := G.lv x hx1
    refine ⟨sx, ?_, hsx⟩
    rw [BlockAt_merge pre' l r post' s k3 k4, ← k1, ← k2]
    rw [BlockAt_append] at hbx ⊢
    rcases hbx with hbx | hbx
    · exact Or.inl hbx
    · simp only [BlockAt] at hbx ⊢
      rcases hbx with ⟨e, _⟩ | hbx
      · exact absurd e hx2
      · exact Or.inr (Or.inr hbx)
  · exact List.Nodup.sublist (List.Sublist.map _ (List.filter_sublist _)) G.nd

theorem init_lists_fields (st : State) (k : Nat) :
    (init_lists st k).brk = st.brk ∧ (init_lists st k).sbrk_calls = st.sbrk_calls
      ∧ (init_lists st k).heap_listp = st.heap_listp
      ∧ (init_lists st k).list_addr = st.list_addr := by
  induction k with
  | zero => exact ⟨rfl, rfl, rfl, rfl⟩
  | succ k ih =>
    unfold init_lists
    simp only [putp_brk, putp_calls, putp_hl, putp_la]
    exact ih

theorem init_lists_heads (st : State) (k : Nat) :
    ∀ i, i < k → GETP (init_lists st k).mem (st.list_addr + 8 * i) = 0 := by
  induction k with
  | zero => intro i hi; omega
  | succ k ih =>
    intro i hi
    unfold init_lists
    simp only [putp_mem]
    by_cases hik : i = k
    · subst hik
      exact GETP_PUTP_same _ _ _ (by norm_num)
    · rw [GETP_PUTP_other _ _ _ _ (by omega)]
      exact ih i (by omega)

theorem init_pad_fields (st : State) (k : Nat) :
    (init_pad st k).brk = st.brk ∧ (init_pad st k).sbrk_calls = st.sbrk_calls
      ∧ (init_pad st k).heap_listp = st.heap_listp
      ∧ (init_pad st k).list_addr = st.list_addr := by
  induction k with
  | zero => exact ⟨rfl, rfl, rfl, rfl⟩
  | succ k ih =>
    unfold init_pad
    simp only [put_brk, put_calls, put_hl, put_la]
    exact ih

theorem init_pad_mem (st : State) (k : Nat) (a : Nat)
    (ha : a < st.heap_listp ∨ st.heap_listp + 4 ≤ a) :
    (init_pad st k).mem a = st.mem a := by
  induction k with
  | zero => rfl
  | succ k ih =>
    unfold init_pad
    simp only [put_mem]
    rw [PUT_other _ _ _ _ ha]
    exact ih

theorem init_tail_eq (A : State) (h : Nat) (hh : A.heap_listp = h) :
    (let st := A
     let st := st.put (st.heap_listp + WSIZE) (PACK DSIZE 1)
     let st := st.put (st.heap_listp + 2 * WSIZE) (PACK DSIZE 1)
     let st := st.put (st.heap_listp + 3 * WSIZE) (PACK 0 1)
     ({ st with heap_listp := st.heap_listp + 2 * WSIZE } : State))
      = { A with
          mem := (PUT (PUT (PUT A.mem (h + 4) 9) (h + 8) 9) (h + 12) 1)
          heap_listp := h + 8 } := by
  have p1 : PACK DSIZE 1 = 9 := by decide
  have p2 : PACK 0 1 = 1 := by decide
  subst hh
  simp only []
  rw [p1, p2]
  rfl

/-- What `init_heap` leaves in the state. -/
theorem init_heap_spec (S : State) :
    ∃ A : State, A.brk = S.brk ∧ A.sbrk_calls = S.sbrk_calls
      ∧ A.heap_listp = S.list_addr + 8 * 16 ∧ A.list_addr = S.list_addr
      ∧ (∀ i, i < 16 → GETP A.mem (S.list_addr + 8 * i) = 0)
      ∧ init_heap S = { A with
          mem := (PUT (PUT (PUT A.mem (S.list_addr + 8 * 16 + 4) 9)
            (S.list_addr + 8 * 16 + 8) 9) (S.list_addr + 8 * 16 + 12) 1)
          heap_listp := S.list_addr + 8 * 16 + 8 } := by
  refine ⟨init_pad (init_lists { S with heap_listp := S.list_addr + 8 * LIST_NUM } LIST_NUM)
    LIST_NUM, ?_, ?_, ?_, ?_, ?_, ?_⟩
  · rw [(init_pad_fields _ _).1, (init_lists_fields _ _).1]
  · rw [(init_pad_fields _ _).2.1, (init_lists_fields _ _).2.1]
  · rw [(init_pad_fields _ _).2.2.1, (init_lists_fields _ _).2.2.1]
    rfl
  · rw [(init_pad_fields _ _).2.2.2, (init_lists_fields _ _).2.2.2]
  · intro i hi
    rw [GETP_congr _ _ _ (fun a h1 h2 => init_pad_mem _ LIST_NUM a (by
      left
      rw [(init_lists_fields _ _).2.2.1]
      show a < S.list_addr + 8 * LIST_NUM
      simp only [LIST_NUM]
      omega))]
    exact init_lists_heads _ LIST_NUM i hi
  · have hh : (init_pad (init_lists { S with heap_listp := S.list_addr + 8 * LIST_NUM }
        LIST_NUM) LIST_NUM).heap_listp = S.list_addr + 8 * 16 := by
      rw [(init_pad_fields _ _).2.2.1, (init_lists_fields _ _).2.2.1]
      rfl
    unfold init_heap
    simp only []
    generalize init_pad (init_lists { S with heap_listp := S.list_addr + 8 * LIST_NUM }
        LIST_NUM) LIST_NUM = A at hh ⊢
    exact init_tail_eq A _ hh

theorem ALIGN_144 : ALIGN (WSIZE * 4 + LIST_NUM * 8) = 144 := by decide

theorem mm_init_eq (lim : Nat) (st : State) (hb : st.brk ≤ 2 ^ 32)
    (h : st.brk + 144 ≤ lim) :
    mm_init lim st =
      (if (extend_heap lim (CHUNKSIZE / WSIZE) (init_state st)).1 = 0 then
          (-1, (extend_heap lim (CHUNKSIZE / WSIZE) (init_state st)).2)
        else (0, (extend_heap lim (CHUNKSIZE / WSIZE) (init_state st)).2)) := by
  have hne : HEAP_BASE + st.brk ≠ NEG1 := by
    have hB : HEAP_BASE = 34359738368 := rfl
    unfold NEG1
    omega
  unfold mm_init mem_sbrk init_state
  rw [ALIGN_144]
  simp only [h, if_true, hne, if_false]

theorem mm_init_fail (lim : Nat) (st : State) (h : ¬ st.brk + 144 ≤ lim) :
    (mm_init lim st).1 = -1 := by
  unfold mm_init mem_sbrk
  rw [ALIGN_144]
  simp only [h, if_false, if_true]

theorem init_state_ok (st : State) (hb : st.brk = 0) :
    HeapOK (init_state st) [] (fun _ => []) [] ∧ (init_state st).brk = 144
      ∧ (init_state st).sbrk_calls = st.sbrk_calls + 1 := by
  have hB : HEAP_BASE = 34359738368 := rfl
  have hF := FIRST_eq
  obtain ⟨A, a1, a2, a3, a4, a5, a6⟩ := init_heap_spec
    { st with brk := st.brk + 144, sbrk_calls := st.sbrk_calls + 1,
              list_addr := HEAP_BASE + st.brk }
  unfold init_state
  rw [a6]
  simp only [hb, Nat.add_zero, Nat.zero_add] at a1 a2 a3 a4 a5 ⊢
  refine ⟨⟨a4, rfl, by show A.brk = _; rw [a1]; rfl, by show A.brk ≤ _; rw [a1]; norm_num,
    ?_, ?_, ?_, ?_, ?_, ?_, ?_, ?_, ?_, ?_⟩, a1, a2⟩
  · show GET (PUT (PUT (PUT _ _ _) _ _) _ _) _ = 9
    rw [GET_PUT_other _ _ _ _ (by omega), GET_PUT_other _ _ _ _ (by omega),
      GET_PUT_same_lt _ _ _ (by norm_num)]
  · show GET (PUT (PUT (PUT _ _ _) _ _) _ _) _ = 9
    rw [GET_PUT_other _ _ _ _ (by omega), GET_PUT_same_lt _ _ _ (by norm_num)]
  · show GET (PUT (PUT (PUT _ _ _) _ _) _ _) _ = 1
    have e : FIRST + total [] - 4 = HEAP_BASE + 8 * 16 + 12 := by
      simp only [total_nil]; omega
    rw [e, GET_PUT_same_lt _ _ _ (by norm_num)]
  · intro b hb'; simp at hb'
  · intro p s a hb'; exact hb'.elim
  · intro i hi
    show GETP (PUT (PUT (PUT _ _ _) _ _) _ _) _ = 0
    rw [GETP_PUT_other _ _ _ _ (by omega), GETP_PUT_other _ _ _ _ (by omega),
      GETP_PUT_other _ _ _ _ (by omega)]
    exact a5 i hi
  · intro i _; trivial
  · intro i _ p hp; simp at hp
  · intro p s hb'; exact hb'.elim
  · intro i _; exact List.nodup_nil

/-- A successful `mm_init` on a fresh heap establishes the invariant, with one
free block of `CHUNKSIZE` bytes. -/
theorem mm_init_ok (lim : Nat) (st : State) (hb : st.brk = 0) (hlim : lim ≤ 2 ^ 32)
    (h : (mm_init lim st).1 = 0) :
    ∃ ch, Good (mm_init lim st).2 [(160, false)] ch []
      ∧ (mm_init lim st).2.sbrk_calls = st.sbrk_calls + 2 := by
  by_cases h1 : st.brk + 144 ≤ lim
  · rw [mm_init_eq lim st (by omega) h1] at h ⊢
    obtain ⟨H0, hbrk, hcalls⟩ := init_state_ok st hb
    have hE : ext_size (CHUNKSIZE / WSIZE) = 160 := by decide
    by_cases h2 : (init_state st).brk + ext_size (CHUNKSIZE / WSIZE) ≤ lim
    · obtain ⟨pre', l, ch', k1, k2, k3, k4, k5, k6, k7⟩ :=
        extend_heap_ok H0 (by simp [NoAdj]) lim (CHUNKSIZE / WSIZE) hlim (by rw [hE]; norm_num)
          (by rw [hE]) h2
      have hne : (extend_heap lim (CHUNKSIZE / WSIZE) (init_state st)).1 ≠ 0 := by
        rw [k5]
        have := FIRST_ge
        omega
      rw [if_neg hne]
      have hp : pre' = [] ∧ l = [] := by
        cases pre' with
        | nil => exact ⟨rfl, by simpa using k1.symm⟩
        | cons x t => simp at k1
      obtain ⟨hp1, hp2⟩ := hp
      subst hp1 hp2
      rw [hE] at k3 k4
      simp only [total_nil, Nat.zero_add, List.nil_append] at k3 k4
      refine ⟨ch', ⟨k3, k4, ?_, List.nodup_nil⟩, ?_⟩
      · intro x hx; simp at hx
      · show (extend_heap lim (CHUNKSIZE / WSIZE) (init_state st)).2.sbrk_calls = _
        rw [k7, hcalls]
    · rw [extend_heap_fail lim _ _ h2] at h
      simp at h
  · rw [mm_init_fail lim st h1] at h
    simp at h

/-- A call that returned is the call of its result. -/
theorem Outcome.eq_ret_getD {α : Type} (o : Outcome α) (d : α) (h : o.isRet = true) :
    o = .ret (o.getD d) := by
  cases o with
  | ret a => rfl
  | hang => exact Bool.noConfusion h
  | crash => exact Bool.noConfusion h

/-- More fuel does not change what the walk of a chain returns. -/
theorem find_in_chain_mono (m : Mem) (asize : Nat) (f : Nat) :
    ∀ (addr r : Nat), find_in_chain m asize f addr = .ret r →
      ∀ f', f ≤ f' → find_in_chain m asize f' addr = .ret r := by
  induction f with
  | zero =>
    intro addr r h
    simp [find_in_chain] at h
  | succ f ih =>
    intro addr r h f' hf
    obtain ⟨g, rfl⟩ : ∃ g, f' = g + 1 := ⟨f' - 1, by omega⟩
    unfold find_in_chain at h ⊢
    by_cases h1 : addr = 0
    · rw [if_pos h1] at h ⊢; exact h
    · rw [if_neg h1] at h ⊢
      by_cases h2 : GET_SIZE m (HDRP addr) ≥ asize
      · rw [if_pos h2] at h ⊢; exact h
      · rw [if_neg h2] at h ⊢
        exact ih _ _ h g (by omega)

theorem find_fit_loop_mono (f f' asize : Nat) (st : State) (hf : f ≤ f') (k : Nat) :
    ∀ (number r : Nat), find_fit_loop f asize st k number = .ret r →
      find_fit_loop f' asize st k number = .ret r := by
  induction k with
  | zero => intro number r h; exact h
  | succ k ih =>
    intro number r h
    unfold find_fit_loop at h ⊢
    cases hc : find_in_chain st.mem asize f (GETP st.mem (st.list_addr + 8 * number)) with
    | hang => rw [hc] at h; simp at h
    | crash => rw [hc] at h; simp at h
    | ret a =>
      rw [hc] at h
      rw [find_in_chain_mono _ _ _ _ _ hc f' hf]
      cases a with
      | zero => exact ih _ _ h
      | succ a => exact h

theorem find_fit_mono (f f' asize : Nat) (st : State) (hf : f ≤ f') (r : Nat)
    (h : find_fit f asize st = .ret r) : find_fit f' asize st = .ret r :=
  find_fit_loop_mono f f' asize st hf _ _ _ h

/-- A call of `malloc` that returns, returns the same with more fuel. -/
theorem malloc_mono (f f' lim size : Nat) (st : State) (hf : f ≤ f') (r : Nat × State)
    (h : malloc f lim size st = .ret r) : malloc f' lim size st = .ret r := by
  unfold malloc at h ⊢
  simp only [] at h ⊢
  by_cases hs : size = 0
  · rw [if_pos hs] at h ⊢; exact h
  · rw [if_neg hs] at h ⊢
    generalize (if st.heap_listp = 0 then (mm_init lim st).2 else st) = S at h ⊢
    cases hc : find_fit f (adjust size) S with
    | hang => rw [hc] at h; simp at h
    | crash => rw [hc] at h; simp at h
    | ret a =>
      rw [hc] at h
      rw [find_fit_mono f f' _ S hf a hc]
      exact h

theorem mem_live_del {live : List (Nat × Nat)} {p : Nat} {x : Nat × Nat} :
    x ∈ live_del live p ↔ x ∈ live ∧ x.1 ≠ p := by
  unfold live_del
  simp [List.mem_filter]

/-- The bytes of a live allocation lie in its allocated block. -/
theorem live_area {bs : List (Nat × Bool)} {live : List (Nat × Nat)} (h : LiveOK bs live)
    {x : Nat × Nat} (hx : x ∈ live) {i : Nat} (hi : i < x.2) : AllocArea bs (x.1 + i) := by
  obtain ⟨s, hb, hs⟩ := h x hx
  exact ⟨x.1, s, hb, by omega, by omega⟩

/-- Live pointers are not null. -/
theorem Good.live_ne {st : State} {bs : List (Nat × Bool)} {ch : Nat → List Nat}
    {live : List (Nat × Nat)} (G : Good st bs ch live) {x : Nat × Nat} (hx : x ∈ live) :
    x.1 ≠ 0 := by
  obtain ⟨s, hb, _⟩ := G.lv x hx
  have := (G.heap.block hb).1
  omega

/-- The function `malloc`, whatever fuel made it return, keeps the invariant. -/
theorem malloc_step {st : State} {bs : List (Nat × Bool)} {ch : Nat → List Nat}
    {live : List (Nat × Nat)} (G : Good st bs ch live) {fuel lim size p : Nat} {st' : State}
    (hlim : lim ≤ 2 ^ 32) (hsz : size + 15 < 2 ^ 64)
    (h : malloc fuel lim size st = .ret (p, st')) :
    ∃ bs' ch', Good st' bs' ch' (live_add live p size)
      ∧ (∀ q sq, BlockAt FIRST bs q sq true → BlockAt FIRST bs' q sq true)
      ∧ (∀ a, AllocArea bs a → st'.mem a = st.mem a)
      ∧ (p ≠ 0 → ∃ c, BlockAt FIRST bs' p c true ∧ adjust size ≤ c)
      ∧ (∀ sq, ¬ BlockAt FIRST bs p sq true)
      ∧ (p = 0 → bs' = bs ∧ st'.mem = st.mem) := by
  obtain ⟨p1, st1, bs', ch', k1, k2⟩ :=
    malloc_ok G (max fuel (st.brk + 1)) lim size (by omega) hlim hsz
  have := malloc_mono fuel (max fuel (st.brk + 1)) lim size st (by omega) _ h
  rw [this] at k1
  injection k1 with k1
  injection k1 with e1 e2
  subst e1 e2
  exact ⟨bs', ch', k2⟩

/-- The function `malloc` returns when the fuel exceeds the size of the heap. -/
theorem malloc_returns {st : State} {bs : List (Nat × Bool)} {ch : Nat → List Nat}
    {live : List (Nat × Nat)} (G : Good st bs ch live) (fuel lim size : Nat)
    (hf : st.brk < fuel) (hlim : lim ≤ 2 ^ 32) :
    ∃ p st', malloc fuel lim size st = .ret (p, st') := by
  obtain ⟨p, st', h, _⟩ := malloc_ret G.heap G.noadj fuel lim size hf hlim
  exact ⟨p, st', h⟩

/-- A store that only changes bytes of a live allocation keeps the invariant. -/
theorem write_ok {st : State} {bs : List (Nat × Bool)} {ch : Nat → List Nat}
    {live : List (Nat × Nat)} (G : Good st bs ch live) {p n : Nat} (hp : (p, n) ∈ live)
    (m' : Mem) (hm : ∀ a, (a < p ∨ p + n ≤ a) → m' a = st.mem a) :
    Good { st with mem := m' } bs ch live := by
  obtain ⟨s, hb, hs⟩ := G.lv (p, n) hp
  simp only at hb hs
  refine ⟨payload_write_ok G.heap hb m' ?_, G.noadj, G.lv, G.nd⟩
  intro a ha
  apply hm
  omega

/-- Releasing one block leaves the other allocated blocks allocated. -/
theorem BlockAt_other (pre post : List (Nat × Bool)) (s : Nat) (q sq : Nat)
    (h : BlockAt FIRST (pre ++ (s, true) :: post) q sq true) (hne : q ≠ FIRST + total pre) :
    BlockAt FIRST (pre ++ (s, false) :: post) q sq true := by
  rw [BlockAt_append] at h ⊢
  rcases h with h | h
  · exact Or.inl h
  · simp only [BlockAt] at h ⊢
    rcases h with ⟨e, _⟩ | h
    · exact absurd e hne
    · exact Or.inr (Or.inr h)

/-- A `free` of a live pointer: the invariant, the payload frame, and the free
block that covers the released one. -/
theorem free_step {st : State} {bs : List (Nat × Bool)} {ch : Nat → List Nat}
    {live : List (Nat × Nat)} (G : Good st bs ch live) (lim : Nat) {p n : Nat}
    (hp : (p, n) ∈ live) :
    ∃ bs' ch', Good (free lim p st) bs' ch' (live_del live p)
      ∧ (∀ x ∈ live, x.1 ≠ p → ∀ i, i < x.2 → (free lim p st).mem (x.1 + i) = st.mem (x.1 + i))
      ∧ (free lim p st).sbrk_calls = st.sbrk_calls
      ∧ (∃ s q0 s0, BlockAt FIRST bs p s true ∧ BlockAt FIRST bs' q0 s0 false
          ∧ q0 ≤ p ∧ p + s ≤ q0 + s0)
      ∧ (∀ q sq, BlockAt FIRST bs q sq true → q ≠ p → BlockAt FIRST bs' q sq true) := by
  obtain ⟨pre, s, post, pre', l, r, post', ch', e1, e2, e3, e4, e5, e6, e7, e8, e9, e10⟩ :=
    free_ok G lim p n hp
  refine ⟨_, ch', e8, ?_, e10, ⟨s, FIRST + total pre', total l + s + total r, ?_, ?_, ?_, ?_⟩, ?_⟩
  · intro x hx hne i hi
    apply e9
    obtain ⟨sx, hbx, hsx⟩ := G.lv x hx
    rw [e1] at hbx
    exact ⟨x.1, sx, BlockAt_other pre post s _ _ hbx (by rw [← e2]; exact hne), by omega,
      by omega⟩
  · rw [e1, BlockAt_append]
    right
    left
    exact ⟨e2, rfl, rfl⟩
  · rw [BlockAt_append]
    right
    left
    exact ⟨rfl, rfl, rfl⟩
  · rw [e2, e4, total_append]
    omega
  · rw [e2, e4, total_append]
    omega
  · intro q sq hb hne
    rw [e1] at hb
    have := BlockAt_other pre post s _ _ hb (by rw [← e2]; exact hne)
    rw [BlockAt_merge pre' l r post' s e6 e7, ← e4, ← e5]
    exact this

theorem live_del_cons_ne (live : List (Nat × Nat)) (q m p : Nat) (h : q ≠ p) :
    live_del ((q, m) :: live) p = (q, m) :: live_del live p := by
  unfold live_del
  rw [List.filter_cons]
  simp [h]

theorem live_del_null {st : State} {bs : List (Nat × Bool)} {ch : Nat → List Nat}
    {live : List (Nat × Nat)} (G : Good st bs ch live) : live_del live 0 = live := by
  unfold live_del
  rw [List.filter_eq_self]
  intro x hx
  simpa using G.live_ne hx

theorem memcpy_out (m : Mem) (dst src n a : Nat) (h : a < dst ∨ dst + n ≤ a) :
    memcpy m dst src n a = m a := by
  unfold memcpy
  rw [if_neg (by omega)]

theorem memcpy_in (m : Mem) (dst src n i : Nat) (h : i < n) :
    memcpy m dst src n (dst + i) = m (src + i) := by
  unfold memcpy
  rw [if_pos (by omega)]
  congr 1
  omega

theorem memset_out (m : Mem) (dst c n a : Nat) (h : a < dst ∨ dst + n ≤ a) :
    memset m dst c n a = m a := by
  unfold memset
  rw [if_neg (by omega)]

/-- The moving case of `realloc`: a new block was found, the old contents
are copied and the old block is released. -/
theorem realloc_move {st : State} {bs : List (Nat × Bool)} {ch : Nat → List Nat}
    {live : List (Nat × Nat)} (G : Good st bs ch live) {fuel lim p n m q : Nat} {st1 : State}
    (hlim : lim ≤ 2 ^ 32) (hp : (p, n) ∈ live) (hsz : m + 15 < 2 ^ 64)
    (hm : malloc fuel lim m st = .ret (q, st1)) (hq : q ≠ 0) (cnt : Nat)
    (hcnt : cnt = if m < GET_SIZE st1.mem (HDRP p) then m else GET_SIZE st1.mem (HDRP p)) :
    ∃ s bs' ch', BlockAt FIRST bs p s true
      ∧ Good (free lim p { st1 with mem := memcpy st1.mem q p cnt }) bs' ch'
          ((q, m) :: live_del live p)
      ∧ (∀ x ∈ live, x.1 ≠ p → ∀ i, i < x.2 →
          (free lim p { st1 with mem := memcpy st1.mem q p cnt }).mem (x.1 + i)
            = st.mem (x.1 + i))
      ∧ (∀ i, i < s - 8 → i < m →
          (free lim p { st1 with mem := memcpy st1.mem q p cnt }).mem (q + i) = st.mem (p + i))
      ∧ (∃ c, BlockAt FIRST bs' q c true ∧ m + 8 ≤ c)
      ∧ (∃ q0 s0, BlockAt FIRST bs' q0 s0 false ∧ q0 ≤ p ∧ p + s ≤ q0 + s0)
      ∧ q ≠ p := by
  obtain ⟨bs1, ch1, G1, pers, frame1, hblk, fresh, _⟩ := malloc_step G hlim hsz hm
  obtain ⟨c, hbq, hc⟩ := hblk hq
  have hadj := adjust_props m hsz
  unfold live_add at G1
  rw [if_neg hq] at G1
  obtain ⟨s, hbp, hs⟩ := G.lv (p, n) hp
  simp only at hbp hs
  have hbp1 := pers _ _ hbp
  have hrd := G1.heap.read_size hbp1
  rw [hrd] at hcnt
  have hqp : q ≠ p := by
    intro e
    rw [e] at fresh
    exact fresh s hbp
  have hcm : cnt ≤ m := by rw [hcnt]; split <;> omega
  have G2 : Good { st1 with mem := memcpy st1.mem q p cnt } bs1 ch1 ((q, m) :: live) :=
    write_ok G1 (List.mem_cons_self _ _) _ (fun a ha => memcpy_out _ _ _ _ _ (by omega))
  generalize hst2 : ({ st1 with mem := memcpy st1.mem q p cnt } : State) = st2 at G2 ⊢
  have hmem2 : st2.mem = memcpy st1.mem q p cnt := by rw [← hst2]
  obtain ⟨bs3, ch3, G3, frame3, _, ⟨s', q0, s0, hbp', hb0, h01, h02⟩, pers3⟩ :=
    free_step G2 lim (List.mem_cons_of_mem _ hp)
  rw [live_del_cons_ne _ _ _ _ hqp] at G3
  have hss : s = s' := (G2.heap.block_unique hbp1 hbp').1
  subst hss
  refine ⟨s, bs3, ch3, hbp, G3, ?_, ?_, ⟨c, pers3 _ _ hbq hqp, by omega⟩,
    ⟨q0, s0, hb0, h01, h02⟩, hqp⟩
  · intro x hx hne i hi
    rw [frame3 x (List.mem_cons_of_mem _ hx) hne i hi, hmem2]
    obtain ⟨sx, hbx, hsx⟩ := G.lv x hx
    have hxq : x.1 ≠ q := by
      intro e
      rw [← e] at fresh
      exact fresh sx hbx
    have hap := G1.heap.block_apart (pers _ _ hbx) hbq hxq
    rw [memcpy_out _ _ _ _ _ (by omega)]
    exact frame1 _ (live_area G.lv hx hi)
  · intro i hi1 hi2
    have := frame3 (q, m) (List.mem_cons_self _ _) hqp i hi2
    simp only at this
    rw [this, hmem2, memcpy_in _ _ _ _ _ (by rw [hcnt]; split <;> omega)]
    exact frame1 _ ⟨p, s, hbp, by omega, by omega⟩

theorem free_null (lim : Nat) (st : State) : free lim 0 st = st := by
  unfold free
  rw [if_pos rfl]

theorem realloc_zero (fuel lim p : Nat) (st : State) :
    realloc fuel lim p 0 st = .ret (0, free lim p st) := by
  unfold realloc
  rw [if_pos rfl]

theorem realloc_null (fuel lim m : Nat) (st : State) (hm : m ≠ 0) :
    realloc fuel lim 0 m st = malloc fuel lim m st := by
  unfold realloc
  rw [if_neg hm, if_pos rfl]

/-- The moving case of `realloc`, read off its definition. -/
theorem realloc_cases {fuel lim p m q : Nat} {st st' : State} (hm : m ≠ 0) (hp : p ≠ 0)
    (h : realloc fuel lim p m st = .ret (q, st')) :
    ∃ q1 st1, malloc fuel lim m st = .ret (q1, st1)
      ∧ ((q1 = 0 ∧ q = 0 ∧ st' = st1)
        ∨ (q1 ≠ 0 ∧ q = q1 ∧ st' = free lim p { st1 with mem := (memcpy st1.mem q1 p (if m < GET_SIZE st1.mem (HDRP p) then m else GET_SIZE st1.mem (HDRP p))) })) := by
  unfold realloc at h
  rw [if_neg hm, if_neg hp] at h
  cases hc : malloc fuel lim m st with
  | hang => rw [hc] at h; simp at h
  | crash => rw [hc] at h; simp at h
  | ret r =>
    obtain ⟨q1, st1⟩ := r
    rw [hc] at h
    refine ⟨q1, st1, rfl, ?_⟩
    simp only at h
    by_cases hq : q1 = 0
    · rw [if_pos hq] at h
      injection h with h
      injection h with h1 h2
      exact Or.inl ⟨hq, h1.symm, h2.symm⟩
    · rw [if_neg hq] at h
      injection h with h
      injection h with h1 h2
      exact Or.inr ⟨hq, h1.symm, h2.symm⟩

/-- The function `realloc` on a live or null pointer keeps the invariant and the payloads
of the other live allocations. -/
theorem realloc_step {st : State} {bs : List (Nat × Bool)} {ch : Nat → List Nat}
    {live : List (Nat × Nat)} (G : Good st bs ch live) {fuel lim p m q : Nat} {st' : State}
    (hlim : lim ≤ 2 ^ 32) (hp : p = 0 ∨ ∃ n, (p, n) ∈ live) (hsz : m + 15 < 2 ^ 64)
    (h : realloc fuel lim p m st = .ret (q, st')) :
    (∃ bs' ch', Good st' bs' ch' (live_realloc live p m q))
      ∧ (∀ x ∈ live, x.1 ≠ p → ∀ i, i < x.2 → st'.mem (x.1 + i) = st.mem (x.1 + i)) := by
  unfold live_realloc
  by_cases hm : m = 0
  · subst hm
    rw [realloc_zero] at h
    injection h with h
    injection h with h1 h2
    subst h2
    rw [if_pos rfl]
    rcases hp with hp | ⟨n, hp⟩
    · subst hp
      rw [free_null, live_del_null G]
      exact ⟨⟨bs, ch, G⟩, fun _ _ _ _ _ => rfl⟩
    · obtain ⟨bs', ch', G', fr, _⟩ := free_step G lim hp
      exact ⟨⟨bs', ch', G'⟩, fr⟩
  · rw [if_neg hm]
    by_cases hp0 : p = 0
    · subst hp0
      rw [realloc_null _ _ _ _ hm] at h
      rw [if_pos rfl]
      obtain ⟨bs', ch', G', _, fr, _⟩ := malloc_step G hlim hsz h
      exact ⟨⟨bs', ch', G'⟩, fun x hx _ i hi => fr _ (live_area G.lv hx hi)⟩
    · rw [if_neg hp0]
      obtain ⟨n, hp⟩ : ∃ n, (p, n) ∈ live := by
        rcases hp with hp | hp
        · exact absurd hp hp0
        · exact hp
      obtain ⟨q1, st1, hmal, hc | hc⟩ := realloc_cases hm hp0 h
      · obtain ⟨h1, h2, h3⟩ := hc
        subst h1 h2 h3
        obtain ⟨bs', ch', G', _, fr, _⟩ := malloc_step G hlim hsz hmal
        rw [if_pos rfl]
        exact ⟨⟨bs', ch', G'⟩, fun x hx _ i hi => fr _ (live_area G.lv hx hi)⟩
      · obtain ⟨h1, h2, h3⟩ := hc
        subst h2 h3
        rw [if_neg h1]
        obtain ⟨s, bs', ch', _, G', fr, _⟩ := realloc_move G hlim hp hsz hmal h1 _ rfl
        exact ⟨⟨bs', ch', G'⟩, fr⟩

/-- What `calloc` does, read off its definition. -/
theorem calloc_cases {fuel lim k m q : Nat} {st st' : State}
    (h : calloc fuel lim k m st = .ret (q, st')) :
    ∃ st1, malloc fuel lim ((k * m) % 2 ^ 64) st = .ret (q, st1)
      ∧ ¬ (q = 0 ∧ (k * m) % 2 ^ 64 ≠ 0)
      ∧ st' = { st1 with mem := memset st1.mem q 0 ((k * m) % 2 ^ 64) } := by
  unfold calloc at h
  simp only [] at h
  cases hc : malloc fuel lim ((k * m) % 2 ^ 64) st with
  | hang => rw [hc] at h; simp at h
  | crash => rw [hc] at h; simp at h
  | ret r =>
    obtain ⟨q1, st1⟩ := r
    rw [hc] at h
    simp only at h
    by_cases hq : q1 = 0 ∧ (k * m) % 2 ^ 64 ≠ 0
    · rw [if_pos hq] at h
      simp at h
    · rw [if_neg hq] at h
      injection h with h
      injection h with h1 h2
      subst h1
      exact ⟨st1, rfl, hq, h2.symm⟩

/-- The function `calloc` keeps the invariant and the payloads of the live allocations,
and clears the block it returns. -/
theorem calloc_step {st : State} {bs : List (Nat × Bool)} {ch : Nat → List Nat}
    {live : List (Nat × Nat)} (G : Good st bs ch live) {fuel lim k m q : Nat} {st' : State}
    (hlim : lim ≤ 2 ^ 32) (hsz : (k * m) % 2 ^ 64 + 15 < 2 ^ 64)
    (h : calloc fuel lim k m st = .ret (q, st')) :
    (∃ bs' ch', Good st' bs' ch' (live_add live q ((k * m) % 2 ^ 64)))
      ∧ (∀ x ∈ live, ∀ i, i < x.2 → st'.mem (x.1 + i) = st.mem (x.1 + i))
      ∧ (∀ i, i < (k * m) % 2 ^ 64 → st'.mem (q + i) = 0) := by
  obtain ⟨st1, hmal, hq, e⟩ := calloc_cases h
  subst e
  generalize (k * m) % 2 ^ 64 = b at *
  obtain ⟨bs1, ch1, G1, pers, frame1, hblk, fresh, _⟩ := malloc_step G hlim hsz hmal
  have hz : ∀ i, i < b → memset st1.mem q 0 b (q + i) = 0 := by
    intro i hi
    unfold memset
    rw [if_pos (by omega)]
  by_cases hq0 : q = 0
  · have hb : b = 0 := by
      by_contra hb
      exact hq ⟨hq0, hb⟩
    subst hq0 hb
    have e : memset st1.mem 0 0 0 = st1.mem := by
      funext a
      exact memset_out _ _ _ _ _ (by omega)
    rw [e]
    exact ⟨⟨bs1, ch1, G1⟩, fun x hx i hi => frame1 _ (live_area G.lv hx hi),
      fun i hi => absurd hi (by omega)⟩
  · obtain ⟨c, hbq, hc⟩ := hblk hq0
    have G1' := G1
    unfold live_add at G1 ⊢
    rw [if_neg hq0] at G1 ⊢
    refine ⟨⟨bs1, ch1, write_ok G1 (List.mem_cons_self _ _) _
      (fun a ha => memset_out _ _ _ _ _ (by omega))⟩, ?_, hz⟩
    intro x hx i hi
    obtain ⟨sx, hbx, hsx⟩ := G.lv x hx
    have hxq : x.1 ≠ q := by
      intro e
      rw [← e] at fresh
      exact fresh sx hbx
    have hap := G1.heap.block_apart (pers _ _ hbx) hbq hxq
    have hadj := adjust_props b hsz
    show memset st1.mem q 0 b (x.1 + i) = _
    rw [memset_out _ _ _ _ _ (by omega)]
    exact frame1 _ (live_area G.lv hx hi)

theorem Reach.lim_le {lim : Nat} {st : State} {live : List (Nat × Nat)}
    (h : Reach lim st live) : lim ≤ 2 ^ 32 := by
  induction h with
  | init st0 hlim h0 h => exact hlim
  | malloc fuel n p st' hr hn h ih => exact ih
  | free p n hr hp ih => exact ih
  | realloc fuel p m q st' hr hp hm h ih => exact ih
  | calloc fuel k m q st' hr hm h ih => exact ih
  | write p n a v hr hp h1 h2 ih => exact ih

/-- Every reachable state satisfies the invariant of the allocator. -/
theorem Reach.inv {lim : Nat} {st : State} {live : List (Nat × Nat)}
    (h : Reach lim st live) : Inv st live := by
  induction h with
  | init st0 hlim h0 h =>
    obtain ⟨ch, G, _⟩ := mm_init_ok lim st0 h0 hlim h
    exact ⟨_, ch, G⟩
  | malloc fuel n p st' hr hn h ih =>
    obtain ⟨bs, ch, G⟩ := ih
    obtain ⟨bs', ch', G', _⟩ := malloc_step G hr.lim_le hn h
    exact ⟨bs', ch', G'⟩
  | free p n hr hp ih =>
    obtain ⟨bs, ch, G⟩ := ih
    obtain ⟨bs', ch', G', _⟩ := free_step G lim hp
    exact ⟨bs', ch', G'⟩
  | realloc fuel p m q st' hr hp hm h ih =>
    obtain ⟨bs, ch, G⟩ := ih
    exact (realloc_step G hr.lim_le hp hm h).1
  | calloc fuel k m q st' hr hm h ih =>
    obtain ⟨bs, ch, G⟩ := ih
    exact (calloc_step G hr.lim_le hm h).1
  | write p n a v hr hp h1 h2 ih =>
    obtain ⟨bs, ch, G⟩ := ih
    exact ⟨bs, ch, write_ok G hp _ (fun x hx => by rw [if_neg (by omega)])⟩

theorem SizesOK.length_le {bs : List (Nat × Bool)} (h : SizesOK bs) :
    16 * bs.length ≤ total bs := by
  induction bs with
  | nil => simp
  | cons b t ih =>
    have h1 := h b (List.mem_cons_self _ _)
    have h2 := ih (fun x hx => h x (List.mem_cons_of_mem _ hx))
    simp only [List.length_cons, total_cons]
    omega

/-- The walk over a tagged block sequence that ends in a header of size 0
visits blocks of the sequence only. -/
theorem walk_sound_seq (m : Mem) (bs : List (Nat × Bool)) :
    ∀ (start fuel : Nat), SizesOK bs → TagsOK m start bs →
      GET m (start + total bs - 4) = 1 →
      ∀ q, q ∈ heap_blocks m fuel start → ∃ s a, BlockAt start bs q s a := by
  induction bs with
  | nil =>
    intro start fuel _ _ hepi q hq
    cases fuel with
    | zero => simp [heap_blocks] at hq
    | succ f =>
      have h0 : GET_SIZE m (HDRP start) = 0 :=
        GET_SIZE_tag m _ 0 true (by simpa [HDRP, WSIZE, tagv] using hepi) (by norm_num)
      simp [heap_blocks, h0] at hq
  | cons b t ih =>
    intro start fuel hsz htags hepi q hq
    cases fuel with
    | zero => simp [heap_blocks] at hq
    | succ f =>
      have hb := hsz b (List.mem_cons_self _ _)
      have ht := htags start b.1 b.2 (Or.inl ⟨rfl, rfl, rfl⟩)
      have h0 : GET_SIZE m (HDRP start) = b.1 := GET_SIZE_tag m _ b.1 b.2 ht.1 hb.2
      have hn : NEXT_BLKP m start = start + b.1 := by
        unfold NEXT_BLKP
        unfold HDRP at h0
        rw [h0]
      unfold heap_blocks at hq
      rw [if_pos (by omega), hn] at hq
      rcases List.mem_cons.1 hq with hq | hq
      · exact ⟨b.1, b.2, Or.inl ⟨hq, rfl, rfl⟩⟩
      · obtain ⟨s, a, h⟩ := ih (start + b.1) f
          (fun x hx => hsz x (List.mem_cons_of_mem _ hx))
          (fun p s a h => htags p s a (Or.inr h))
          (by rw [← hepi, total_cons]; congr 1; omega) q hq
        exact ⟨s, a, Or.inr h⟩

/-- With enough fuel the walk visits every block of the sequence. -/
theorem walk_complete_seq (m : Mem) (bs : List (Nat × Bool)) :
    ∀ (start fuel : Nat), SizesOK bs → TagsOK m start bs → bs.length ≤ fuel →
      ∀ q s a, BlockAt start bs q s a → q ∈ heap_blocks m fuel start := by
  induction bs with
  | nil => intro start fuel _ _ _ q s a h; exact h.elim
  | cons b t ih =>
    intro start fuel hsz htags hf q s a h
    obtain ⟨f, rfl⟩ : ∃ f, fuel = f + 1 := ⟨fuel - 1, by simp at hf; omega⟩
    have hb := hsz b (List.mem_cons_self _ _)
    have ht := htags start b.1 b.2 (Or.inl ⟨rfl, rfl, rfl⟩)
    have h0 : GET_SIZE m (HDRP start) = b.1 := GET_SIZE_tag m _ b.1 b.2 ht.1 hb.2
    have hn : NEXT_BLKP m start = start + b.1 := by
      unfold NEXT_BLKP
      unfold HDRP at h0
      rw [h0]
    unfold heap_blocks
    rw [if_pos (by omega), hn]
    rcases h with ⟨h1, _, _⟩ | h
    · rw [h1]; exact List.mem_cons_self _ _
    · exact List.mem_cons_of_mem _ (ih (start + b.1) f
        (fun x hx => hsz x (List.mem_cons_of_mem _ hx))
        (fun p s a h => htags p s a (Or.inr h)) (by simp at hf; omega) q s a h)

theorem HeapOK.walk_step {st : State} {bs : List (Nat × Bool)} {ch : Nat → List Nat}
    {X : List Nat} (H : HeapOK st bs ch X) (f : Nat) :
    heap_blocks st.mem (f + 1) st.heap_listp = st.heap_listp :: heap_blocks st.mem f FIRST := by
  have h0 : GET_SIZE st.mem (HDRP st.heap_listp) = 8 := by
    rw [H.hl]
    exact GET_SIZE_tag st.mem _ 8 true (by simpa [HDRP, WSIZE, tagv] using H.pro1) (by norm_num)
  have hn : NEXT_BLKP st.mem st.heap_listp = FIRST := by
    unfold NEXT_BLKP
    unfold HDRP at h0
    rw [h0, H.hl, FIRST_eq]
  rw [heap_blocks, if_pos (by omega), hn]

/-- The heap walk of `mm_checkheap` visits the prologue and blocks of the
block sequence only. -/
theorem HeapOK.walk_sound {st : State} {bs : List (Nat × Bool)} {ch : Nat → List Nat}
    {X : List Nat} (H : HeapOK st bs ch X) (fuel q : Nat)
    (hq : q ∈ heap_blocks st.mem fuel st.heap_listp) :
    q = st.heap_listp ∨ ∃ s a, BlockAt FIRST bs q s a := by
  cases fuel with
  | zero => simp [heap_blocks] at hq
  | succ f =>
    rw [H.walk_step] at hq
    rcases List.mem_cons.1 hq with hq | hq
    · exact Or.inl hq
    · exact Or.inr (walk_sound_seq st.mem bs FIRST f H.sz H.tags H.epi q hq)

/-- The heap walk of `mm_checkheap` visits every block of the block sequence. -/
theorem HeapOK.walk_complete {st : State} {bs : List (Nat × Bool)} {ch : Nat → List Nat}
    {X : List Nat} (H : HeapOK st bs ch X) (fuel : Nat) (hf : st.brk ≤ fuel) {q s : Nat}
    {a : Bool} (hb : BlockAt FIRST bs q s a) :
    q ∈ heap_blocks st.mem fuel st.heap_listp := by
  have hlen := H.sz.length_le
  have hbrk := H.brk
  obtain ⟨f, rfl⟩ : ∃ f, fuel = f + 1 := ⟨fuel - 1, by omega⟩
  rw [H.walk_step]
  exact List.mem_cons_of_mem _
    (walk_complete_seq st.mem bs FIRST f H.sz H.tags (by omega) q s a hb)

theorem HeapOK.read_alloc {st : State} {bs : List (Nat × Bool)} {ch : Nat → List Nat}
    {X : List Nat} (H : HeapOK st bs ch X) {p s : Nat} {a : Bool}
    (hb : BlockAt FIRST bs p s a) : GET_ALLOC st.mem (HDRP p) = if a then 1 else 0 := by
  have h := H.block hb
  exact GET_ALLOC_tag _ _ _ _ h.2.2.2.2.2.1 h.2.2.2.2.1

theorem HeapOK.read_ftr {st : State} {bs : List (Nat × Bool)} {ch : Nat → List Nat}
    {X : List Nat} (H : HeapOK st bs ch X) {p s : Nat} {a : Bool}
    (hb : BlockAt FIRST bs p s a) : FTRP st.mem p = p + s - 8 := by
  unfold FTRP
  rw [H.read_size hb]
  rfl

/-- What `malloc` does once `find_fit` has returned `v`. -/
theorem malloc_shape {st : State} {bs : List (Nat × Bool)} {ch : Nat → List Nat}
    {X : List Nat} (H : HeapOK st bs ch X) (fuel lim n : Nat) (hn : n ≠ 0) (v : Nat)
    (hv : find_fit fuel (adjust n) st = .ret v) :
    malloc fuel lim n st =
      if v ≠ 0 then .ret (v, place v (adjust n) st)
      else if (extend_heap lim (MAX (adjust n) CHUNKSIZE / WSIZE) st).1 = 0 then
        .ret (0, (extend_heap lim (MAX (adjust n) CHUNKSIZE / WSIZE) st).2)
      else .ret ((extend_heap lim (MAX (adjust n) CHUNKSIZE / WSIZE) st).1,
        place (extend_heap lim (MAX (adjust n) CHUNKSIZE / WSIZE) st).1 (adjust n)
          (extend_heap lim (MAX (adjust n) CHUNKSIZE / WSIZE) st).2) := by
  unfold malloc
  simp only [H.hl_ne, if_false, hn, hv]

/-- A call of `malloc` that returned for a non-zero size went through `find_fit`. -/
theorem malloc_find {st : State} {bs : List (Nat × Bool)} {ch : Nat → List Nat}
    {X : List Nat} (H : HeapOK st bs ch X) {fuel lim n : Nat} (hn : n ≠ 0) {r : Nat × State}
    (h : malloc fuel lim n st = .ret r) : ∃ v, find_fit fuel (adjust n) st = .ret v := by
  unfold malloc at h
  simp only [H.hl_ne, if_false, hn] at h
  cases hc : find_fit fuel (adjust n) st with
  | hang => rw [hc] at h; simp at h
  | crash => rw [hc] at h; simp at h
  | ret v => exact ⟨v, rfl⟩

/-- On a well-formed heap the result of `find_fit` does not depend on the fuel
that made it return. -/
theorem find_fit_val {st : State} {bs : List (Nat × Bool)} {ch : Nat → List Nat}
    (H : HeapOK st bs ch []) {fuel asize v : Nat} (hv : find_fit fuel asize st = .ret v) :
    v = firstFitFrom st.mem asize ch (LIST_NUM - getNumber asize) (getNumber asize) := by
  have h1 := find_fit_mono fuel (max fuel (st.brk + 1)) asize st (by omega) v hv
  rw [find_fit_spec H (max fuel (st.brk + 1)) asize (by omega)] at h1
  injection h1 with h1
  exact h1.symm

/-- When `find_fit` finds nothing, no block visited by the heap walk is free
and large enough. -/
theorem find_fit_none {st : State} {bs : List (Nat × Bool)} {ch : Nat → List Nat}
    (H : HeapOK st bs ch []) {fuel asize : Nat} (hv : find_fit fuel asize st = .ret 0)
    (fuel' q : Nat) (hq : q ∈ heap_blocks st.mem fuel' st.heap_listp)
    (ha : GET_ALLOC st.mem (HDRP q) = 0) : GET_SIZE st.mem (HDRP q) < asize := by
  have h0 := find_fit_val H hv
  rcases H.walk_sound fuel' q hq with e | ⟨s, a, hb⟩
  · rw [e, H.hl] at ha
    have : GET_ALLOC st.mem (HDRP (HEAP_BASE + 136)) = 1 :=
      GET_ALLOC_tag st.mem _ 8 true (by simpa [HDRP, WSIZE, tagv] using H.pro1) (by norm_num)
    omega
  · rw [H.read_alloc hb] at ha
    cases a with
    | true => simp at ha
    | false =>
      rw [H.read_size hb]
      exact H.no_fit asize h0.symm q s hb

/-- The pointer `extend_heap` returns is null or aligned. -/
theorem extend_heap_aligned {st : State} {bs : List (Nat × Bool)} {ch : Nat → List Nat}
    (H : HeapOK st bs ch []) (hna : NoAdj bs) (lim n : Nat) (hlim : lim ≤ 2 ^ 32) :
    (extend_heap lim (MAX (adjust n) CHUNKSIZE / WSIZE) st).1 % 8 = 0 := by
  have hE := ext_size_max (adjust n) (adjust_mod8 n) (adjust_lt n)
  by_cases hg : st.brk + MAX (adjust n) CHUNKSIZE ≤ lim
  · obtain ⟨pre', l, ch', k1, k2, k3, k4, k5, k6, k7⟩ :=
      extend_heap_ok H hna lim (MAX (adjust n) CHUNKSIZE / WSIZE) hlim
        (by rw [hE.1]; omega) (by rw [hE.1]; exact hE.2.2.2) (by rw [hE.1]; exact hg)
    rw [k5]
    have hb : BlockAt FIRST (pre' ++ [(total l + ext_size (MAX (adjust n) CHUNKSIZE / WSIZE),
        false)]) (FIRST + total pre') (total l + ext_size (MAX (adjust n) CHUNKSIZE / WSIZE))
        false := by
      rw [BlockAt_append]
      exact Or.inr (Or.inl ⟨rfl, rfl, rfl⟩)
    exact (k3.block hb).2.2.1
  · rw [extend_heap_fail lim _ st (by rw [hE.1]; exact hg)]
    rfl

/-- C1: in every state reachable from a successful `mm_init`, any two live
allocations occupy disjoint byte ranges, and no byte of a live allocation lies
in a bucket-head word, in the header or footer of a block that the heap walk
visits (the prologue included), or in the epilogue header. -/
theorem live_no_overlap {lim : Nat} {st : State} {live : List (Nat × Nat)}
    (hr : Reach lim st live) :
    live.Pairwise (fun x y => x.1 + x.2 ≤ y.1 ∨ y.1 + y.2 ≤ x.1)
      ∧ ∀ x ∈ live, ∀ a, x.1 ≤ a → a < x.1 + x.2 →
          ¬ (st.list_addr ≤ a ∧ a < st.list_addr + 8 * LIST_NUM)
          ∧ (∀ fuel, ∀ q ∈ heap_blocks st.mem fuel st.heap_listp,
              ¬ (HDRP q ≤ a ∧ a < HDRP q + WSIZE)
              ∧ ¬ (FTRP st.mem q ≤ a ∧ a < FTRP st.mem q + WSIZE))
          ∧ a < HEAP_BASE + st.brk - WSIZE := by
  obtain ⟨bs, ch, G⟩ := hr.inv
  have H := G.heap
  constructor
  · have hnd := G.nd
    rw [List.Nodup, List.pairwise_map] at hnd
    refine hnd.imp_of_mem ?_
    intro x y hx hy hne
    obtain ⟨sx, hbx, hsx⟩ := G.lv x hx
    obtain ⟨sy, hby, hsy⟩ := G.lv y hy
    have := H.block_apart hbx hby hne
    omega
  · intro x hx a h1 h2
    obtain ⟨sx, hbx, hsx⟩ := G.lv x hx
    have hx' := H.block hbx
    have hla := H.la
    have hbrk := H.brk
    refine ⟨?_, ?_, ?_⟩
    · simp only [LIST_NUM]
      omega
    · intro fuel q hq
      rcases H.walk_sound fuel q hq with e | ⟨s, al, hb⟩
      · have h0 : GET_SIZE st.mem (HDRP (HEAP_BASE + 136)) = 8 :=
          GET_SIZE_tag st.mem _ 8 true (by simpa [HDRP, WSIZE, tagv] using H.pro1) (by norm_num)
        rw [e, H.hl]
        unfold FTRP
        rw [h0]
        simp only [HDRP, WSIZE, DSIZE]
        omega
      · rw [H.read_ftr hb]
        have hq' := H.block hb
        simp only [HDRP, WSIZE]
        by_cases hqx : x.1 = q
        · have := (H.block_unique hbx (hqx ▸ hb)).1
          omega
        · have := H.block_apart hbx hb hqx
          omega
    · simp only [WSIZE]
      omega

/-- C2, amended: in every state reachable by requests of at most
`2 ^ 64 - 16` bytes each (the heap starts at `HEAP_BASE = 0x800000000`) and
for every `n > 0`, a non-null pointer returned by `malloc(n)` is a multiple
of 8. -/
theorem malloc_aligned {lim : Nat} {st : State} {live : List (Nat × Nat)}
    (hr : Reach lim st live) {fuel n p : Nat} {st' : State} (hn : 0 < n)
    (h : malloc fuel lim n st = .ret (p, st')) (hp : p ≠ 0) : p % 8 = 0 := by
  obtain ⟨bs, ch, G⟩ := hr.inv
  have H := G.heap
  obtain ⟨v, hv⟩ := malloc_find H (by omega) h
  rw [malloc_shape H fuel lim n (by omega) v hv] at h
  by_cases hv0 : v = 0
  · rw [if_neg (by simpa using hv0)] at h
    have ha := extend_heap_aligned H G.noadj lim n hr.lim_le
    split at h
    · injection h with h
      injection h with h1 h2
      omega
    · injection h with h
      injection h with h1 h2
      rw [← h1]
      exact ha
  · rw [if_pos hv0] at h
    injection h with h
    injection h with h1 h2
    have hval := find_fit_val H hv
    obtain ⟨c, hb, _⟩ := H.fit_block (adjust n) (by rw [← hval]; exact hv0)
    rw [← hval, h1] at hb
    exact (H.block hb).2.2.1

/-- C3, amended: in every state reachable by requests of at most `2 ^ 64 - 16` bytes each
the bytes of a live allocation
`(p, n)` are left unchanged by a `malloc`, a `calloc`, a `free(q)` or a
`realloc(q, m)` that returns, where `q` is another live pointer and the byte
count requested does not wrap the size computation of `malloc`
(`m + 15 < 2 ^ 64`). -/
theorem live_payload_framed {lim : Nat} {st : State} {live : List (Nat × Nat)}
    (hr : Reach lim st live) {p n : Nat} (hp : (p, n) ∈ live) :
    (∀ fuel m r st', m + 15 < 2 ^ 64 → malloc fuel lim m st = .ret (r, st') →
        ∀ i, i < n → st'.mem (p + i) = st.mem (p + i))
      ∧ (∀ fuel k m r st', (k * m) % 2 ^ 64 + 15 < 2 ^ 64 →
          calloc fuel lim k m st = .ret (r, st') →
          ∀ i, i < n → st'.mem (p + i) = st.mem (p + i))
      ∧ (∀ q nq, (q, nq) ∈ live → q ≠ p →
          ∀ i, i < n → (free lim q st).mem (p + i) = st.mem (p + i))
      ∧ (∀ q nq, (q, nq) ∈ live → q ≠ p → ∀ fuel m r st', m + 15 < 2 ^ 64 →
          realloc fuel lim q m st = .ret (r, st') →
          ∀ i, i < n → st'.mem (p + i) = st.mem (p + i)) := by
  obtain ⟨bs, ch, G⟩ := hr.inv
  have hlim := hr.lim_le
  refine ⟨?_, ?_, ?_, ?_⟩
  · intro fuel m r st' hm h i hi
    obtain ⟨_, _, _, _, fr, _⟩ := malloc_step G hlim hm h
    exact fr _ (live_area G.lv hp hi)
  · intro fuel k m r st' hm h i hi
    exact (calloc_step G hlim hm h).2.1 (p, n) hp i hi
  · intro q nq hq hne i hi
    obtain ⟨_, _, _, fr, _⟩ := free_step G lim hq
    exact fr (p, n) hp (Ne.symm hne) i hi
  · intro q nq hq hne fuel m r st' hm h i hi
    exact (realloc_step G hlim (Or.inr ⟨nq, hq⟩) hm h).2 (p, n) hp (Ne.symm hne) i hi

/-- C4, amended: for a request of `n > 0` bytes with `n + 15 < 2 ^ 64` the
adjusted block size of `malloc` is `max(16, roundUp8(n + 8))`; it is a multiple
of 8, at least 16 and at least `n + 8`. -/
theorem adjust_eq_spec (n : Nat) (h0 : 0 < n) (h : n + 15 < 2 ^ 64) :
    adjust n = adjust_spec n ∧ adjust n % 8 = 0 ∧ 16 ≤ adjust n ∧ n + 8 ≤ adjust n := by
  have hp := adjust_props n h
  refine ⟨?_, hp.2.1, hp.1, hp.2.2⟩
  rw [adjust_eq n h]
  unfold adjust_spec
  split <;> omega

/-- C6, amended: in every state reachable by requests of at most `2 ^ 64 - 16` bytes each
`malloc(n)` returns, and it returns null
exactly when `n = 0`, or `find_fit` finds no block for the adjusted size and
`extend_heap` returns null; `extend_heap` returns null exactly when the growth
primitive refuses its request. -/
theorem malloc_null_iff {lim : Nat} {st : State} {live : List (Nat × Nat)}
    (hr : Reach lim st live) (fuel n : Nat) (hf : st.brk < fuel) :
    (∃ p st', malloc fuel lim n st = .ret (p, st')
      ∧ (p = 0 ↔ n = 0 ∨ (find_fit fuel (adjust n) st = .ret 0
          ∧ (extend_heap lim (MAX (adjust n) CHUNKSIZE / WSIZE) st).1 = 0)))
      ∧ ((extend_heap lim (MAX (adjust n) CHUNKSIZE / WSIZE) st).1 = 0
          ↔ (mem_sbrk lim (MAX (adjust n) CHUNKSIZE) st).1 = NEG1) := by
  obtain ⟨bs, ch, G⟩ := hr.inv
  have H := G.heap
  constructor
  · by_cases hn : n = 0
    · subst hn
      exact ⟨0, st, malloc_eq_zero H fuel lim, by simp⟩
    · have hv := find_fit_spec H fuel (adjust n) hf
      rw [malloc_shape H fuel lim n hn _ hv, hv]
      generalize firstFitFrom st.mem (adjust n) ch (LIST_NUM - getNumber (adjust n))
        (getNumber (adjust n)) = v
      by_cases hv0 : v = 0
      · subst hv0
        rw [if_neg (by simp)]
        by_cases he : (extend_heap lim (MAX (adjust n) CHUNKSIZE / WSIZE) st).1 = 0
        · rw [if_pos he]
          exact ⟨_, _, rfl, by simp [he]⟩
        · rw [if_neg he]
          exact ⟨_, _, rfl, by simp [he, hn]⟩
      · rw [if_pos hv0]
        refine ⟨_, _, rfl, ?_⟩
        constructor
        · intro h; exact absurd h hv0
        · rintro (h | ⟨h, _⟩)
          · exact absurd h hn
          · exact absurd (Outcome.ret.inj h) hv0
  · have hE := ext_size_max (adjust n) (adjust_mod8 n) (adjust_lt n)
    have hbrk := H.brk
    have hl := H.lim
    have hB : HEAP_BASE = 34359738368 := rfl
    unfold mem_sbrk
    by_cases hg : st.brk + MAX (adjust n) CHUNKSIZE ≤ lim
    · obtain ⟨pre', l, ch', k1, k2, k3, k4, k5, k6, k7⟩ :=
        extend_heap_ok H G.noadj lim (MAX (adjust n) CHUNKSIZE / WSIZE) hr.lim_le
          (by rw [hE.1]; omega) (by rw [hE.1]; exact hE.2.2.2) (by rw [hE.1]; exact hg)
      rw [k5, if_pos hg]
      have hF := FIRST_ge
      constructor
      · intro h; omega
      · intro h
        simp only [NEG1] at h
        omega
    · rw [extend_heap_fail lim _ st (by rw [hE.1]; exact hg), if_neg hg]
      simp

/-- C7, amended: in every state reachable by requests of at most `2 ^ 64 - 16` bytes each,
when `find_fit` finds nothing for a size, no
free block that the heap walk visits has that size or more; and a call
`malloc(n)`, `n > 0`, that called the growth primitive found no free block of
the adjusted size or more anywhere in the heap. -/
theorem grow_only_if_needed {lim : Nat} {st : State} {live : List (Nat × Nat)}
    (hr : Reach lim st live) :
    (∀ fuel asize, find_fit fuel asize st = .ret 0 →
        ∀ fuel', ∀ q ∈ heap_blocks st.mem fuel' st.heap_listp,
          GET_ALLOC st.mem (HDRP q) = 0 → GET_SIZE st.mem (HDRP q) < asize)
      ∧ (∀ fuel n p st', 0 < n → malloc fuel lim n st = .ret (p, st') →
          st'.sbrk_calls ≠ st.sbrk_calls →
          ∀ fuel', ∀ q ∈ heap_blocks st.mem fuel' st.heap_listp,
            GET_ALLOC st.mem (HDRP q) = 0 → GET_SIZE st.mem (HDRP q) < adjust n) := by
  obtain ⟨bs, ch, G⟩ := hr.inv
  have H := G.heap
  refine ⟨fun fuel asize hv fuel' q hq ha => find_fit_none H hv fuel' q hq ha, ?_⟩
  intro fuel n p st' hn h hcall fuel' q hq ha
  obtain ⟨v, hv⟩ := malloc_find H (by omega) h
  rw [malloc_shape H fuel lim n (by omega) v hv] at h
  by_cases hv0 : v = 0
  · subst hv0
    exact find_fit_none H hv fuel' q hq ha
  · rw [if_pos hv0] at h
    injection h with h
    injection h with h1 h2
    rw [← h2, place_calls] at hcall
    exact absurd rfl hcall

/-- C9, amended: in every state reachable by requests of at most `2 ^ 64 - 16` bytes each,
for a live pointer `p` and a size
`m > 0` with `m + 15 < 2 ^ 64`, when `realloc(p, m)` returns a non-null `q`,
the first `min(blockSize(p) - 8, m)` bytes at `q` are the bytes that were at
`p`, `q` is a live allocation of `m` bytes in an allocated block of at least
`m + 8` bytes, `p` is no longer live and its old block lies inside a free
block of the heap. -/
theorem realloc_preserves {lim : Nat} {st : State} {live : List (Nat × Nat)}
    (hr : Reach lim st live) {fuel p n m q : Nat} {st' : State} (hp : (p, n) ∈ live)
    (hm0 : 0 < m) (hm : m + 15 < 2 ^ 64) (h : realloc fuel lim p m st = .ret (q, st'))
    (hq : q ≠ 0) :
    (∀ i, i < GET_SIZE st.mem (HDRP p) - 8 → i < m → st'.mem (q + i) = st.mem (p + i))
      ∧ Reach lim st' ((q, m) :: live_del live p)
      ∧ (q ∈ heap_blocks st'.mem st'.brk st'.heap_listp ∧ GET_ALLOC st'.mem (HDRP q) = 1
          ∧ m + 8 ≤ GET_SIZE st'.mem (HDRP q))
      ∧ (∃ q0, q0 ∈ heap_blocks st'.mem st'.brk st'.heap_listp
          ∧ GET_ALLOC st'.mem (HDRP q0) = 0 ∧ q0 ≤ p
          ∧ p + GET_SIZE st.mem (HDRP p) ≤ q0 + GET_SIZE st'.mem (HDRP q0)) := by
  obtain ⟨bs, ch, G⟩ := hr.inv
  have hlim := hr.lim_le
  have hp0 : p ≠ 0 := G.live_ne hp
  have hreach := Reach.realloc fuel p m q st' hr (Or.inr ⟨n, hp⟩) hm h
  unfold live_realloc at hreach
  rw [if_neg (by omega), if_neg hp0, if_neg hq] at hreach
  obtain ⟨q1, st1, hmal, hc | hc⟩ := realloc_cases (by omega) hp0 h
  · exact absurd hc.2.1 hq
  · obtain ⟨h1, h2, h3⟩ := hc
    subst h2 h3
    obtain ⟨s, bs', ch', hbp, G', _, cp, ⟨c, hbq, hcq⟩, ⟨q0, s0, hb0, h01, h02⟩, _⟩ :=
      realloc_move G hlim hp hm hmal h1 _ rfl
    have hs : GET_SIZE st.mem (HDRP p) = s := G.heap.read_size hbp
    rw [hs]
    generalize free lim p _ = st' at *
    have H' := G'.heap
    refine ⟨cp, hreach, ⟨H'.walk_complete _ (le_refl _) hbq, ?_, ?_⟩,
      ⟨q0, H'.walk_complete _ (le_refl _) hb0, ?_, h01, ?_⟩⟩
    · rw [H'.read_alloc hbq]; rfl
    · rw [H'.read_size hbq]; exact hcq
    · rw [H'.read_alloc hb0]; rfl
    · rw [H'.read_size hb0]; exact h02

/-- C10: in every reachable state `realloc(p, 0)` returns null and the state
that `free(p)` produces, and `realloc(null, n)` is `malloc(n)`: the same
pointer and the same state. -/
theorem realloc_degenerate {lim : Nat} {st : State} {live : List (Nat × Nat)}
    (hr : Reach lim st live) (fuel : Nat) :
    (∀ p, realloc fuel lim p 0 st = .ret (0, free lim p st))
      ∧ (∀ n, realloc fuel lim 0 n st = malloc fuel lim n st) := by
  obtain ⟨bs, ch, G⟩ := hr.inv
  refine ⟨fun p => realloc_zero fuel lim p st, ?_⟩
  intro n
  by_cases hn : n = 0
  · subst hn
    rw [realloc_zero, free_null, malloc_eq_zero G.heap]
  · exact realloc_null fuel lim n st hn

theorem Outcome.ret_pair {α β : Type} (o : Outcome (α × β)) (d : α × β)
    (h : o.isRet = true) : o = .ret ((o.getD d).1, (o.getD d).2) :=
  Outcome.eq_ret_getD o d h

/-- What evaluation gives on the fresh heap and after one or two allocations
of 16 bytes. -/
theorem alloc_facts :
    (mm_init 100000 heap0).1 = 0 ∧ heap1.brk < 400
      ∧ (malloc 400 100000 16 heap1).isRet = true ∧ alloc1.1 ≠ 0
      ∧ (free 100000 alloc1.1 alloc1.2).brk < 400
      ∧ (malloc 400 100000 16 alloc1.2).isRet = true ∧ alloc2.1 ≠ 0 ∧ alloc2.1 ≠ alloc1.1
      ∧ (realloc 400 100000 alloc1.1 32 alloc1.2).isRet = true ∧ move1.1 ≠ 0
      ∧ (realloc 400 100000 alloc1.1 (2 ^ 64 - 1) alloc1.2).isRet = true ∧ move2.1 ≠ 0
      ∧ GET_SIZE move2.2.mem (HDRP move2.1) = 8 := by
  decide!

/-- What evaluation gives for the requests of 200 and of `2 ^ 64 - 1` bytes
on the fresh heap. -/
theorem grow_facts :
    (malloc 400 100000 200 heap1).isRet = true ∧ grow200.2.sbrk_calls ≠ heap1.sbrk_calls
      ∧ (malloc 400 100000 (2 ^ 64 - 1) heap1).isRet = true ∧ big1.1 ≠ 0
      ∧ (malloc 400 100000 200 (free 100000 big1.1 big1.2)).isRet = true
      ∧ big2.2.sbrk_calls = (free 100000 big1.1 big1.2).sbrk_calls + 1 := by
  decide!

/-- What evaluation gives for the three allocations, the store of the client,
the release of the first and the resize of the third. -/
theorem tri_facts :
    (malloc 400 100000 8 heap1).isRet = true ∧ (malloc 400 100000 16 tri1.2).isRet = true
      ∧ (malloc 400 100000 16 tri2.2).isRet = true
      ∧ live_add (live_add (live_add [] tri1.1 8) tri2.1 16) tri3.1 16
          = [(tri3.1, 16), (tri2.1, 16), (tri1.1, 8)]
      ∧ live_del [(tri3.1, 16), (tri2.1, 16), (tri1.1, 8)] tri1.1
          = [(tri3.1, 16), (tri2.1, 16)]
      ∧ tri2.1 = HEAP_BASE + 160 ∧ tri3.1 = HEAP_BASE + 184
      ∧ (realloc 400 100000 tri3.1 (2 ^ 64 - 1) tri5).isRet = true
      ∧ tri5.mem (tri2.1 + 0) = 7 ∧ tri6.2.mem (tri2.1 + 0) = 25
      ∧ tri6.1 = HEAP_BASE + 144 := by
  decide!

theorem heap1_reach : Reach 100000 heap1 [] :=
  Reach.init heap0 (by norm_num) rfl alloc_facts.1

theorem alloc1_eq : malloc 400 100000 16 heap1 = .ret (alloc1.1, alloc1.2) :=
  Outcome.ret_pair _ _ alloc_facts.2.2.1

theorem alloc1_ne : alloc1.1 ≠ 0 := alloc_facts.2.2.2.1

theorem alloc1_reach : Reach 100000 alloc1.2 [(alloc1.1, 16)] := by
  have h := Reach.malloc 400 16 alloc1.1 alloc1.2 heap1_reach (by norm_num) alloc1_eq
  unfold live_add at h
  rw [if_neg alloc1_ne] at h
  exact h

theorem alloc2_eq : malloc 400 100000 16 alloc1.2 = .ret (alloc2.1, alloc2.2) :=
  Outcome.ret_pair _ _ alloc_facts.2.2.2.2.2.1

theorem alloc2_ne : alloc2.1 ≠ 0 := alloc_facts.2.2.2.2.2.2.1

theorem alloc2_reach : Reach 100000 alloc2.2 [(alloc2.1, 16), (alloc1.1, 16)] := by
  have h := Reach.malloc 400 16 alloc2.1 alloc2.2 alloc1_reach (by norm_num) alloc2_eq
  unfold live_add at h
  rw [if_neg alloc2_ne] at h
  exact h

/-- A chain node that is too small and whose next-link leads back to itself
keeps the chain walk of `find_fit` busy for ever. -/
theorem find_in_chain_spin (m : Mem) (asize p : Nat) (hp : p ≠ 0)
    (hs : GET_SIZE m (HDRP p) < asize) (hn : word_to_ptr (NEXT_LINK m p) = p) :
    ∀ fuel, find_in_chain m asize fuel p = .hang := by
  intro fuel
  induction fuel with
  | zero => rfl
  | succ f ih =>
    unfold find_in_chain
    rw [if_neg hp, if_neg (by omega), hn]
    exact ih

/-- When the head of the first bucket that `find_fit` scans is such a node,
`find_fit` does not return. -/
theorem find_fit_spin (st : State) (asize p : Nat) (hp : p ≠ 0)
    (hh : GETP st.mem (st.list_addr + 8 * getNumber asize) = p)
    (hs : GET_SIZE st.mem (HDRP p) < asize) (hn : word_to_ptr (NEXT_LINK st.mem p) = p) :
    ∀ fuel, find_fit fuel asize st = .hang := by
  intro fuel
  have hk := getNumber_lt asize
  unfold find_fit
  obtain ⟨k, hk'⟩ : ∃ k, LIST_NUM - getNumber asize = k + 1 :=
    ⟨LIST_NUM - getNumber asize - 1, by unfold LIST_NUM; omega⟩
  rw [hk']
  unfold find_fit_loop
  rw [hh, find_in_chain_spin st.mem asize p hp hs hn fuel]

/-- In that case `malloc` does not return either. -/
theorem malloc_spin (lim n : Nat) (st : State) (p : Nat) (h0 : st.heap_listp ≠ 0)
    (hn0 : n ≠ 0) (hp : p ≠ 0)
    (hh : GETP st.mem (st.list_addr + 8 * getNumber (adjust n)) = p)
    (hs : GET_SIZE st.mem (HDRP p) < adjust n)
    (hn : word_to_ptr (NEXT_LINK st.mem p) = p) :
    ∀ fuel, malloc fuel lim n st = .hang := by
  intro fuel
  unfold malloc
  simp only [if_neg h0, if_neg hn0]
  rw [find_fit_spin st (adjust n) p hp hh hs hn fuel]

/-- What evaluation gives after the request of `2 ^ 64 - 1` bytes and two
requests of 16 bytes. -/
theorem wrap_facts :
    big1.1 = HEAP_BASE + 144
      ∧ (malloc 400 100000 16 big1.2).isRet = true ∧ wrapB.1 = HEAP_BASE + 152
      ∧ (malloc 400 100000 16 wrapB.2).isRet = true ∧ wrapC.1 = HEAP_BASE + 176
      ∧ GET_SIZE wrapC.2.mem (HDRP big1.1) = 8 ∧ GET_ALLOC wrapC.2.mem (HDRP big1.1) = 1
      ∧ GET_ALLOC wrapC.2.mem (HDRP wrapB.1) = 1 ∧ GET_ALLOC wrapC.2.mem (HDRP wrapC.1) = 1
      ∧ NEXT_BLKP wrapC.2.mem big1.1 = wrapB.1 ∧ NEXT_BLKP wrapC.2.mem wrapB.1 = wrapC.1
      ∧ NEXT_BLKP wrapC.2.mem wrapC.1 = HEAP_BASE + 200 := by
  decide!

/-- What evaluation gives after the request of `2 ^ 64 - 15` bytes and the
stores of the client. -/
theorem skew_facts :
    (malloc 400 100000 (2 ^ 64 - 15) heap1).isRet = true ∧ skew1.1 = HEAP_BASE + 144
      ∧ adjust (2 ^ 64 - 15) = 0
      ∧ (malloc 400 100000 200 skew2).isRet = true ∧ skew3.1 = HEAP_BASE + 153
      ∧ skew4.heap_listp ≠ 0
      ∧ GETP skew4.mem (skew4.list_addr + 8 * getNumber (adjust 200)) = HEAP_BASE + 144
      ∧ GET_SIZE skew4.mem (HDRP (HEAP_BASE + 144)) < adjust 200
      ∧ word_to_ptr (NEXT_LINK skew4.mem (HEAP_BASE + 144)) = HEAP_BASE + 144 := by
  decide!

/-- What evaluation gives for the releases and the resize that follow a
request of `2 ^ 64 - 1` bytes. -/
theorem clob_facts :
    (malloc 400 100000 16 clob1).isRet = true ∧ clob2.1 = HEAP_BASE + 176
      ∧ clob2.2.mem (wrapB.1 + 4) = 200 ∧ clob3.mem (wrapB.1 + 4) = 0
      ∧ (realloc 400 100000 wrapC.1 32 lose1).isRet = true ∧ lose2.1 = HEAP_BASE + 200
      ∧ GET_SIZE lose1.mem (HDRP wrapC.1) = 24
      ∧ lose1.mem (wrapC.1 + 0) = 55 ∧ lose2.2.mem (lose2.1 + 0) = 0 := by
  decide!

/-- What evaluation gives for the requests that follow the store of the client
into a released block. -/
theorem hide_facts :
    (malloc 400 100000 16 wrapC.2).isRet = true ∧ hide1.1 = HEAP_BASE + 200
      ∧ (malloc 400 100000 16 hide1.2).isRet = true
      ∧ (malloc 400 100000 48 hide2.2).isRet = true
      ∧ (malloc 400 100000 16 hide4).isRet = true ∧ hide5.1 = HEAP_BASE + 200
      ∧ (malloc 400 100000 16 hide5.2).isRet = true ∧ hide6.1 ≠ 0
      ∧ hide6.2.sbrk_calls = hide5.2.sbrk_calls + 1
      ∧ HEAP_BASE + 152 ∈ heap_blocks hide5.2.mem 400 hide5.2.heap_listp
      ∧ GET_ALLOC hide5.2.mem (HDRP (HEAP_BASE + 152)) = 0
      ∧ GET_SIZE hide5.2.mem (HDRP (HEAP_BASE + 152)) = 24 ∧ adjust 16 = 24 := by
  decide!

theorem Outcome.eq_crash {α : Type} (o : Outcome α) (h : o.isCrash = true) : o = .crash := by
  cases o with
  | ret a => exact Bool.noConfusion h
  | hang => exact Bool.noConfusion h
  | crash => rfl

theorem Outcome.eq_ret_of (o : Outcome Nat) (v : Nat) (h1 : o.isRet = true)
    (h2 : o.getD (v + 1) = v) : o = .ret v := by
  cases o with
  | ret a => simp only [Outcome.getD] at h2; rw [h2]
  | hang => exact Bool.noConfusion h1
  | crash => exact Bool.noConfusion h1

/-- What evaluation gives on the heap that cannot grow. -/
theorem full_facts :
    (mm_init 304 heap0).1 = 0
      ∧ (find_fit 400 (adjust ((1 * 200) % 2 ^ 64)) full1).isRet = true
      ∧ (find_fit 400 (adjust ((1 * 200) % 2 ^ 64)) full1).getD (0 + 1) = 0
      ∧ (mem_sbrk 304 (MAX (adjust ((1 * 200) % 2 ^ 64)) CHUNKSIZE) full1).1 = NEG1
      ∧ (extend_heap 304 (MAX (adjust ((1 * 200) % 2 ^ 64)) CHUNKSIZE / WSIZE) full1).1 = 0
      ∧ (malloc 400 304 ((1 * 200) % 2 ^ 64) full1).isRet = true
      ∧ ((malloc 400 304 ((1 * 200) % 2 ^ 64) full1).getD (1, full1)).1 = 0
      ∧ (calloc 400 304 1 200 full1).isCrash = true := by
  decide!

theorem full1_reach : Reach 304 full1 [] :=
  Reach.init heap0 (by norm_num) rfl full_facts.1

theorem tri5_reach : Reach 100000 tri5 [(tri3.1, 16), (tri2.1, 16)] := by
  have e1 : malloc 400 100000 8 heap1 = .ret (tri1.1, tri1.2) :=
    Outcome.ret_pair _ _ tri_facts.1
  have e2 : malloc 400 100000 16 tri1.2 = .ret (tri2.1, tri2.2) :=
    Outcome.ret_pair _ _ tri_facts.2.1
  have e3 : malloc 400 100000 16 tri2.2 = .ret (tri3.1, tri3.2) :=
    Outcome.ret_pair _ _ tri_facts.2.2.1
  have h1 := Reach.malloc 400 8 tri1.1 tri1.2 heap1_reach (by norm_num) e1
  have h2 := Reach.malloc 400 16 tri2.1 tri2.2 h1 (by norm_num) e2
  have h3 := Reach.malloc 400 16 tri3.1 tri3.2 h2 (by norm_num) e3
  have l3 : live_add (live_add (live_add [] tri1.1 8) tri2.1 16) tri3.1 16
      = [(tri3.1, 16), (tri2.1, 16), (tri1.1, 8)] := tri_facts.2.2.2.1
  rw [l3] at h3
  have h4 := Reach.write tri2.1 16 tri2.1 7 h3 (by simp) (le_refl _) (by omega)
  have h4' := Reach.write tri3.1 16 (tri3.1 + 12) 25 h4 (by simp) (by omega) (by omega)
  have h5 := Reach.free tri1.1 8 h4' (by simp)
  have l5 : live_del [(tri3.1, 16), (tri2.1, 16), (tri1.1, 8)] tri1.1
      = [(tri3.1, 16), (tri2.1, 16)] := tri_facts.2.2.2.2.1
  rw [l5] at h5
  exact h5

theorem move1_eq : realloc 400 100000 alloc1.1 32 alloc1.2 = .ret (move1.1, move1.2) :=
  Outcome.ret_pair _ _ alloc_facts.2.2.2.2.2.2.2.2.1

theorem move1_ne : move1.1 ≠ 0 := alloc_facts.2.2.2.2.2.2.2.2.2.1

/-- C1, at a concrete heap with two live allocations. -/
theorem live_no_overlap_witness :
    Reach 100000 alloc2.2 [(alloc2.1, 16), (alloc1.1, 16)]
      ∧ List.Pairwise (fun x y => x.1 + x.2 ≤ y.1 ∨ y.1 + y.2 ≤ x.1)
          [(alloc2.1, 16), (alloc1.1, 16)] :=
  ⟨alloc2_reach, (live_no_overlap alloc2_reach).1⟩

/-- C2, at the first `malloc(16)` on a fresh heap. -/
theorem malloc_aligned_witness : alloc1.1 ≠ 0 ∧ alloc1.1 % 8 = 0 :=
  ⟨alloc1_ne, malloc_aligned heap1_reach (by norm_num) alloc1_eq alloc1_ne⟩

theorem big1_eq : malloc 400 100000 (2 ^ 64 - 1) heap1 = .ret (big1.1, big1.2) :=
  Outcome.ret_pair _ _ grow_facts.2.2.1

theorem wrapB_eq : malloc 400 100000 16 big1.2 = .ret (wrapB.1, wrapB.2) :=
  Outcome.ret_pair _ _ wrap_facts.2.1

theorem wrapC_eq : malloc 400 100000 16 wrapB.2 = .ret (wrapC.1, wrapC.2) :=
  Outcome.ret_pair _ _ wrap_facts.2.2.2.1

theorem skew1_eq : malloc 400 100000 (2 ^ 64 - 15) heap1 = .ret (skew1.1, skew1.2) :=
  Outcome.ret_pair _ _ skew_facts.1

/-- C2 as stated fails after a request that wraps: on the fresh heap
`malloc(2 ^ 64 - 15)` returns `HEAP_BASE + 144` and leaves the block free in
its chain (the adjusted size is 0); the client stores the bytes 153 and `0xF8`
at offsets 0 and 5 of its allocation; then `malloc(200)` returns
`HEAP_BASE + 153`, which is not a multiple of 8. -/
theorem malloc_misaligned :
    Reach 100000 heap1 [] ∧ adjust (2 ^ 64 - 15) = 0
      ∧ malloc 400 100000 (2 ^ 64 - 15) heap1 = .ret (skew1.1, skew1.2)
      ∧ skew1.1 = HEAP_BASE + 144
      ∧ skew2 = poke (poke skew1.2 skew1.1 153) (skew1.1 + 5) 0xF8
      ∧ 0 < 200 ∧ malloc 400 100000 200 skew2 = .ret (skew3.1, skew3.2)
      ∧ skew3.1 = HEAP_BASE + 153 ∧ skew3.1 ≠ 0 ∧ skew3.1 % 8 = 1 :=
  ⟨heap1_reach, skew_facts.2.2.1, skew1_eq, skew_facts.2.1, rfl, by norm_num,
    Outcome.ret_pair _ _ skew_facts.2.2.2.1, skew_facts.2.2.2.2.1,
    by rw [skew_facts.2.2.2.2.1]; decide, by rw [skew_facts.2.2.2.2.1]; decide⟩

/-- C3 as stated fails, in two ways.  A resize that wraps: with live
allocations at `HEAP_BASE + 160` and `HEAP_BASE + 184` (the client stored 7 at
the start of the first and 25 at offset 12 of the second) and a free block of
16 bytes before them, `realloc(HEAP_BASE + 184, 2 ^ 64 - 1)` returns
`HEAP_BASE + 144` and copies over the first byte of the allocation at
`HEAP_BASE + 160`.  An earlier request that wraps: after `a = malloc(2 ^ 64 - 1)`,
`b = malloc(16)`, the store of 200 at `b + 4`, `free(a)` and `c = malloc(16)`,
the call `free(c)` clears the byte at `b + 4`. -/
theorem payload_clobbered :
    (Reach 100000 tri5 [(tri3.1, 16), (tri2.1, 16)]
        ∧ tri2.1 = HEAP_BASE + 160 ∧ tri3.1 = HEAP_BASE + 184
        ∧ realloc 400 100000 tri3.1 (2 ^ 64 - 1) tri5 = .ret (tri6.1, tri6.2)
        ∧ tri6.1 = HEAP_BASE + 144
        ∧ tri5.mem (tri2.1 + 0) = 7 ∧ tri6.2.mem (tri2.1 + 0) = 25)
      ∧ (malloc 400 100000 (2 ^ 64 - 1) heap1 = .ret (big1.1, big1.2)
        ∧ malloc 400 100000 16 big1.2 = .ret (wrapB.1, wrapB.2)
        ∧ clob1 = free 100000 big1.1 (poke wrapB.2 (wrapB.1 + 4) 200)
        ∧ malloc 400 100000 16 clob1 = .ret (clob2.1, clob2.2)
        ∧ big1.1 = HEAP_BASE + 144 ∧ wrapB.1 = HEAP_BASE + 152 ∧ clob2.1 = HEAP_BASE + 176
        ∧ clob2.2.mem (wrapB.1 + 4) = 200
        ∧ clob3 = free 100000 clob2.1 clob2.2 ∧ clob3.mem (wrapB.1 + 4) = 0) :=
  ⟨⟨tri5_reach, tri_facts.2.2.2.2.2.1, tri_facts.2.2.2.2.2.2.1,
      Outcome.ret_pair _ _ tri_facts.2.2.2.2.2.2.2.1, tri_facts.2.2.2.2.2.2.2.2.2.2,
      tri_facts.2.2.2.2.2.2.2.2.1, tri_facts.2.2.2.2.2.2.2.2.2.1⟩,
    ⟨big1_eq, wrapB_eq, rfl, Outcome.ret_pair _ _ clob_facts.1, wrap_facts.1,
      wrap_facts.2.2.1, clob_facts.2.1, clob_facts.2.2.1, rfl, clob_facts.2.2.2.1⟩⟩

/-- C3, amended, at a concrete heap: `free` of the second allocation leaves
the first byte of the first one unchanged. -/
theorem live_payload_framed_witness :
    (alloc1.1, 16) ∈ [(alloc2.1, 16), (alloc1.1, 16)]
      ∧ (free 100000 alloc2.1 alloc2.2).mem (alloc1.1 + 0) = alloc2.2.mem (alloc1.1 + 0) :=
  ⟨by simp, (live_payload_framed alloc2_reach
    (show (alloc1.1, 16) ∈ [(alloc2.1, 16), (alloc1.1, 16)] by simp)).2.2.1 alloc2.1 16 (by simp)
    alloc_facts.2.2.2.2.2.2.2.1 0 (by norm_num)⟩

/-- C4 as stated fails: for `n = 2 ^ 64 - 1` the adjusted size is 8, below the
minimum block size and below `n + 8`. -/
theorem adjust_overflow :
    0 < 2 ^ 64 - 1 ∧ 2 ^ 64 - 1 < 2 ^ 64 ∧ adjust (2 ^ 64 - 1) = 8
      ∧ adjust_spec (2 ^ 64 - 1) = 2 ^ 64 + 8 ∧ adjust (2 ^ 64 - 1) ≠ adjust_spec (2 ^ 64 - 1) := by
  decide

/-- C4, amended, at `n = 100`. -/
theorem adjust_eq_spec_witness :
    adjust 100 = adjust_spec 100 ∧ adjust 100 % 8 = 0 ∧ 16 ≤ adjust 100
      ∧ 100 + 8 ≤ adjust 100 :=
  adjust_eq_spec 100 (by decide) (by decide)

/-- C5: on a reachable heap that cannot grow, `calloc(1, 200)` finds no fit,
the growth primitive refuses the request, `extend_heap` and `malloc` return
null, and `calloc` stores through the null pointer instead of returning
null. -/
theorem calloc_null_crashes :
    Reach 304 full1 [] ∧ find_fit 400 (adjust ((1 * 200) % 2 ^ 64)) full1 = .ret 0
      ∧ (mem_sbrk 304 (MAX (adjust ((1 * 200) % 2 ^ 64)) CHUNKSIZE) full1).1 = NEG1
      ∧ (extend_heap 304 (MAX (adjust ((1 * 200) % 2 ^ 64)) CHUNKSIZE / WSIZE) full1).1 = 0
      ∧ (malloc 400 304 ((1 * 200) % 2 ^ 64) full1).isRet = true
      ∧ ((malloc 400 304 ((1 * 200) % 2 ^ 64) full1).getD (1, full1)).1 = 0
      ∧ calloc 400 304 1 200 full1 = .crash :=
  ⟨full1_reach, Outcome.eq_ret_of _ _ full_facts.2.1 full_facts.2.2.1, full_facts.2.2.2.1,
    full_facts.2.2.2.2.1, full_facts.2.2.2.2.2.1, full_facts.2.2.2.2.2.2.1,
    Outcome.eq_crash _ full_facts.2.2.2.2.2.2.2⟩

/-- C6 as stated fails after a request that wraps: on the fresh heap
`malloc(2 ^ 64 - 15)` returns `HEAP_BASE + 144` and leaves the block in its
chain; the client stores the byte 144 at offset 0 of its allocation, which
makes the next-link of the block point to the block itself; then `malloc(200)`
never returns, with whatever fuel. -/
theorem malloc_spins :
    Reach 100000 heap1 []
      ∧ malloc 400 100000 (2 ^ 64 - 15) heap1 = .ret (skew1.1, skew1.2)
      ∧ skew1.1 = HEAP_BASE + 144 ∧ skew4 = poke skew1.2 skew1.1 144
      ∧ word_to_ptr (NEXT_LINK skew4.mem (HEAP_BASE + 144)) = HEAP_BASE + 144
      ∧ ∀ fuel, malloc fuel 100000 200 skew4 = .hang :=
  ⟨heap1_reach, skew1_eq, skew_facts.2.1, rfl, skew_facts.2.2.2.2.2.2.2.2,
    malloc_spin 100000 200 skew4 (HEAP_BASE + 144) skew_facts.2.2.2.2.2.1 (by norm_num)
      (by decide) skew_facts.2.2.2.2.2.2.1 skew_facts.2.2.2.2.2.2.2.1
      skew_facts.2.2.2.2.2.2.2.2⟩

/-- C6, at `malloc(16)` on a fresh heap. -/
theorem malloc_null_iff_witness :
    heap1.brk < 400 ∧ (∃ p st', malloc 400 100000 16 heap1 = .ret (p, st')
      ∧ (p = 0 ↔ 16 = 0 ∨ (find_fit 400 (adjust 16) heap1 = .ret 0
          ∧ (extend_heap 100000 (MAX (adjust 16) CHUNKSIZE / WSIZE) heap1).1 = 0)))
      ∧ ((extend_heap 100000 (MAX (adjust 16) CHUNKSIZE / WSIZE) heap1).1 = 0
          ↔ (mem_sbrk 100000 (MAX (adjust 16) CHUNKSIZE) heap1).1 = NEG1) :=
  ⟨alloc_facts.2.1, malloc_null_iff heap1_reach 400 16 alloc_facts.2.1⟩

/-- C7 as stated fails after a request that wraps: after `a = malloc(2 ^ 64 - 1)`,
four `malloc(16)` (at `HEAP_BASE + 152`, `+ 176`, `+ 200`, `+ 224`) and a
`malloc(48)`, the blocks at `+ 152` and `+ 200` are released and the client
stores 0 at `HEAP_BASE + 200`, an address among the bytes requested for `a`,
which cuts the block at `+ 152` off its chain.  A `malloc(16)` takes the block
at `+ 200`; the next `malloc(16)` calls the growth primitive although the free
block at `+ 152`, which the heap walk visits, has the adjusted size. -/
theorem grow_with_free_block :
    malloc 400 100000 (2 ^ 64 - 1) heap1 = .ret (big1.1, big1.2)
      ∧ malloc 400 100000 16 big1.2 = .ret (wrapB.1, wrapB.2)
      ∧ malloc 400 100000 16 wrapB.2 = .ret (wrapC.1, wrapC.2)
      ∧ malloc 400 100000 16 wrapC.2 = .ret (hide1.1, hide1.2)
      ∧ malloc 400 100000 16 hide1.2 = .ret (hide2.1, hide2.2)
      ∧ malloc 400 100000 48 hide2.2 = .ret (hide3.1, hide3.2)
      ∧ hide4 = poke (free 100000 hide1.1 (free 100000 wrapB.1 hide3.2)) hide1.1 0
      ∧ big1.1 = HEAP_BASE + 144 ∧ wrapB.1 = HEAP_BASE + 152 ∧ hide1.1 = HEAP_BASE + 200
      ∧ malloc 400 100000 16 hide4 = .ret (hide5.1, hide5.2) ∧ hide5.1 = HEAP_BASE + 200
      ∧ 0 < 16 ∧ malloc 400 100000 16 hide5.2 = .ret (hide6.1, hide6.2)
      ∧ hide6.2.sbrk_calls ≠ hide5.2.sbrk_calls
      ∧ HEAP_BASE + 152 ∈ heap_blocks hide5.2.mem 400 hide5.2.heap_listp
      ∧ GET_ALLOC hide5.2.mem (HDRP (HEAP_BASE + 152)) = 0
      ∧ ¬ GET_SIZE hide5.2.mem (HDRP (HEAP_BASE + 152)) < adjust 16 :=
  ⟨big1_eq, wrapB_eq, wrapC_eq, Outcome.ret_pair _ _ hide_facts.1,
    Outcome.ret_pair _ _ hide_facts.2.2.1, Outcome.ret_pair _ _ hide_facts.2.2.2.1, rfl,
    wrap_facts.1, wrap_facts.2.2.1, hide_facts.2.1,
    Outcome.ret_pair _ _ hide_facts.2.2.2.2.1, hide_facts.2.2.2.2.2.1, by norm_num,
    Outcome.ret_pair _ _ hide_facts.2.2.2.2.2.2.1,
    by rw [hide_facts.2.2.2.2.2.2.2.2.1]; omega,
    hide_facts.2.2.2.2.2.2.2.2.2.1, hide_facts.2.2.2.2.2.2.2.2.2.2.1,
    by rw [hide_facts.2.2.2.2.2.2.2.2.2.2.2.1, hide_facts.2.2.2.2.2.2.2.2.2.2.2.2]; omega⟩

/-- C7, at a fresh heap, where `malloc(200)` has to grow the heap. -/
theorem grow_only_if_needed_witness :
    grow200.2.sbrk_calls ≠ heap1.sbrk_calls
      ∧ ∀ fuel', ∀ q ∈ heap_blocks heap1.mem fuel' heap1.heap_listp,
          GET_ALLOC heap1.mem (HDRP q) = 0 → GET_SIZE heap1.mem (HDRP q) < adjust 200 :=
  ⟨grow_facts.2.1, (grow_only_if_needed heap1_reach).2 400 200 grow200.1 grow200.2
    (by norm_num) (Outcome.ret_pair _ _ grow_facts.1) grow_facts.2.1⟩

/-- C9 as stated fails, in two ways.  A new size that wraps:
`realloc(p, 2 ^ 64 - 1)` of a live block returns a non-null pointer whose
block has 8 bytes in all.  An earlier request that wraps: after
`a = malloc(2 ^ 64 - 1)`, `b = malloc(16)`, `c = malloc(16)`, the stores of 55
at `c` and of 200 at `b + 4`, and `free(a)`, the call `realloc(c, 32)` returns
`HEAP_BASE + 200`, whose first byte is 0 and not 55. -/
theorem realloc_overflow_short :
    (Reach 100000 alloc1.2 [(alloc1.1, 16)] ∧ 0 < 2 ^ 64 - 1
        ∧ realloc 400 100000 alloc1.1 (2 ^ 64 - 1) alloc1.2 = .ret (move2.1, move2.2)
        ∧ move2.1 ≠ 0 ∧ GET_SIZE move2.2.mem (HDRP move2.1) = 8)
      ∧ (malloc 400 100000 (2 ^ 64 - 1) heap1 = .ret (big1.1, big1.2)
        ∧ malloc 400 100000 16 big1.2 = .ret (wrapB.1, wrapB.2)
        ∧ malloc 400 100000 16 wrapB.2 = .ret (wrapC.1, wrapC.2)
        ∧ lose1 = free 100000 big1.1 (poke (poke wrapC.2 wrapC.1 55) (wrapB.1 + 4) 200)
        ∧ 0 < 32 ∧ realloc 400 100000 wrapC.1 32 lose1 = .ret (lose2.1, lose2.2)
        ∧ lose2.1 = HEAP_BASE + 200 ∧ lose2.1 ≠ 0
        ∧ 0 < GET_SIZE lose1.mem (HDRP wrapC.1) - 8
        ∧ lose1.mem (wrapC.1 + 0) = 55 ∧ lose2.2.mem (lose2.1 + 0) = 0) :=
  ⟨⟨alloc1_reach, by norm_num, Outcome.ret_pair _ _ alloc_facts.2.2.2.2.2.2.2.2.2.2.1,
      alloc_facts.2.2.2.2.2.2.2.2.2.2.2.1, alloc_facts.2.2.2.2.2.2.2.2.2.2.2.2⟩,
    ⟨big1_eq, wrapB_eq, wrapC_eq, rfl, by norm_num, Outcome.ret_pair _ _ clob_facts.2.2.2.2.1,
      clob_facts.2.2.2.2.2.1, by rw [clob_facts.2.2.2.2.2.1]; decide,
      by rw [clob_facts.2.2.2.2.2.2.1]; norm_num,
      clob_facts.2.2.2.2.2.2.2.1, clob_facts.2.2.2.2.2.2.2.2⟩⟩

/-- C9, amended, at `realloc(p, 32)` of the first allocation. -/
theorem realloc_preserves_witness :
    move1.1 ≠ 0
      ∧ (∀ i, i < GET_SIZE alloc1.2.mem (HDRP alloc1.1) - 8 → i < 32 →
          move1.2.mem (move1.1 + i) = alloc1.2.mem (alloc1.1 + i))
      ∧ Reach 100000 move1.2 ((move1.1, 32) :: live_del [(alloc1.1, 16)] alloc1.1) :=
  ⟨move1_ne,
    (realloc_preserves alloc1_reach (List.mem_singleton_self _) (by norm_num) (by norm_num)
      move1_eq move1_ne).1,
    (realloc_preserves alloc1_reach (List.mem_singleton_self _) (by norm_num) (by norm_num)
      move1_eq move1_ne).2.1⟩

/-- C10, at a fresh heap. -/
theorem realloc_degenerate_witness :
    (∀ p, realloc 400 100000 p 0 heap1 = .ret (0, free 100000 p heap1))
      ∧ (∀ n, realloc 400 100000 0 n heap1 = malloc 400 100000 n heap1) :=
  realloc_degenerate heap1_reach 400

theorem shift_eq (n : Nat) (h : n ≤ 14) : (1 <<< (n + 4)) % 2 ^ 32 = 2 ^ (n + 4) := by
  rw [Nat.one_shiftLeft]
  apply Nat.mod_eq_of_lt
  exact Nat.pow_lt_pow_right (by norm_num) (by omega)

/-- The loop of `getNumber` stops at the first index whose capacity suffices. -/
theorem getNumber_loop_spec (size : Nat) :
    ∀ k n, n + k ≤ 15 →
      (getNumber_loop size k n < n + k → size ≤ 2 ^ (getNumber_loop size k n + 4))
      ∧ (∀ i, n ≤ i → i < getNumber_loop size k n → 2 ^ (i + 4) < size) := by
  intro k
  induction k with
  | zero =>
    intro n _
    simp only [getNumber_loop]
    exact ⟨fun h => absurd h (by omega), fun i h1 h2 => absurd h2 (by omega)⟩
  | succ k ih =>
    intro n hn
    unfold getNumber_loop
    rw [shift_eq n (by omega)]
    by_cases hc : 2 ^ (n + 4) ≥ size
    · rw [if_pos hc]
      exact ⟨fun _ => hc, fun i h1 h2 => absurd h2 (by omega)⟩
    · rw [if_neg hc]
      obtain ⟨h1, h2⟩ := ih (n + 1) (by omega)
      refine ⟨fun h => h1 (by omega), ?_⟩
      intro i hi1 hi2
      by_cases hin : i = n
      · subst hin; omega
      · exact h2 i (by omega) hi2

/-- C16: `getNumber(size)` lies in `0..15`; for `size ≤ 2 ^ 18` it is the
smallest index `i` in `0..14` with `2 ^ (i + 4) ≥ size`; for `size > 2 ^ 18` it
is 15; and it is monotone in `size`. -/
theorem getNumber_spec (size : Nat) :
    getNumber size < 16
      ∧ (size ≤ 2 ^ 18 → getNumber size ≤ 14 ∧ size ≤ 2 ^ (getNumber size + 4)
          ∧ ∀ i, i < getNumber size → 2 ^ (i + 4) < size)
      ∧ (2 ^ 18 < size → getNumber size = 15)
      ∧ (∀ size', size ≤ size' → getNumber size ≤ getNumber size') := by
  have hs := getNumber_loop_spec size 15 0 (by norm_num)
  have hle := getNumber_loop_le size 15 0
  have e : getNumber size = getNumber_loop size 15 0 := rfl
  rw [e]
  refine ⟨by omega, ?_, ?_, fun s' h => getNumber_mono size s' h⟩
  · intro h18
    have h14 : getNumber_loop size 15 0 ≤ 14 := by
      by_contra hc
      have := hs.2 14 (by omega) (by omega)
      norm_num at this
      omega
    exact ⟨h14, hs.1 (by omega), fun i hi => hs.2 i (by omega) hi⟩
  · intro h18
    by_contra hc
    have h1 := hs.1 (by omega)
    have h2 : 2 ^ (getNumber_loop size 15 0 + 4) ≤ 2 ^ 18 :=
      Nat.pow_le_pow_right (by norm_num) (by omega)
    omega

/-- C17 as stated fails at the first address of the range: the heap base is
compressed to 0, which decompresses to null. -/
theorem compress_base_not_inverted :
    0x800000000 ≤ HEAP_BASE ∧ HEAP_BASE < 0x800000000 + 2 ^ 32
      ∧ ptr_to_word HEAP_BASE = 0 ∧ word_to_ptr (ptr_to_word HEAP_BASE) = 0
      ∧ word_to_ptr (ptr_to_word HEAP_BASE) ≠ HEAP_BASE := by
  decide

/-- C17, amended: `word_to_ptr (ptr_to_word a) = a` for every address `a` with
`0x800000000 < a < 0x800000000 + 2 ^ 32`; `ptr_to_word (word_to_ptr w) = w`
for every 32-bit word `w`; null maps to 0 and 0 maps to null. -/
theorem compress_roundtrip :
    (∀ a, 0x800000000 < a → a < 0x800000000 + 2 ^ 32 → word_to_ptr (ptr_to_word a) = a)
      ∧ (∀ w, w < 2 ^ 32 → ptr_to_word (word_to_ptr w) = w)
      ∧ ptr_to_word 0 = 0 ∧ word_to_ptr 0 = 0 := by
  refine ⟨?_, ?_, rfl, rfl⟩
  · intro a h1 h2
    unfold word_to_ptr ptr_to_word HEAP_BASE
    have ha : a ≠ 0 := by omega
    rw [if_neg ha]
    have e : (a + 2 ^ 64 - 34359738368) % 2 ^ 64 % 2 ^ 32 = a - 34359738368 := by omega
    rw [e, if_neg (by omega)]
    omega
  · intro w hw
    unfold word_to_ptr ptr_to_word HEAP_BASE
    by_cases h0 : w = 0
    · subst h0; rfl
    · rw [if_neg h0]
      have e : (w % 2 ^ 32 + 34359738368) % 2 ^ 64 = w + 34359738368 := by omega
      rw [e, if_neg (by omega)]
      omega

/-- C17, amended, at the first block pointer of the heap and at the word 144. -/
theorem compress_roundtrip_witness :
    word_to_ptr (ptr_to_word (HEAP_BASE + 144)) = HEAP_BASE + 144
      ∧ ptr_to_word (word_to_ptr 144) = 144 :=
  ⟨compress_roundtrip.1 (HEAP_BASE + 144) (by decide) (by decide),
    compress_roundtrip.2.1 144 (by decide)⟩

theorem chain_nodes_ne (m : Mem) : ∀ fuel addr, ∀ p ∈ chain_nodes m fuel addr, p ≠ 0 := by
  intro fuel
  induction fuel with
  | zero => intro addr p hp; simp [chain_nodes] at hp
  | succ f ih =>
    intro addr p hp
    unfold chain_nodes at hp
    by_cases h0 : addr = 0
    · rw [if_pos h0] at hp; simp at hp
    · rw [if_neg h0] at hp
      rcases List.mem_cons.1 hp with hp | hp
      · rw [hp]; exact h0
      · exact ih _ p hp

/-- On a chain that ends before the fuel does, the inner loop of `find_fit`
returns the first fit of the chain. -/
theorem find_in_chain_nodes (m : Mem) (asize : Nat) :
    ∀ fuel addr, (chain_nodes m fuel addr).length < fuel →
      find_in_chain m asize fuel addr = .ret (firstFit m asize (chain_nodes m fuel addr)) := by
  intro fuel
  induction fuel with
  | zero => intro addr h; simp at h
  | succ f ih =>
    intro addr h
    unfold chain_nodes at h ⊢
    unfold find_in_chain
    by_cases h0 : addr = 0
    · rw [if_pos h0, if_pos h0]; rfl
    · rw [if_neg h0] at h ⊢
      rw [if_neg h0]
      unfold firstFit
      by_cases hc : GET_SIZE m (HDRP addr) ≥ asize
      · rw [if_pos hc, if_pos hc]
      · rw [if_neg hc, if_neg hc]
        exact ih _ (by simpa using h)

theorem find_fit_loop_nodes (fuel asize : Nat) (st : State)
    (hf : ∀ i, i < 16 → (bucket_chain st fuel i).length < fuel) :
    ∀ k number, number + k ≤ 16 →
      find_fit_loop fuel asize st k number
        = .ret (firstFitFrom st.mem asize (bucket_chain st fuel) k number) := by
  intro k
  induction k with
  | zero => intro number _; rfl
  | succ k ih =>
    intro number hk
    unfold find_fit_loop firstFitFrom
    have h := find_in_chain_nodes st.mem asize fuel _ (hf number (by omega))
    rw [← bucket_chain] at h
    rw [h]
    by_cases hc : firstFit st.mem asize (bucket_chain st fuel number) = 0
    · rw [hc, if_neg (by simp)]
      exact ih (number + 1) (by omega)
    · rw [if_pos hc]
      cases hv : firstFit st.mem asize (bucket_chain st fuel number) with
      | zero => exact absurd hv hc
      | succ v => rfl

/-- The first fit of a list splits it: everything before it is too small. -/
theorem firstFit_split (m : Mem) (asize : Nat) (l : List Nat) (h : firstFit m asize l ≠ 0) :
    ∃ l1 l2, l = l1 ++ firstFit m asize l :: l2
      ∧ GET_SIZE m (HDRP (firstFit m asize l)) ≥ asize
      ∧ ∀ p ∈ l1, GET_SIZE m (HDRP p) < asize := by
  induction l with
  | nil => exact absurd rfl h
  | cons p t ih =>
    unfold firstFit at h ⊢
    by_cases hc : GET_SIZE m (HDRP p) ≥ asize
    · rw [if_pos hc]
      exact ⟨[], t, rfl, hc, fun q hq => by simp at hq⟩
    · rw [if_neg hc] at h ⊢
      obtain ⟨l1, l2, e, h1, h2⟩ := ih h
      refine ⟨p :: l1, l2, by rw [List.cons_append, ← e], h1, ?_⟩
      intro q hq
      rcases List.mem_cons.1 hq with hq | hq
      · rw [hq]; omega
      · exact h2 q hq

/-- The first fit over buckets lies in the first bucket that has a fit. -/
theorem firstFitFrom_split (m : Mem) (asize : Nat) (ch : Nat → List Nat) :
    ∀ k number, firstFitFrom m asize ch k number ≠ 0 →
      ∃ i, number ≤ i ∧ i < number + k
        ∧ firstFitFrom m asize ch k number = firstFit m asize (ch i)
        ∧ ∀ j, number ≤ j → j < i → firstFit m asize (ch j) = 0 := by
  intro k
  induction k with
  | zero => intro number h; exact absurd rfl h
  | succ k ih =>
    intro number h
    unfold firstFitFrom at h ⊢
    by_cases hc : firstFit m asize (ch number) ≠ 0
    · rw [if_pos hc]
      exact ⟨number, le_refl _, by omega, rfl, fun j h1 h2 => absurd h2 (by omega)⟩
    · rw [if_neg hc] at h ⊢
      obtain ⟨i, h1, h2, h3, h4⟩ := ih (number + 1) h
      refine ⟨i, by omega, by omega, h3, ?_⟩
      intro j hj1 hj2
      by_cases hjn : j = number
      · rw [hjn]; simpa using hc
      · exact h4 j (by omega) hj2

/-- C14: on every store whose 16 chains end (within the fuel), `find_fit(asize)`
returns; a block it returns has a header size of at least `asize` and is the
first such block of the scan (every block before it in its chain, and every
block of the chains of the buckets from `getNumber(asize)` up to its own, is
smaller than `asize`); it returns null exactly when no block of the chains
scanned has a header size of at least `asize`. -/
theorem find_fit_first_fit (st : State) (fuel asize : Nat)
    (hf : ∀ i, i < 16 → (bucket_chain st fuel i).length < fuel) :
    ∃ r, find_fit fuel asize st = .ret r
      ∧ (r ≠ 0 → GET_SIZE st.mem (HDRP r) ≥ asize
          ∧ ∃ i l1 l2, getNumber asize ≤ i ∧ i < 16 ∧ bucket_chain st fuel i = l1 ++ r :: l2
            ∧ (∀ p ∈ l1, GET_SIZE st.mem (HDRP p) < asize)
            ∧ ∀ j, getNumber asize ≤ j → j < i →
                ∀ p ∈ bucket_chain st fuel j, GET_SIZE st.mem (HDRP p) < asize)
      ∧ (r = 0 ↔ ∀ j, getNumber asize ≤ j → j < 16 →
            ∀ p ∈ bucket_chain st fuel j, GET_SIZE st.mem (HDRP p) < asize) := by
  have hlt := getNumber_lt asize
  have hnz : ∀ i, i < 16 → ∀ p ∈ bucket_chain st fuel i, p ≠ 0 :=
    fun i _ p hp => chain_nodes_ne st.mem fuel _ p hp
  refine ⟨_, find_fit_loop_nodes fuel asize st hf (LIST_NUM - getNumber asize) (getNumber asize)
    (by simp only [LIST_NUM]; omega), ?_, ?_⟩
  · intro hr
    obtain ⟨i, h1, h2, h3, h4⟩ := firstFitFrom_split st.mem asize _ _ _ hr
    rw [h3] at hr ⊢
    obtain ⟨l1, l2, e, k1, k2⟩ := firstFit_split st.mem asize _ hr
    simp only [LIST_NUM] at h2
    refine ⟨k1, i, l1, l2, h1, by omega, e, k2, ?_⟩
    intro j hj1 hj2 p hp
    exact firstFit_none st.mem asize _ (h4 j hj1 hj2) (hnz j (by omega)) p hp
  · constructor
    · intro h0 j hj1 hj2 p hp
      exact firstFitFrom_none st.mem asize _ 16 hnz _ _ (by simp only [LIST_NUM]; omega) h0 j
        hj1 (by simp only [LIST_NUM]; omega) p hp
    · intro hall
      by_contra hr
      obtain ⟨i, h1, h2, h3, h4⟩ := firstFitFrom_mem st.mem asize _ _ _ hr
      simp only [LIST_NUM] at h2
      have := hall i h1 (by omega) _ h3
      omega

/-- A linked segment is what the walk along the next links finds. -/
theorem chain_nodes_seg (m : Mem) :
    ∀ (l : List Nat) (pw fuel : Nat), Seg m pw l 0 →
      (∀ p ∈ l, p ≠ 0 ∧ word_to_ptr (ptr_to_word p) = p) → l.length < fuel →
      chain_nodes m fuel (headP l) = l := by
  intro l
  induction l with
  | nil =>
    intro pw fuel _ _ hf
    cases fuel with
    | zero => simp at hf
    | succ f => simp [chain_nodes, headP]
  | cons p t ih =>
    intro pw fuel hs hn hf
    cases fuel with
    | zero => simp at hf
    | succ f =>
      obtain ⟨_, h2, h3⟩ := hs
      have hp := hn p (List.mem_cons_self _ _)
      have hnext : word_to_ptr (NEXT_LINK m p) = headP t := by
        unfold NEXT_LINK
        rw [h2]
        cases t with
        | nil => rfl
        | cons q t' => exact (hn q (by simp)).2
      unfold chain_nodes
      rw [show headP (p :: t) = p from rfl, if_neg hp.1, hnext,
        ih (ptr_to_word p) f h3 (fun q hq => hn q (List.mem_cons_of_mem _ hq))
          (by simpa using hf)]

/-- On a well-formed heap the walk along the next links of bucket `i` finds
the chain `ch i`. -/
theorem HeapOK.chain_eq {st : State} {bs : List (Nat × Bool)} {ch : Nat → List Nat}
    {X : List Nat} (H : HeapOK st bs ch X) (fuel : Nat) (hf : st.brk < fuel) {i : Nat}
    (hi : i < 16) : bucket_chain st fuel i = ch i := by
  unfold bucket_chain
  rw [H.la, H.heads i hi]
  apply chain_nodes_seg st.mem (ch i) 0 fuel (H.links i hi)
  · intro p hp
    have h := H.node hi hp
    have hB := BASE_pos
    refine ⟨by omega, ?_⟩
    rw [h.2.2.2.2.1]; exact h.2.2.2.2.2.1
  · have := H.chain_len hi
    omega

/-- Membership in the heap walk, for a walk with enough fuel. -/
theorem HeapOK.walk_iff {st : State} {bs : List (Nat × Bool)} {ch : Nat → List Nat}
    {X : List Nat} (H : HeapOK st bs ch X) (fuel : Nat) (hf : st.brk ≤ fuel) (q : Nat) :
    q ∈ heap_blocks st.mem fuel st.heap_listp ↔
      q = st.heap_listp ∨ ∃ s a, BlockAt FIRST bs q s a := by
  constructor
  · exact H.walk_sound fuel q
  · rintro (h | ⟨s, a, hb⟩)
    · have hbrk := H.brk
      obtain ⟨f, rfl⟩ : ∃ f, fuel = f + 1 := ⟨fuel - 1, by omega⟩
      rw [H.walk_step, h]
      exact List.mem_cons_self _ _
    · exact H.walk_complete fuel hf hb

/-- The tags of the prologue. -/
theorem HeapOK.prologue {st : State} {bs : List (Nat × Bool)} {ch : Nat → List Nat}
    {X : List Nat} (H : HeapOK st bs ch X) :
    GET_SIZE st.mem (HDRP st.heap_listp) = 8 ∧ GET_ALLOC st.mem (HDRP st.heap_listp) = 1
      ∧ NEXT_BLKP st.mem st.heap_listp = FIRST ∧ FTRP st.mem st.heap_listp = st.heap_listp
      ∧ GET st.mem (HDRP st.heap_listp) = 9 ∧ GET st.mem st.heap_listp = 9 := by
  have e : HDRP st.heap_listp = HEAP_BASE + 132 := by rw [H.hl]; rfl
  have h0 : GET_SIZE st.mem (HDRP st.heap_listp) = 8 := by
    rw [e]
    exact GET_SIZE_tag st.mem _ 8 true (by simpa [tagv] using H.pro1) (by norm_num)
  have h1 : GET_ALLOC st.mem (HDRP st.heap_listp) = 1 := by
    rw [e]
    exact GET_ALLOC_tag st.mem _ 8 true (by simpa [tagv] using H.pro1) (by norm_num)
  refine ⟨h0, h1, ?_, ?_, ?_, ?_⟩
  · unfold NEXT_BLKP
    unfold HDRP at h0
    rw [h0, H.hl, FIRST_eq]
  · unfold FTRP
    rw [h0]
    simp [DSIZE]
  · rw [e]; exact H.pro1
  · rw [H.hl]; exact H.pro2

/-- The tags of the epilogue. -/
theorem HeapOK.epilogue {st : State} {bs : List (Nat × Bool)} {ch : Nat → List Nat}
    {X : List Nat} (H : HeapOK st bs ch X) :
    GET_SIZE st.mem (HDRP (HEAP_BASE + st.brk)) = 0
      ∧ GET_ALLOC st.mem (HDRP (HEAP_BASE + st.brk)) = 1 := by
  have hF := FIRST_eq
  have e : HDRP (HEAP_BASE + st.brk) = FIRST + total bs - 4 := by
    rw [H.brk]
    unfold HDRP WSIZE
    omega
  rw [e]
  exact ⟨GET_SIZE_tag st.mem _ 0 true (by simpa [tagv] using H.epi) (by norm_num),
    GET_ALLOC_tag st.mem _ 0 true (by simpa [tagv] using H.epi) (by norm_num)⟩

/-- The walk over a tagged block sequence: the sizes it meets, and where it
stops. -/
theorem walk_sizes (m : Mem) (bs : List (Nat × Bool)) :
    ∀ (start fuel : Nat), SizesOK bs → TagsOK m start bs →
      GET m (start + total bs - 4) = 1 → bs.length < fuel →
      (heap_blocks m fuel start).map (fun q => GET_SIZE m (HDRP q)) = bs.map Prod.fst
        ∧ heap_end m fuel start = .ret (start + total bs) := by
  induction bs with
  | nil =>
    intro start fuel _ _ hepi hf
    obtain ⟨f, rfl⟩ : ∃ f, fuel = f + 1 := ⟨fuel - 1, by simp at hf; omega⟩
    have h0 : GET_SIZE m (HDRP start) = 0 :=
      GET_SIZE_tag m _ 0 true (by simpa [HDRP, WSIZE, tagv] using hepi) (by norm_num)
    simp [heap_blocks, heap_end, h0]
  | cons b t ih =>
    intro start fuel hsz htags hepi hf
    obtain ⟨f, rfl⟩ : ∃ f, fuel = f + 1 := ⟨fuel - 1, by simp at hf; omega⟩
    have hb := hsz b (List.mem_cons_self _ _)
    have ht := htags start b.1 b.2 (Or.inl ⟨rfl, rfl, rfl⟩)
    have h0 : GET_SIZE m (HDRP start) = b.1 := GET_SIZE_tag m _ b.1 b.2 ht.1 hb.2
    have hn : NEXT_BLKP m start = start + b.1 := by
      unfold NEXT_BLKP
      unfold HDRP at h0
      rw [h0]
    obtain ⟨i1, i2⟩ := ih (start + b.1) f
      (fun x hx => hsz x (List.mem_cons_of_mem _ hx))
      (fun p s a h => htags p s a (Or.inr h))
      (by rw [← hepi, total_cons]; congr 1; omega) (by simpa using hf)
    unfold heap_blocks heap_end
    rw [if_pos (by omega), if_pos (by omega), hn]
    refine ⟨?_, ?_⟩
    · simp only [List.map_cons, h0, i1]
    · rw [i2, total_cons, Nat.add_assoc]

theorem sum_sizes (bs : List (Nat × Bool)) : (bs.map Prod.fst).sum = total bs := by
  induction bs with
  | nil => rfl
  | cons b t ih => simp [ih]

/-- Two free blocks of a sequence without adjacent free blocks do not touch. -/
theorem NoAdj_apart (bs : List (Nat × Bool)) (hna : NoAdj bs) (hpos : ∀ b ∈ bs, 0 < b.1)
    (start : Nat) {q1 s1 q2 s2 : Nat}
    (h1 : BlockAt start bs q1 s1 false) (h2 : BlockAt start bs q2 s2 false) :
    q1 + s1 ≠ q2 := by
  intro e
  have p1 : 0 < s1 := hpos _ (BlockAt_mem _ _ _ _ _ h1)
  have p2 : 0 < s2 := hpos _ (BlockAt_mem _ _ _ _ _ h2)
  obtain ⟨pre, post, hbs, hq1⟩ := (BlockAt_split _ _ _ _ _).1 h1
  subst hbs
  obtain ⟨_, _, _, hh⟩ := (NoAdj_mid pre post s1).1 hna
  rw [BlockAt_append] at h2
  rcases h2 with h2 | h2
  · have := BlockAt_range _ _ _ _ _ h2
    omega
  · simp only [BlockAt] at h2
    rcases h2 with ⟨e2, _⟩ | h2
    · omega
    · cases post with
      | nil => exact h2.elim
      | cons b t =>
        simp only [BlockAt] at h2
        have hb := hpos b (by simp)
        rcases h2 with ⟨e3, _, e4⟩ | h2
        · have hh' : b.2 = true := hh
          rw [hh'] at e4
          exact Bool.noConfusion e4
        · have := BlockAt_range _ _ _ _ _ h2
          omega

/-- C11, amended: in every state reachable by requests of at most `2 ^ 64 - 16` bytes each
no two physically adjacent blocks of the
heap walk (prologue and epilogue included) both have the allocated bit
clear. -/
theorem no_adjacent_free {lim : Nat} {st : State} {live : List (Nat × Nat)}
    (hr : Reach lim st live) :
    ∀ fuel, ∀ q ∈ heap_blocks st.mem fuel st.heap_listp,
      ¬ (GET_ALLOC st.mem (HDRP q) = 0
          ∧ GET_ALLOC st.mem (HDRP (NEXT_BLKP st.mem q)) = 0) := by
  obtain ⟨bs, ch, G⟩ := hr.inv
  have H := G.heap
  intro fuel q hq ⟨h1, h2⟩
  rcases H.walk_sound fuel q hq with e | ⟨s, a, hb⟩
  · rw [e, H.prologue.2.1] at h1
    exact absurd h1 (by norm_num)
  · rw [H.read_alloc hb] at h1
    cases a with
    | true => simp at h1
    | false =>
      have hn : NEXT_BLKP st.mem q = q + s := by
        have := H.read_size hb
        unfold NEXT_BLKP
        unfold HDRP at this
        rw [this]
      rw [hn] at h2
      obtain ⟨pre, post, hbs, hqe⟩ := (BlockAt_split _ _ _ _ _).1 hb
      subst hbs
      obtain ⟨_, _, _, hh⟩ := (NoAdj_mid pre post s).1 G.noadj
      cases post with
      | nil =>
        have hbrk := H.brk
        have hF := FIRST_eq
        have e : q + s = HEAP_BASE + st.brk := by
          rw [hbrk, hqe]
          simp only [total_append, total_cons, total_nil]
          omega
        rw [e, H.epilogue.2] at h2
        exact absurd h2 (by norm_num)
      | cons b t =>
        have hb2 : b.2 = true := hh
        have hnext : BlockAt FIRST (pre ++ (s, false) :: b :: t) (q + s) b.1 true := by
          rw [BlockAt_append]
          exact Or.inr (Or.inr (Or.inl ⟨by rw [hqe], rfl, hb2.symm⟩))
        rw [H.read_alloc hnext] at h2
        simp at h2

/-- C13, amended: in every state reachable by requests of at most `2 ^ 64 - 16` bytes each
the walk from the first block after the
prologue by `NEXT_BLKP` stops at the epilogue, a header of size 0 with the
allocated bit set at the end of the heap, and the sizes of the blocks it meets
plus the 144 bytes of bucket heads, padding, prologue and epilogue add up to
the bytes obtained from the growth primitive. -/
theorem heap_conservation {lim : Nat} {st : State} {live : List (Nat × Nat)}
    (hr : Reach lim st live) (fuel : Nat) (hf : st.brk ≤ fuel) :
    heap_end st.mem fuel (NEXT_BLKP st.mem st.heap_listp) = .ret (HEAP_BASE + st.brk)
      ∧ GET_SIZE st.mem (HDRP (HEAP_BASE + st.brk)) = 0
      ∧ GET_ALLOC st.mem (HDRP (HEAP_BASE + st.brk)) = 1
      ∧ ((heap_blocks st.mem fuel (NEXT_BLKP st.mem st.heap_listp)).map
            (fun q => GET_SIZE st.mem (HDRP q))).sum
          + (8 * LIST_NUM + WSIZE + DSIZE + WSIZE) = st.brk := by
  obtain ⟨bs, ch, G⟩ := hr.inv
  have H := G.heap
  have hlen := H.sz.length_le
  have hbrk := H.brk
  have hF := FIRST_eq
  rw [H.prologue.2.2.1]
  obtain ⟨h1, h2⟩ := walk_sizes st.mem bs FIRST fuel H.sz H.tags H.epi (by omega)
  refine ⟨?_, H.epilogue.1, H.epilogue.2, ?_⟩
  · rw [h2]
    congr 1
    omega
  · rw [h1, sum_sizes]
    simp only [LIST_NUM, WSIZE, DSIZE]
    omega

/-- Links of the nodes of a linked segment. -/
theorem Seg_links (m : Mem) (nw : Nat) :
    ∀ (l : List Nat) (pw : Nat), Seg m pw l nw → ∀ b ∈ l,
      GET m b = nw ∨ ∃ c ∈ l, GET m b = ptr_to_word c ∧ GET m (c + 4) = ptr_to_word b := by
  intro l
  induction l with
  | nil => intro pw _ b hb; simp at hb
  | cons p t ih =>
    intro pw hs b hb
    obtain ⟨_, h2, h3⟩ := hs
    rcases List.mem_cons.1 hb with hb | hb
    · subst hb
      cases t with
      | nil => exact Or.inl h2
      | cons c t' =>
        exact Or.inr ⟨c, by simp, h2, h3.1⟩
    · rcases ih _ h3 b hb with h | ⟨c, hc, h⟩
      · exact Or.inl h
      · exact Or.inr ⟨c, List.mem_cons_of_mem _ hc, h⟩

/-- C15, amended: in every state reachable by requests of at most `2 ^ 64 - 16` bytes each,
for each bucket `i`: the chain from
`list_addr[i]` along the next links ends; no block occurs twice in it; a block
is in it exactly when it is a free block of the heap walk whose size has
bucket `getNumber(size) = i` (so no chain holds an allocated block and a free
block is in the chain of its bucket and in no other); the previous link of
the head is 0; and when the next link of `b` leads to `c`, then `c` is in the
chain and the previous link of `c` leads back to `b`. -/
theorem free_list_invariant {lim : Nat} {st : State} {live : List (Nat × Nat)}
    (hr : Reach lim st live) (fuel : Nat) (hf : st.brk < fuel) :
    ∀ i, i < LIST_NUM →
      (bucket_chain st fuel i).length < fuel
        ∧ (bucket_chain st fuel i).Nodup
        ∧ (∀ p, p ∈ bucket_chain st fuel i ↔
            p ∈ heap_blocks st.mem fuel st.heap_listp ∧ GET_ALLOC st.mem (HDRP p) = 0
              ∧ getNumber (GET_SIZE st.mem (HDRP p)) = i)
        ∧ (∀ p, (bucket_chain st fuel i).head? = some p → PREV_LINK st.mem p = 0)
        ∧ (∀ b ∈ bucket_chain st fuel i, NEXT_LINK st.mem b ≠ 0 →
            word_to_ptr (NEXT_LINK st.mem b) ∈ bucket_chain st fuel i
              ∧ word_to_ptr (PREV_LINK st.mem (word_to_ptr (NEXT_LINK st.mem b))) = b) := by
  obtain ⟨bs, ch, G⟩ := hr.inv
  have H := G.heap
  intro i hi
  simp only [LIST_NUM] at hi
  rw [H.chain_eq fuel hf hi]
  have hnode : ∀ p ∈ ch i, word_to_ptr (ptr_to_word p) = p := by
    intro p hp
    have h := H.node hi hp
    rw [h.2.2.2.2.1]; exact h.2.2.2.2.2.1
  refine ⟨?_, H.nodup i hi, ?_, ?_, ?_⟩
  · have := H.chain_len hi
    omega
  · intro p
    constructor
    · intro hp
      obtain ⟨_, s, hb, hs⟩ := H.sound i hi p hp
      refine ⟨H.walk_complete fuel (by omega) hb, ?_, ?_⟩
      · rw [H.read_alloc hb]; rfl
      · rw [H.read_size hb]; exact hs
    · rintro ⟨h1, h2, h3⟩
      rcases H.walk_sound fuel p h1 with e | ⟨s, a, hb⟩
      · rw [e, H.prologue.2.1] at h2
        exact absurd h2 (by norm_num)
      · rw [H.read_alloc hb] at h2
        cases a with
        | true => simp at h2
        | false =>
          rw [H.read_size hb] at h3
          rcases H.complete p s hb with h | h
          · rw [h3] at h; exact h
          · simp at h
  · intro p hp
    have hs := H.links i hi
    cases hl : ch i with
    | nil => rw [hl] at hp; simp at hp
    | cons q t =>
      rw [hl] at hp hs
      simp only [List.head?_cons, Option.some.injEq] at hp
      subst hp
      exact hs.1
  · intro b hb hne
    rcases Seg_links st.mem 0 (ch i) 0 (H.links i hi) b hb with h | ⟨c, hc, h1, h2⟩
    · exact absurd h hne
    · unfold NEXT_LINK PREV_LINK WSIZE
      rw [h1, hnode c hc, h2, hnode b hb]
      exact ⟨hc, rfl⟩

/-- Blocks of a sequence in which the middle part has been replaced by a part
of the same total size. -/
theorem BlockAt_mid (pre mid post : List (Nat × Bool)) (q s : Nat) (a : Bool) :
    BlockAt FIRST (pre ++ mid ++ post) q s a ↔
      BlockAt FIRST pre q s a ∨ BlockAt (FIRST + total pre) mid q s a
        ∨ BlockAt (FIRST + total pre + total mid) post q s a := by
  rw [BlockAt_append, BlockAt_append, total_append, or_assoc, Nat.add_assoc]

/-- C18: in every reachable state, for a free block `b` of the heap of size `c`
and a multiple `asize` of 8 with `16 ≤ asize ≤ c`, after `place(b, asize)` the
block at `b` is allocated, of size `asize` when `c - asize ≥ 16` and of size `c`
otherwise, and `b` is in no bucket chain; in the first case a free block of size
`c - asize` starts at `b + asize`, is in the chain of its bucket, and is the one
new block of the heap walk; in the second case the heap walk visits the same
blocks as before. -/
theorem place_splits {lim : Nat} {st : State} {live : List (Nat × Nat)}
    (hr : Reach lim st live) (fuel : Nat) (hf : st.brk < fuel) {b asize : Nat}
    (hb : b ∈ heap_blocks st.mem fuel st.heap_listp) (hfree : GET_ALLOC st.mem (HDRP b) = 0)
    (h8 : asize % 8 = 0) (h16 : 16 ≤ asize) (hle : asize ≤ GET_SIZE st.mem (HDRP b)) :
    GET_ALLOC (place b asize st).mem (HDRP b) = 1
      ∧ GET_SIZE (place b asize st).mem (HDRP b)
          = (if GET_SIZE st.mem (HDRP b) - asize ≥ 16 then asize else GET_SIZE st.mem (HDRP b))
      ∧ (∀ i, i < LIST_NUM → b ∉ bucket_chain (place b asize st) fuel i)
      ∧ (GET_SIZE st.mem (HDRP b) - asize ≥ 16 →
          GET_ALLOC (place b asize st).mem (HDRP (b + asize)) = 0
            ∧ GET_SIZE (place b asize st).mem (HDRP (b + asize))
                = GET_SIZE st.mem (HDRP b) - asize
            ∧ b + asize ∈ bucket_chain (place b asize st) fuel
                (getNumber (GET_SIZE st.mem (HDRP b) - asize))
            ∧ ∀ q, q ∈ heap_blocks (place b asize st).mem fuel (place b asize st).heap_listp ↔
                q ∈ heap_blocks st.mem fuel st.heap_listp ∨ q = b + asize)
      ∧ (¬ GET_SIZE st.mem (HDRP b) - asize ≥ 16 →
          ∀ q, q ∈ heap_blocks (place b asize st).mem fuel (place b asize st).heap_listp ↔
            q ∈ heap_blocks st.mem fuel st.heap_listp) := by
  obtain ⟨bs, ch, G⟩ := hr.inv
  have H := G.heap
  rcases H.walk_sound fuel b hb with e | ⟨c, a, hblk⟩
  · rw [e, H.prologue.2.1] at hfree
    exact absurd hfree (by norm_num)
  rw [H.read_alloc hblk] at hfree
  cases a with
  | true => simp at hfree
  | false =>
  rw [H.read_size hblk] at hle ⊢
  obtain ⟨pre, post, hbs, hbe⟩ := (BlockAt_split _ _ _ _ _).1 hblk
  subst hbs hbe
  obtain ⟨ch', H', _, _, _⟩ := place_ok H G.noadj asize h8 h16 hle
  have hwalk := H.walk_iff fuel (by omega)
  generalize place (FIRST + total pre) asize st = st' at *
  have hbrk' : st'.brk < fuel := by
    have h1 := H'.brk
    have h2 := H.brk
    have h3 := total_placed c asize hle
    simp only [total_append, total_cons] at h1 h2
    omega
  have hwalk' := H'.walk_iff fuel (by omega)
  have hhl : st'.heap_listp = st.heap_listp := by rw [H'.hl, H.hl]
  have hF := FIRST_ge
  by_cases hsp : asize + 16 ≤ c
  · have hpl : placed c asize = [(asize, true), (c - asize, false)] := by
      unfold placed; rw [if_pos hsp]
    rw [hpl] at H' hwalk'
    have hb1 : BlockAt FIRST (pre ++ [(asize, true), (c - asize, false)] ++ post)
        (FIRST + total pre) asize true := by
      rw [BlockAt_mid]
      exact Or.inr (Or.inl (Or.inl ⟨rfl, rfl, rfl⟩))
    have hb2 : BlockAt FIRST (pre ++ [(asize, true), (c - asize, false)] ++ post)
        (FIRST + total pre + asize) (c - asize) false := by
      rw [BlockAt_mid]
      exact Or.inr (Or.inl (Or.inr (Or.inl ⟨rfl, rfl, rfl⟩)))
    have hif : c - asize ≥ 16 := by omega
    refine ⟨by rw [H'.read_alloc hb1]; rfl, by rw [H'.read_size hb1, if_pos hif], ?_,
      fun _ => ⟨by rw [H'.read_alloc hb2]; rfl, H'.read_size hb2, ?_, ?_⟩,
      fun h => absurd hif h⟩
    · intro i hi hin
      simp only [LIST_NUM] at hi
      rw [H'.chain_eq fuel hbrk' hi] at hin
      obtain ⟨_, s', hb', _⟩ := H'.sound i hi _ hin
      exact Bool.noConfusion (H'.block_unique hb1 hb').2
    · rw [H'.chain_eq fuel hbrk' (getNumber_lt _)]
      rcases H'.complete _ _ hb2 with h | h
      · exact h
      · simp at h
    · intro q
      rw [hwalk' q, hwalk q, hhl]
      have e1 : ∀ s a, BlockAt FIRST (pre ++ [(asize, true), (c - asize, false)] ++ post) q s a ↔
          BlockAt FIRST pre q s a
            ∨ ((q = FIRST + total pre ∧ s = asize ∧ a = true)
              ∨ (q = FIRST + total pre + asize ∧ s = c - asize ∧ a = false))
            ∨ BlockAt (FIRST + total pre + c) post q s a := by
        intro s a
        rw [BlockAt_mid]
        have et : total [(asize, true), (c - asize, false)] = c := by
          simp only [total_cons, total_nil]; omega
        rw [et]
        simp only [BlockAt, or_false]
      have e2 : ∀ s a, BlockAt FIRST (pre ++ (c, false) :: post) q s a ↔
          BlockAt FIRST pre q s a ∨ (q = FIRST + total pre ∧ s = c ∧ a = false)
            ∨ BlockAt (FIRST + total pre + c) post q s a := by
        intro s a
        rw [BlockAt_append]
        simp only [BlockAt]
      simp only [e1, e2]
      constructor
      · rintro (h | ⟨s, a, h | (⟨h, _, _⟩ | ⟨h, _, _⟩) | h⟩)
        · exact Or.inl (Or.inl h)
        · exact Or.inl (Or.inr ⟨s, a, Or.inl h⟩)
        · exact Or.inl (Or.inr ⟨c, false, Or.inr (Or.inl ⟨h, rfl, rfl⟩)⟩)
        · exact Or.inr h
        · exact Or.inl (Or.inr ⟨s, a, Or.inr (Or.inr h)⟩)
      · rintro ((h | ⟨s, a, h | ⟨h, _, _⟩ | h⟩) | h)
        · exact Or.inl h
        · exact Or.inr ⟨s, a, Or.inl h⟩
        · exact Or.inr ⟨asize, true, Or.inr (Or.inl (Or.inl ⟨h, rfl, rfl⟩))⟩
        · exact Or.inr ⟨s, a, Or.inr (Or.inr h)⟩
        · exact Or.inr ⟨c - asize, false, Or.inr (Or.inl (Or.inr ⟨h, rfl, rfl⟩))⟩
  · have hpl : placed c asize = [(c, true)] := by
      unfold placed; rw [if_neg hsp]
    rw [hpl] at H' hwalk'
    have hb1 : BlockAt FIRST (pre ++ [(c, true)] ++ post) (FIRST + total pre) c true := by
      rw [BlockAt_mid]
      exact Or.inr (Or.inl (Or.inl ⟨rfl, rfl, rfl⟩))
    have hif : ¬ c - asize ≥ 16 := by omega
    refine ⟨by rw [H'.read_alloc hb1]; rfl, by rw [H'.read_size hb1, if_neg hif], ?_,
      fun h => absurd h hif, fun _ => ?_⟩
    · intro i hi hin
      simp only [LIST_NUM] at hi
      rw [H'.chain_eq fuel hbrk' hi] at hin
      obtain ⟨_, s', hb', _⟩ := H'.sound i hi _ hin
      exact Bool.noConfusion (H'.block_unique hb1 hb').2
    · intro q
      rw [hwalk' q, hwalk q, hhl]
      have e1 : ∀ s a, BlockAt FIRST (pre ++ [(c, true)] ++ post) q s a ↔
          BlockAt FIRST pre q s a ∨ (q = FIRST + total pre ∧ s = c ∧ a = true)
            ∨ BlockAt (FIRST + total pre + c) post q s a := by
        intro s a
        rw [BlockAt_mid]
        simp only [BlockAt, or_false, total_cons, total_nil, Nat.add_zero]
      have e2 : ∀ s a, BlockAt FIRST (pre ++ (c, false) :: post) q s a ↔
          BlockAt FIRST pre q s a ∨ (q = FIRST + total pre ∧ s = c ∧ a = false)
            ∨ BlockAt (FIRST + total pre + c) post q s a := by
        intro s a
        rw [BlockAt_append]
        simp only [BlockAt]
      simp only [e1, e2]
      constructor
      · rintro (h | ⟨s, a, h | ⟨h, _, _⟩ | h⟩)
        · exact Or.inl h
        · exact Or.inr ⟨s, a, Or.inl h⟩
        · exact Or.inr ⟨c, false, Or.inr (Or.inl ⟨h, rfl, rfl⟩)⟩
        · exact Or.inr ⟨s, a, Or.inr (Or.inr h)⟩
      · rintro (h | ⟨s, a, h | ⟨h, _, _⟩ | h⟩)
        · exact Or.inl h
        · exact Or.inr ⟨s, a, Or.inl h⟩
        · exact Or.inr ⟨c, true, Or.inr (Or.inl ⟨h, rfl, rfl⟩)⟩
        · exact Or.inr ⟨s, a, Or.inr (Or.inr h)⟩

/-- After its marking `free` only calls `coalesce`. -/
theorem free_eq_coalesce (lim bp : Nat) (st : State) (h : bp ≠ 0) :
    free lim bp st = (coalesce bp (free_mark lim bp st)).2 := by
  unfold free free_mark
  rw [if_neg h]

/-- After a successful request `extend_heap` marks the new block and returns
what `coalesce` returns. -/
theorem extend_heap_eq_coalesce (lim words : Nat) (st : State)
    (h : (mem_sbrk lim (ext_size words) st).1 ≠ NEG1) :
    extend_heap lim words st
      = coalesce (mem_sbrk lim (ext_size words) st).1
          (extend_mark (ext_size words) (mem_sbrk lim (ext_size words) st).1
            (mem_sbrk lim (ext_size words) st).2) := by
  unfold extend_heap extend_mark
  rw [← ext_size]
  simp only []
  rw [if_neg h]

/-- The state in which `free` calls `coalesce`. -/
theorem free_mark_eq (lim p s : Nat) (st : State) (hl : st.heap_listp ≠ 0)
    (r1 : GET_SIZE st.mem (HDRP p) = s) (h8 : s % 8 = 0) (hlt : s < 2 ^ 32) :
    free_mark lim p st = { st with mem := (PUT (PUT st.mem (p - 4) s) (p + s - 8) s) } := by
  unfold free_mark
  simp only [hl, if_false, r1, PACK_zero, put_mem]
  have q1 : FTRP (PUT st.mem (HDRP p) s) p = p + s - 8 := by
    unfold FTRP
    rw [GET_SIZE_PUT_same _ _ _ h8 hlt]
    rfl
  simp only [State.put, q1]
  rfl

/-- The block that `free` hands to `coalesce` is free and in no chain; the
block that `coalesce` returns is the merged block, and it is in the store. -/
theorem free_coalesce_ok {st : State} {pre post : List (Nat × Bool)} {s : Nat}
    {ch : Nat → List Nat} (H : HeapOK st (pre ++ (s, true) :: post) ch [])
    (hna : NoAdj (pre ++ (s, true) :: post)) (lim : Nat) :
    ∃ pre' l r post' ch',
      pre = pre' ++ l ∧ post = r ++ post'
      ∧ HeapOK (coalesce (FIRST + total pre) (free_mark lim (FIRST + total pre) st)).2
          (pre' ++ (total l + s + total r, false) :: post') ch' []
      ∧ NoAdj (pre' ++ (total l + s + total r, false) :: post')
      ∧ (coalesce (FIRST + total pre) (free_mark lim (FIRST + total pre) st)).1
          = FIRST + total pre' := by
  have hF := FIRST_ge
  have hbb := BlockAt_here pre post s true
  obtain ⟨b1, b2, b4, b8⟩ := H.block_arith hbb
  have h8 : s % 8 = 0 := (H.block hbb).2.2.2.2.1
  have hlt : s < 2 ^ 32 := by
    clear * - b8
    simp only [total_append, total_cons] at b8; omega
  rw [free_mark_eq lim _ s st H.hl_ne (H.read_size hbb) h8 hlt]
  have hbs : pre ++ (s, true) :: post = pre ++ [(s, true)] ++ post := by simp
  have e2 : total [((s, true) : Nat × Bool)] = s := by simp
  obtain ⟨hn1, hn2⟩ := (NoAdj_mid_true pre post s).1 hna
  rw [hbs] at H
  obtain ⟨H3, _⟩ := H.merge
    (PUT (PUT st.mem (FIRST + total pre - 4) s) (FIRST + total pre + s - 8) s) (by simp)
    (by
      intro a ha
      rw [e2] at ha
      rw [PUT_other _ _ _ _ (by clear * - ha b4 hF; omega),
        PUT_other _ _ _ _ (by clear * - ha b4 hF; omega)])
    (by
      rw [e2, GET_PUT_other _ _ _ _ (by clear * - b4 hF; omega), GET_PUT_same_lt _ _ _ hlt])
    (by rw [e2, GET_PUT_same_lt _ _ _ hlt])
    (by
      intro q sq hq
      simp only [BlockAt, or_false] at hq
      simp at hq)
    (by intro x hx; simp at hx)
  rw [e2, List.append_assoc] at H3
  obtain ⟨pre', l, r, post', ch', k1, k2, k3, k4, k5, k6, k7, k8, k9⟩ :=
    coalesce_ok H3 hn1 hn2
  exact ⟨pre', l, r, post', ch', k1, k2, k5, k6, k7⟩

/-- A free block of a well-formed heap occurs once in the chain of its bucket
and in no other chain. -/
theorem HeapOK.count_chain {st : State} {bs : List (Nat × Bool)} {ch : Nat → List Nat}
    (H : HeapOK st bs ch []) {r s : Nat} (hb : BlockAt FIRST bs r s false) (fuel : Nat)
    (hf : st.brk < fuel) (i : Nat) (hi : i < 16) :
    (bucket_chain st fuel i).count r
      = if i = getNumber (GET_SIZE st.mem (HDRP r)) then 1 else 0 := by
  rw [H.chain_eq fuel hf hi, H.read_size hb]
  have hin : r ∈ ch (getNumber s) := by
    rcases H.complete r s hb with h | h
    · exact h
    · simp at h
  by_cases e : i = getNumber s
  · rw [if_pos e, e]
    exact List.count_eq_one_of_mem (H.nodup _ (getNumber_lt s)) hin
  · rw [if_neg e]
    apply List.count_eq_zero_of_not_mem
    intro h
    exact H.node_ne hi (getNumber_lt s) h hin e rfl

theorem ext_size_ok (words : Nat) (h4 : 4 ≤ words) (hw : words < 2 ^ 61) :
    16 ≤ ext_size words ∧ ext_size words % 8 = 0 := by
  unfold ext_size WSIZE
  have f1 : (words + 1) * 4 < 2 ^ 64 := by omega
  have f2 : words * 4 < 2 ^ 64 := by omega
  have e1 : (words + 1) * 4 % 2 ^ 64 = (words + 1) * 4 := Nat.mod_eq_of_lt f1
  have e2 : words * 4 % 2 ^ 64 = words * 4 := Nat.mod_eq_of_lt f2
  rw [e1, e2]
  split <;> omega

theorem HeapOK.next_blkp {st : State} {bs : List (Nat × Bool)} {ch : Nat → List Nat}
    {X : List Nat} (H : HeapOK st bs ch X) {p s : Nat} {a : Bool}
    (hb : BlockAt FIRST bs p s a) : NEXT_BLKP st.mem p = p + s := by
  have := H.read_size hb
  unfold NEXT_BLKP
  unfold HDRP at this
  rw [this]

/-- The block after a free block is allocated, and so is the block before
it. -/
theorem HeapOK.free_maximal {st : State} {bs : List (Nat × Bool)} {ch : Nat → List Nat}
    {X : List Nat} (H : HeapOK st bs ch X) (hna : NoAdj bs) {q0 s0 : Nat}
    (hb : BlockAt FIRST bs q0 s0 false) :
    GET_ALLOC st.mem (HDRP (q0 + s0)) = 1
      ∧ ∀ q s a, BlockAt FIRST bs q s a → q + s = q0 → a = true := by
  have hpos : ∀ b ∈ bs, 0 < b.1 := fun b hb => by have := (H.sz b hb).1; omega
  constructor
  · obtain ⟨pre, post, hbs, hqe⟩ := (BlockAt_split _ _ _ _ _).1 hb
    subst hbs
    obtain ⟨_, _, _, hh⟩ := (NoAdj_mid pre post s0).1 hna
    cases post with
    | nil =>
      have hbrk := H.brk
      have hF := FIRST_eq
      have e : q0 + s0 = HEAP_BASE + st.brk := by
        rw [hbrk, hqe]
        simp only [total_append, total_cons, total_nil]
        omega
      rw [e, H.epilogue.2]
    | cons b t =>
      have hb2 : b.2 = true := hh
      have hnext : BlockAt FIRST (pre ++ (s0, false) :: b :: t) (q0 + s0) b.1 true := by
        rw [BlockAt_append]
        exact Or.inr (Or.inr (Or.inl ⟨by rw [hqe], rfl, hb2.symm⟩))
      rw [H.read_alloc hnext]
      rfl
  · intro q s a hq e
    cases a with
    | true => rfl
    | false => exact absurd e (NoAdj_apart bs hna hpos FIRST hq hb)

/-- A free block of a well-formed heap without adjacent free blocks is a
merged block. -/
theorem HeapOK.merged_block {st : State} {bs : List (Nat × Bool)} {ch : Nat → List Nat}
    (H : HeapOK st bs ch []) (hna : NoAdj bs) {r s : Nat} (hb : BlockAt FIRST bs r s false)
    (fuel : Nat) (hf : st.brk < fuel) : Merged st fuel r := by
  have hpos : ∀ b ∈ bs, 0 < b.1 := fun b hb => by have := (H.sz b hb).1; omega
  obtain ⟨m1, m2⟩ := H.free_maximal hna hb
  have hn := H.next_blkp hb
  have hblk := H.block hb
  refine ⟨(H.walk_iff fuel (by omega) r).2 (Or.inr ⟨_, _, hb⟩), ?_, by rw [hn]; exact m1, ?_, ?_⟩
  · rw [H.read_ftr hb]
    exact hblk.2.2.2.2.2.1.trans hblk.2.2.2.2.2.2.1.symm
  · intro q hq hnq
    rcases (H.walk_iff fuel (by omega) q).1 hq with e | ⟨sq, al, hbq⟩
    · rw [e]
      exact H.prologue.2.1
    · rw [H.next_blkp hbq] at hnq
      have := m2 q sq al hbq hnq
      subst this
      rw [H.read_alloc hbq]
      rfl
  · intro i hi q hq
    rw [H.chain_eq fuel hf hi] at hq
    obtain ⟨_, sq, hbq, _⟩ := H.sound i hi q hq
    rw [hn]
    rcases BlockAt_disj bs hpos q sq false r s false FIRST hbq hb with ⟨e, _, _⟩ | h | h
    · omega
    · omega
    · omega

/-- C19, amended: in every state reachable by requests of at most `2 ^ 64 - 16` bytes each,
`free(p)` of a live pointer marks
the block free and ends with its call of `coalesce`; the block that `coalesce`
returns is free, covers the block of `p`, and on return it is in the chain of
its bucket, once, and in no other chain: `coalesce` itself inserts it.  In the
same way `extend_heap`, after a successful request, returns what `coalesce`
returns, and the block returned is in the chain of its bucket, once.  In both
cases the block returned is a block of the heap walk with equal header and
footer, the blocks next to it are allocated, and no chain has a node inside
it: the free neighbours were merged into it and taken out of their chains. -/
theorem coalesce_inserts {lim : Nat} {st : State} {live : List (Nat × Nat)}
    (hr : Reach lim st live) (fuel : Nat) :
    (∀ p n, (p, n) ∈ live → st.brk < fuel →
        free lim p st = (coalesce p (free_mark lim p st)).2
          ∧ GET_ALLOC (coalesce p (free_mark lim p st)).2.mem
              (HDRP (coalesce p (free_mark lim p st)).1) = 0
          ∧ (coalesce p (free_mark lim p st)).1 ≤ p
          ∧ NEXT_BLKP st.mem p
              ≤ NEXT_BLKP (coalesce p (free_mark lim p st)).2.mem
                  (coalesce p (free_mark lim p st)).1
          ∧ (∀ i, i < LIST_NUM →
              (bucket_chain (coalesce p (free_mark lim p st)).2 fuel i).count
                  (coalesce p (free_mark lim p st)).1
                = if i = getNumber (GET_SIZE (coalesce p (free_mark lim p st)).2.mem
                      (HDRP (coalesce p (free_mark lim p st)).1)) then 1 else 0)
          ∧ Merged (coalesce p (free_mark lim p st)).2 fuel
              (coalesce p (free_mark lim p st)).1)
      ∧ (∀ words, 4 ≤ words → words < 2 ^ 61 → (extend_heap lim words st).1 ≠ 0 →
          (extend_heap lim words st).2.brk < fuel →
          extend_heap lim words st
              = coalesce (mem_sbrk lim (ext_size words) st).1
                  (extend_mark (ext_size words) (mem_sbrk lim (ext_size words) st).1
                    (mem_sbrk lim (ext_size words) st).2)
            ∧ GET_ALLOC (extend_heap lim words st).2.mem (HDRP (extend_heap lim words st).1) = 0
            ∧ (∀ i, i < LIST_NUM →
                (bucket_chain (extend_heap lim words st).2 fuel i).count
                    (extend_heap lim words st).1
                  = if i = getNumber (GET_SIZE (extend_heap lim words st).2.mem
                        (HDRP (extend_heap lim words st).1)) then 1 else 0)
            ∧ Merged (extend_heap lim words st).2 fuel (extend_heap lim words st).1) := by
  obtain ⟨bs, ch, G⟩ := hr.inv
  have H := G.heap
  constructor
  · intro p n hp hf
    obtain ⟨s, hb, hs⟩ := G.lv (p, n) hp
    simp only at hb hs
    obtain ⟨pre, post, hbs, hpp⟩ := (BlockAt_split _ _ _ _ _).1 hb
    have hsz := H.read_size hb
    subst hbs hpp
    obtain ⟨pre', l, r, post', ch', k1, k2, k3, kna, k4⟩ := free_coalesce_ok H G.noadj lim
    have hp0 : FIRST + total pre ≠ 0 := by have := FIRST_ge; omega
    have hnb : NEXT_BLKP st.mem (FIRST + total pre) = FIRST + total pre + s := by
      unfold NEXT_BLKP
      unfold HDRP at hsz
      rw [hsz]
    refine ⟨free_eq_coalesce lim _ st hp0, ?_⟩
    rw [k4, hnb]
    generalize (coalesce (FIRST + total pre) (free_mark lim (FIRST + total pre) st)).2 = st' at *
    have hbm := BlockAt_here pre' post' (total l + s + total r) false
    have hbrk' : st'.brk < fuel := by
      have h1 := k3.brk
      have h2 := H.brk
      rw [k1, k2] at h2
      simp only [total_append, total_cons] at h1 h2
      omega
    have hnb' : NEXT_BLKP st'.mem (FIRST + total pre') = FIRST + total pre' + (total l + s + total r) := by
      have := k3.read_size hbm
      unfold NEXT_BLKP
      unfold HDRP at this
      rw [this]
    refine ⟨by rw [k3.read_alloc hbm]; rfl, ?_, ?_, ?_, k3.merged_block kna hbm fuel hbrk'⟩
    · rw [k1, total_append]; omega
    · rw [hnb', k1, total_append]; omega
    · intro i hi
      exact k3.count_chain hbm fuel hbrk' i hi
  · intro words h4 hw hne hf
    obtain ⟨h16, h8⟩ := ext_size_ok words h4 hw
    have hg : st.brk + ext_size words ≤ lim := by
      by_contra hc
      rw [extend_heap_fail lim words st hc] at hne
      exact hne rfl
    obtain ⟨pre', l, ch', k1, k2, k3, k4, k5, k6, k7⟩ :=
      extend_heap_ok H G.noadj lim words hr.lim_le h16 h8 hg
    have hsb : (mem_sbrk lim (ext_size words) st).1 ≠ NEG1 := by
      unfold mem_sbrk
      rw [if_pos hg]
      have hB : HEAP_BASE = 34359738368 := rfl
      have := H.lim
      unfold NEG1
      show HEAP_BASE + st.brk ≠ _
      omega
    refine ⟨extend_heap_eq_coalesce lim words st hsb, ?_⟩
    rw [k5]
    generalize (extend_heap lim words st).2 = st' at *
    have hbm : BlockAt FIRST (pre' ++ [(total l + ext_size words, false)]) (FIRST + total pre')
        (total l + ext_size words) false := BlockAt_here pre' [] _ false
    exact ⟨by rw [k3.read_alloc hbm]; rfl, fun i hi => k3.count_chain hbm fuel hf i hi,
      k3.merged_block k4 hbm fuel hf⟩

theorem printblock_ok (m : Mem) (bp : Nat) : ∀ r ∈ printblock m bp, r.isError = false := by
  intro r hr
  unfold printblock at hr
  simp only [] at hr
  split at hr <;> simp at hr <;> rw [hr] <;> rfl

theorem checkblock_ok (m : Mem) (bp : Nat) (h8 : bp % 8 = 0)
    (ht : GET m (HDRP bp) = GET m (FTRP m bp)) : checkblock m bp = [] := by
  unfold checkblock
  rw [if_neg (by simpa using h8), if_neg (by simpa using ht)]
  rfl

/-- The loop of `mm_checkheap` over a tagged block sequence reports nothing
and stops at its end. -/
theorem checkheap_loop_ok (m : Mem) (verbose : Nat) (bs : List (Nat × Bool)) :
    ∀ (start fuel : Nat), SizesOK bs → TagsOK m start bs → start % 8 = 0 → 4 ≤ start →
      GET m (start + total bs - 4) = 1 → bs.length < fuel →
      ∃ out, checkheap_loop m verbose fuel start = .ret (out, start + total bs)
        ∧ (∀ r ∈ out, r.isError = false) ∧ (verbose = 0 → out = []) := by
  induction bs with
  | nil =>
    intro start fuel _ _ _ _ hepi hf
    obtain ⟨f, rfl⟩ : ∃ f, fuel = f + 1 := ⟨fuel - 1, by simp at hf; omega⟩
    have h0 : GET_SIZE m (HDRP start) = 0 :=
      GET_SIZE_tag m _ 0 true (by simpa [HDRP, WSIZE, tagv] using hepi) (by norm_num)
    exact ⟨[], by simp [checkheap_loop, h0], fun r hr => by simp at hr, fun _ => rfl⟩
  | cons b t ih =>
    intro start fuel hsz htags h8 h4 hepi hf
    obtain ⟨f, rfl⟩ : ∃ f, fuel = f + 1 := ⟨fuel - 1, by simp at hf; omega⟩
    have hb := hsz b (List.mem_cons_self _ _)
    have ht := htags start b.1 b.2 (Or.inl ⟨rfl, rfl, rfl⟩)
    have h0 : GET_SIZE m (HDRP start) = b.1 := GET_SIZE_tag m _ b.1 b.2 ht.1 hb.2
    have hn : NEXT_BLKP m start = start + b.1 := by
      unfold NEXT_BLKP
      unfold HDRP at h0
      rw [h0]
    have hft : FTRP m start = start + b.1 - 8 := by
      unfold FTRP
      rw [h0]
      rfl
    obtain ⟨out, i1, i2, i3⟩ := ih (start + b.1) f
      (fun x hx => hsz x (List.mem_cons_of_mem _ hx))
      (fun p s a h => htags p s a (Or.inr h)) (by omega) (by omega)
      (by rw [← hepi, total_cons]; congr 1; omega) (by simpa using hf)
    have hcb : checkblock m start = [] :=
      checkblock_ok m start h8 (by rw [hft]; exact ht.1.trans ht.2.symm)
    refine ⟨(if verbose ≠ 0 then printblock m start else []) ++ out, ?_, ?_, ?_⟩
    · unfold checkheap_loop
      rw [if_pos (by omega), hn, i1, hcb]
      simp only [List.append_nil, total_cons, Nat.add_assoc]
    · intro r hr
      rcases List.mem_append.1 hr with hr | hr
      · split at hr
        · exact printblock_ok m start r hr
        · simp at hr
      · exact i2 r hr
    · intro hv
      rw [i3 hv, hv]
      rfl

/-- C20, amended: in every state reachable by requests of at most `2 ^ 64 - 16` bytes each
every block of the heap walk, from the
prologue on, has a block pointer that is a multiple of 8 and a header word
equal to its footer word; the prologue header has size 8 and the allocated
bit; the walk stops at a header of size 0 with the allocated bit; and
`mm_checkheap` returns, reports no violation and leaves the state as it
is. -/
theorem checkheap_clean {lim : Nat} {st : State} {live : List (Nat × Nat)}
    (hr : Reach lim st live) (fuel verbose : Nat) (hf : st.brk < fuel) :
    (∀ q ∈ heap_blocks st.mem fuel st.heap_listp,
        q % 8 = 0 ∧ GET st.mem (HDRP q) = GET st.mem (FTRP st.mem q))
      ∧ GET_SIZE st.mem (HDRP st.heap_listp) = DSIZE
      ∧ GET_ALLOC st.mem (HDRP st.heap_listp) = 1
      ∧ (∃ e, heap_end st.mem fuel st.heap_listp = .ret e
          ∧ GET_SIZE st.mem (HDRP e) = 0 ∧ GET_ALLOC st.mem (HDRP e) = 1)
      ∧ ∃ out, mm_checkheap fuel verbose st = .ret (out, st)
          ∧ (∀ r ∈ out, r.isError = false) ∧ (verbose = 0 → out = []) := by
  obtain ⟨bs, ch, G⟩ := hr.inv
  have H := G.heap
  have hlen := H.sz.length_le
  have hbrk := H.brk
  have hF := FIRST_eq
  have hB : HEAP_BASE = 34359738368 := rfl
  obtain ⟨p1, p2, p3, p4, p5, p6⟩ := H.prologue
  obtain ⟨f, rfl⟩ : ∃ f, fuel = f + 1 := ⟨fuel - 1, by omega⟩
  have hl8 : st.heap_listp % 8 = 0 := by rw [H.hl]; omega
  have hcb : checkblock st.mem st.heap_listp = [] :=
    checkblock_ok st.mem _ hl8 (by rw [p4, p5, p6])
  refine ⟨?_, p1, p2, ?_, ?_⟩
  · intro q hq
    rcases H.walk_sound _ q hq with e | ⟨s, a, hb⟩
    · rw [e]
      exact ⟨hl8, by rw [p4, p5, p6]⟩
    · have h := H.block hb
      rw [H.read_ftr hb]
      exact ⟨h.2.2.1, h.2.2.2.2.2.1.trans h.2.2.2.2.2.2.1.symm⟩
  · obtain ⟨_, h2⟩ := walk_sizes st.mem bs FIRST f H.sz H.tags H.epi (by omega)
    refine ⟨HEAP_BASE + st.brk, ?_, H.epilogue.1, H.epilogue.2⟩
    unfold heap_end
    rw [if_pos (by omega), p3, h2]
    congr 1
    omega
  · obtain ⟨out, i1, i2, i3⟩ := checkheap_loop_ok st.mem verbose bs FIRST f H.sz H.tags
      (by rw [hF]; omega) (by omega) H.epi (by omega)
    have e : FIRST + total bs = HEAP_BASE + st.brk := by omega
    rw [e] at i1
    have hloop : checkheap_loop st.mem verbose (f + 1) st.heap_listp
        = .ret ((if verbose ≠ 0 then printblock st.mem st.heap_listp else []) ++ out,
            HEAP_BASE + st.brk) := by
      unfold checkheap_loop
      rw [if_pos (by omega), p3, i1, hcb]
      simp only [List.append_nil]
    have hmm : mm_checkheap (f + 1) verbose st
        = .ret ((if verbose ≠ 0 then [Report.heap st.heap_listp] else [])
            ++ (if verbose ≠ 0 then printblock st.mem st.heap_listp else []) ++ out
            ++ (if verbose ≠ 0 then printblock st.mem (HEAP_BASE + st.brk) else []), st) := by
      unfold mm_checkheap
      simp only []
      rw [hloop]
      simp only [hcb, p1, p2, H.epilogue.1, H.epilogue.2, DSIZE, ne_eq, not_true_eq_false,
        one_ne_zero, or_self, if_false, List.append_nil, List.append_assoc]
    refine ⟨_, hmm, ?_, ?_⟩
    · intro r hr
      simp only [List.mem_append] at hr
      rcases hr with (((hr | hr) | hr) | hr)
      · split at hr
        · simp at hr; rw [hr]; rfl
        · simp at hr
      · split at hr
        · exact printblock_ok _ _ r hr
        · simp at hr
      · exact i2 r hr
      · split at hr
        · exact printblock_ok _ _ r hr
        · simp at hr
    · intro hv
      rw [i3 hv, hv]
      rfl

/-- Two ranges that meet and are each inside a free block are inside the same
free block, when no two free blocks are adjacent. -/
theorem Covered.join {bs : List (Nat × Bool)} (hna : NoAdj bs) (hpos : ∀ b ∈ bs, 0 < b.1)
    {lo mid hi : Nat} (h1 : Covered bs lo mid) (h2 : Covered bs mid hi) (hlo : lo < mid)
    (hhi : mid < hi) : Covered bs lo hi := by
  obtain ⟨q1, s1, b1, l1, u1⟩ := h1
  obtain ⟨q2, s2, b2, l2, u2⟩ := h2
  rcases BlockAt_disj bs hpos q1 s1 false q2 s2 false FIRST b1 b2 with ⟨e1, e2, _⟩ | h | h
  · exact ⟨q1, s1, b1, l1, by omega⟩
  · exact absurd (show q1 + s1 = q2 by omega) (NoAdj_apart bs hna hpos FIRST b1 b2)
  · omega

/-- A `free` of a live pointer, on the block sequence: the released block and
every block that was free are inside a free block afterwards, the other
allocated blocks stay as they are, and the heap keeps its length. -/
theorem free_cover {st : State} {bs : List (Nat × Bool)} {ch : Nat → List Nat}
    {live : List (Nat × Nat)} (G : Good st bs ch live) (lim : Nat) {p n : Nat}
    (hp : (p, n) ∈ live) :
    ∃ bs' ch', Good (free lim p st) bs' ch' (live_del live p)
      ∧ total bs' = total bs
      ∧ (∀ s, BlockAt FIRST bs p s true → Covered bs' p (p + s))
      ∧ (∀ q sq, BlockAt FIRST bs q sq false → Covered bs' q (q + sq))
      ∧ (∀ q sq, BlockAt FIRST bs q sq true → q ≠ p → BlockAt FIRST bs' q sq true) := by
  obtain ⟨pre, s, post, pre', l, r, post', ch', e1, e2, e3, e4, e5, e6, e7, e8, e9, e10⟩ :=
    free_ok G lim p n hp
  have hmid : BlockAt FIRST (pre' ++ (total l + s + total r, false) :: post')
      (FIRST + total pre') (total l + s + total r) false := BlockAt_here _ _ _ _
  refine ⟨_, ch', e8, ?_, ?_, ?_, ?_⟩
  · rw [e1, e4, e5]
    simp only [total_append, total_cons]
    omega
  · intro s' hb
    have hs : s' = s := by
      have h1 := G.heap.read_size hb
      have h2 := G.heap.read_size (show BlockAt FIRST bs p s true by
        rw [e1, e2]; exact BlockAt_here _ _ _ _)
      omega
    refine ⟨_, _, hmid, ?_, ?_⟩
    · rw [e2, e4, total_append]; omega
    · rw [e2, e4, total_append, hs]; omega
  · intro q sq hb
    rw [e1, e4, e5, BlockAt_append, BlockAt_append] at hb
    rcases hb with (hb | hb) | hb
    · exact ⟨q, sq, by rw [BlockAt_append]; exact Or.inl hb, le_refl _, le_refl _⟩
    · have hr := BlockAt_range _ _ _ _ _ hb
      exact ⟨_, _, hmid, by omega, by omega⟩
    · simp only [BlockAt] at hb
      rcases hb with ⟨_, _, hb⟩ | hb
      · exact Bool.noConfusion hb
      · rw [BlockAt_append] at hb
        rcases hb with hb | hb
        · have hr := BlockAt_range _ _ _ _ _ hb
          simp only [total_append] at hr
          exact ⟨_, _, hmid, by omega, by omega⟩
        · refine ⟨q, sq, ?_, le_refl _, le_refl _⟩
          rw [BlockAt_append]
          right
          simp only [BlockAt]
          right
          simp only [total_append] at hb
          have e : FIRST + total pre' + (total l + s + total r)
              = FIRST + (total pre' + total l) + s + total r := by omega
          rw [e]
          exact hb
  · intro q sq hb hne
    rw [e1] at hb
    have := BlockAt_other pre post s _ _ hb (by rw [← e2]; exact hne)
    rw [BlockAt_merge pre' l r post' s e6 e7, ← e4, ← e5]
    exact this

theorem Covered.mono {bs bs' : List (Nat × Bool)}
    (h : ∀ q sq, BlockAt FIRST bs q sq false → Covered bs' q (q + sq)) {lo hi : Nat}
    (hc : Covered bs lo hi) : Covered bs' lo hi := by
  obtain ⟨q, s, hb, h1, h2⟩ := hc
  obtain ⟨q', s', hb', h1', h2'⟩ := h q s hb
  exact ⟨q', s', hb', by omega, by omega⟩

/-- Three calls of `free` on three different live pointers, on the block
sequence. -/
theorem free3_cover {st : State} {bs : List (Nat × Bool)} {ch : Nat → List Nat}
    {live : List (Nat × Nat)} (G : Good st bs ch live) (lim : Nat) {x y z nx ny nz : Nat}
    (hx : (x, nx) ∈ live) (hy : (y, ny) ∈ live) (hz : (z, nz) ∈ live)
    (hxy : x ≠ y) (hxz : x ≠ z) (hyz : y ≠ z) :
    ∃ bs' ch' live', Good (free lim z (free lim y (free lim x st))) bs' ch' live'
      ∧ total bs' = total bs
      ∧ (∀ p s, p = x ∨ p = y ∨ p = z → BlockAt FIRST bs p s true → Covered bs' p (p + s))
      ∧ (∀ q sq, BlockAt FIRST bs q sq false → Covered bs' q (q + sq))
      ∧ (∀ q sq, BlockAt FIRST bs q sq true → q ≠ x → q ≠ y → q ≠ z →
          BlockAt FIRST bs' q sq true) := by
  obtain ⟨bs1, ch1, G1, t1, c1, f1, a1⟩ := free_cover G lim hx
  have hy1 : (y, ny) ∈ live_del live x := mem_live_del.2 ⟨hy, fun h => hxy h.symm⟩
  have hz1 : (z, nz) ∈ live_del live x := mem_live_del.2 ⟨hz, fun h => hxz h.symm⟩
  obtain ⟨bs2, ch2, G2, t2, c2, f2, a2⟩ := free_cover G1 lim hy1
  have hz2 : (z, nz) ∈ live_del (live_del live x) y := mem_live_del.2 ⟨hz1, fun h => hyz h.symm⟩
  obtain ⟨bs3, ch3, G3, t3, c3, f3, a3⟩ := free_cover G2 lim hz2
  refine ⟨bs3, ch3, _, G3, by omega, ?_, ?_, ?_⟩
  · intro p s hp hb
    rcases hp with rfl | rfl | rfl
    · exact Covered.mono f3 (Covered.mono f2 (c1 s hb))
    · exact Covered.mono f3 (c2 s (a1 _ _ hb (fun h => hxy h.symm)))
    · exact c3 s (a2 _ _ (a1 _ _ hb (fun h => hxz h.symm)) (fun h => hyz h.symm))
  · intro q sq hb
    exact Covered.mono f3 (Covered.mono f2 (f1 q sq hb))
  · intro q sq hb h1 h2 h3
    exact a3 _ _ (a2 _ _ (a1 _ _ hb h1) h2) h3

/-- C12, amended: in a state reachable by requests of at most `2 ^ 64 - 16` bytes each
let `a`, `b`, `c` be live pointers whose blocks
are physically adjacent (`b` is the block after `a`, `c` the block after `b`),
and release them in any of the six orders `x`, `y`, `z`. Afterwards the heap
walk has one free block `q0` that covers the region from the block `a` to the
end of the block `c`; it is the only block of the walk that meets this
region; a block that was free and adjacent to the region before is inside
`q0` too; the blocks next to `q0` are allocated; and every other allocated
block is still an allocated block of the same size. -/
theorem full_coalescing {lim : Nat} {st : State} {live : List (Nat × Nat)}
    (hr : Reach lim st live) {a b c na nb nc : Nat}
    (ha : (a, na) ∈ live) (hb : (b, nb) ∈ live) (hc : (c, nc) ∈ live)
    (hab : NEXT_BLKP st.mem a = b) (hbc : NEXT_BLKP st.mem b = c)
    {x y z : Nat} (hperm : [x, y, z].Perm [a, b, c]) (fuel : Nat) (hf : st.brk < fuel) :
    ∃ q0, q0 ∈ heap_blocks (free lim z (free lim y (free lim x st))).mem fuel
            (free lim z (free lim y (free lim x st))).heap_listp
      ∧ GET_ALLOC (free lim z (free lim y (free lim x st))).mem (HDRP q0) = 0
      ∧ q0 ≤ a
      ∧ NEXT_BLKP st.mem c ≤ NEXT_BLKP (free lim z (free lim y (free lim x st))).mem q0
      ∧ (∀ q ∈ heap_blocks (free lim z (free lim y (free lim x st))).mem fuel
              (free lim z (free lim y (free lim x st))).heap_listp,
            q < NEXT_BLKP st.mem c →
            a < NEXT_BLKP (free lim z (free lim y (free lim x st))).mem q → q = q0)
      ∧ (∀ q ∈ heap_blocks st.mem fuel st.heap_listp, GET_ALLOC st.mem (HDRP q) = 0 →
            (NEXT_BLKP st.mem q = a → q0 ≤ q)
              ∧ (q = NEXT_BLKP st.mem c → NEXT_BLKP st.mem q
                  ≤ NEXT_BLKP (free lim z (free lim y (free lim x st))).mem q0))
      ∧ GET_ALLOC (free lim z (free lim y (free lim x st))).mem
            (HDRP (NEXT_BLKP (free lim z (free lim y (free lim x st))).mem q0)) = 1
      ∧ (∀ q ∈ heap_blocks (free lim z (free lim y (free lim x st))).mem fuel
              (free lim z (free lim y (free lim x st))).heap_listp,
            NEXT_BLKP (free lim z (free lim y (free lim x st))).mem q = q0 →
            GET_ALLOC (free lim z (free lim y (free lim x st))).mem (HDRP q) = 1)
      ∧ (∀ q ∈ heap_blocks st.mem fuel st.heap_listp, GET_ALLOC st.mem (HDRP q) = 1 →
            q ≠ a → q ≠ b → q ≠ c →
            q ∈ heap_blocks (free lim z (free lim y (free lim x st))).mem fuel
                (free lim z (free lim y (free lim x st))).heap_listp
              ∧ GET_ALLOC (free lim z (free lim y (free lim x st))).mem (HDRP q) = 1
              ∧ GET_SIZE (free lim z (free lim y (free lim x st))).mem (HDRP q)
                  = GET_SIZE st.mem (HDRP q)) := by
  obtain ⟨bs, ch, G⟩ := hr.inv
  have H := G.heap
  obtain ⟨sa, ba, _⟩ := G.lv (a, na) ha
  obtain ⟨sb, bb, _⟩ := G.lv (b, nb) hb
  obtain ⟨sc, bc, _⟩ := G.lv (c, nc) hc
  simp only at ba bb bc
  have ka := (H.block ba).2.2.2.1
  have kb := (H.block bb).2.2.2.1
  have kc := (H.block bc).2.2.2.1
  rw [H.next_blkp ba] at hab
  rw [H.next_blkp bb] at hbc
  rw [H.next_blkp bc]
  -- the three pointers are different, and `x`, `y`, `z` are these three
  have hnd : [x, y, z].Nodup := hperm.nodup_iff.2 (by
    simp only [List.nodup_cons, List.mem_cons, List.mem_singleton, List.not_mem_nil,
      not_false_eq_true, List.nodup_nil, and_true, not_or]
    omega)
  simp only [List.nodup_cons, List.mem_cons, List.mem_singleton, List.not_mem_nil,
    not_false_eq_true, List.nodup_nil, and_true, not_or] at hnd
  obtain ⟨⟨hxy, hxz⟩, hyz⟩ := hnd
  have hmem : ∀ p, p ∈ [x, y, z] ↔ p ∈ [a, b, c] := fun p => hperm.mem_iff
  simp only [List.mem_cons, List.mem_singleton, List.not_mem_nil, or_false] at hmem
  have hlive : ∀ p, p = a ∨ p = b ∨ p = c → ∃ n, (p, n) ∈ live := by
    rintro p (rfl | rfl | rfl)
    · exact ⟨_, ha⟩
    · exact ⟨_, hb⟩
    · exact ⟨_, hc⟩
  obtain ⟨nx, hx⟩ := hlive x ((hmem x).1 (Or.inl rfl))
  obtain ⟨ny, hy⟩ := hlive y ((hmem y).1 (Or.inr (Or.inl rfl)))
  obtain ⟨nz, hz⟩ := hlive z ((hmem z).1 (Or.inr (Or.inr rfl)))
  obtain ⟨bs3, ch3, live3, G3, t3, c3, f3, a3⟩ := free3_cover G lim hx hy hz hxy hxz hyz
  have H3 := G3.heap
  generalize free lim z (free lim y (free lim x st)) = st3 at G3 H3 ⊢
  have hpos3 : ∀ b ∈ bs3, 0 < b.1 := fun b hb => by have := (H3.sz b hb).1; omega
  have hbrk3 : st3.brk ≤ fuel := by
    have h1 := H3.brk
    have h2 := H.brk
    omega
  have hhl : st3.heap_listp = st.heap_listp := by rw [H3.hl, H.hl]
  -- the region is inside one free block
  have ca := c3 a sa ((hmem a).2 (Or.inl rfl)) ba
  have cb := c3 b sb ((hmem b).2 (Or.inr (Or.inl rfl))) bb
  have cc := c3 c sc ((hmem c).2 (Or.inr (Or.inr rfl))) bc
  rw [← hab] at cb
  have cab := Covered.join G3.noadj hpos3 ca cb (by omega) (by omega)
  rw [← hbc, ← hab] at cc
  obtain ⟨q0, s0, b0, l0, u0⟩ := Covered.join G3.noadj hpos3 cab cc (by omega) (by omega)
  have hn0 := H3.next_blkp b0
  obtain ⟨m1, m2⟩ := H3.free_maximal G3.noadj b0
  refine ⟨q0, (H3.walk_iff fuel hbrk3 q0).2 (Or.inr ⟨_, _, b0⟩), ?_, l0, ?_, ?_, ?_, ?_, ?_, ?_⟩
  · rw [H3.read_alloc b0]
    rfl
  · rw [hn0, ← hbc, ← hab]
    exact u0
  · intro q hq h1 h2
    rcases (H3.walk_iff fuel hbrk3 q).1 hq with e | ⟨s, al, hbq⟩
    · rw [e, H3.prologue.2.2.1] at h2
      have := (H.block ba).1
      have := FIRST_eq
      omega
    · rw [H3.next_blkp hbq] at h2
      rcases BlockAt_disj bs3 hpos3 q s al q0 s0 false FIRST hbq b0 with ⟨e, _, _⟩ | h | h
      · exact e
      · omega
      · omega
  · intro q hq hfree
    rcases (H.walk_iff fuel (by omega) q).1 hq with e | ⟨s, al, hbq⟩
    · rw [e, H.prologue.2.1] at hfree
      exact absurd hfree (by norm_num)
    · rw [H.read_alloc hbq] at hfree
      cases al with
      | true => simp at hfree
      | false =>
        have ks := (H.block hbq).2.2.2.1
        have cq := f3 q s hbq
        rw [H.next_blkp hbq, hn0]
        constructor
        · intro e
          rw [e] at cq
          obtain ⟨q', s', b', l', u'⟩ :=
            Covered.join G3.noadj hpos3 cq ca (by omega) (by omega)
          rcases BlockAt_disj bs3 hpos3 q' s' false q0 s0 false FIRST b' b0 with
            ⟨e', _, _⟩ | h | h
          · omega
          · omega
          · omega
        · intro e
          have cr : Covered bs3 a (c + sc) := ⟨q0, s0, b0, l0, by omega⟩
          rw [e] at cq
          obtain ⟨q', s', b', l', u'⟩ :=
            Covered.join G3.noadj hpos3 cr cq (by omega) (by omega)
          rcases BlockAt_disj bs3 hpos3 q' s' false q0 s0 false FIRST b' b0 with
            ⟨e1, e2, _⟩ | h | h
          · omega
          · omega
          · omega
  · rw [hn0]
    exact m1
  · intro q hq hnq
    rcases (H3.walk_iff fuel hbrk3 q).1 hq with e | ⟨s, al, hbq⟩
    · rw [e]
      exact H3.prologue.2.1
    · rw [H3.next_blkp hbq] at hnq
      have := m2 q s al hbq hnq
      subst this
      rw [H3.read_alloc hbq]
      rfl
  · intro q hq hal h1 h2 h3
    rcases (H.walk_iff fuel (by omega) q).1 hq with e | ⟨s, al, hbq⟩
    · rw [e]
      refine ⟨(H3.walk_iff fuel hbrk3 _).2 (Or.inl hhl.symm), ?_, ?_⟩
      · rw [← hhl]
        exact H3.prologue.2.1
      · rw [H.prologue.1, ← hhl, H3.prologue.1]
    · rw [H.read_alloc hbq] at hal
      cases al with
      | false => simp at hal
      | true =>
        have hne : ∀ w, w = x ∨ w = y ∨ w = z → q ≠ w := by
          intro w hw
          rcases (hmem w).1 hw with e | e | e <;> rw [e] <;> assumption
        have hb3 := a3 q s hbq (hne x (Or.inl rfl)) (hne y (Or.inr (Or.inl rfl)))
          (hne z (Or.inr (Or.inr rfl)))
        refine ⟨(H3.walk_iff fuel hbrk3 q).2 (Or.inr ⟨_, _, hb3⟩), ?_, ?_⟩
        · rw [H3.read_alloc hb3]
          rfl
        · rw [H3.read_size hb3, H.read_size hbq]

/-- What evaluation gives for the third allocation and the three releases. -/
theorem three_facts :
    (malloc 400 100000 16 alloc2.2).isRet = true ∧ alloc3.1 ≠ 0 ∧ alloc3.2.brk < 400
      ∧ NEXT_BLKP alloc3.2.mem alloc1.1 = alloc2.1
      ∧ NEXT_BLKP alloc3.2.mem alloc2.1 = alloc3.1
      ∧ heap_blocks freed3.mem 400 freed3.heap_listp = [HEAP_BASE + 136, HEAP_BASE + 144]
      ∧ GET_SIZE freed3.mem (HDRP (HEAP_BASE + 144)) = 160
      ∧ GET_ALLOC freed3.mem (HDRP (HEAP_BASE + 144)) = 0 := by
  decide!

/-- What evaluation gives for the walks and chains of the small heaps. -/
theorem walk_facts :
    hole1.brk < 400 ∧ alloc1.1 ∈ heap_blocks hole1.mem 400 hole1.heap_listp
      ∧ GET_ALLOC hole1.mem (HDRP alloc1.1) = 0
      ∧ alloc1.2.brk < 400 ∧ alloc1.2.brk = 304
      ∧ (∀ i, i < 16 → (bucket_chain heap1 400 i).length < 400)
      ∧ FIRST ∈ heap_blocks heap1.mem 400 heap1.heap_listp
      ∧ GET_ALLOC heap1.mem (HDRP FIRST) = 0
      ∧ GET_SIZE heap1.mem (HDRP FIRST) = 160
      ∧ (extend_heap 100000 4 heap1).1 ≠ 0 ∧ (extend_heap 100000 4 heap1).2.brk < 400
      ∧ (coalesce alloc1.1 (free_mark 100000 alloc1.1 alloc1.2)).1
          ∈ bucket_chain (coalesce alloc1.1 (free_mark 100000 alloc1.1 alloc1.2)).2 400 4 := by
  decide!

theorem alloc3_eq : malloc 400 100000 16 alloc2.2 = .ret (alloc3.1, alloc3.2) :=
  Outcome.ret_pair _ _ three_facts.1

theorem alloc3_reach :
    Reach 100000 alloc3.2 [(alloc3.1, 16), (alloc2.1, 16), (alloc1.1, 16)] := by
  have h := Reach.malloc 400 16 alloc3.1 alloc3.2 alloc2_reach (by norm_num) alloc3_eq
  unfold live_add at h
  rw [if_neg three_facts.2.1] at h
  exact h

theorem hole1_reach :
    Reach 100000 hole1 (live_del [(alloc2.1, 16), (alloc1.1, 16)] alloc1.1) :=
  Reach.free alloc1.1 16 alloc2_reach (by simp)

/-- C11, at the heap with two allocations of which the first was released:
the released block is free and the block after it is not. -/
theorem no_adjacent_free_witness :
    alloc1.1 ∈ heap_blocks hole1.mem 400 hole1.heap_listp
      ∧ GET_ALLOC hole1.mem (HDRP alloc1.1) = 0
      ∧ GET_ALLOC hole1.mem (HDRP (NEXT_BLKP hole1.mem alloc1.1)) ≠ 0 :=
  ⟨walk_facts.2.1, walk_facts.2.2.1, fun h =>
    no_adjacent_free hole1_reach 400 alloc1.1 walk_facts.2.1 ⟨walk_facts.2.2.1, h⟩⟩

/-- C12, after `mm_init` three blocks of
`malloc(16)` are released, the second, the first, the third; one free block
covers them, and the heap walk then has the prologue and one free block of
160 bytes. -/
theorem full_coalescing_witness :
    NEXT_BLKP alloc3.2.mem alloc1.1 = alloc2.1 ∧ NEXT_BLKP alloc3.2.mem alloc2.1 = alloc3.1
      ∧ (∃ q0, q0 ∈ heap_blocks freed3.mem 400 freed3.heap_listp
          ∧ GET_ALLOC freed3.mem (HDRP q0) = 0 ∧ q0 ≤ alloc1.1
          ∧ NEXT_BLKP alloc3.2.mem alloc3.1 ≤ NEXT_BLKP freed3.mem q0)
      ∧ heap_blocks freed3.mem 400 freed3.heap_listp = [HEAP_BASE + 136, HEAP_BASE + 144]
      ∧ GET_SIZE freed3.mem (HDRP (HEAP_BASE + 144)) = 160
      ∧ GET_ALLOC freed3.mem (HDRP (HEAP_BASE + 144)) = 0 := by
  refine ⟨three_facts.2.2.2.1, three_facts.2.2.2.2.1, ?_, three_facts.2.2.2.2.2⟩
  obtain ⟨q0, h1, h2, h3, h4, _⟩ := full_coalescing alloc3_reach
    (show (alloc1.1, 16) ∈ [(alloc3.1, 16), (alloc2.1, 16), (alloc1.1, 16)] by simp)
    (show (alloc2.1, 16) ∈ [(alloc3.1, 16), (alloc2.1, 16), (alloc1.1, 16)] by simp)
    (show (alloc3.1, 16) ∈ [(alloc3.1, 16), (alloc2.1, 16), (alloc1.1, 16)] by simp)
    three_facts.2.2.2.1 three_facts.2.2.2.2.1
    (List.Perm.swap alloc1.1 alloc2.1 [alloc3.1]) 400 three_facts.2.2.1
  exact ⟨q0, h1, h2, h3, h4⟩

/-- C13, at the heap with one allocation: the walk ends at the epilogue and
the sizes plus 144 are the 304 bytes obtained. -/
theorem heap_conservation_witness :
    alloc1.2.brk = 304
      ∧ heap_end alloc1.2.mem 400 (NEXT_BLKP alloc1.2.mem alloc1.2.heap_listp)
          = .ret (HEAP_BASE + alloc1.2.brk)
      ∧ ((heap_blocks alloc1.2.mem 400 (NEXT_BLKP alloc1.2.mem alloc1.2.heap_listp)).map
            (fun q => GET_SIZE alloc1.2.mem (HDRP q))).sum
          + (8 * LIST_NUM + WSIZE + DSIZE + WSIZE) = alloc1.2.brk :=
  ⟨walk_facts.2.2.2.2.1,
    (heap_conservation alloc1_reach 400 (Nat.le_of_lt walk_facts.2.2.2.1)).1,
    (heap_conservation alloc1_reach 400 (Nat.le_of_lt walk_facts.2.2.2.1)).2.2.2⟩

/-- C14, at the fresh heap and a request of 24 bytes. -/
theorem find_fit_first_fit_witness :
    (∀ i, i < 16 → (bucket_chain heap1 400 i).length < 400)
      ∧ ∃ r, find_fit 400 24 heap1 = .ret r
          ∧ (r ≠ 0 → GET_SIZE heap1.mem (HDRP r) ≥ 24) := by
  refine ⟨walk_facts.2.2.2.2.2.1, ?_⟩
  obtain ⟨r, h1, h2, _⟩ := find_fit_first_fit heap1 400 24 walk_facts.2.2.2.2.2.1
  exact ⟨r, h1, fun h => (h2 h).1⟩

/-- C15, at the heap with one allocation, for bucket 4. -/
theorem free_list_invariant_witness :
    (bucket_chain alloc1.2 400 4).Nodup
      ∧ ∀ p, p ∈ bucket_chain alloc1.2 400 4 ↔
          p ∈ heap_blocks alloc1.2.mem 400 alloc1.2.heap_listp
            ∧ GET_ALLOC alloc1.2.mem (HDRP p) = 0
            ∧ getNumber (GET_SIZE alloc1.2.mem (HDRP p)) = 4 :=
  ⟨(free_list_invariant alloc1_reach 400 walk_facts.2.2.2.1 4 (by decide)).2.1,
    (free_list_invariant alloc1_reach 400 walk_facts.2.2.2.1 4 (by decide)).2.2.1⟩

/-- C16, at the size 100. -/
theorem getNumber_spec_witness :
    getNumber 100 < 16 ∧ (100 ≤ 2 ^ 18 → getNumber 100 ≤ 14 ∧ 100 ≤ 2 ^ (getNumber 100 + 4)
      ∧ ∀ i, i < getNumber 100 → 2 ^ (i + 4) < 100) :=
  ⟨(getNumber_spec 100).1, (getNumber_spec 100).2.1⟩

/-- C18, at the fresh heap: the free block of 160 bytes, placed with 24
bytes, is split into an allocated block of 24 and a free block of 136
bytes. -/
theorem place_splits_witness :
    FIRST ∈ heap_blocks heap1.mem 400 heap1.heap_listp
      ∧ GET_ALLOC heap1.mem (HDRP FIRST) = 0 ∧ GET_SIZE heap1.mem (HDRP FIRST) = 160
      ∧ GET_ALLOC (place FIRST 24 heap1).mem (HDRP FIRST) = 1
      ∧ GET_SIZE (place FIRST 24 heap1).mem (HDRP FIRST) = 24
      ∧ GET_ALLOC (place FIRST 24 heap1).mem (HDRP (FIRST + 24)) = 0
      ∧ GET_SIZE (place FIRST 24 heap1).mem (HDRP (FIRST + 24)) = 136 := by
  have hs : GET_SIZE heap1.mem (HDRP FIRST) = 160 := walk_facts.2.2.2.2.2.2.2.2.1
  have h := place_splits heap1_reach 400 alloc_facts.2.1 walk_facts.2.2.2.2.2.2.1
    walk_facts.2.2.2.2.2.2.2.1 (show 24 % 8 = 0 by norm_num) (show 16 ≤ 24 by norm_num)
    (show 24 ≤ GET_SIZE heap1.mem (HDRP FIRST) by rw [hs]; norm_num)
  rw [hs] at h
  refine ⟨walk_facts.2.2.2.2.2.2.1, walk_facts.2.2.2.2.2.2.2.1, hs, h.1, ?_,
    (h.2.2.2.1 (by norm_num)).1, (h.2.2.2.1 (by norm_num)).2.1⟩
  rw [h.2.1]
  rfl

/-- C19, amended, at the heap with one allocation, and at the fresh heap
extended by four words. -/
theorem coalesce_inserts_witness :
    (free 100000 alloc1.1 alloc1.2
          = (coalesce alloc1.1 (free_mark 100000 alloc1.1 alloc1.2)).2
        ∧ GET_ALLOC (coalesce alloc1.1 (free_mark 100000 alloc1.1 alloc1.2)).2.mem
            (HDRP (coalesce alloc1.1 (free_mark 100000 alloc1.1 alloc1.2)).1) = 0)
      ∧ (extend_heap 100000 4 heap1).1 ≠ 0
      ∧ GET_ALLOC (extend_heap 100000 4 heap1).2.mem (HDRP (extend_heap 100000 4 heap1).1) = 0 :=
  ⟨⟨((coalesce_inserts alloc1_reach 400).1 alloc1.1 16 (by simp) walk_facts.2.2.2.1).1,
      ((coalesce_inserts alloc1_reach 400).1 alloc1.1 16 (by simp) walk_facts.2.2.2.1).2.1⟩,
    walk_facts.2.2.2.2.2.2.2.2.2.1,
    ((coalesce_inserts heap1_reach 400).2 4 (by norm_num) (by norm_num)
      walk_facts.2.2.2.2.2.2.2.2.2.1 walk_facts.2.2.2.2.2.2.2.2.2.2.1).2.1⟩

/-- C20, at the heap with one allocation, for a verbose run. -/
theorem checkheap_clean_witness :
    ∃ out, mm_checkheap 400 1 alloc1.2 = .ret (out, alloc1.2)
      ∧ ∀ r ∈ out, r.isError = false := by
  obtain ⟨_, _, _, _, out, h1, h2, _⟩ := checkheap_clean alloc1_reach 400 1 walk_facts.2.2.2.1
  exact ⟨out, h1, h2⟩

/-- What evaluation gives after `a = malloc(2 ^ 64 - 1)`, `b = malloc(16)`
and `free(a)`. -/
theorem wrapF_facts :
    GET wrapB.2.mem (HDRP wrapB.1) = 25 ∧ GET wrapF.mem (HDRP wrapB.1) = 0
      ∧ wrapF.brk = 304
      ∧ heap_blocks wrapF.mem 400 wrapF.heap_listp = [HEAP_BASE + 136, HEAP_BASE + 144]
      ∧ GET_ALLOC wrapF.mem (HDRP (HEAP_BASE + 144)) = 0
      ∧ NEXT_BLKP wrapF.mem (HEAP_BASE + 144) = HEAP_BASE + 152
      ∧ GET_ALLOC wrapF.mem (HDRP (HEAP_BASE + 152)) = 0
      ∧ (heap_end wrapF.mem 400 (NEXT_BLKP wrapF.mem wrapF.heap_listp)).isRet = true
      ∧ (heap_end wrapF.mem 400 (NEXT_BLKP wrapF.mem wrapF.heap_listp)).getD
          (HEAP_BASE + 152 + 1) = HEAP_BASE + 152
      ∧ ((heap_blocks wrapF.mem 400 (NEXT_BLKP wrapF.mem wrapF.heap_listp)).map
            (fun q => GET_SIZE wrapF.mem (HDRP q))).sum = 8
      ∧ HEAP_BASE + 176 ∈ bucket_chain wrapF 400 3
      ∧ GET_ALLOC wrapF.mem (HDRP (HEAP_BASE + 176)) = 0
      ∧ GET wrapF.mem (HDRP (HEAP_BASE + 144)) = 8
      ∧ GET wrapF.mem (FTRP wrapF.mem (HEAP_BASE + 144)) = 0
      ∧ (mm_checkheap 400 0 wrapF).isRet = true
      ∧ wrapK.1.any Report.isError = true := by
  decide!

/-- What evaluation gives for the call of `coalesce` in that `free(a)`, and
for the release of three blocks after a request that wraps. -/
theorem wrapG_facts :
    (coalesce big1.1 (free_mark 100000 big1.1 wrapB.2)).1 = HEAP_BASE + 144
      ∧ GET (coalesce big1.1 (free_mark 100000 big1.1 wrapB.2)).2.mem
          (HDRP (HEAP_BASE + 144)) = 8
      ∧ GET (coalesce big1.1 (free_mark 100000 big1.1 wrapB.2)).2.mem
          (FTRP (coalesce big1.1 (free_mark 100000 big1.1 wrapB.2)).2.mem
            (HEAP_BASE + 144)) = 0
      ∧ GET_ALLOC (coalesce big1.1 (free_mark 100000 big1.1 wrapB.2)).2.mem
          (HDRP (NEXT_BLKP (coalesce big1.1 (free_mark 100000 big1.1 wrapB.2)).2.mem
            (HEAP_BASE + 144))) = 0
      ∧ heap_blocks wrapG.mem 400 wrapG.heap_listp
          = [HEAP_BASE + 136, HEAP_BASE + 144, HEAP_BASE + 152]
      ∧ GET_ALLOC wrapG.mem (HDRP (HEAP_BASE + 144)) = 0
      ∧ GET_SIZE wrapG.mem (HDRP (HEAP_BASE + 144)) = 8
      ∧ GET_ALLOC wrapG.mem (HDRP (HEAP_BASE + 152)) = 0
      ∧ GET_SIZE wrapG.mem (HDRP (HEAP_BASE + 152)) = 128
      ∧ (∀ q0 ∈ heap_blocks wrapG.mem 400 wrapG.heap_listp,
          ¬ (q0 ≤ big1.1 ∧ NEXT_BLKP wrapC.2.mem wrapC.1 ≤ NEXT_BLKP wrapG.mem q0)) := by
  decide!

/-- C11 as stated fails after a request that wraps: after
`a = malloc(2 ^ 64 - 1)`, whose block has 8 bytes, and `b = malloc(16)`, the
call `free(a)` clears the header of `b` (the store `PREV_LINK(a) = 0` of
`coalesce` lands on it); the heap walk then visits the free block `a`, and the
header after it has the allocated bit clear too. -/
theorem wrap_adjacent_free :
    malloc 400 100000 (2 ^ 64 - 1) heap1 = .ret (big1.1, big1.2)
      ∧ malloc 400 100000 16 big1.2 = .ret (wrapB.1, wrapB.2)
      ∧ big1.1 = HEAP_BASE + 144 ∧ wrapB.1 = HEAP_BASE + 152
      ∧ wrapF = free 100000 big1.1 wrapB.2
      ∧ GET wrapB.2.mem (HDRP wrapB.1) = 25 ∧ GET wrapF.mem (HDRP wrapB.1) = 0
      ∧ HEAP_BASE + 144 ∈ heap_blocks wrapF.mem 400 wrapF.heap_listp
      ∧ GET_ALLOC wrapF.mem (HDRP (HEAP_BASE + 144)) = 0
      ∧ GET_ALLOC wrapF.mem (HDRP (NEXT_BLKP wrapF.mem (HEAP_BASE + 144))) = 0 :=
  ⟨big1_eq, wrapB_eq, wrap_facts.1, wrap_facts.2.2.1, rfl, wrapF_facts.1, wrapF_facts.2.1,
    by rw [wrapF_facts.2.2.2.1]; simp, wrapF_facts.2.2.2.2.1,
    by rw [wrapF_facts.2.2.2.2.2.1]; exact wrapF_facts.2.2.2.2.2.2.1⟩

/-- C12 as stated fails after a request that wraps: `a = malloc(2 ^ 64 - 1)`,
`b = malloc(16)` and `c = malloc(16)` are allocated and physically adjacent;
after `free(a)`, `free(b)`, `free(c)` the heap walk has two free blocks, of 8
bytes at `a` and of 128 bytes at `b`, and no block of the walk covers the
region from `a` to the end of `c`. -/
theorem wrap_two_free_blocks :
    malloc 400 100000 (2 ^ 64 - 1) heap1 = .ret (big1.1, big1.2)
      ∧ malloc 400 100000 16 big1.2 = .ret (wrapB.1, wrapB.2)
      ∧ malloc 400 100000 16 wrapB.2 = .ret (wrapC.1, wrapC.2)
      ∧ big1.1 = HEAP_BASE + 144 ∧ wrapB.1 = HEAP_BASE + 152 ∧ wrapC.1 = HEAP_BASE + 176
      ∧ GET_ALLOC wrapC.2.mem (HDRP big1.1) = 1 ∧ GET_ALLOC wrapC.2.mem (HDRP wrapB.1) = 1
      ∧ GET_ALLOC wrapC.2.mem (HDRP wrapC.1) = 1
      ∧ NEXT_BLKP wrapC.2.mem big1.1 = wrapB.1 ∧ NEXT_BLKP wrapC.2.mem wrapB.1 = wrapC.1
      ∧ NEXT_BLKP wrapC.2.mem wrapC.1 = HEAP_BASE + 200
      ∧ wrapG = free 100000 wrapC.1 (free 100000 wrapB.1 (free 100000 big1.1 wrapC.2))
      ∧ heap_blocks wrapG.mem 400 wrapG.heap_listp
          = [HEAP_BASE + 136, HEAP_BASE + 144, HEAP_BASE + 152]
      ∧ GET_ALLOC wrapG.mem (HDRP (HEAP_BASE + 144)) = 0
      ∧ GET_SIZE wrapG.mem (HDRP (HEAP_BASE + 144)) = 8
      ∧ GET_ALLOC wrapG.mem (HDRP (HEAP_BASE + 152)) = 0
      ∧ GET_SIZE wrapG.mem (HDRP (HEAP_BASE + 152)) = 128
      ∧ (∀ q0 ∈ heap_blocks wrapG.mem 400 wrapG.heap_listp,
          ¬ (q0 ≤ big1.1 ∧ NEXT_BLKP wrapC.2.mem wrapC.1 ≤ NEXT_BLKP wrapG.mem q0)) :=
  ⟨big1_eq, wrapB_eq, wrapC_eq, wrap_facts.1, wrap_facts.2.2.1, wrap_facts.2.2.2.2.1,
    wrap_facts.2.2.2.2.2.2.1, wrap_facts.2.2.2.2.2.2.2.1, wrap_facts.2.2.2.2.2.2.2.2.1,
    wrap_facts.2.2.2.2.2.2.2.2.2.1, wrap_facts.2.2.2.2.2.2.2.2.2.2.1,
    wrap_facts.2.2.2.2.2.2.2.2.2.2.2, rfl, wrapG_facts.2.2.2.2.1, wrapG_facts.2.2.2.2.2.1,
    wrapG_facts.2.2.2.2.2.2.1, wrapG_facts.2.2.2.2.2.2.2.1, wrapG_facts.2.2.2.2.2.2.2.2.1,
    wrapG_facts.2.2.2.2.2.2.2.2.2⟩

/-- C13 as stated fails after a request that wraps: after
`a = malloc(2 ^ 64 - 1)`, `b = malloc(16)` and `free(a)` the walk from the
first block stops at `HEAP_BASE + 152`, on a header of size 0 whose allocated
bit is clear, not at the end of the heap, and the sizes met plus 144 are 152,
not the 304 bytes obtained. -/
theorem wrap_walk_short :
    malloc 400 100000 (2 ^ 64 - 1) heap1 = .ret (big1.1, big1.2)
      ∧ malloc 400 100000 16 big1.2 = .ret (wrapB.1, wrapB.2)
      ∧ wrapF = free 100000 big1.1 wrapB.2 ∧ wrapF.brk = 304
      ∧ heap_end wrapF.mem 400 (NEXT_BLKP wrapF.mem wrapF.heap_listp)
          = .ret (HEAP_BASE + 152)
      ∧ HEAP_BASE + 152 ≠ HEAP_BASE + wrapF.brk
      ∧ GET_ALLOC wrapF.mem (HDRP (HEAP_BASE + 152)) = 0
      ∧ ((heap_blocks wrapF.mem 400 (NEXT_BLKP wrapF.mem wrapF.heap_listp)).map
            (fun q => GET_SIZE wrapF.mem (HDRP q))).sum
          + (8 * LIST_NUM + WSIZE + DSIZE + WSIZE) = 152
      ∧ 152 ≠ wrapF.brk :=
  ⟨big1_eq, wrapB_eq, rfl, wrapF_facts.2.2.1,
    Outcome.eq_ret_of _ _ wrapF_facts.2.2.2.2.2.2.2.1 wrapF_facts.2.2.2.2.2.2.2.2.1,
    by rw [wrapF_facts.2.2.1]; omega, wrapF_facts.2.2.2.2.2.2.1,
    by rw [wrapF_facts.2.2.2.2.2.2.2.2.2.1]; rfl,
    by rw [wrapF_facts.2.2.1]; omega⟩

/-- C15 as stated fails after a request that wraps: after
`a = malloc(2 ^ 64 - 1)`, `b = malloc(16)` and `free(a)` the free block at
`HEAP_BASE + 176` is in the chain of bucket 3, but the heap walk, which stops
at the cleared header of `b`, does not visit it. -/
theorem wrap_chain_off_walk :
    malloc 400 100000 (2 ^ 64 - 1) heap1 = .ret (big1.1, big1.2)
      ∧ malloc 400 100000 16 big1.2 = .ret (wrapB.1, wrapB.2)
      ∧ wrapF = free 100000 big1.1 wrapB.2
      ∧ heap_blocks wrapF.mem 400 wrapF.heap_listp = [HEAP_BASE + 136, HEAP_BASE + 144]
      ∧ HEAP_BASE + 176 ∈ bucket_chain wrapF 400 3
      ∧ GET_ALLOC wrapF.mem (HDRP (HEAP_BASE + 176)) = 0
      ∧ HEAP_BASE + 176 ∉ heap_blocks wrapF.mem 400 wrapF.heap_listp :=
  ⟨big1_eq, wrapB_eq, rfl, wrapF_facts.2.2.2.1, wrapF_facts.2.2.2.2.2.2.2.2.2.2.1,
    wrapF_facts.2.2.2.2.2.2.2.2.2.2.2.1, by rw [wrapF_facts.2.2.2.1]; decide⟩

/-- C19 as stated fails, in two ways.  On an ordinary heap: `free` of the one
live block of the heap is the state that its call of `coalesce` returns, and
on return from `coalesce` the merged block, of 160 bytes, is in the chain of
bucket 4.  After a request that wraps: with `a = malloc(2 ^ 64 - 1)` and
`b = malloc(16)`, the call of `coalesce` in `free(a)` returns a block whose
header word is 8 and whose footer word is 0, followed by a header whose
allocated bit is clear: it is not a merged block. -/
theorem coalesce_reinserts :
    (Reach 100000 alloc1.2 [(alloc1.1, 16)]
        ∧ free 100000 alloc1.1 alloc1.2
            = (coalesce alloc1.1 (free_mark 100000 alloc1.1 alloc1.2)).2
        ∧ (coalesce alloc1.1 (free_mark 100000 alloc1.1 alloc1.2)).1
            ∈ bucket_chain (coalesce alloc1.1 (free_mark 100000 alloc1.1 alloc1.2)).2 400 4)
      ∧ (malloc 400 100000 (2 ^ 64 - 1) heap1 = .ret (big1.1, big1.2)
        ∧ malloc 400 100000 16 big1.2 = .ret (wrapB.1, wrapB.2)
        ∧ free 100000 big1.1 wrapB.2
            = (coalesce big1.1 (free_mark 100000 big1.1 wrapB.2)).2
        ∧ (coalesce big1.1 (free_mark 100000 big1.1 wrapB.2)).1 = HEAP_BASE + 144
        ∧ GET (coalesce big1.1 (free_mark 100000 big1.1 wrapB.2)).2.mem
            (HDRP (HEAP_BASE + 144)) = 8
        ∧ GET (coalesce big1.1 (free_mark 100000 big1.1 wrapB.2)).2.mem
            (FTRP (coalesce big1.1 (free_mark 100000 big1.1 wrapB.2)).2.mem
              (HEAP_BASE + 144)) = 0
        ∧ GET_ALLOC (coalesce big1.1 (free_mark 100000 big1.1 wrapB.2)).2.mem
            (HDRP (NEXT_BLKP (coalesce big1.1 (free_mark 100000 big1.1 wrapB.2)).2.mem
              (HEAP_BASE + 144))) = 0
        ∧ ¬ Merged (coalesce big1.1 (free_mark 100000 big1.1 wrapB.2)).2 400
            (coalesce big1.1 (free_mark 100000 big1.1 wrapB.2)).1) := by
  refine ⟨⟨alloc1_reach, free_eq_coalesce 100000 alloc1.1 alloc1.2 alloc1_ne,
    walk_facts.2.2.2.2.2.2.2.2.2.2.2⟩, big1_eq, wrapB_eq,
    free_eq_coalesce 100000 big1.1 wrapB.2 grow_facts.2.2.2.1, wrapG_facts.1,
    wrapG_facts.2.1, wrapG_facts.2.2.1, wrapG_facts.2.2.2.1, ?_⟩
  intro h
  have h1 := h.2.1
  rw [wrapG_facts.1, wrapG_facts.2.1, wrapG_facts.2.2.1] at h1
  exact absurd h1 (by decide)

/-- C20 as stated fails after a request that wraps: after
`a = malloc(2 ^ 64 - 1)`, `b = malloc(16)` and `free(a)` the block at
`HEAP_BASE + 144` of the heap walk has the header word 8 and the footer word
0, the walk stops at a header whose allocated bit is clear, and
`mm_checkheap` reports a violation. -/
theorem wrap_checkheap_reports :
    malloc 400 100000 (2 ^ 64 - 1) heap1 = .ret (big1.1, big1.2)
      ∧ malloc 400 100000 16 big1.2 = .ret (wrapB.1, wrapB.2)
      ∧ wrapF = free 100000 big1.1 wrapB.2
      ∧ heap_blocks wrapF.mem 400 wrapF.heap_listp = [HEAP_BASE + 136, HEAP_BASE + 144]
      ∧ GET wrapF.mem (HDRP (HEAP_BASE + 144)) = 8
      ∧ GET wrapF.mem (FTRP wrapF.mem (HEAP_BASE + 144)) = 0
      ∧ NEXT_BLKP wrapF.mem (HEAP_BASE + 144) = HEAP_BASE + 152
      ∧ GET_ALLOC wrapF.mem (HDRP (HEAP_BASE + 152)) = 0
      ∧ mm_checkheap 400 0 wrapF = .ret (wrapK.1, wrapK.2)
      ∧ wrapK.1.any Report.isError = true :=
  ⟨big1_eq, wrapB_eq, rfl, wrapF_facts.2.2.2.1, wrapF_facts.2.2.2.2.2.2.2.2.2.2.2.2.1,
    wrapF_facts.2.2.2.2.2.2.2.2.2.2.2.2.2.1, wrapF_facts.2.2.2.2.2.1,
    wrapF_facts.2.2.2.2.2.2.1, Outcome.ret_pair _ _ wrapF_facts.2.2.2.2.2.2.2.2.2.2.2.2.2.2.1,
    wrapF_facts.2.2.2.2.2.2.2.2.2.2.2.2.2.2.2⟩

end MM
